import Mathlib

/-!
# The decode scheduler of open-dibr

A shallow embedding of the thread pool of `src/Pool.h` (class `Pool`) and of the
calls `Application::RenderTarget` (`src/Application.h`) makes into it.

* The shared members of `Pool` are the fields of the structure `Pool`.
* Every thread of the pool runs `Pool::update_loop`; its local variables and the
  place it has reached in the loop are a `Worker`.  `Pool.update_loop` is one atomic
  step of that loop: one critical section, or one read of `terminate_pool`.
  `none` means that the thread cannot move (its wait predicate is false, it has
  left the loop, or the C++ program indexes a vector out of range).
* The driver thread calls the public methods of `Pool`; a `Label` is one such call,
  or one step of one worker thread.  `step` interleaves them.
* `Driver` is the driver thread itself: `SetupDecodingPool` and the loop of
  `RenderTarget`, which decide the calls made.  `appStep` interleaves it with the
  threads of the pool.
* `Sched` adds the condition variables: which threads sleep, and which calls of
  `notify_all` wake them.
* `CameraVisibilityHelper` (`src/CameraVisibilityHelper.h`) chooses the cameras the
  driver uses, and `FFmpegDemuxer.Demux` (`src/FFmpegDemuxer.h`) is the fetch the
  threads call.

`int` values are modelled by `Int`: the stream indices index vectors and the frame
numbers count decoded frames, and signed overflow is undefined in C++.  Where an `int`
is compared with a `size_t`, or stored from one, the conversion is explicit (`toSize`,
`toInt32`).
-/

namespace OpenDibr

/-! ## Data -/

/-- An entry of `Pool::input_queue`: `(inputIndex, frame number, useForRendering)`. -/
abbrev Task := Int × Int × Bool

/-- An entry of `Pool::output_queue`: `(inputIndex, decoded picture index)`. -/
abbrev Completion := Int × Int

/-- Element `v[i]` of a `std::vector` for an `int` index: defined for
`0 ≤ i < v.size()` only. -/
def vecGet {α : Type} (v : List α) (i : Int) : Option α :=
  if i < 0 then none else v[i.toNat]?

/-- The vector after `v[i] = x`. -/
def vecSet {α : Type} (v : List α) (i : Int) (x : α) : List α :=
  if i < 0 then v else v.set i.toNat x

/-- The shared members of `class Pool` (Pool.h 24-41).  The vector `demuxers` is
represented by its size, which `init` makes the size of `demux_array`; a decoder is
represented by its member `picture_index`, and `displayed` lists the calls of
`NvDecoder::HandlePictureDisplay` made so far as `(decoder, picture index)`. -/
structure Pool where
  nrThreads : Int
  nrImages : Int
  input_queue : List Task
  output_queue : List Completion
  memcpy_array : List Bool
  demux_array : List Int
  terminate_pool : Bool
  picture_index : List Int
  displayed : List (Int × Int)
deriving DecidableEq, Repr

/-- The places of `Pool::update_loop` at which a thread can be between two atomic
steps. -/
inductive PC
  /-- About to evaluate `while (!terminate_pool)` (Pool.h 133). -/
  | loopHead
  /-- Inside `input_condition.wait` (Pool.h 135-159). -/
  | waitForTask
  /-- Inside `demux_condition.wait` (Pool.h 161-165). -/
  | orderWait
  /-- About to evaluate `if (terminate_pool) break` of Pool.h 166. -/
  | orderCheck
  /-- About to call `demux` (Pool.h 170-174). -/
  | demux
  /-- At `if (useForRendering)` with its `memcpy_condition.wait` (Pool.h 176-183). -/
  | renderGate
  /-- About to evaluate `if (terminate_pool) break` of Pool.h 184. -/
  | gateCheck
  /-- About to decode (Pool.h 188-192). -/
  | decode
  /-- About to run `demux_array[inputIndex]++` (Pool.h 194-199). -/
  | increment
  /-- About to publish to `output_queue` (Pool.h 202-209). -/
  | publish
  /-- Has left the loop. -/
  | stopped
deriving DecidableEq, Repr

/-- The local variables of one thread running `Pool::update_loop`. -/
structure Worker where
  pc : PC
  inputIndex : Int
  frameNr : Int
  useForRendering : Bool
  nVideoBytes : Int
  decoded_picture_index : Int
deriving DecidableEq, Repr

/-- A thread entering `update_loop`: `inputIndex = -2`, `frameNr = -1` (Pool.h 130-131). -/
def Worker.start : Worker :=
  { pc := .loopHead, inputIndex := -2, frameNr := -1, useForRendering := false,
    nVideoBytes := 0, decoded_picture_index := -1 }

/-- What the collaborators outside the pool answer during a step:
the value `FFmpegDemuxer::Demux` returns, the byte count `nVideoBytes` holds after
that call, and the `picture_index` the decoder has after `NvDecoder::Decode`. -/
structure Extern where
  demuxOk : Bool
  nVideoBytes : Int
  picture_index : Int
deriving DecidableEq, Repr

/-! ## The wait predicates -/

/-- The predicate of `input_condition.wait` (Pool.h 136-148).  `index` is the local
variable captured by reference; the result is the predicate's value and the value
`index` has afterwards. -/
def inputPredicate (terminate_pool : Bool) (input_queue : List Task)
    (inputIndex frameNr : Int) (index : Nat) : Bool × Nat :=
  match terminate_pool, input_queue with
  | true, _ => (true, index)
  | false, [] => (false, index)
  | false, front :: rest =>
    if front.2.1 = frameNr ∧ front.1 = inputIndex + 1 then
      if (front :: rest).length = 1 then (false, index) else (true, 1)
    else (true, index)

/-- The body of the loop of Pool.h 94-104 up to its `return`, for the entry `e` at
position `i`: the new values of `(foundColor, foundDepth, index0, index1)`. -/
def outputVisit (inputIndex : Int) (e : Completion) (i : Nat)
    (st : Bool × Bool × Nat × Nat) : Bool × Bool × Nat × Nat :=
  if e.1 = 2 * inputIndex then (true, st.2.1, i, st.2.2.2)
  else if e.1 = 2 * inputIndex + 1 then (st.1, true, st.2.2.1, i)
  else st

/-- The loop of the predicate of `output_condition.wait` (Pool.h 92-105) from
position `i` on, over the entries not yet visited, with the current values
`st = (foundColor, foundDepth, index0, index1)`.  The result is the predicate's
value with the final `index0` and `index1`. -/
def outputScan (inputIndex : Int) :
    List Completion → Nat → Bool × Bool × Nat × Nat → Bool × Nat × Nat
  | [], _, st => (false, st.2.2.1, st.2.2.2)
  | e :: rest, i, st =>
    if (outputVisit inputIndex e i st).1 && (outputVisit inputIndex e i st).2.1 then
      (true, (outputVisit inputIndex e i st).2.2.1, (outputVisit inputIndex e i st).2.2.2)
    else outputScan inputIndex rest (i + 1) (outputVisit inputIndex e i st)

/-- The predicate of `output_condition.wait` (Pool.h 91-106).  `index0` and `index1`
are the values the two uninitialised locals hold on entry. -/
def outputPredicate (output_queue : List Completion) (inputIndex : Int)
    (index0 index1 : Nat) : Bool × Nat × Nat :=
  outputScan inputIndex output_queue 0 (false, false, index0, index1)

/-! ## The methods of `Pool` -/

/-- `Pool::init` (Pool.h 47-54): `demuxers` is the size of the vector of demuxers,
`decoders` the `picture_index` of each decoder. -/
def Pool.init (nrImages : Int) (demuxers : Nat) (decoders : List Int) (nrThreads : Int) :
    Pool :=
  { nrThreads := nrThreads
    nrImages := nrImages
    input_queue := []
    output_queue := []
    memcpy_array := List.replicate decoders.length true
    demux_array := List.replicate demuxers 0
    terminate_pool := false
    picture_index := decoders
    displayed := [] }

/-- The tasks `startDemuxingFirstFrames` pushes (Pool.h 65-69). -/
def firstFrames (nrImages : Int) (inputsToUse : List Int) : List Task :=
  (List.range nrImages.toNat).flatMap fun i =>
    [(2 * (i : Int), 0, decide ((i : Int) ∈ inputsToUse)),
     (2 * (i : Int) + 1, 0, decide ((i : Int) ∈ inputsToUse))]

/-- `Pool::startDemuxingFirstFrames` (Pool.h 62-72). -/
def Pool.startDemuxingFirstFrames (p : Pool) (inputsToUse : List Int) : Pool :=
  { p with input_queue := p.input_queue ++ firstFrames p.nrImages inputsToUse }

/-- `Pool::startDemuxingNextFrame` (Pool.h 74-81). -/
def Pool.startDemuxingNextFrame (p : Pool) (inputIndex frameNr : Int)
    (useForRendering : Bool) : Pool :=
  { p with input_queue := p.input_queue ++
      [(2 * inputIndex, frameNr, useForRendering),
       (2 * inputIndex + 1, frameNr, useForRendering)] }

/-- `Pool::waitUntilInputFrameIsDecoded` (Pool.h 83-114), from the values `index0`
and `index1` hold on entry.  `none`: the wait predicate is false and the caller
stays blocked (or the vector is indexed out of range). -/
def Pool.waitUntilInputFrameIsDecoded (p : Pool) (inputIndex : Int) (index0 index1 : Nat) :
    Option ((Int × Int × Int × Int) × Pool) :=
  match outputPredicate p.output_queue inputIndex index0 index1 with
  | (false, _, _) => none
  | (true, index0, index1) =>
    match p.output_queue[index0]?, p.output_queue[index1]? with
    | some output0, some output1 =>
      let erased := p.output_queue.eraseIdx (if index0 > index1 then index0 else index1)
      some ((output0.1, output0.2, output1.1, output1.2),
        { p with output_queue := erased.eraseIdx (if index0 > index1 then index1 else index0) })
    | _, _ => none

/-- `Pool::copyFromGPUToOpenGLTexture` (Pool.h 116-126).  `none`: a vector is indexed
out of range. -/
def Pool.copyFromGPUToOpenGLTexture (p : Pool) (inputIndex0 decoded_picture_index0
    inputIndex1 decoded_picture_index1 : Int) : Option Pool :=
  match vecGet p.picture_index inputIndex0, vecGet p.picture_index inputIndex1,
      vecGet p.memcpy_array inputIndex0, vecGet p.memcpy_array inputIndex1 with
  | some _, some _, some _, some _ =>
    some { p with
      displayed := p.displayed ++
        [(inputIndex0, decoded_picture_index0), (inputIndex1, decoded_picture_index1)]
      memcpy_array := vecSet (vecSet p.memcpy_array inputIndex0 true) inputIndex1 true }
  | _, _, _, _ => none

/-- `Pool::demux` (Pool.h 228-239): `demuxOk` is what `Demux` returned and
`nVideoBytes` what it left in the byte count. -/
def Pool.demux (demuxOk : Bool) (nVideoBytes : Int) : Bool :=
  if !demuxOk then
    if nVideoBytes = 0 then true else false
  else true

/-- The first statement of `Pool::cleanup` (Pool.h 214): the stop flag is set.  The
`join` that follows returns once every thread has left `update_loop`. -/
def Pool.cleanup (p : Pool) : Pool :=
  { p with terminate_pool := true }

/-- One atomic step of a thread in `Pool::update_loop` (Pool.h 128-211). -/
def Pool.update_loop (p : Pool) (w : Worker) (x : Extern) : Option (Pool × Worker) :=
  match w.pc with
  | .loopHead =>
    if p.terminate_pool then some (p, { w with pc := .stopped })
    else some (p, { w with pc := .waitForTask })
  | .waitForTask =>
    match inputPredicate p.terminate_pool p.input_queue w.inputIndex w.frameNr 0 with
    | (false, _) => none
    | (true, index) =>
      if p.terminate_pool then some (p, { w with pc := .stopped })
      else
        match p.input_queue[index]? with
        | none => none
        | some t =>
          some ({ p with input_queue := p.input_queue.eraseIdx index },
            { w with pc := .orderWait, inputIndex := t.1, frameNr := t.2.1,
                     useForRendering := t.2.2 })
  | .orderWait =>
    match vecGet p.demux_array w.inputIndex with
    | none => none
    | some d =>
      if d = w.frameNr ∨ p.terminate_pool = true then some (p, { w with pc := .orderCheck })
      else none
  | .orderCheck =>
    if p.terminate_pool then some (p, { w with pc := .stopped })
    else some (p, { w with pc := .demux })
  | .demux =>
    match vecGet p.demux_array w.inputIndex with
    | none => none
    | some _ =>
      if Pool.demux x.demuxOk x.nVideoBytes then
        some (p, { w with pc := .renderGate, nVideoBytes := x.nVideoBytes })
      else some (p, { w with pc := .stopped, nVideoBytes := x.nVideoBytes })
  | .renderGate =>
    if w.useForRendering then
      match vecGet p.memcpy_array w.inputIndex with
      | none => none
      | some free =>
        if free = true ∨ p.terminate_pool = true then
          some ({ p with memcpy_array := vecSet p.memcpy_array w.inputIndex false },
            { w with pc := .gateCheck })
        else none
    else some (p, { w with pc := .gateCheck })
  | .gateCheck =>
    if p.terminate_pool then some (p, { w with pc := .stopped })
    else some (p, { w with pc := .decode })
  | .decode =>
    if w.nVideoBytes ≠ 0 then
      match vecGet p.picture_index w.inputIndex with
      | none => none
      | some _ =>
        some ({ p with picture_index := vecSet p.picture_index w.inputIndex x.picture_index },
          { w with pc := .increment, decoded_picture_index := x.picture_index })
    else some (p, { w with pc := .increment, decoded_picture_index := -1 })
  | .increment =>
    match vecGet p.demux_array w.inputIndex with
    | none => none
    | some d =>
      some ({ p with demux_array := vecSet p.demux_array w.inputIndex (d + 1) },
        { w with pc := .publish })
  | .publish =>
    if w.useForRendering then
      some ({ p with output_queue :=
                p.output_queue ++ [(w.inputIndex, w.decoded_picture_index)] },
        { w with pc := .loopHead })
    else some (p, { w with pc := .loopHead })
  | .stopped => none


/-- `Pool::startThreadPool` (Pool.h 56-60): the threads of the vector `pool`, each
about to enter `update_loop`. -/
def Pool.startThreadPool (p : Pool) : List Worker :=
  List.replicate p.nrThreads.toNat Worker.start

/-! ## The pool with its threads and its driver -/

/-- The state of the scheduler: the shared members, the threads of `Pool::pool`, and
the local `tuple` of `Application::RenderTarget` between its call of
`waitUntilInputFrameIsDecoded` (Application.h 676) and the call of
`copyFromGPUToOpenGLTexture` that consumes it (Application.h 677). -/
structure Config where
  pool : Pool
  threads : List Worker
  tuple : Option (Int × Int × Int × Int)
deriving DecidableEq, Repr

/-- The pool after `init` and `startThreadPool` (Application.h 631-632). -/
def Config.init (nrImages : Int) (demuxers : Nat) (decoders : List Int) (nrThreads : Int) :
    Config :=
  { pool := Pool.init nrImages demuxers decoders nrThreads
    threads := (Pool.init nrImages demuxers decoders nrThreads).startThreadPool
    tuple := none }

/-- One atomic step of the system: a step of thread `i` of the pool, or a call of the
driver thread into the pool. -/
inductive Label
  | thread (i : Nat) (x : Extern)
  | startDemuxingFirstFrames (inputsToUse : List Int)
  | startDemuxingNextFrame (inputIndex frameNr : Int) (useForRendering : Bool)
  | waitUntilInputFrameIsDecoded (inputIndex : Int)
  | copyFromGPUToOpenGLTexture
  | cleanup
deriving DecidableEq, Repr

/-- The step function of the system.  `none`: the step is not possible in `c` (the
thread or the driver is blocked there, or the C++ program has no defined behaviour).
The driver passes the tuple it took to `copyFromGPUToOpenGLTexture` before it calls
the pool again, as `RenderTarget` does. -/
def step (c : Config) : Label → Option Config
  | .thread i x =>
    match c.threads[i]? with
    | none => none
    | some w =>
      match c.pool.update_loop w x with
      | none => none
      | some (p, w2) => some { c with pool := p, threads := c.threads.set i w2 }
  | .startDemuxingFirstFrames inputsToUse =>
    match c.tuple with
    | some _ => none
    | none => some { c with pool := c.pool.startDemuxingFirstFrames inputsToUse }
  | .startDemuxingNextFrame inputIndex frameNr useForRendering =>
    match c.tuple with
    | some _ => none
    | none =>
      some { c with pool := c.pool.startDemuxingNextFrame inputIndex frameNr useForRendering }
  | .waitUntilInputFrameIsDecoded inputIndex =>
    match c.tuple with
    | some _ => none
    | none =>
      match c.pool.waitUntilInputFrameIsDecoded inputIndex 0 0 with
      | none => none
      | some (t, p) => some { c with pool := p, tuple := some t }
  | .copyFromGPUToOpenGLTexture =>
    match c.tuple with
    | none => none
    | some t =>
      match c.pool.copyFromGPUToOpenGLTexture t.1 t.2.1 t.2.2.1 t.2.2.2 with
      | none => none
      | some p => some { c with pool := p, tuple := none }
  | .cleanup =>
    match c.tuple with
    | some _ => none
    | none => some { c with pool := c.pool.cleanup }

/-! ## History variables

The history of an execution, kept beside the state: the step function never reads
it. -/

/-- The task a thread is working on. -/
def Worker.task (w : Worker) : Task :=
  (w.inputIndex, w.frameNr, w.useForRendering)

/-- The `(stream, frame)` of a task. -/
def Task.key (t : Task) : Int × Int :=
  (t.1, t.2.1)

/-- A change of a Decode Gate entry: a thread claims it (Pool.h 180) or the driver
reopens it (Pool.h 122-123). -/
inductive GateEvent
  | claim (s : Int)
  | reopen (s : Int)
deriving DecidableEq, Repr

/-- The history of an execution. -/
structure Ghost where
  /-- Every task pushed to `input_queue` so far, oldest first. -/
  enqueued : List Task
  /-- The tasks for which `demux_array[inputIndex]++` has run. -/
  incremented : List Task
  /-- The tasks whose thread left the loop between taking them and the increment. -/
  abandoned : List Task
  /-- The entries of `output_queue`, each with the frame number of the task that
  published it: `(stream, picture index, frame)`. -/
  tagged : List (Int × Int × Int)
  /-- The frame numbers of the two entries of `tuple`. -/
  tupleFrames : Int × Int
  /-- The `(stream, frame)` pairs handed to `copyFromGPUToOpenGLTexture`. -/
  consumed : List (Int × Int)
  /-- The changes of `memcpy_array` in the order they happened. -/
  gateLog : List GateEvent
deriving DecidableEq, Repr

/-- The history of an execution that has not started. -/
def Ghost.empty : Ghost :=
  { enqueued := [], incremented := [], abandoned := [], tagged := [], tupleFrames := (0, 0),
    consumed := [], gateLog := [] }

/-- The history after a step of a thread that was in state `w` and is in state `w2`
after it. -/
def Ghost.thread (g : Ghost) (w w2 : Worker) : Ghost :=
  match w.pc, w2.pc with
  | .orderCheck, .stopped => { g with abandoned := g.abandoned ++ [w.task] }
  | .demux, .stopped => { g with abandoned := g.abandoned ++ [w.task] }
  | .gateCheck, .stopped => { g with abandoned := g.abandoned ++ [w.task] }
  | .renderGate, _ =>
    if w.useForRendering then { g with gateLog := g.gateLog ++ [.claim w.inputIndex] } else g
  | .increment, _ => { g with incremented := g.incremented ++ [w.task] }
  | .publish, _ =>
    if w.useForRendering then
      { g with tagged := g.tagged ++ [(w.inputIndex, w.decoded_picture_index, w.frameNr)] }
    else g
  | _, _ => g

/-- The history after the step `l` taken in state `c`. -/
def Ghost.next (c : Config) (g : Ghost) : Label → Ghost
  | .thread i x =>
    match c.threads[i]? with
    | none => g
    | some w =>
      match c.pool.update_loop w x with
      | none => g
      | some (_, w2) => g.thread w w2
  | .startDemuxingFirstFrames inputsToUse =>
    { g with enqueued := g.enqueued ++ firstFrames c.pool.nrImages inputsToUse }
  | .startDemuxingNextFrame inputIndex frameNr useForRendering =>
    { g with enqueued := g.enqueued ++
        [(2 * inputIndex, frameNr, useForRendering),
         (2 * inputIndex + 1, frameNr, useForRendering)] }
  | .waitUntilInputFrameIsDecoded inputIndex =>
    match outputPredicate c.pool.output_queue inputIndex 0 0 with
    | (_, index0, index1) =>
      { g with
        tagged := (g.tagged.eraseIdx (if index0 > index1 then index0 else index1)).eraseIdx
          (if index0 > index1 then index1 else index0)
        tupleFrames := ((g.tagged.getD index0 (0, 0, 0)).2.2,
          (g.tagged.getD index1 (0, 0, 0)).2.2) }
  | .copyFromGPUToOpenGLTexture =>
    match c.tuple with
    | none => g
    | some t =>
      { g with
        consumed := g.consumed ++ [(t.1, g.tupleFrames.1), (t.2.2.1, g.tupleFrames.2)]
        gateLog := g.gateLog ++ [.reopen t.1, .reopen t.2.2.1] }
  | .cleanup => g

/-- The execution of the steps `tr` from state `c` with history `g`: the state and
the history it ends in, `none` when one of the steps is not possible. -/
def runFrom : Config × Ghost → List Label → Option (Config × Ghost)
  | cg, [] => some cg
  | cg, l :: tr =>
    match step cg.1 l with
    | none => none
    | some c2 => runFrom (c2, Ghost.next cg.1 cg.2 l) tr

/-- The execution of the steps `tr` by a pool of `nrThreads` threads for `nrImages`
cameras, from the state `init` and `startThreadPool` leave. -/
def run (nrImages : Int) (demuxers : Nat) (decoders : List Int) (nrThreads : Int)
    (tr : List Label) : Option (Config × Ghost) :=
  runFrom (Config.init nrImages demuxers decoders nrThreads, Ghost.empty) tr

/-- A thread takes one step of `update_loop` in each of the pool states of `ps` in
turn.  Between two of its steps the other threads and the driver may have changed the
pool, so every step comes with the pool it starts in and with the answers of the
collaborators.  The result lists the pool and the thread after each step; `none`
when one of the steps is not possible. -/
def Worker.steps : Worker → List (Pool × Extern) → Option (List (Pool × Worker))
  | _, [] => some []
  | w, (p, x) :: rest =>
    match p.update_loop w x with
    | none => none
    | some (p2, w2) =>
      match Worker.steps w2 rest with
      | none => none
      | some tl => some ((p2, w2) :: tl)

/-! ## What the threads hold -/

/-- The task a thread has taken from `input_queue` and not yet counted in
`demux_array`. -/
def Worker.held (w : Worker) : Option Task :=
  match w.pc with
  | .orderWait | .orderCheck | .demux | .renderGate | .gateCheck | .decode | .increment =>
    some w.task
  | _ => none

/-- The stream whose Decode Gate entry a thread has claimed for a task it has not yet
published.  At Pool.h 184 the thread has claimed the entry only if it passed the wait
with the stop flag clear, which is the case when the flag is still clear. -/
def Worker.claimed (terminate_pool : Bool) (w : Worker) : Option Int :=
  match w.pc with
  | .gateCheck => if w.useForRendering ∧ terminate_pool = false then some w.inputIndex else none
  | .decode | .increment | .publish => if w.useForRendering then some w.inputIndex else none
  | _ => none

/-- The `(stream, frame)` a thread is about to publish. -/
def Worker.publishing (w : Worker) : Option (Int × Int) :=
  match w.pc with
  | .publish => if w.useForRendering then some (w.inputIndex, w.frameNr) else none
  | _ => none

/-- The streams of the tuple the driver holds. -/
def tupleStreams : Option (Int × Int × Int × Int) → List Int
  | none => []
  | some t => [t.1, t.2.2.1]

/-- The wanted frames that are claimed or decoded and not yet consumed, by stream:
one for each thread between its claim of the Decode Gate entry and its publication,
one for each entry of `output_queue`, and the two of the tuple the driver holds. -/
def inFlight (c : Config) : List Int :=
  c.threads.filterMap (Worker.claimed c.pool.terminate_pool) ++
    c.pool.output_queue.map Prod.fst ++ tupleStreams c.tuple

/-- The value 1 when the Decode Gate entry of stream `s` is true, 0 otherwise. -/
def gateOpen (c : Config) (s : Int) : Nat :=
  if vecGet c.pool.memcpy_array s = some true then 1 else 0

/-- The `(stream, frame)` of a task wanted for rendering. -/
def wantedKey (t : Task) : Option (Int × Int) :=
  if t.2.2 = true then some t.key else none

/-- The `(stream, frame)` pairs of the tuple the driver holds. -/
def tupleKeys (tuple : Option (Int × Int × Int × Int)) (frames : Int × Int) :
    List (Int × Int) :=
  match tuple with
  | none => []
  | some t => [(t.1, frames.1), (t.2.2.1, frames.2)]

/-- A thread at this place has passed the Order Gate wait for its task, and has not
yet run the increment.  At Pool.h 166 it has passed the wait on the gate's value when
the stop flag is clear. -/
def Worker.pastOrderGate (terminate_pool : Bool) (w : Worker) : Prop :=
  w.pc = .demux ∨ w.pc = .renderGate ∨ w.pc = .gateCheck ∨ w.pc = .decode ∨
    w.pc = .increment ∨ (w.pc = .orderCheck ∧ terminate_pool = false)

/-- The invariant that holds in every execution. -/
structure Inv0 (c : Config) (g : Ghost) : Prop where
  /-- Every task pushed is in the queue, held by a thread, counted in `demux_array`
  or abandoned, and is so once. -/
  tasks : ∀ t : Task, c.pool.input_queue.count t + (c.threads.filterMap Worker.held).count t +
    g.incremented.count t + g.abandoned.count t = g.enqueued.count t
  /-- The tagged entries are the entries of `output_queue`. -/
  erase : g.tagged.map (fun e => (e.1, e.2.1)) = c.pool.output_queue
  /-- Every wanted task counted in `demux_array` is about to be published, published,
  in the driver's tuple or consumed, and is so once. -/
  wanted : ∀ k : Int × Int, (g.incremented.filterMap wantedKey).count k =
    (c.threads.filterMap Worker.publishing).count k +
      (g.tagged.map (fun e => (e.1, e.2.2))).count k +
      (tupleKeys c.tuple g.tupleFrames).count k + g.consumed.count k
  /-- A stream has at most one frame in flight, and none while its gate is open. -/
  tokens : ∀ s : Int, gateOpen c s + (inFlight c).count s ≤ 1
  /-- The two tasks of a camera are pushed together. -/
  pairs : ∀ k f w, (2 * k, f, w) ∈ g.enqueued ↔ (2 * k + 1, f, w) ∈ g.enqueued
  /-- The tuple the driver holds is made of the two streams of one camera. -/
  tupleCam : ∀ t, c.tuple = some t → ∃ k, t.1 = 2 * k ∧ t.2.2.1 = 2 * k + 1

/-- The invariant of the executions in which no `(stream, frame)` is pushed twice. -/
structure Inv1 (c : Config) (g : Ghost) : Prop where
  /-- A thread past the Order Gate wait works on the frame the gate shows. -/
  ordered : ∀ (i : Nat) (w : Worker), c.threads[i]? = some w → w.pastOrderGate c.pool.terminate_pool →
    vecGet c.pool.demux_array w.inputIndex = some w.frameNr
  /-- No Order Gate entry is negative. -/
  gateNonneg : ∀ s d, vecGet c.pool.demux_array s = some d → 0 ≤ d
  /-- A task that has run the increment has a frame number below its stream's Order
  Gate entry. -/
  doneLt : ∀ s f w, (s, f, w) ∈ g.incremented →
    ∃ d, vecGet c.pool.demux_array s = some d ∧ 0 ≤ f ∧ f < d
  /-- The Order Gate entry `d` of a stream counts the tasks of the stream that have run
  the increment: the frames `0`, ..., `d - 1` have. -/
  doneAll : ∀ s d f, vecGet c.pool.demux_array s = some d → 0 ≤ f → f < d →
    ∃ w, (s, f, w) ∈ g.incremented
  /-- The two streams of a camera have had the same frames consumed. -/
  consumedPairs : ∀ k f, (2 * k, f) ∈ g.consumed ↔ (2 * k + 1, f) ∈ g.consumed
  /-- The two entries of the tuple the driver holds were published for the same
  frame. -/
  tupleFrame : ∀ t, c.tuple = some t → g.tupleFrames.1 = g.tupleFrames.2

/-- The effect of one change on the Decode Gate entry of stream `s` whose value is
`b`. -/
def GateEvent.apply (s : Int) (b : Bool) : GateEvent → Bool
  | .claim s2 => if s2 = s then false else b
  | .reopen s2 => if s2 = s then true else b

/-- The value of the Decode Gate entry of stream `s` after the changes `log`, from
the value `true` that `init` gives it. -/
def gateAfter (log : List GateEvent) (s : Int) : Bool :=
  log.foldl (GateEvent.apply s) true

/-- Every claim of the log was made on an entry that was true. -/
def ClaimsOpen (log : List GateEvent) : Prop :=
  ∀ pre post s, log = pre ++ GateEvent.claim s :: post → gateAfter pre s = true

/-- The invariant of the log of gate changes. -/
structure InvG (c : Config) (g : Ghost) : Prop where
  /-- The Decode Gate is what the log of its changes makes it. -/
  gates : ∀ s b, vecGet c.pool.memcpy_array s = some b → b = gateAfter g.gateLog s
  /-- While the stop flag is clear, every claim was made on an open gate. -/
  claims : c.pool.terminate_pool = false → ClaimsOpen g.gateLog

/-! ## Example states -/

/-- A pool for one camera (streams 0 and 1) with two threads, after `init`. -/
def examplePool : Pool :=
  Pool.init 1 2 [0, 0] 2

/-- A thread that has just taken the task `(0, 0, true)`. -/
def exampleWorker : Worker :=
  { Worker.start with pc := .orderWait, inputIndex := 0, frameNr := 0, useForRendering := true }

/-- Answers of the collaborators with a payload of 10 bytes. -/
def exampleExtern : Extern :=
  { demuxOk := true, nVideoBytes := 10, picture_index := 3 }

/-- The first steps of a pool for one camera: the driver seeds frame 0 as wanted and
thread 0 takes the task `(0, 0, true)` and passes the Order Gate wait. -/
def traceToDemux : List Label :=
  [.startDemuxingFirstFrames [0], .thread 0 exampleExtern, .thread 0 exampleExtern,
   .thread 0 exampleExtern, .thread 0 exampleExtern]

/-- Thread 0 runs the task `(0, 0, true)` up to its publication and returns to the
head of the loop. -/
def tracePublished : List Label :=
  traceToDemux ++ List.replicate 7 (.thread 0 exampleExtern)

/-- Thread 1 then runs the task `(1, 0, true)`, and the driver takes the pair of
camera 0. -/
def traceTaken : List Label :=
  tracePublished ++ List.replicate 10 (.thread 1 exampleExtern) ++
    [.waitUntilInputFrameIsDecoded 0]

/-- After `tracePublished` the driver pushes frame 1 of camera 0 as not wanted; thread
0 skips the partner `(1, 0, true)` of its last task, takes `(0, 1, false)` and reaches
the decode while frame 0 of stream 0 waits in `output_queue`. -/
def traceUnwantedNext : List Label :=
  tracePublished ++ [.startDemuxingNextFrame 0 1 false] ++
    List.replicate 6 (.thread 0 exampleExtern)

/-- After `traceTaken` the driver consumes the pair and pushes frame 1 of camera 0 as
wanted; thread 0 takes `(0, 1, true)` and reaches the decode. -/
def traceWantedNext : List Label :=
  traceTaken ++ [.copyFromGPUToOpenGLTexture, .startDemuxingNextFrame 0 1 true] ++
    List.replicate 6 (.thread 0 exampleExtern)

/-! ## The steps of a thread, case by case -/

/-- The steps of `Pool.update_loop` as a relation, one rule for each branch of the
loop body: `ThreadStep p w x p2 w2` holds exactly when `p.update_loop w x` is
`some (p2, w2)` (`threadStep_iff`). -/
inductive ThreadStep (p : Pool) (w : Worker) (x : Extern) : Pool → Worker → Prop
  | loopStop (hpc : w.pc = .loopHead) (hf : p.terminate_pool = true) :
    ThreadStep p w x p { w with pc := .stopped }
  | loopEnter (hpc : w.pc = .loopHead) (hf : p.terminate_pool = false) :
    ThreadStep p w x p { w with pc := .waitForTask }
  | waitStop (hpc : w.pc = .waitForTask) (hf : p.terminate_pool = true) :
    ThreadStep p w x p { w with pc := .stopped }
  | dequeue (index : Nat) (t : Task) (hpc : w.pc = .waitForTask)
    (hf : p.terminate_pool = false)
    (hsel : inputPredicate false p.input_queue w.inputIndex w.frameNr 0 = (true, index))
    (ht : p.input_queue[index]? = some t) :
    ThreadStep p w x { p with input_queue := p.input_queue.eraseIdx index }
      { w with pc := .orderWait, inputIndex := t.1, frameNr := t.2.1,
               useForRendering := t.2.2 }
  | orderPass (d : Int) (hpc : w.pc = .orderWait)
    (hd : vecGet p.demux_array w.inputIndex = some d)
    (hgo : d = w.frameNr ∨ p.terminate_pool = true) :
    ThreadStep p w x p { w with pc := .orderCheck }
  | orderStop (hpc : w.pc = .orderCheck) (hf : p.terminate_pool = true) :
    ThreadStep p w x p { w with pc := .stopped }
  | orderGo (hpc : w.pc = .orderCheck) (hf : p.terminate_pool = false) :
    ThreadStep p w x p { w with pc := .demux }
  | demuxOk (d : Int) (hpc : w.pc = .demux)
    (hd : vecGet p.demux_array w.inputIndex = some d)
    (hok : Pool.demux x.demuxOk x.nVideoBytes = true) :
    ThreadStep p w x p { w with pc := .renderGate, nVideoBytes := x.nVideoBytes }
  | demuxFail (d : Int) (hpc : w.pc = .demux)
    (hd : vecGet p.demux_array w.inputIndex = some d)
    (hok : Pool.demux x.demuxOk x.nVideoBytes = false) :
    ThreadStep p w x p { w with pc := .stopped, nVideoBytes := x.nVideoBytes }
  | claim (free : Bool) (hpc : w.pc = .renderGate) (hw : w.useForRendering = true)
    (hm : vecGet p.memcpy_array w.inputIndex = some free)
    (hgo : free = true ∨ p.terminate_pool = true) :
    ThreadStep p w x { p with memcpy_array := vecSet p.memcpy_array w.inputIndex false }
      { w with pc := .gateCheck }
  | noClaim (hpc : w.pc = .renderGate) (hw : w.useForRendering = false) :
    ThreadStep p w x p { w with pc := .gateCheck }
  | gateStop (hpc : w.pc = .gateCheck) (hf : p.terminate_pool = true) :
    ThreadStep p w x p { w with pc := .stopped }
  | gateGo (hpc : w.pc = .gateCheck) (hf : p.terminate_pool = false) :
    ThreadStep p w x p { w with pc := .decode }
  | decode (old : Int) (hpc : w.pc = .decode) (hn : w.nVideoBytes ≠ 0)
    (hd : vecGet p.picture_index w.inputIndex = some old) :
    ThreadStep p w x
      { p with picture_index := vecSet p.picture_index w.inputIndex x.picture_index }
      { w with pc := .increment, decoded_picture_index := x.picture_index }
  | noDecode (hpc : w.pc = .decode) (hn : w.nVideoBytes = 0) :
    ThreadStep p w x p { w with pc := .increment, decoded_picture_index := -1 }
  | increment (d : Int) (hpc : w.pc = .increment)
    (hd : vecGet p.demux_array w.inputIndex = some d) :
    ThreadStep p w x { p with demux_array := vecSet p.demux_array w.inputIndex (d + 1) }
      { w with pc := .publish }
  | publish (hpc : w.pc = .publish) (hw : w.useForRendering = true) :
    ThreadStep p w x
      { p with output_queue := p.output_queue ++ [(w.inputIndex, w.decoded_picture_index)] }
      { w with pc := .loopHead }
  | noPublish (hpc : w.pc = .publish) (hw : w.useForRendering = false) :
    ThreadStep p w x p { w with pc := .loopHead }

/-! ## The driver

`Application::SetupDecodingPool` and the calls of `Application::RenderTarget` with
`nextVideoFrame = true` (Application.h 609-702), as a second state machine beside
the pool. -/

/-- The places of the driver thread between two of its steps. -/
inductive DriverPC
  /-- About to call `startDemuxingFirstFrames` (Application.h 633). -/
  | setup
  /-- About to enter `RenderTarget` and ask for the cameras to use
  (Application.h 645-653). -/
  | frameStart
  /-- At the head of the loop over the cameras, about to call `startDemuxingNextFrame`
  for camera `i` (Application.h 663-669). -/
  | loopEnqueue
  /-- About to call `waitUntilInputFrameIsDecoded(i)` (Application.h 676). -/
  | loopAwait
  /-- About to call `copyFromGPUToOpenGLTexture` with the tuple (Application.h 677). -/
  | loopConsume
  /-- After the loop, at Application.h 690-699. -/
  | frameEnd
deriving DecidableEq, Repr

/-- The members and locals of `Application` the calls into the pool depend on.  The
two `std::unordered_set<int>` are lists read through membership only. -/
structure Driver where
  pc : DriverPC
  i : Int
  currentVideoFrame : Int
  current_inputsToUse : List Int
  next_inputsToUse : List Int
  shouldUpdateUsedInputs : Bool
deriving DecidableEq, Repr

/-- The driver before `SetupDecodingPool` seeds the queue: `currentVideoFrame = 0`
(Application.h 134) and both sets hold the first answer of the visibility helper
(Application.h 417-420). -/
def Driver.init (inputsToUse : List Int) : Driver :=
  { pc := .setup, i := 0, currentVideoFrame := 0, current_inputsToUse := inputsToUse,
    next_inputsToUse := inputsToUse, shouldUpdateUsedInputs := false }

/-- The call into the pool the driver makes in its next step, `none` when the step
touches the driver's own variables only.  `nrCameras` is `inputCameras.size()`. -/
def Driver.call (d : Driver) (nrCameras : Int) : Option Label :=
  match d.pc with
  | .setup => some (.startDemuxingFirstFrames d.current_inputsToUse)
  | .frameStart => none
  | .loopEnqueue =>
    if d.i < nrCameras then
      some (.startDemuxingNextFrame d.i (d.currentVideoFrame + 1)
        (decide (d.i ∈ d.next_inputsToUse)))
    else none
  | .loopAwait => some (.waitUntilInputFrameIsDecoded d.i)
  | .loopConsume => some .copyFromGPUToOpenGLTexture
  | .frameEnd => none

/-- The driver after its next step.  `answer` is what
`cameraVisibilityHelper.updateInputsToUse()` returns, read at Application.h 647
only. -/
def Driver.advance (d : Driver) (nrCameras : Int) (answer : List Int) : Driver :=
  match d.pc with
  | .setup => { d with pc := .frameStart }
  | .frameStart =>
    { d with
      pc := .loopEnqueue
      i := 0
      next_inputsToUse := answer
      shouldUpdateUsedInputs := answer.any fun a => !decide (a ∈ d.current_inputsToUse) }
  | .loopEnqueue =>
    if d.i < nrCameras then
      if d.i ∈ d.current_inputsToUse then { d with pc := .loopAwait }
      else { d with i := d.i + 1 }
    else { d with pc := .frameEnd }
  | .loopAwait => { d with pc := .loopConsume }
  | .loopConsume => { d with pc := .loopEnqueue, i := d.i + 1 }
  | .frameEnd =>
    { d with
      pc := .frameStart
      currentVideoFrame := d.currentVideoFrame + 1
      current_inputsToUse :=
        if d.shouldUpdateUsedInputs then d.next_inputsToUse else d.current_inputsToUse }

/-- The pool with its threads, the history of the execution, and the driver. -/
structure App where
  config : Config
  ghost : Ghost
  driver : Driver
deriving DecidableEq, Repr

/-- The application at the call of `startDemuxingFirstFrames`: `SetupCUgraphicsResources`
has pushed one demuxer and one decoder for each of the two streams of each camera
(Application.h 583-605), and `init` and `startThreadPool` have run. -/
def App.init (nrCameras : Nat) (decoders : List Int) (nrThreads : Int)
    (inputsToUse : List Int) : App :=
  { config := Config.init nrCameras decoders.length decoders nrThreads
    ghost := Ghost.empty
    driver := Driver.init inputsToUse }

/-- One atomic step of the application: a step of thread `i` of the pool, or the next
step of the driver. -/
inductive AppLabel
  | thread (i : Nat) (x : Extern)
  | driver (answer : List Int)
deriving DecidableEq, Repr

/-- The step function of the application.  `none`: the thread, or the driver, is
blocked. -/
def appStep (a : App) : AppLabel → Option App
  | .thread i x =>
    match step a.config (.thread i x) with
    | none => none
    | some c2 =>
      some { a with config := c2, ghost := Ghost.next a.config a.ghost (.thread i x) }
  | .driver answer =>
    match a.driver.call a.config.pool.nrImages with
    | none =>
      some { a with driver := a.driver.advance a.config.pool.nrImages answer }
    | some l =>
      match step a.config l with
      | none => none
      | some c2 =>
        some { config := c2, ghost := Ghost.next a.config a.ghost l,
               driver := a.driver.advance a.config.pool.nrImages answer }

/-- The answer of the visibility helper keeps the cameras awaited those pushed as
wanted: when it names no camera outside `current_inputsToUse`, so that
`RenderTarget` leaves that set as it is, it names every camera of the set.  Answers
with as many cameras as the set in use are of this kind. -/
def Driver.consistent (d : Driver) (answer : List Int) : Bool :=
  (answer.any fun a => !decide (a ∈ d.current_inputsToUse)) ||
    d.current_inputsToUse.all fun a => decide (a ∈ answer)

/-- The steps considered: no call of `Pool::demux` fails hard, and the answers of
the visibility helper are consistent. -/
def AppLabel.regular (a : App) : AppLabel → Bool
  | .thread _ x => Pool.demux x.demuxOk x.nVideoBytes
  | .driver answer => a.driver.pc != .frameStart || a.driver.consistent answer

/-- The execution of the steps `tr` from `a`, `none` when one of the steps is not
possible. -/
def appRun : App → List AppLabel → Option App
  | a, [] => some a
  | a, l :: tr =>
    match appStep a l with
    | none => none
    | some a2 => appRun a2 tr

/-- Every step of the execution of `tr` from `a` is regular. -/
def regularRun : App → List AppLabel → Bool
  | _, [] => true
  | a, l :: tr =>
    l.regular a &&
      match appStep a l with
      | none => true
      | some a2 => regularRun a2 tr

/-- The order of the pushes: `(stream, frame)` pairs by frame, then by stream. -/
def keyLt (a b : Int × Int) : Prop :=
  a.2 < b.2 ∨ (a.2 = b.2 ∧ a.1 < b.1)

/-- The last frame whose tasks have all been pushed. -/
def Driver.frame (d : Driver) : Int :=
  match d.pc with
  | .setup => -1
  | _ => d.currentVideoFrame

/-- The number of cameras whose tasks of the frame after `Driver.frame` have been
pushed. -/
def Driver.pushed (d : Driver) (nrCameras : Int) : Int :=
  match d.pc with
  | .setup => 0
  | .frameStart => 0
  | .loopEnqueue => d.i
  | .loopAwait => d.i + 1
  | .loopConsume => d.i + 1
  | .frameEnd => nrCameras

/-- The number of cameras the loop of `RenderTarget` has completed for the frame
`Driver.frame`. -/
def Driver.passed (d : Driver) (nrCameras : Int) : Int :=
  match d.pc with
  | .setup => 0
  | .frameStart => 0
  | .loopEnqueue => d.i
  | .loopAwait => d.i
  | .loopConsume => d.i
  | .frameEnd => nrCameras

/-- The `(stream, frame)` a thread is working on or has worked on last. -/
def Worker.key (w : Worker) : Int × Int :=
  (w.inputIndex, w.frameNr)

/-- What the threads remember of the tasks they took, for the queue `queue`, the
threads `threads` and the tasks `enqueued` pushed so far. -/
structure Locals (queue : List Task) (threads : List Worker) (enqueued : List Task) :
    Prop where
  /-- The task a thread remembers was pushed. -/
  localEnq : ∀ w ∈ threads, w.key = (-2, -1) ∨
    ∃ b, (w.inputIndex, w.frameNr, b) ∈ enqueued
  /-- It is no longer in the queue. -/
  localQueue : ∀ w ∈ threads, ∀ t ∈ queue, t.key ≠ w.key
  /-- No other thread remembers it. -/
  localDistinct : ∀ (i j : Nat) (wi wj : Worker), i ≠ j → threads[i]? = some wi →
    threads[j]? = some wj → wi.key = wj.key → wi.key = (-2, -1)
  /-- A task in the queue older than the task a thread remembers is the front of the
  queue, and was skipped: every other thread remembers an older task that is not the
  partner of the front. -/
  skipped : ∀ (i : Nat) (w : Worker) (t : Task), threads[i]? = some w → t ∈ queue →
    keyLt t.key w.key →
    queue.head? = some t ∧
      ∀ (j : Nat) (wj : Worker), j ≠ i → threads[j]? = some wj →
        keyLt wj.key t.key ∧ wj.key ≠ (t.1 - 1, t.2.1)

/-- The invariant of the executions of the application with regular steps. -/
structure Inv2 (a : App) : Prop where
  /-- The stop flag is clear. -/
  flag : a.config.pool.terminate_pool = false
  /-- The three vectors have one entry for each stream. -/
  demLen : (a.config.pool.demux_array.length : Int) = 2 * a.config.pool.nrImages
  memLen : (a.config.pool.memcpy_array.length : Int) = 2 * a.config.pool.nrImages
  picLen : (a.config.pool.picture_index.length : Int) = 2 * a.config.pool.nrImages
  /-- No thread has left the loop. -/
  noStop : ∀ w ∈ a.config.threads, w.pc ≠ .stopped
  noAbandon : a.ghost.abandoned = []
  /-- The tasks pushed are those of the frames up to `Driver.frame`, and those of the
  next frame for the cameras below `Driver.pushed`. -/
  enqRange : ∀ s f w, (s, f, w) ∈ a.ghost.enqueued →
    0 ≤ s ∧ s < 2 * a.config.pool.nrImages ∧ 0 ≤ f ∧
      (f ≤ a.driver.frame ∨
        (f = a.driver.frame + 1 ∧ s < 2 * a.driver.pushed a.config.pool.nrImages))
  enqAll : ∀ s f, 0 ≤ s → s < 2 * a.config.pool.nrImages → 0 ≤ f →
    (f ≤ a.driver.frame ∨
      (f = a.driver.frame + 1 ∧ s < 2 * a.driver.pushed a.config.pool.nrImages)) →
    ∃ w, (s, f, w) ∈ a.ghost.enqueued
  /-- The tasks of the frame being rendered are wanted for the cameras in use. -/
  enqCur : ∀ s f w, (s, f, w) ∈ a.ghost.enqueued → f = a.driver.frame →
    (w = true ↔ s / 2 ∈ a.driver.current_inputsToUse)
  enqNext : ∀ s f w, (s, f, w) ∈ a.ghost.enqueued → f = a.driver.frame + 1 →
    (w = true ↔ s / 2 ∈ a.driver.next_inputsToUse)
  /-- The pushes come in the order of `keyLt`. -/
  sorted : a.ghost.enqueued.Pairwise fun t u => keyLt t.key u.key
  sub : a.config.pool.input_queue.Sublist a.ghost.enqueued
  /-- A stream whose Decode Gate entry is false has a frame in flight. -/
  tokLow : ∀ s, 0 ≤ s → s < 2 * a.config.pool.nrImages →
    1 ≤ gateOpen a.config s + (inFlight a.config).count s
  /-- The pairs consumed are the wanted ones the driver has passed. -/
  consumedBefore : ∀ s f, (s, f) ∈ a.ghost.consumed →
    f < a.driver.frame ∨
      (f = a.driver.frame ∧ s < 2 * a.driver.passed a.config.pool.nrImages)
  consumedAll : ∀ s f, (s, f, true) ∈ a.ghost.enqueued →
    (f < a.driver.frame ∨
      (f = a.driver.frame ∧ s < 2 * a.driver.passed a.config.pool.nrImages)) →
    (s, f) ∈ a.ghost.consumed
  /-- What the threads remember fits the queue. -/
  locals : Locals a.config.pool.input_queue a.config.threads a.ghost.enqueued
  /-- The driver holds a tuple between its await and its consume only, and the tuple
  is the pair of camera `i` for the frame being rendered. -/
  tupleNone : a.driver.pc ≠ .loopConsume → a.config.tuple = none
  tupleSome : a.driver.pc = .loopConsume →
    (∃ h0 h1, a.config.tuple = some (2 * a.driver.i, h0, 2 * a.driver.i + 1, h1)) ∧
      a.ghost.tupleFrames = (a.driver.currentVideoFrame, a.driver.currentVideoFrame)
  loopRange : a.driver.pc = .loopEnqueue →
    0 ≤ a.driver.i ∧ a.driver.i ≤ a.config.pool.nrImages
  awaitRange : a.driver.pc = .loopAwait ∨ a.driver.pc = .loopConsume →
    0 ≤ a.driver.i ∧ a.driver.i < a.config.pool.nrImages ∧
      a.driver.i ∈ a.driver.current_inputsToUse
  frameNonneg : 0 ≤ a.driver.currentVideoFrame ∧ 0 ≤ a.config.pool.nrImages
  setupFrame : a.driver.pc = .setup → a.driver.currentVideoFrame = 0
  /-- When `RenderTarget` is going to keep `current_inputsToUse`, the set equals
  `next_inputsToUse`. -/
  sameSets : a.driver.pc ≠ .setup → a.driver.pc ≠ .frameStart →
    a.driver.shouldUpdateUsedInputs = false →
    ∀ k, k ∈ a.driver.next_inputsToUse ↔ k ∈ a.driver.current_inputsToUse

/-- A thread that cannot move while the stop flag is clear: it waits for a task
(Pool.h 135-159), for its turn at the Order Gate (Pool.h 161-165) or for the Decode
Gate entry of its stream (Pool.h 176-183), and the predicate of the wait is false. -/
def Worker.blocked (p : Pool) (w : Worker) : Prop :=
  (w.pc = .waitForTask ∧
      (inputPredicate false p.input_queue w.inputIndex w.frameNr 0).1 = false) ∨
    (w.pc = .orderWait ∧ vecGet p.demux_array w.inputIndex ≠ some w.frameNr) ∨
    (w.pc = .renderGate ∧ w.useForRendering = true ∧
      vecGet p.memcpy_array w.inputIndex ≠ some true)

/-- The invariant of the application: the invariants of the pool, and `Inv2`. -/
structure InvA (a : App) : Prop where
  inv0 : Inv0 a.config a.ghost
  inv1 : Inv1 a.config a.ghost
  inv2 : Inv2 a

/-- The driver seeds frame 0 of one camera as wanted, and thread 0 runs the task
`(0, 0, true)` to its end and comes back to wait for a task: the queue then holds
only `(1, 0, true)`, the partner of the task thread 0 has just finished. -/
def tracePartnerOnly : List AppLabel :=
  .driver [0] :: List.replicate 11 (.thread 0 exampleExtern)

/-! ## The statements of `copyFromGPUToOpenGLTexture` -/

/-- `NvDecoder::HandlePictureDisplay` (NvDecoder.cpp 341-388): the value returned, and
whether the copy of the frame to the texture ran.  A negative picture index returns
`-1` before any call into CUDA (NvDecoder.cpp 342-344).  Otherwise the function maps
the frame, copies it and returns `1`, unless one of its calls does not come back:
`exit(-1)` on a decode error (NvDecoder.cpp 353-358), or the exception
`CUDA_DRVAPI_CALL` throws.  `completes` says whether every call comes back; `none`
means that the function does not return. -/
def NvDecoder.HandlePictureDisplay (decoded_picture_index : Int) (completes : Bool) :
    Option (Int × Bool) :=
  if decoded_picture_index < 0 then some (-1, false)
  else if completes then some (1, true) else none

/-- The statement `decoders[inputIndex]->HandlePictureDisplay(decoded_picture_index)`
(Pool.h 117 and 118): what the call returns, and the pool after it.  The value
returned is dropped by the caller. -/
def Pool.display (p : Pool) (inputIndex decoded_picture_index : Int) (completes : Bool) :
    Option ((Int × Bool) × Pool) :=
  match vecGet p.picture_index inputIndex with
  | none => none
  | some _ =>
    match NvDecoder.HandlePictureDisplay decoded_picture_index completes with
    | none => none
    | some r =>
      some (r, { p with displayed := p.displayed ++ [(inputIndex, decoded_picture_index)] })

/-- The statement `memcpy_array[inputIndex] = true` (Pool.h 122 and 123). -/
def Pool.reopen (p : Pool) (inputIndex : Int) : Option Pool :=
  match vecGet p.memcpy_array inputIndex with
  | none => none
  | some _ => some { p with memcpy_array := vecSet p.memcpy_array inputIndex true }

/-- The body of `Pool::copyFromGPUToOpenGLTexture` statement by statement (Pool.h 117,
118, 122, 123): the pool after each of the four statements, and what the two calls of
`HandlePictureDisplay` returned.  `none`: one of the statements does not complete. -/
def Pool.copyStatements (p : Pool) (inputIndex0 decoded_picture_index0 inputIndex1
    decoded_picture_index1 : Int) (completes0 completes1 : Bool) :
    Option (List Pool × (Int × Bool) × (Int × Bool)) :=
  match p.display inputIndex0 decoded_picture_index0 completes0 with
  | none => none
  | some (r0, p1) =>
    match p1.display inputIndex1 decoded_picture_index1 completes1 with
    | none => none
    | some (r1, p2) =>
      match p2.reopen inputIndex0 with
      | none => none
      | some p3 =>
        match p3.reopen inputIndex1 with
        | none => none
        | some p4 => some ([p1, p2, p3, p4], r0, r1)

/-- The member `nrThreads` of `Options` after the command line is parsed (main.cpp 48
and 214-223): `t` is the value of option `-t` when the command line has it.  `none`:
the parser has called `exit(-1)`.  `Application::SetupDecodingPool` passes the value
to `Pool::init` (Application.h 631). -/
def Options.nrThreads (t : Option Int) : Option Int :=
  match t with
  | none => some 2
  | some n => if n < 2 then none else some n

/-! ## Sleeping and waking

`condition_variable_any::wait(lock, pred)` evaluates `pred` first: when it is true
the thread goes on, and when it is false the thread sleeps until a `notify_all` of the
same condition variable, after which it evaluates `pred` again.  `step` abstracts
from the notifications: a thread in a wait moves as soon as its predicate is true.
`Sched.step` keeps them: a thread that found its predicate false sleeps, and moves
again only after a `notify_all` of its condition variable (no spurious wake-up is
assumed). -/

/-- The four condition variables of `Pool` (Pool.h 30-33). -/
inductive Condition
  | input_condition
  | output_condition
  | memcpy_condition
  | demux_condition
deriving DecidableEq, Repr

/-- The condition variable of the wait a thread is in (Pool.h 136, 163, 179). -/
def Worker.waitsOn (w : Worker) : Option Condition :=
  match w.pc with
  | .waitForTask => some .input_condition
  | .orderWait => some .demux_condition
  | .renderGate => if w.useForRendering then some .memcpy_condition else none
  | _ => none

/-- The value of the predicate of the wait a thread is in (Pool.h 136-148, 163, 179).
`none`: the thread is not in a wait, or the predicate indexes a vector out of
range. -/
def Pool.waitPredicate (p : Pool) (w : Worker) : Option Bool :=
  match w.pc with
  | .waitForTask =>
    some (inputPredicate p.terminate_pool p.input_queue w.inputIndex w.frameNr 0).1
  | .orderWait =>
    (vecGet p.demux_array w.inputIndex).map fun d => decide (d = w.frameNr) || p.terminate_pool
  | .renderGate =>
    if w.useForRendering then
      (vecGet p.memcpy_array w.inputIndex).map fun free => free || p.terminate_pool
    else none
  | _ => none

/-- The condition variables on which a step of a thread that was in state `w` calls
`notify_all`: `input_condition` after the wait for a task (Pool.h 151, 159),
`demux_condition` after the Order Gate wait (Pool.h 165) and after the increment
(Pool.h 199), `memcpy_condition` after the Decode Gate wait (Pool.h 182) and
`output_condition` after the publication (Pool.h 208). -/
def Worker.notifies (w : Worker) : List Condition :=
  match w.pc with
  | .waitForTask => [.input_condition]
  | .orderWait => [.demux_condition]
  | .renderGate => if w.useForRendering then [.memcpy_condition] else []
  | .increment => [.demux_condition]
  | .publish => if w.useForRendering then [.output_condition] else []
  | _ => []

/-- The condition variables on which a call of the driver calls `notify_all`
(Pool.h 71, 80, 112, 125, 216-218). -/
def Label.notifies : Label → List Condition
  | .thread _ _ => []
  | .startDemuxingFirstFrames _ => [.input_condition]
  | .startDemuxingNextFrame _ _ _ => [.input_condition]
  | .waitUntilInputFrameIsDecoded _ => [.output_condition]
  | .copyFromGPUToOpenGLTexture => [.memcpy_condition]
  | .cleanup => [.input_condition, .memcpy_condition, .output_condition]

/-- The state of the scheduler with, for each thread of `Pool::pool`, whether it
sleeps in the wait of its place. -/
structure Sched where
  config : Config
  asleep : List Bool
deriving DecidableEq, Repr

/-- The pool after `init` and `startThreadPool`: no thread sleeps. -/
def Sched.init (nrImages : Int) (demuxers : Nat) (decoders : List Int) (nrThreads : Int) :
    Sched :=
  { config := Config.init nrImages demuxers decoders nrThreads
    asleep := List.replicate nrThreads.toNat false }

/-- The threads still asleep after `notify_all` on the condition variables `cs`. -/
def wake (cs : List Condition) (threads : List Worker) (asleep : List Bool) : List Bool :=
  List.zipWith (fun w a => a && !(cs.any fun c => decide (w.waitsOn = some c))) threads asleep

/-- One atomic step with sleeping threads.  A thread that sleeps cannot move.  A
thread that is awake in a wait evaluates the predicate: when it is false the thread
falls asleep, and otherwise the thread takes its step of `update_loop`.  Every step
wakes the threads that sleep on the condition variables it notifies. -/
def Sched.step (s : Sched) : Label → Option Sched
  | .thread i x =>
    match s.config.threads[i]?, s.asleep[i]? with
    | some w, some false =>
      match s.config.pool.waitPredicate w with
      | some false => some { s with asleep := s.asleep.set i true }
      | _ =>
        match OpenDibr.step s.config (.thread i x) with
        | none => none
        | some c2 => some { config := c2, asleep := wake w.notifies c2.threads s.asleep }
    | _, _ => none
  | l =>
    match OpenDibr.step s.config l with
    | none => none
    | some c2 => some { config := c2, asleep := wake l.notifies c2.threads s.asleep }

/-- The execution of the steps `tr` from `s`, `none` when one of the steps is not
possible. -/
def Sched.run : Sched → List Label → Option Sched
  | s, [] => some s
  | s, l :: tr =>
    match s.step l with
    | none => none
    | some s2 => Sched.run s2 tr

/-- The driver pushes the frames 0 and 1 of one camera as not wanted.  Thread 0 takes
`(0, 0, false)` and passes the Order Gate wait.  Thread 1 runs `(1, 0, false)` to its
end, takes `(0, 1, false)`, finds in the Order Gate wait that its turn has not come,
and falls asleep. -/
def traceOrderSleeper : List Label :=
  [.startDemuxingFirstFrames [], .startDemuxingNextFrame 0 1 false] ++
    List.replicate 4 (.thread 0 exampleExtern) ++ List.replicate 13 (.thread 1 exampleExtern)

/-- After `traceOrderSleeper` the driver calls `cleanup`, and thread 0, which was about
to fetch, goes on to the test of the stop flag at Pool.h 184 and leaves the loop. -/
def traceShutdown : List Label :=
  traceOrderSleeper ++ [.cleanup] ++ List.replicate 3 (.thread 0 exampleExtern)

/-! ## Counting the increments -/

/-- The number of tasks of stream `s` for which `demux_array[inputIndex]++` has run
(Pool.h 194-199). -/
def Ghost.increments (g : Ghost) (s : Int) : Int :=
  ((g.incremented.filter fun t => decide (t.1 = s)).length : Int)

/-- The steps `(thread, answers)` of `t` as labels. -/
def threadSteps (t : List (Nat × Extern)) : List Label :=
  t.map fun ix => .thread ix.1 ix.2

/-- What the calls of the driver write of a state and its history, and no step of a
thread changes: the tasks pushed, the pairs consumed, the tuple the driver holds with
the frames of its entries, and the number of cameras. -/
def driverView (cg : Config × Ghost) :
    List Task × List (Int × Int) × Option (Int × Int × Int × Int) × (Int × Int) × Int :=
  (cg.2.enqueued, cg.2.consumed, cg.1.tuple, cg.2.tupleFrames, cg.1.pool.nrImages)

/-- The invariants of a state and its history that every step keeps. -/
def Good (cg : Config × Ghost) : Prop :=
  Inv0 cg.1 cg.2 ∧ InvG cg.1 cg.2 ∧ ((cg.2.enqueued.map Task.key).Nodup → Inv1 cg.1 cg.2)

/-- The calls of the driver in an execution, in their order: the steps that are not
steps of a thread. -/
def driverCalls (tr : List Label) : List Label :=
  tr.filter fun l =>
    match l with
    | .thread _ _ => false
    | _ => true

/-- The calls of the driver in the scenario with one camera: frame 0 is seeded as
wanted, frame 1 is pushed as wanted, and the driver twice takes the pair of the camera
and then consumes it.  The seeding comes first; frame 1 is pushed at a point at which
the driver holds no tuple: before the first take, after the first copy, or after the
second copy. -/
def scenarioCalls : List (List Label) :=
  [[.startDemuxingFirstFrames [0], .startDemuxingNextFrame 0 1 true,
      .waitUntilInputFrameIsDecoded 0, .copyFromGPUToOpenGLTexture,
      .waitUntilInputFrameIsDecoded 0, .copyFromGPUToOpenGLTexture],
    [.startDemuxingFirstFrames [0],
      .waitUntilInputFrameIsDecoded 0, .copyFromGPUToOpenGLTexture,
      .startDemuxingNextFrame 0 1 true,
      .waitUntilInputFrameIsDecoded 0, .copyFromGPUToOpenGLTexture],
    [.startDemuxingFirstFrames [0],
      .waitUntilInputFrameIsDecoded 0, .copyFromGPUToOpenGLTexture,
      .waitUntilInputFrameIsDecoded 0, .copyFromGPUToOpenGLTexture,
      .startDemuxingNextFrame 0 1 true]]

/-- An execution of the scenario in the order of the application: the seeding, the
two threads run frame 0, the driver takes and consumes it and pushes frame 1, the
threads run frame 1, the driver takes and consumes it. -/
def traceTwoFrames : List Label :=
  .startDemuxingFirstFrames [0] ::
    (List.replicate 10 (.thread 0 exampleExtern) ++ List.replicate 10 (.thread 1 exampleExtern) ++
      [.waitUntilInputFrameIsDecoded 0, .copyFromGPUToOpenGLTexture,
        .startDemuxingNextFrame 0 1 true] ++
      List.replicate 10 (.thread 0 exampleExtern) ++ List.replicate 10 (.thread 1 exampleExtern) ++
      [.waitUntilInputFrameIsDecoded 0, .copyFromGPUToOpenGLTexture])

/-- After `traceToDemux` thread 1 takes the task `(1, 0, true)` and passes the Order
Gate wait: both threads are about to fetch, each for its stream. -/
def traceBothFetch : List Label :=
  traceToDemux ++ List.replicate 4 (.thread 1 exampleExtern)

/-! ## The tasks taken -/

/-- The task a thread takes from `input_queue` in a step from state `w` to state
`w2`: the step from the wait for a task to the Order Gate wait is the dequeue
(Pool.h 154-157), and no other step takes a task. -/
def Worker.took (w w2 : Worker) : List Task :=
  match w.pc, w2.pc with
  | .waitForTask, .orderWait => [w2.task]
  | _, _ => []

/-- The task taken from `input_queue` by the step `l` in state `c`. -/
def taken (c : Config) : Label → List Task
  | .thread i x =>
    match c.threads[i]? with
    | none => []
    | some w =>
      match c.pool.update_loop w x with
      | none => []
      | some (_, w2) => w.took w2
  | _ => []

/-- The tasks the threads take in the execution of the steps `tr` from state `c`, in
the order they are taken. -/
def takenFrom (c : Config) : List Label → List Task
  | [] => []
  | l :: tr =>
    match step c l with
    | none => []
    | some c2 => taken c l ++ takenFrom c2 tr

/-! ## The last task of a thread -/

/-- A thread that is between two tasks (at the head of the loop or in the wait for a
task) or about to publish has run the increment for the task its locals name, unless
it has not taken a task yet. -/
def LastDone (c : Config) (g : Ghost) : Prop :=
  ∀ (i : Nat) (w : Worker), c.threads[i]? = some w →
    w.pc = .loopHead ∨ w.pc = .waitForTask ∨ w.pc = .publish →
    w.key = (-2, -1) ∨ w.task ∈ g.incremented

/-- Two cameras, two threads.  The driver seeds frame 0 of both cameras; thread 0
takes `(0, 0, true)`; thread 1 takes `(1, 0, true)`, runs it to its end and comes back
to the wait for a task, where the front of the queue is `(2, 0, true)`. -/
def traceSkipColor : List Label :=
  [.startDemuxingFirstFrames [0, 1], .thread 0 exampleExtern, .thread 0 exampleExtern] ++
    List.replicate 11 (.thread 1 exampleExtern)

/-! ## The visibility helper

`CameraVisibilityHelper` (CameraVisibilityHelper.h 62-263) decides which cameras the
driver uses.  A `std::unordered_set<int>` is the list of its elements, without
repetition, in the order they were inserted; the floating point heuristics are
values of an arbitrary type `H` with the two tests the code makes on them, and the
vector a `std::sort` or `std::stable_sort` call leaves is an argument. -/

/-- The value of an `int` converted to `size_t` (64 bits), as in the comparisons of
`inputCameras.size()` and `inputsToUse.size()` with `maxNrInputsUsed`. -/
def toSize (m : Int) : Nat :=
  (m % 2 ^ 64).toNat

/-- `std::unordered_set<int>::insert`. -/
def setInsert (s : List Int) (k : Int) : List Int :=
  if k ∈ s then s else s ++ [k]

/-- The indices `0`, ..., `n - 1`. -/
def cameraIndices (n : Nat) : List Int :=
  (List.range n).map Int.ofNat

/-- The members of `CameraVisibilityHelper` the choice depends on; `nrCameras` is
`inputCameras.size()`. -/
structure CameraVisibilityHelper where
  nrCameras : Nat
  maxNrInputsUsed : Int
  inputsToUse : List Int
deriving DecidableEq, Repr

/-- `CameraVisibilityHelper::init` (CameraVisibilityHelper.h 73-89). -/
def CameraVisibilityHelper.init (nrCameras : Nat) (maxNrInputsUsed : Int) :
    CameraVisibilityHelper :=
  { nrCameras := nrCameras
    maxNrInputsUsed := maxNrInputsUsed
    inputsToUse :=
      if nrCameras ≤ toSize maxNrInputsUsed then (cameraIndices nrCameras).foldl setInsert []
      else [] }

/-- The loop over `anglesToForwardPoint` for one corner (CameraVisibilityHelper.h
217-228), over the cameras not yet visited, with the current `best_heuristic` and
`best_index`: the camera at which the loop breaks, if it does, and the final
`best_index`.  `isOne h` is the test `heuristic == 1` and `exceeds h best` the test
`heuristic > best_heuristic + 0.0001f`. -/
def scanCorner {H : Type} (isOne : H → Bool) (exceeds : H → H → Bool) (heuristic : Int → H) :
    List Int → H → Int → Option Int × Int
  | [], _, best_index => (none, best_index)
  | k :: rest, best_heuristic, best_index =>
    if isOne (heuristic k) then (some k, best_index)
    else if exceeds (heuristic k) best_heuristic then
      scanCorner isOne exceeds heuristic rest (heuristic k) k
    else scanCorner isOne exceeds heuristic rest best_heuristic best_index

/-- The body of the loop over the corners up to its test of the size
(CameraVisibilityHelper.h 213-234): `inputsToUse` after it. -/
def cornerStep {H : Type} (isOne : H → Bool) (exceeds : H → H → Bool) (zero : H)
    (heuristic : Int → H) (sorted : List Int) (inputsToUse : List Int) : List Int :=
  match scanCorner isOne exceeds heuristic sorted zero (-1) with
  | (some k, _) => setInsert inputsToUse k
  | (none, best_index) =>
    if best_index ≠ -1 then setInsert inputsToUse best_index else inputsToUse

/-- The loop over the corners (CameraVisibilityHelper.h 212-238), for the corners not
yet visited. -/
def cornerLoop {H : Type} (isOne : H → Bool) (exceeds : H → H → Bool) (zero : H)
    (heuristic : Nat → Int → H) (sorted : List Int) (maxNrInputsUsed : Int) :
    List Nat → List Int → List Int
  | [], inputsToUse => inputsToUse
  | i :: rest, inputsToUse =>
    if (cornerStep isOne exceeds zero (heuristic i) sorted inputsToUse).length =
        toSize maxNrInputsUsed then
      cornerStep isOne exceeds zero (heuristic i) sorted inputsToUse
    else
      cornerLoop isOne exceeds zero heuristic sorted maxNrInputsUsed rest
        (cornerStep isOne exceeds zero (heuristic i) sorted inputsToUse)

/-- The loop `while (inputsToUse.size() < maxNrInputsUsed)` of
CameraVisibilityHelper.h 242-247, over the entries of `anglesToForwardPoint` from
position `i` on.  `none`: the loop reads `anglesToForwardPoint[i]` past the end. -/
def fillUp (maxNrInputsUsed : Int) : List Int → List Int → Option (List Int)
  | [], inputsToUse =>
    if inputsToUse.length < toSize maxNrInputsUsed then none else some inputsToUse
  | k :: rest, inputsToUse =>
    if inputsToUse.length < toSize maxNrInputsUsed then
      fillUp maxNrInputsUsed rest (setInsert inputsToUse k)
    else some inputsToUse

/-- `updateInputsToUseByViewingAngles` (CameraVisibilityHelper.h 183-248): the set
`inputsToUse` it leaves.  `sorted` lists the camera indices of `anglesToForwardPoint`
after the `std::stable_sort`; `heuristic i k` is what `inputCameraSeesPoint` returns
for corner `i` and camera `k`, and `zero` is `0.0f`.  The corners are the entries 1 to
4 of `pointsThatShouldBeSeen`, which `init` has filled with five points. -/
def updateInputsToUseByViewingAngles {H : Type} (isOne : H → Bool) (exceeds : H → H → Bool)
    (zero : H) (heuristic : Nat → Int → H) (sorted : List Int) (maxNrInputsUsed : Int) :
    Option (List Int) :=
  fillUp maxNrInputsUsed sorted
    (cornerLoop isOne exceeds zero heuristic sorted maxNrInputsUsed [1, 2, 3, 4] [])

/-- The loop `for (int i = 0; i < maxNrInputsUsed; i++)` of
CameraVisibilityHelper.h 259-261 with `n` iterations to go, over the entries of
`indices` from position `i` on.  `none`: the loop reads `indices[i]` past the end. -/
def insertFirst : Nat → List Int → List Int → Option (List Int)
  | 0, _, inputsToUse => some inputsToUse
  | _ + 1, [], _ => none
  | n + 1, k :: rest, inputsToUse => insertFirst n rest (setInsert inputsToUse k)

/-- `updateInputsToUseByDistance` (CameraVisibilityHelper.h 250-262): the set
`inputsToUse` it leaves.  `sorted` is the vector `indices` after the `std::sort`. -/
def updateInputsToUseByDistance (sorted : List Int) (maxNrInputsUsed : Int) :
    Option (List Int) :=
  insertFirst maxNrInputsUsed.toNat sorted []

/-- `CameraVisibilityHelper::updateInputsToUse` (CameraVisibilityHelper.h 91-103): the
helper after the call, whose member `inputsToUse` is the set returned.  `byDistance`
is the test of CameraVisibilityHelper.h 95 on the projection of the first camera. -/
def CameraVisibilityHelper.updateInputsToUse {H : Type} (h : CameraVisibilityHelper)
    (byDistance : Bool) (sorted : List Int) (isOne : H → Bool) (exceeds : H → H → Bool)
    (zero : H) (heuristic : Nat → Int → H) : Option CameraVisibilityHelper :=
  if h.nrCameras ≤ toSize h.maxNrInputsUsed then some h
  else if byDistance then
    (updateInputsToUseByDistance sorted h.maxNrInputsUsed).map fun s =>
      { h with inputsToUse := s }
  else
    (updateInputsToUseByViewingAngles isOne exceeds zero heuristic sorted
      h.maxNrInputsUsed).map fun s => { h with inputsToUse := s }

/-! ## The demuxer -/

/-- What `FFmpegDemuxer::Demux` (FFmpegDemuxer.h 210-279) reads from the demuxer and
gets from libavformat during one call.  `readFirst` is the value of `e` when the loop
of FFmpegDemuxer.h 221-223 ends and `readAgain` its value when the loop after the
rewind ends (FFmpegDemuxer.h 229-231); `eof` is the constant `AVERROR_EOF`. -/
structure DemuxCall where
  fmtc : Bool
  eof : Int
  readFirst : Int
  readAgain : Int
  bMp4H264 : Bool
  bMp4HEVC : Bool
  bMp4MPEG4 : Bool
  frameCount : Nat
  pktSize : Int
  pktFilteredSize : Int
  extraDataSize : Int
  mallocOk : Bool
deriving DecidableEq, Repr

/-- The value of an `int` expression computed in `size_t` and stored in an `int`
(FFmpegDemuxer.h 264). -/
def toInt32 (n : Int) : Int :=
  (n + 2 ^ 31) % 2 ^ 32 - 2 ^ 31

/-- `FFmpegDemuxer::Demux` (FFmpegDemuxer.h 210-279): the value returned and the
value of `*pnVideoBytes` after the call, from the value `nVideoBytes` it has before
the call.  The values the calls under `ck` return are dropped by the code. -/
def FFmpegDemuxer.Demux (d : DemuxCall) (nVideoBytes : Int) : Bool × Int :=
  if !d.fmtc then (false, nVideoBytes)
  else if d.readFirst < 0 ∧ (if d.readFirst = d.eof then d.readAgain else d.readFirst) < 0 then
    (false, 0)
  else if d.bMp4H264 || d.bMp4HEVC then (true, d.pktFilteredSize)
  else if d.bMp4MPEG4 && decide (d.frameCount = 0) then
    if d.extraDataSize > 0 then
      if !d.mallocOk then (false, 0)
      else (true, toInt32 (d.extraDataSize + d.pktSize - 3))
    else (true, 0)
  else (true, d.pktSize)

/-- The answers of the collaborators of a thread when the demuxer is an
`FFmpegDemuxer`: `Pool::demux` passes a byte count initialised to 0 (Pool.h 170). -/
def Extern.ofDemux (d : DemuxCall) (picture_index : Int) : Extern :=
  { demuxOk := (FFmpegDemuxer.Demux d 0).1
    nVideoBytes := (FFmpegDemuxer.Demux d 0).2
    picture_index := picture_index }

/-! ## A fetch that fails -/

/-- A call of `Demux` in which `av_read_frame` fails with the I/O error `AVERROR(EIO)`
(`-5`), which is not `AVERROR_EOF`: the unrecoverable failure of the fetch. -/
def failedRead : DemuxCall :=
  { fmtc := true, eof := -541478725, readFirst := -5, readAgain := 0, bMp4H264 := true,
    bMp4HEVC := false, bMp4MPEG4 := false, frameCount := 7, pktSize := 0,
    pktFilteredSize := 0, extraDataSize := 0, mallocOk := true }

/-- A call of `Demux` that reads a packet of 10 bytes of an H.264 stream. -/
def goodRead : DemuxCall :=
  { fmtc := true, eof := -541478725, readFirst := 0, readAgain := 0, bMp4H264 := true,
    bMp4HEVC := false, bMp4MPEG4 := false, frameCount := 7, pktSize := 10,
    pktFilteredSize := 10, extraDataSize := 0, mallocOk := true }

/-- The driver seeds frame 0 of one camera as wanted; thread 0 takes `(0, 0, true)`
and its fetch fails with a read error; the thread goes on to the end of the loop body.
Thread 1 then runs `(1, 0, true)`.  Every answer of a demuxer in the trace is one
`FFmpegDemuxer::Demux` gives: `exampleExtern` is the answer of `goodRead`. -/
def traceReadFails : List Label :=
  traceToDemux ++ [.thread 0 (Extern.ofDemux failedRead 3)] ++
    List.replicate 5 (.thread 0 exampleExtern) ++ List.replicate 10 (.thread 1 exampleExtern)

/-- Every answer of a demuxer in the execution `tr` is one `FFmpegDemuxer::Demux`
gives to `Pool::demux`, which passes a byte count of 0. -/
def fromDemuxer (tr : List Label) : Prop :=
  ∀ (i : Nat) (x : Extern), Label.thread i x ∈ tr →
    ∃ (d : DemuxCall) (picture_index : Int), x = Extern.ofDemux d picture_index

/-! ## One call of `RenderTarget` -/

/-- The steps of the driver from state `d` up to its return from `RenderTarget`
(from `SetupDecodingPool`, when `d` is there): the calls into the pool it makes, in
their order, and the driver after the return.  `fuel` bounds the number of steps. -/
def Driver.runCall (nrCameras : Int) (answer : List Int) : Nat → Driver → List Label × Driver
  | 0, d => ([], d)
  | fuel + 1, d =>
    if (d.advance nrCameras answer).pc = .frameStart then
      ((d.call nrCameras).toList, d.advance nrCameras answer)
    else
      ((d.call nrCameras).toList ++
          (Driver.runCall nrCameras answer fuel (d.advance nrCameras answer)).1,
        (Driver.runCall nrCameras answer fuel (d.advance nrCameras answer)).2)

/-- The calls of one iteration of the loop of `RenderTarget` for camera `i`
(Application.h 661-679): the push of the next frame, and for a camera in use the wait
for its pair and the consume. -/
def cameraCalls (frame : Int) (next current : List Int) (i : Int) : List Label :=
  .startDemuxingNextFrame i (frame + 1) (decide (i ∈ next)) ::
    (if i ∈ current then [.waitUntilInputFrameIsDecoded i, .copyFromGPUToOpenGLTexture]
     else [])

/-! ## Theorems -/

theorem perm_cons_eraseIdx {α : Type} : ∀ (l : List α) (k : Nat) (a : α),
    l[k]? = some a → List.Perm l (a :: l.eraseIdx k)
  | [], k, a, h => by simp at h
  | b :: l, 0, a, h => by
    simp at h
    subst h
    simp
  | b :: l, k + 1, a, h => by
    simp at h
    have ih := perm_cons_eraseIdx l k a h
    simp only [List.eraseIdx_cons_succ]
    exact (List.Perm.cons b ih).trans (List.Perm.swap a b _)

theorem outputVisit_cases (c : Int) (e : Completion) (i : Nat) (st : Bool × Bool × Nat × Nat) :
    (e.1 = 2 * c ∧ outputVisit c e i st = (true, st.2.1, i, st.2.2.2)) ∨
    (e.1 ≠ 2 * c ∧ e.1 = 2 * c + 1 ∧ outputVisit c e i st = (st.1, true, st.2.2.1, i)) ∨
    (e.1 ≠ 2 * c ∧ e.1 ≠ 2 * c + 1 ∧ outputVisit c e i st = st) := by
  unfold outputVisit
  by_cases h0 : e.1 = 2 * c
  · left; simp [h0]
  · by_cases h1 : e.1 = 2 * c + 1
    · right; left; simp [h0, h1]
    · right; right; simp [h0, h1]

theorem outputScan_true_iff (c : Int) : ∀ (l : List Completion) (i : Nat)
    (st : Bool × Bool × Nat × Nat), ¬ (st.1 = true ∧ st.2.1 = true) →
    ((outputScan c l i st).1 = true ↔
      (st.1 = true ∨ ∃ e ∈ l, e.1 = 2 * c) ∧ (st.2.1 = true ∨ ∃ e ∈ l, e.1 = 2 * c + 1))
  | [], i, st, hst => by
    simp [outputScan]
    intro h1
    by_contra h2
    simp only [Bool.not_eq_false] at h2
    exact hst ⟨h1, h2⟩
  | e :: rest, i, st, hst => by
    obtain ⟨fc, fd, i0, i1⟩ := st
    simp only at hst
    unfold outputScan
    rcases outputVisit_cases c e i (fc, fd, i0, i1) with ⟨h0, hv⟩ | ⟨h0, h1, hv⟩ | ⟨h0, h1, hv⟩
    · rw [hv]
      have hne : e.1 ≠ 2 * c + 1 := by omega
      by_cases hfd : fd = true
      · subst hfd
        simp [h0]
      · have ih := outputScan_true_iff c rest (i + 1) (true, fd, i, i1) (by simp [hfd])
        simp only [Bool.not_eq_true] at hfd
        subst hfd
        simp only [Bool.and_false, Bool.false_eq_true, if_false]
        rw [ih]
        simp [h0, hne]
    · rw [hv]
      by_cases hfc : fc = true
      · subst hfc
        simp [h1]
      · have ih := outputScan_true_iff c rest (i + 1) (fc, true, i0, i) (by simp [hfc])
        simp only [Bool.not_eq_true] at hfc
        subst hfc
        simp only [Bool.false_and, Bool.false_eq_true, if_false]
        rw [ih]
        simp [h0, h1]
    · rw [hv]
      have ih := outputScan_true_iff c rest (i + 1) (fc, fd, i0, i1) hst
      have hb : (fc && fd) = false := by
        cases fc <;> cases fd <;> simp_all
      simp only [hb, Bool.false_eq_true, if_false]
      rw [ih]
      simp [h0, h1]

theorem outputScan_sound (c : Int) (full : List Completion) : ∀ (l pre : List Completion)
    (st : Bool × Bool × Nat × Nat), full = pre ++ l →
    (st.1 = true → ∃ e, full[st.2.2.1]? = some e ∧ e.1 = 2 * c) →
    (st.2.1 = true → ∃ e, full[st.2.2.2]? = some e ∧ e.1 = 2 * c + 1) →
    (outputScan c l pre.length st).1 = true →
    (∃ e, full[(outputScan c l pre.length st).2.1]? = some e ∧ e.1 = 2 * c) ∧
    (∃ e, full[(outputScan c l pre.length st).2.2]? = some e ∧ e.1 = 2 * c + 1)
  | [], pre, st, _, _, _, h => by simp [outputScan] at h
  | e :: rest, pre, st, hfull, hc, hd, h => by
    obtain ⟨fc, fd, i0, i1⟩ := st
    simp only at hc hd
    have he : full[pre.length]? = some e := by
      rw [hfull, List.getElem?_append_right (Nat.le_refl _)]; simp
    have hfull2 : full = (pre ++ [e]) ++ rest := by simp [hfull]
    have hlen : (pre ++ [e]).length = pre.length + 1 := by simp
    unfold outputScan at h ⊢
    rcases outputVisit_cases c e pre.length (fc, fd, i0, i1) with
      ⟨h0, hv⟩ | ⟨h0, h1, hv⟩ | ⟨h0, h1, hv⟩
    · rw [hv] at h ⊢
      by_cases hfd : fd = true
      · subst hfd
        simp only [Bool.and_self, if_true]
        exact ⟨⟨e, he, h0⟩, hd rfl⟩
      · simp only [Bool.not_eq_true] at hfd
        subst hfd
        simp only [Bool.and_false, Bool.false_eq_true, if_false] at h ⊢
        have ih := outputScan_sound c full rest (pre ++ [e]) (true, false, pre.length, i1)
          hfull2 (fun _ => ⟨e, he, h0⟩) (by simp)
        rw [hlen] at ih
        exact ih h
    · rw [hv] at h ⊢
      by_cases hfc : fc = true
      · subst hfc
        simp only [Bool.and_self, if_true]
        exact ⟨hc rfl, ⟨e, he, h1⟩⟩
      · simp only [Bool.not_eq_true] at hfc
        subst hfc
        simp only [Bool.false_and, Bool.false_eq_true, if_false] at h ⊢
        have ih := outputScan_sound c full rest (pre ++ [e]) (false, true, i0, pre.length)
          hfull2 (by simp) (fun _ => ⟨e, he, h1⟩)
        rw [hlen] at ih
        exact ih h
    · rw [hv] at h ⊢
      by_cases hb : (fc && fd) = true
      · simp only [hb, if_true]
        simp only [Bool.and_eq_true] at hb
        exact ⟨hc hb.1, hd hb.2⟩
      · simp only [hb, if_false] at h ⊢
        have ih := outputScan_sound c full rest (pre ++ [e]) (fc, fd, i0, i1)
          hfull2 hc hd
        rw [hlen] at ih
        exact ih h

theorem erase_two {α : Type} (l : List α) (m M : Nat) (x y : α) (hlt : m < M)
    (hm : l[m]? = some x) (hM : l[M]? = some y) :
    ((l.eraseIdx M).eraseIdx m).length + 2 = l.length ∧
    List.Sublist ((l.eraseIdx M).eraseIdx m) l ∧
    List.Perm l (x :: y :: (l.eraseIdx M).eraseIdx m) := by
  have hMlt : M < l.length := by
    rcases List.getElem?_eq_some_iff.1 hM with ⟨h, _⟩
    exact h
  have hm2 : (l.eraseIdx M)[m]? = some x := by
    rw [List.getElem?_eraseIdx_of_lt l M m hlt]; exact hm
  have hlen1 : (l.eraseIdx M).length = l.length - 1 := List.length_eraseIdx_of_lt hMlt
  have hmlt : m < (l.eraseIdx M).length := by
    rcases List.getElem?_eq_some_iff.1 hm2 with ⟨h, _⟩
    exact h
  have hlen2 : ((l.eraseIdx M).eraseIdx m).length = (l.eraseIdx M).length - 1 :=
    List.length_eraseIdx_of_lt hmlt
  refine ⟨by omega, ?_, ?_⟩
  · exact (List.eraseIdx_sublist _ _).trans (List.eraseIdx_sublist _ _)
  · have p1 := perm_cons_eraseIdx l M y hM
    have p2 := perm_cons_eraseIdx (l.eraseIdx M) m x hm2
    exact (p1.trans (List.Perm.cons y p2)).trans (List.Perm.swap x y _)

theorem waitUntilInputFrameIsDecoded_spec (p : Pool) (c : Int) (index0 index1 : Nat)
    (hcolor : ∃ e ∈ p.output_queue, e.1 = 2 * c)
    (hdepth : ∃ e ∈ p.output_queue, e.1 = 2 * c + 1) :
    ∃ hColor hDepth rest,
      p.waitUntilInputFrameIsDecoded c index0 index1 =
        some ((2 * c, hColor, 2 * c + 1, hDepth), { p with output_queue := rest }) ∧
      (2 * c, hColor) ∈ p.output_queue ∧ (2 * c + 1, hDepth) ∈ p.output_queue ∧
      rest.length + 2 = p.output_queue.length ∧
      List.Sublist rest p.output_queue ∧
      List.Perm p.output_queue ((2 * c, hColor) :: (2 * c + 1, hDepth) :: rest) := by
  have htrue : (outputPredicate p.output_queue c index0 index1).1 = true := by
    unfold outputPredicate
    rw [outputScan_true_iff c p.output_queue 0 (false, false, index0, index1) (by simp)]
    exact ⟨Or.inr hcolor, Or.inr hdepth⟩
  have hsound := outputScan_sound c p.output_queue p.output_queue []
    (false, false, index0, index1) (by simp) (by simp) (by simp)
  simp only [List.length_nil] at hsound
  have hs := hsound htrue
  rcases hr : outputPredicate p.output_queue c index0 index1 with ⟨t, a, b⟩
  unfold outputPredicate at hr htrue
  rw [hr] at hs htrue
  simp only at hs htrue
  subst htrue
  obtain ⟨⟨ea, hea, ha⟩, ⟨eb, heb, hb⟩⟩ := hs
  obtain ⟨sa, ha2⟩ := ea
  obtain ⟨sb, hb2⟩ := eb
  simp only at ha hb
  subst ha hb
  have hab : a ≠ b := by
    intro h
    rw [h, heb] at hea
    simp at hea
  have hmema : (2 * c, ha2) ∈ p.output_queue := List.mem_iff_getElem?.2 ⟨a, hea⟩
  have hmemb : (2 * c + 1, hb2) ∈ p.output_queue := List.mem_iff_getElem?.2 ⟨b, heb⟩
  refine ⟨ha2, hb2, (p.output_queue.eraseIdx (if a > b then a else b)).eraseIdx
    (if a > b then b else a), ?_, hmema, hmemb, ?_⟩
  · unfold Pool.waitUntilInputFrameIsDecoded outputPredicate
    rw [hr]
    simp only [hea, heb]
  · by_cases hgt : a > b
    · simp only [hgt, if_true]
      have h := erase_two p.output_queue b a _ _ hgt heb hea
      exact ⟨h.1, h.2.1, h.2.2.trans (List.Perm.swap _ _ _)⟩
    · simp only [hgt, if_false]
      have hlt : a < b := by omega
      exact erase_two p.output_queue a b _ _ hlt hea heb

/-- C7: when the Completion Set holds an entry for stream `2c` and one for stream
`2c+1`, `waitUntilInputFrameIsDecoded(c)` returns `(2c, hColor, 2c+1, hDepth)` for
two entries `(2c, hColor)` and `(2c+1, hDepth)` of the set, and leaves the set with
exactly these two entries removed: two entries fewer, a sublist of the old set (the
other entries keep their relative order), and together with the two entries a
permutation of the old set.  No other member of the pool changes, and the values the
uninitialised `index0`, `index1` hold on entry do not matter. -/
theorem C7_take_pair (p : Pool) (c : Int) (index0 index1 : Nat)
    (hcolor : ∃ e ∈ p.output_queue, e.1 = 2 * c)
    (hdepth : ∃ e ∈ p.output_queue, e.1 = 2 * c + 1) :
    ∃ hColor hDepth rest,
      p.waitUntilInputFrameIsDecoded c index0 index1 =
        some ((2 * c, hColor, 2 * c + 1, hDepth), { p with output_queue := rest }) ∧
      (2 * c, hColor) ∈ p.output_queue ∧ (2 * c + 1, hDepth) ∈ p.output_queue ∧
      rest.length + 2 = p.output_queue.length ∧
      List.Sublist rest p.output_queue ∧
      List.Perm p.output_queue ((2 * c, hColor) :: (2 * c + 1, hDepth) :: rest) :=
  waitUntilInputFrameIsDecoded_spec p c index0 index1 hcolor hdepth

/-- Witness of C7: camera 1 with the depth entry queued before the color entry. -/
theorem C7_take_pair_witness :
    ∃ hColor hDepth rest,
      ({ Pool.init 2 4 [0, 0, 0, 0] 2 with
          output_queue := [(3, 7), (0, 5), (2, 9)] }).waitUntilInputFrameIsDecoded 1 0 0 =
        some ((2 * 1, hColor, 2 * 1 + 1, hDepth),
          { Pool.init 2 4 [0, 0, 0, 0] 2 with output_queue := rest }) ∧
      (2 * 1, hColor) ∈ [((3 : Int), (7 : Int)), (0, 5), (2, 9)] ∧
      (2 * 1 + 1, hDepth) ∈ [((3 : Int), (7 : Int)), (0, 5), (2, 9)] ∧
      rest.length + 2 = [((3 : Int), (7 : Int)), (0, 5), (2, 9)].length ∧
      List.Sublist rest [((3 : Int), (7 : Int)), (0, 5), (2, 9)] ∧
      List.Perm [((3 : Int), (7 : Int)), (0, 5), (2, 9)]
        ((2 * 1, hColor) :: (2 * 1 + 1, hDepth) :: rest) :=
  C7_take_pair { Pool.init 2 4 [0, 0, 0, 0] 2 with output_queue := [(3, 7), (0, 5), (2, 9)] }
    1 0 0 ⟨(2, 9), by decide, by decide⟩ ⟨(3, 7), by decide, by decide⟩

/-- C8: the predicate of `output_condition.wait` in `waitUntilInputFrameIsDecoded(c)`
is true exactly when `output_queue` holds at least one entry of stream `2c` and at
least one entry of stream `2c+1` (whatever else it holds, in whatever order, and
whatever `index0`, `index1` held on entry), and the call returns exactly then. -/
theorem C8_output_wait_condition (p : Pool) (c : Int) (index0 index1 : Nat) :
    ((outputPredicate p.output_queue c index0 index1).1 = true ↔
      (∃ e ∈ p.output_queue, e.1 = 2 * c) ∧ (∃ e ∈ p.output_queue, e.1 = 2 * c + 1)) ∧
    ((p.waitUntilInputFrameIsDecoded c index0 index1).isSome = true ↔
      (∃ e ∈ p.output_queue, e.1 = 2 * c) ∧ (∃ e ∈ p.output_queue, e.1 = 2 * c + 1)) := by
  have hiff : (outputPredicate p.output_queue c index0 index1).1 = true ↔
      (∃ e ∈ p.output_queue, e.1 = 2 * c) ∧ (∃ e ∈ p.output_queue, e.1 = 2 * c + 1) := by
    unfold outputPredicate
    rw [outputScan_true_iff c p.output_queue 0 (false, false, index0, index1) (by simp)]
    simp
  refine ⟨hiff, ?_, ?_⟩
  · intro h
    apply hiff.1
    unfold Pool.waitUntilInputFrameIsDecoded at h
    rcases hr : outputPredicate p.output_queue c index0 index1 with ⟨t, a, b⟩
    rw [hr] at h
    cases t with
    | false => simp at h
    | true => rfl
  · intro h
    obtain ⟨hC, hD, rest, heq, _⟩ := waitUntilInputFrameIsDecoded_spec p c index0 index1 h.1 h.2
    rw [heq]
    rfl

/-- C1: the selection of `input_condition.wait` with the stop flag clear, for a
thread whose last task was `(inputIndex, frameNr)`.  Empty queue: the predicate is
false, the thread cannot move.  Front entry with frame `frameNr` and stream
`inputIndex + 1`: with that entry alone the predicate is false and the thread cannot
move (the queue stays as it is); with a second entry the predicate sets `index = 1`
and the thread takes the second entry, leaving the front.  Any other front entry:
`index = 0` and the thread takes the front. -/
theorem C1_work_queue_selection (p : Pool) (w : Worker) (x : Extern)
    (hstop : p.terminate_pool = false) (hpc : w.pc = .waitForTask) :
    (p.input_queue = [] →
      inputPredicate false p.input_queue w.inputIndex w.frameNr 0 = (false, 0) ∧
      p.update_loop w x = none) ∧
    (∀ front rest, p.input_queue = front :: rest →
      front.2.1 = w.frameNr → front.1 = w.inputIndex + 1 →
      (rest = [] →
        inputPredicate false p.input_queue w.inputIndex w.frameNr 0 = (false, 0) ∧
        p.update_loop w x = none) ∧
      (∀ second rest2, rest = second :: rest2 →
        inputPredicate false p.input_queue w.inputIndex w.frameNr 0 = (true, 1) ∧
        p.update_loop w x = some ({ p with input_queue := front :: rest2 },
          { w with pc := .orderWait, inputIndex := second.1, frameNr := second.2.1,
                   useForRendering := second.2.2 }))) ∧
    (∀ front rest, p.input_queue = front :: rest →
      ¬ (front.2.1 = w.frameNr ∧ front.1 = w.inputIndex + 1) →
      inputPredicate false p.input_queue w.inputIndex w.frameNr 0 = (true, 0) ∧
      p.update_loop w x = some ({ p with input_queue := rest },
        { w with pc := .orderWait, inputIndex := front.1, frameNr := front.2.1,
                 useForRendering := front.2.2 })) := by
  refine ⟨?_, ?_, ?_⟩
  · intro hq
    simp [Pool.update_loop, hpc, hstop, hq, inputPredicate]
  · intro front rest hq hf hs
    refine ⟨?_, ?_⟩
    · intro hr
      subst hr
      simp [Pool.update_loop, hpc, hstop, hq, inputPredicate, hf, hs]
    · intro second rest2 hr
      subst hr
      simp [Pool.update_loop, hpc, hstop, hq, inputPredicate, hf, hs]
  · intro front rest hq hne
    simp [Pool.update_loop, hpc, hstop, hq, inputPredicate, hne]

/-- Witness of C1: a thread that last handled `(0, 3)` facing the queue
`[(1, 3), (2, 3)]`. -/
theorem C1_work_queue_selection_witness :
    ({ Pool.init 2 4 [0, 0, 0, 0] 2 with
        input_queue := [(1, 3, true), (2, 3, false)] }).update_loop
      { Worker.start with pc := .waitForTask, inputIndex := 0, frameNr := 3 }
      ⟨true, 10, 0⟩ =
    some ({ Pool.init 2 4 [0, 0, 0, 0] 2 with input_queue := [(1, 3, true)] },
      { Worker.start with pc := .orderWait, inputIndex := 2, frameNr := 3,
                          useForRendering := false }) :=
  ((C1_work_queue_selection
    { Pool.init 2 4 [0, 0, 0, 0] 2 with input_queue := [(1, 3, true), (2, 3, false)] }
    { Worker.start with pc := .waitForTask, inputIndex := 0, frameNr := 3 }
    ⟨true, 10, 0⟩ rfl rfl).2.1 (1, 3, true) [(2, 3, false)] rfl rfl rfl).2
    (2, 3, false) [] rfl |>.2

/-! ### The steps of a thread -/

theorem threadStep_of_update_loop (p : Pool) (w : Worker) (x : Extern) (p2 : Pool)
    (w2 : Worker) (h : p.update_loop w x = some (p2, w2)) : ThreadStep p w x p2 w2 := by
  unfold Pool.update_loop at h
  split at h
  · rename_i hpc
    split at h <;> rename_i hf
    · cases h; exact .loopStop hpc hf
    · cases h; exact .loopEnter hpc (by simpa using hf)
  · rename_i hpc
    split at h
    · cases h
    · rename_i index hsel
      split at h <;> rename_i hf
      · cases h; exact .waitStop hpc hf
      · split at h
        · cases h
        · rename_i t ht
          simp only [Bool.not_eq_true] at hf
          rw [hf] at hsel
          cases h; exact .dequeue index t hpc hf hsel ht
  · rename_i hpc
    split at h
    · cases h
    · rename_i d hd
      split at h <;> rename_i hgo
      · cases h; exact .orderPass d hpc hd hgo
      · cases h
  · rename_i hpc
    split at h <;> rename_i hf
    · cases h; exact .orderStop hpc hf
    · cases h; exact .orderGo hpc (by simpa using hf)
  · rename_i hpc
    split at h
    · cases h
    · rename_i d hd
      split at h <;> rename_i hok
      · cases h; exact .demuxOk d hpc hd hok
      · cases h; exact .demuxFail d hpc hd (by simpa using hok)
  · rename_i hpc
    split at h <;> rename_i hw
    · split at h
      · cases h
      · rename_i free hm
        split at h <;> rename_i hgo
        · cases h; exact .claim free hpc hw hm hgo
        · cases h
    · cases h; exact .noClaim hpc (by simpa using hw)
  · rename_i hpc
    split at h <;> rename_i hf
    · cases h; exact .gateStop hpc hf
    · cases h; exact .gateGo hpc (by simpa using hf)
  · rename_i hpc
    split at h <;> rename_i hn
    · split at h
      · cases h
      · rename_i old hd
        cases h; exact .decode old hpc hn hd
    · cases h; exact .noDecode hpc (by simpa using hn)
  · rename_i hpc
    split at h
    · cases h
    · rename_i d hd
      cases h; exact .increment d hpc hd
  · rename_i hpc
    split at h <;> rename_i hw
    · cases h; exact .publish hpc hw
    · cases h; exact .noPublish hpc (by simpa using hw)
  · cases h

theorem update_loop_of_threadStep (p : Pool) (w : Worker) (x : Extern) (p2 : Pool)
    (w2 : Worker) (h : ThreadStep p w x p2 w2) : p.update_loop w x = some (p2, w2) := by
  cases h with
  | loopStop hpc hf => simp [Pool.update_loop, hpc, hf]
  | loopEnter hpc hf => simp [Pool.update_loop, hpc, hf]
  | waitStop hpc hf => simp [Pool.update_loop, hpc, hf, inputPredicate]
  | dequeue index t hpc hf hsel ht => simp [Pool.update_loop, hpc, hf, hsel, ht]
  | orderPass d hpc hd hgo => simp [Pool.update_loop, hpc, hd, hgo]
  | orderStop hpc hf => simp [Pool.update_loop, hpc, hf]
  | orderGo hpc hf => simp [Pool.update_loop, hpc, hf]
  | demuxOk d hpc hd hok => simp [Pool.update_loop, hpc, hd, hok]
  | demuxFail d hpc hd hok => simp [Pool.update_loop, hpc, hd, hok]
  | claim free hpc hw hm hgo => simp [Pool.update_loop, hpc, hw, hm, hgo]
  | noClaim hpc hw => simp [Pool.update_loop, hpc, hw]
  | gateStop hpc hf => simp [Pool.update_loop, hpc, hf]
  | gateGo hpc hf => simp [Pool.update_loop, hpc, hf]
  | decode old hpc hn hd => simp [Pool.update_loop, hpc, hn, hd]
  | noDecode hpc hn => simp [Pool.update_loop, hpc, hn]
  | increment d hpc hd => simp [Pool.update_loop, hpc, hd]
  | publish hpc hw => simp [Pool.update_loop, hpc, hw]
  | noPublish hpc hw => simp [Pool.update_loop, hpc, hw]

theorem threadStep_iff (p : Pool) (w : Worker) (x : Extern) (p2 : Pool) (w2 : Worker) :
    p.update_loop w x = some (p2, w2) ↔ ThreadStep p w x p2 w2 :=
  ⟨threadStep_of_update_loop p w x p2 w2, update_loop_of_threadStep p w x p2 w2⟩

theorem steps_cons (w : Worker) (p : Pool) (x : Extern) (rest : List (Pool × Extern))
    (rs : List (Pool × Worker)) (h : w.steps ((p, x) :: rest) = some rs) :
    ∃ p2 w2 tl, ThreadStep p w x p2 w2 ∧ w2.steps rest = some tl ∧ rs = (p2, w2) :: tl := by
  unfold Worker.steps at h
  split at h
  · cases h
  · rename_i p2 w2 hstep
    split at h
    · cases h
    · rename_i tl htl
      cases h
      exact ⟨p2, w2, tl, threadStep_of_update_loop p w x p2 w2 hstep, htl, rfl⟩

theorem steps_stopped (w : Worker) (a : Pool × Extern) (rest : List (Pool × Extern))
    (rs : List (Pool × Worker)) (hpc : w.pc = .stopped) :
    w.steps (a :: rest) ≠ some rs := by
  intro h
  obtain ⟨p2, w2, tl, hs, _, _⟩ := steps_cons w a.1 a.2 rest rs h
  cases hs <;> simp_all

/-- The eight steps of a thread from the Order Gate wait to the end of the loop body,
each taken in a pool state of its own. -/
theorem task_path (w : Worker) (a0 a1 a2 a3 a4 a5 a6 a7 : Pool × Extern)
    (rs : List (Pool × Worker)) (hpc : w.pc = .orderWait)
    (h : w.steps [a0, a1, a2, a3, a4, a5, a6, a7] = some rs) :
    ∃ d : Int, vecGet a6.1.demux_array w.inputIndex = some d ∧
      Pool.demux a2.2.demuxOk a2.2.nVideoBytes = true ∧
      (a2.2.nVideoBytes ≠ 0 → ∃ old, vecGet a5.1.picture_index w.inputIndex = some old) ∧
      rs =
      [(a0.1, { w with pc := .orderCheck }),
       (a1.1, { w with pc := .demux }),
       (a2.1, { w with pc := .renderGate, nVideoBytes := a2.2.nVideoBytes }),
       (if w.useForRendering then
          { a3.1 with memcpy_array := vecSet a3.1.memcpy_array w.inputIndex false }
        else a3.1,
        { w with pc := .gateCheck, nVideoBytes := a2.2.nVideoBytes }),
       (a4.1, { w with pc := .decode, nVideoBytes := a2.2.nVideoBytes }),
       (if a2.2.nVideoBytes ≠ 0 then
          { a5.1 with
            picture_index := vecSet a5.1.picture_index w.inputIndex a5.2.picture_index }
        else a5.1,
        { w with pc := .increment, nVideoBytes := a2.2.nVideoBytes,
                 decoded_picture_index :=
                   if a2.2.nVideoBytes ≠ 0 then a5.2.picture_index else -1 }),
       ({ a6.1 with demux_array := vecSet a6.1.demux_array w.inputIndex (d + 1) },
        { w with pc := .publish, nVideoBytes := a2.2.nVideoBytes,
                 decoded_picture_index :=
                   if a2.2.nVideoBytes ≠ 0 then a5.2.picture_index else -1 }),
       (if w.useForRendering then
          { a7.1 with
            output_queue := a7.1.output_queue ++
              [(w.inputIndex, if a2.2.nVideoBytes ≠ 0 then a5.2.picture_index else -1)] }
        else a7.1,
        { w with pc := .loopHead, nVideoBytes := a2.2.nVideoBytes,
                 decoded_picture_index :=
                   if a2.2.nVideoBytes ≠ 0 then a5.2.picture_index else -1 })] := by
  obtain ⟨p1, w1, t1, s1, h1, rfl⟩ := steps_cons _ _ _ _ _ h
  clear h
  cases s1 <;> simp_all
  obtain ⟨p2, w2, t2, s2, h2, rfl⟩ := steps_cons _ _ _ _ _ h1
  clear h1
  cases s2 <;> simp_all
  · exact absurd h2 (steps_stopped _ _ _ _ rfl)
  obtain ⟨p3, w3, t3, s3, h3, rfl⟩ := steps_cons _ _ _ _ _ h2
  clear h2
  cases s3 <;> simp_all
  swap
  · exact absurd h3 (steps_stopped _ _ _ _ rfl)
  obtain ⟨p4, w4, t4, s4, h4, rfl⟩ := steps_cons _ _ _ _ _ h3
  clear h3
  cases s4 <;> simp_all
  all_goals
    obtain ⟨p5, w5, t5, s5, h5, rfl⟩ := steps_cons _ _ _ _ _ h4
    clear h4
    cases s5 <;> simp_all
  all_goals first
    | exact absurd h5 (steps_stopped _ _ _ _ rfl)
    | skip
  all_goals
    obtain ⟨p6, w6, t6, s6, h6, rfl⟩ := steps_cons _ _ _ _ _ h5
    clear h5
    cases s6 <;> simp_all
  all_goals
    obtain ⟨p7, w7, t7, s7, h7, rfl⟩ := steps_cons _ _ _ _ _ h6
    clear h6
    cases s7 <;> simp_all
  all_goals
    obtain ⟨p8, w8, t8, s8, h8, rfl⟩ := steps_cons _ _ _ _ _ h7
    clear h7
    cases s8 <;> simp_all
  all_goals
    simp [Worker.steps] at h8
    simp [h8]

theorem vecGet_vecSet_eq {α : Type} (v : List α) (i : Int) (x y : α)
    (h : vecGet v i = some y) : vecGet (vecSet v i x) i = some x := by
  unfold vecGet vecSet at *
  by_cases hi : i < 0
  · simp [hi] at h
  · simp only [hi, if_false] at h ⊢
    rcases List.getElem?_eq_some_iff.1 h with ⟨hlt, _⟩
    simp [List.getElem?_set, hlt]

theorem vecGet_vecSet_ne {α : Type} (v : List α) (i j : Int) (x : α) (h : i ≠ j) :
    vecGet (vecSet v i x) j = vecGet v j := by
  unfold vecGet vecSet
  by_cases hi : i < 0
  · simp [hi]
  · by_cases hj : j < 0
    · simp [hj]
    · have hne : i.toNat ≠ j.toNat := by omega
      simp [hi, hj, List.getElem?_set, hne]

/-- C9: a thread that holds a task wanted for rendering and takes the eight steps from
the Order Gate wait to the end of the loop body, each in the pool state `a_k` the rest
of the system has produced by then.  Seven of its steps leave `output_queue` as they
find it and the last appends exactly the entry `(inputIndex, h)`, where `h` is the
`picture_index` of the decoder after `Decode` when the fetched byte count is not
zero, and `-1` when it is zero.  A byte count of zero never makes `demux` fail, and
with it the decode step leaves the pool, the decoder included, untouched. -/
theorem C9_publish_one_entry (w : Worker) (a0 a1 a2 a3 a4 a5 a6 a7 : Pool × Extern)
    (rs : List (Pool × Worker)) (hpc : w.pc = .orderWait) (hw : w.useForRendering = true)
    (h : w.steps [a0, a1, a2, a3, a4, a5, a6, a7] = some rs) :
    rs.map (fun r => r.1.output_queue) =
      [a0.1.output_queue, a1.1.output_queue, a2.1.output_queue, a3.1.output_queue,
       a4.1.output_queue, a5.1.output_queue, a6.1.output_queue,
       a7.1.output_queue ++
         [(w.inputIndex, if a2.2.nVideoBytes ≠ 0 then a5.2.picture_index else -1)]] ∧
    (a2.2.nVideoBytes ≠ 0 →
      rs[5]?.map (fun r => vecGet r.1.picture_index w.inputIndex) =
        some (some a5.2.picture_index)) ∧
    (a2.2.nVideoBytes = 0 → rs[5]?.map (fun r => r.1) = some a5.1) ∧
    (∀ demuxOk, Pool.demux demuxOk 0 = true) ∧
    rs.getLast?.map (fun r => r.2.pc) = some .loopHead := by
  obtain ⟨d, hd, hok, hpic, rfl⟩ := task_path w a0 a1 a2 a3 a4 a5 a6 a7 rs hpc h
  refine ⟨?_, ?_, ?_, ?_, ?_⟩
  · by_cases hn : a2.2.nVideoBytes = 0 <;> simp [hw, hn]
  · intro hn
    obtain ⟨old, hold⟩ := hpic hn
    simp [hn, vecGet_vecSet_eq _ _ _ _ hold]
  · intro hn
    simp [hn]
  · intro ok
    cases ok <;> simp [Pool.demux]
  · simp

/-- Witness of C9: the task `(0, 0, true)` with an empty payload for which `Demux`
returned `false`; the entry published is `(0, -1)`. -/
theorem C9_publish_one_entry_witness :
    ([(examplePool, { exampleWorker with pc := .orderCheck }),
      (examplePool, { exampleWorker with pc := .demux }),
      (examplePool, { exampleWorker with pc := .renderGate }),
      ({ examplePool with memcpy_array := [false, true] },
        { exampleWorker with pc := .gateCheck }),
      (examplePool, { exampleWorker with pc := .decode }),
      (examplePool, { exampleWorker with pc := .increment }),
      ({ examplePool with demux_array := [1, 0] }, { exampleWorker with pc := .publish }),
      ({ examplePool with output_queue := [(0, -1)] },
        { exampleWorker with pc := .loopHead })].map
        (fun r => r.1.output_queue) =
      [[], [], [], [], [], [], [], [] ++ [((0 : Int), (-1 : Int))]]) :=
  (C9_publish_one_entry exampleWorker (examplePool, ⟨false, 0, 7⟩)
    (examplePool, ⟨false, 0, 7⟩) (examplePool, ⟨false, 0, 7⟩) (examplePool, ⟨false, 0, 7⟩)
    (examplePool, ⟨false, 0, 7⟩) (examplePool, ⟨false, 0, 7⟩) (examplePool, ⟨false, 0, 7⟩)
    (examplePool, ⟨false, 0, 7⟩) _ rfl rfl (by decide)).1

/-- C10: a thread that holds a task, wanted for rendering or not, with an empty
payload or not, and takes the eight steps from the Order Gate wait to the end of the
loop body, each in the pool state `a_k` the rest of the system has produced by then.
Exactly one of the eight steps changes `demux_array`: the seventh replaces the entry
`d` of the task's stream by `d + 1` and leaves every other entry as it is. -/
theorem C10_order_gate_increment (w : Worker) (a0 a1 a2 a3 a4 a5 a6 a7 : Pool × Extern)
    (rs : List (Pool × Worker)) (hpc : w.pc = .orderWait)
    (h : w.steps [a0, a1, a2, a3, a4, a5, a6, a7] = some rs) :
    ∃ d : Int, vecGet a6.1.demux_array w.inputIndex = some d ∧
      rs.map (fun r => r.1.demux_array) =
        [a0.1.demux_array, a1.1.demux_array, a2.1.demux_array, a3.1.demux_array,
         a4.1.demux_array, a5.1.demux_array,
         vecSet a6.1.demux_array w.inputIndex (d + 1), a7.1.demux_array] ∧
      vecGet (vecSet a6.1.demux_array w.inputIndex (d + 1)) w.inputIndex = some (d + 1) ∧
      (∀ s, s ≠ w.inputIndex →
        vecGet (vecSet a6.1.demux_array w.inputIndex (d + 1)) s =
          vecGet a6.1.demux_array s) ∧
      rs.getLast?.map (fun r => r.2.pc) = some .loopHead := by
  obtain ⟨d, hd, hok, hpic, rfl⟩ := task_path w a0 a1 a2 a3 a4 a5 a6 a7 rs hpc h
  refine ⟨d, hd, ?_, vecGet_vecSet_eq _ _ _ _ hd, ?_, ?_⟩
  · by_cases hn : a2.2.nVideoBytes = 0 <;> by_cases hw : w.useForRendering = true <;>
      simp [hw, hn]
  · intro s hs
    exact vecGet_vecSet_ne _ _ _ _ (Ne.symm hs)
  · simp

/-- Witness of C10: the task `(0, 0, true)` with a payload of 10 bytes. -/
theorem C10_order_gate_increment_witness :
    ∃ d : Int, vecGet examplePool.demux_array 0 = some d ∧
      vecGet (vecSet examplePool.demux_array 0 (d + 1)) 0 = some (d + 1) :=
  let ⟨d, hd, _, hset, _⟩ := C10_order_gate_increment exampleWorker
    (examplePool, ⟨true, 10, 3⟩) (examplePool, ⟨true, 10, 3⟩) (examplePool, ⟨true, 10, 3⟩)
    (examplePool, ⟨true, 10, 3⟩) (examplePool, ⟨true, 10, 3⟩) (examplePool, ⟨true, 10, 3⟩)
    (examplePool, ⟨true, 10, 3⟩) (examplePool, ⟨true, 10, 3⟩)
    [(examplePool, { exampleWorker with pc := .orderCheck }),
      (examplePool, { exampleWorker with pc := .demux }),
      (examplePool, { exampleWorker with pc := .renderGate, nVideoBytes := 10 }),
      ({ examplePool with memcpy_array := [false, true] },
        { exampleWorker with pc := .gateCheck, nVideoBytes := 10 }),
      (examplePool, { exampleWorker with pc := .decode, nVideoBytes := 10 }),
      ({ examplePool with picture_index := [3, 0] },
        { exampleWorker with pc := .increment, nVideoBytes := 10,
                             decoded_picture_index := 3 }),
      ({ examplePool with demux_array := [1, 0] },
        { exampleWorker with pc := .publish, nVideoBytes := 10,
                             decoded_picture_index := 3 }),
      ({ examplePool with output_queue := [(0, 3)] },
        { exampleWorker with pc := .loopHead, nVideoBytes := 10,
                             decoded_picture_index := 3 })]
    rfl (by decide)
  ⟨d, hd, hset⟩

/-! ### Counting lemmas and the invariant of every execution -/


theorem getElem?_set_self_of_some {α : Type} (l : List α) (i : Nat) (w w2 : α)
    (h : l[i]? = some w) : (l.set i w2)[i]? = some w2 := by
  rcases List.getElem?_eq_some_iff.1 h with ⟨hlt, _⟩
  simp [List.getElem?_set, hlt]

theorem count_eraseIdx {α : Type} [BEq α] [LawfulBEq α] (l : List α) (k : Nat) (x a : α)
    (h : l[k]? = some x) : (l.eraseIdx k).count a + [x].count a = l.count a := by
  have hp := perm_cons_eraseIdx l k x h
  unfold List.count
  rw [hp.countP_eq]
  simp only [List.countP_cons, List.countP_nil]
  omega

theorem set_perm {α : Type} : ∀ (l : List α) (i : Nat) (w w2 : α), l[i]? = some w →
    List.Perm (w :: l.set i w2) (w2 :: l)
  | [], i, w, w2, h => by simp at h
  | b :: l, 0, w, w2, h => by
    simp at h
    subst h
    simp
    exact List.Perm.swap _ _ _
  | b :: l, i + 1, w, w2, h => by
    simp at h
    have ih := set_perm l i w w2 h
    simp only [List.set_cons_succ]
    exact ((List.Perm.swap b w _).trans (List.Perm.cons b ih)).trans (List.Perm.swap w2 b _)

theorem count_filterMap_set {α β : Type} [BEq β] [LawfulBEq β] (f : α → Option β) (l : List α)
    (i : Nat) (w w2 : α) (a : β) (h : l[i]? = some w) :
    ((l.set i w2).filterMap f).count a + (f w).toList.count a =
      (l.filterMap f).count a + (f w2).toList.count a := by
  have hp := (set_perm l i w w2 h).filterMap f
  have hc := hp.countP_eq (· == a)
  unfold List.count
  simp only [List.filterMap_cons] at hc
  cases hw : f w <;> cases hw2 : f w2 <;>
    simp only [hw, hw2, List.countP_cons, List.countP_nil, Option.toList] at hc ⊢ <;> omega

theorem count_filterMap_two {α β : Type} [BEq β] [LawfulBEq β] (f : α → Option β) (l : List α)
    (i j : Nat) (a b : α) (x y z : β) (hij : i ≠ j) (hi : l[i]? = some a)
    (hj : l[j]? = some b) (hx : f a = some x) (hy : f b = some y) :
    [x].count z + [y].count z ≤ (l.filterMap f).count z := by
  have key : ∀ (m M : Nat) (u v : α) (p q : β), m < M → l[m]? = some u → l[M]? = some v →
      f u = some p → f v = some q → [p].count z + [q].count z ≤ (l.filterMap f).count z := by
    intro m M u v p q hlt hm hM hp hq
    have h3 := (erase_two l m M u v hlt hm hM).2.2
    have hc := (h3.filterMap f).countP_eq (· == z)
    unfold List.count
    simp only [List.filterMap_cons, hp, hq] at hc
    rw [hc]
    simp only [List.countP_cons, List.countP_nil]
    omega
  rcases Nat.lt_or_gt_of_ne hij with h | h
  · exact key i j a b x y h hi hj hx hy
  · have := key j i b a y x h hj hi hy hx
    omega

theorem count_filterMap_one {α β : Type} [BEq β] [LawfulBEq β] (f : α → Option β) (l : List α)
    (i : Nat) (a : α) (x : β) (hi : l[i]? = some a) (hx : f a = some x) :
    1 ≤ (l.filterMap f).count x := by
  have hmem : x ∈ l.filterMap f := by
    rw [List.mem_filterMap]
    exact ⟨a, List.getElem?_mem hi, hx⟩
  exact List.count_pos_iff.2 hmem

theorem step_thread (c : Config) (i : Nat) (x : Extern) (c2 : Config)
    (h : step c (.thread i x) = some c2) :
    ∃ w p2 w2, c.threads[i]? = some w ∧ ThreadStep c.pool w x p2 w2 ∧
      c2 = { c with pool := p2, threads := c.threads.set i w2 } ∧
      ∀ g, Ghost.next c g (.thread i x) = g.thread w w2 := by
  simp only [step] at h
  split at h
  · cases h
  · rename_i w hw
    split at h
    · cases h
    · rename_i p2 w2 hs
      cases h
      refine ⟨w, p2, w2, hw, threadStep_of_update_loop _ _ _ _ _ hs, rfl, ?_⟩
      intro g
      simp [Ghost.next, hw, hs]

theorem inv0_thread_tasks (c : Config) (g : Ghost) (hinv : Inv0 c g) (i : Nat) (w : Worker)
    (x : Extern) (p2 : Pool) (w2 : Worker) (hw : c.threads[i]? = some w)
    (hs : ThreadStep c.pool w x p2 w2) (t : Task) :
    p2.input_queue.count t + ((c.threads.set i w2).filterMap Worker.held).count t +
      (g.thread w w2).incremented.count t + (g.thread w w2).abandoned.count t =
      (g.thread w w2).enqueued.count t := by
  have h0 := hinv.tasks t
  have hset := count_filterMap_set Worker.held c.threads i w w2 t hw
  revert h0 hset
  cases hs <;> simp [Worker.held, Ghost.thread, Worker.task, *] <;> intros <;> try omega
  case dequeue index t2 hpc hf hsel ht h0 hset =>
    have he := count_eraseIdx c.pool.input_queue index t2 t ht
    omega

theorem thread_enqueued (g : Ghost) (w w2 : Worker) : (g.thread w w2).enqueued = g.enqueued := by
  unfold Ghost.thread
  split <;> (try split) <;> rfl

theorem thread_consumed (g : Ghost) (w w2 : Worker) : (g.thread w w2).consumed = g.consumed := by
  unfold Ghost.thread
  split <;> (try split) <;> rfl

theorem thread_tupleFrames (g : Ghost) (w w2 : Worker) :
    (g.thread w w2).tupleFrames = g.tupleFrames := by
  unfold Ghost.thread
  split <;> (try split) <;> rfl

theorem inv0_thread_erase (c : Config) (g : Ghost) (hinv : Inv0 c g) (w : Worker)
    (x : Extern) (p2 : Pool) (w2 : Worker) (hs : ThreadStep c.pool w x p2 w2) :
    (g.thread w w2).tagged.map (fun e => (e.1, e.2.1)) = p2.output_queue := by
  have h0 := hinv.erase
  revert h0
  cases hs <;> simp [Ghost.thread, *]

theorem inv0_thread_wanted (c : Config) (g : Ghost) (hinv : Inv0 c g) (i : Nat) (w : Worker)
    (x : Extern) (p2 : Pool) (w2 : Worker) (hw : c.threads[i]? = some w)
    (hs : ThreadStep c.pool w x p2 w2) (k : Int × Int) :
    ((g.thread w w2).incremented.filterMap wantedKey).count k =
      ((c.threads.set i w2).filterMap Worker.publishing).count k +
        ((g.thread w w2).tagged.map (fun e => (e.1, e.2.2))).count k +
        (tupleKeys c.tuple (g.thread w w2).tupleFrames).count k +
        (g.thread w w2).consumed.count k := by
  have h0 := hinv.wanted k
  have hset := count_filterMap_set Worker.publishing c.threads i w w2 k hw
  revert h0 hset
  rcases Bool.eq_false_or_eq_true w.useForRendering with hu | hu <;>
  cases hs <;>
    simp [Worker.publishing, Ghost.thread, Worker.task, wantedKey, Task.key,
      List.filterMap_append, *] <;>
    intros <;> try omega

theorem inv0_thread_tokens (c : Config) (g : Ghost) (hinv : Inv0 c g) (i : Nat) (w : Worker)
    (x : Extern) (p2 : Pool) (w2 : Worker) (hw : c.threads[i]? = some w)
    (hs : ThreadStep c.pool w x p2 w2) (s : Int) :
    gateOpen { c with pool := p2, threads := c.threads.set i w2 } s +
      (inFlight { c with pool := p2, threads := c.threads.set i w2 }).count s ≤ 1 := by
  have h0 := hinv.tokens s
  have hset := count_filterMap_set (Worker.claimed c.pool.terminate_pool) c.threads i w w2 s hw
  revert h0 hset
  cases hs <;>
    simp [Worker.claimed, inFlight, gateOpen, List.count_append, List.count_cons, *] <;>
    intros <;> try omega
  case claim free hpc hu hm hgo h0 hset =>
    by_cases hs : w.inputIndex = s
    · subst hs
      rw [vecGet_vecSet_eq _ _ _ _ hm]
      rw [hm] at h0
      cases hfl : c.pool.terminate_pool
      · simp only [hfl] at hset hgo h0 ⊢
        simp at hgo
        subst hgo
        simp at h0 hset ⊢
        omega
      · simp only [hfl] at hset hgo h0 ⊢
        simp at hset ⊢
        omega
    · rw [vecGet_vecSet_ne _ _ _ _ hs]
      have : (if c.pool.terminate_pool = false then some w.inputIndex else none).toList.count s
          = 0 := by
        split <;> simp [List.count_singleton, hs]
      omega

theorem inv0_thread (c : Config) (g : Ghost) (hinv : Inv0 c g) (i : Nat) (w : Worker)
    (x : Extern) (p2 : Pool) (w2 : Worker) (hw : c.threads[i]? = some w)
    (hs : ThreadStep c.pool w x p2 w2) :
    Inv0 { c with pool := p2, threads := c.threads.set i w2 } (g.thread w w2) where
  tasks := inv0_thread_tasks c g hinv i w x p2 w2 hw hs
  erase := inv0_thread_erase c g hinv w x p2 w2 hs
  wanted := inv0_thread_wanted c g hinv i w x p2 w2 hw hs
  tokens := inv0_thread_tokens c g hinv i w x p2 w2 hw hs
  pairs := by
    intro k f b
    rw [thread_enqueued]
    exact hinv.pairs k f b
  tupleCam := hinv.tupleCam

theorem map_eraseIdx {α β : Type} (f : α → β) : ∀ (l : List α) (k : Nat),
    (l.eraseIdx k).map f = (l.map f).eraseIdx k
  | [], _ => rfl
  | _ :: _, 0 => rfl
  | a :: l, k + 1 => by
    simp only [List.eraseIdx_cons_succ, List.map_cons, map_eraseIdx f l k]

theorem count_erase_two {α : Type} [BEq α] [LawfulBEq α] (l : List α) (i j : Nat) (x y a : α)
    (hij : i ≠ j) (hi : l[i]? = some x) (hj : l[j]? = some y) :
    ((l.eraseIdx (if i > j then i else j)).eraseIdx (if i > j then j else i)).count a +
      [x].count a + [y].count a = l.count a := by
  unfold List.count
  by_cases h : i > j
  · simp only [h, if_true]
    have hp := (erase_two l j i y x h hj hi).2.2
    rw [hp.countP_eq]
    simp only [List.countP_cons, List.countP_nil]
    omega
  · simp only [h, if_false]
    have hp := (erase_two l i j x y (by omega) hi hj).2.2
    rw [hp.countP_eq]
    simp only [List.countP_cons, List.countP_nil]
    omega

theorem step_take (c : Config) (k : Int) (c2 : Config)
    (h : step c (.waitUntilInputFrameIsDecoded k) = some c2) :
    c.tuple = none ∧ ∃ i0 i1 e0 e1, i0 ≠ i1 ∧
      outputPredicate c.pool.output_queue k 0 0 = (true, i0, i1) ∧
      c.pool.output_queue[i0]? = some e0 ∧ c.pool.output_queue[i1]? = some e1 ∧
      e0.1 = 2 * k ∧ e1.1 = 2 * k + 1 ∧
      c2 = { c with
        pool := { c.pool with
          output_queue := (c.pool.output_queue.eraseIdx (if i0 > i1 then i0 else i1)).eraseIdx
            (if i0 > i1 then i1 else i0) }
        tuple := some (e0.1, e0.2, e1.1, e1.2) } := by
  simp only [step] at h
  split at h
  · cases h
  · rename_i htup
    refine ⟨htup, ?_⟩
    split at h
    · cases h
    · rename_i t p hwait
      cases h
      unfold Pool.waitUntilInputFrameIsDecoded at hwait
      split at hwait
      · cases hwait
      · rename_i i0 i1 hpred
        have hsound := outputScan_sound k c.pool.output_queue c.pool.output_queue []
          (false, false, 0, 0) (by simp) (by simp) (by simp)
        simp only [List.length_nil] at hsound
        unfold outputPredicate at hpred
        rw [hpred] at hsound
        obtain ⟨⟨e0, he0, hs0⟩, ⟨e1, he1, hs1⟩⟩ := hsound rfl
        simp only at he0 he1
        have hne : i0 ≠ i1 := by
          intro heq
          rw [heq, he1] at he0
          cases he0
          omega
        refine ⟨i0, i1, e0, e1, hne, ?_, he0, he1, hs0, hs1, ?_⟩
        · unfold outputPredicate
          exact hpred
        · simp only [he0, he1] at hwait
          cases hwait
          rfl

theorem step_copy (c : Config) (c2 : Config)
    (h : step c .copyFromGPUToOpenGLTexture = some c2) :
    ∃ t b0 b1, c.tuple = some t ∧ vecGet c.pool.memcpy_array t.1 = some b0 ∧
      vecGet c.pool.memcpy_array t.2.2.1 = some b1 ∧
      c2 = { c with
        pool := { c.pool with
          displayed := c.pool.displayed ++ [(t.1, t.2.1), (t.2.2.1, t.2.2.2)]
          memcpy_array := vecSet (vecSet c.pool.memcpy_array t.1 true) t.2.2.1 true }
        tuple := none } := by
  simp only [step] at h
  split at h
  · cases h
  · rename_i t htup
    split at h
    · cases h
    · rename_i p hcopy
      cases h
      unfold Pool.copyFromGPUToOpenGLTexture at hcopy
      split at hcopy
      · rename_i b0 b1 h0 h1
        cases hcopy
        exact ⟨t, _, _, htup, h0, h1, rfl⟩
      · cases hcopy

theorem mem_firstFrames (n : Int) (inputsToUse : List Int) (t : Task) :
    t ∈ firstFrames n inputsToUse ↔
      ∃ i : Nat, i < n.toNat ∧ (t = (2 * (i : Int), 0, decide ((i : Int) ∈ inputsToUse)) ∨
        t = (2 * (i : Int) + 1, 0, decide ((i : Int) ∈ inputsToUse))) := by
  simp [firstFrames, List.mem_flatMap]

theorem firstFrames_pairs (n : Int) (inputsToUse : List Int) (k f : Int) (w : Bool) :
    (2 * k, f, w) ∈ firstFrames n inputsToUse ↔ (2 * k + 1, f, w) ∈ firstFrames n inputsToUse := by
  rw [mem_firstFrames, mem_firstFrames]
  constructor
  · rintro ⟨i, hi, h | h⟩
    · refine ⟨i, hi, Or.inr ?_⟩
      simp only [Prod.mk.injEq] at h ⊢
      exact ⟨by omega, h.2⟩
    · simp only [Prod.mk.injEq] at h
      omega
  · rintro ⟨i, hi, h | h⟩
    · simp only [Prod.mk.injEq] at h
      omega
    · refine ⟨i, hi, Or.inl ?_⟩
      simp only [Prod.mk.injEq] at h ⊢
      exact ⟨by omega, h.2⟩

theorem claimed_mono (l : List Worker) (fl : Bool) (s : Int) :
    (l.filterMap (Worker.claimed true)).count s ≤ (l.filterMap (Worker.claimed fl)).count s := by
  induction l with
  | nil => simp
  | cons w l ih =>
    simp only [List.filterMap_cons]
    have h1 : Worker.claimed true w = none ∨ Worker.claimed true w = Worker.claimed fl w := by
      unfold Worker.claimed
      split <;> simp
    rcases h1 with h1 | h1
    · rw [h1]
      cases h2 : Worker.claimed fl w
      · simpa using ih
      · simp only [List.count_cons]
        omega
    · rw [h1]
      cases h2 : Worker.claimed fl w
      · simpa using ih
      · simp only [List.count_cons]
        omega

theorem inv0_step (c : Config) (g : Ghost) (hinv : Inv0 c g) (l : Label) (c2 : Config)
    (h : step c l = some c2) : Inv0 c2 (Ghost.next c g l) := by
  cases l with
  | thread i x =>
    obtain ⟨w, p2, w2, hw, hs, rfl, hg⟩ := step_thread c i x c2 h
    rw [hg]
    exact inv0_thread c g hinv i w x p2 w2 hw hs
  | startDemuxingFirstFrames inputsToUse =>
    simp only [step] at h
    split at h
    · cases h
    · cases h
      constructor
      · intro t
        have := hinv.tasks t
        simp [Ghost.next, Pool.startDemuxingFirstFrames, List.count_append]
        omega
      · exact hinv.erase
      · exact hinv.wanted
      · exact hinv.tokens
      · intro k f w
        simp only [Ghost.next, List.mem_append]
        rw [hinv.pairs k f w, firstFrames_pairs]
      · exact hinv.tupleCam
  | startDemuxingNextFrame inputIndex frameNr useForRendering =>
    simp only [step] at h
    split at h
    · cases h
    · cases h
      constructor
      · intro t
        have := hinv.tasks t
        simp [Ghost.next, Pool.startDemuxingNextFrame, List.count_append]
        omega
      · exact hinv.erase
      · exact hinv.wanted
      · exact hinv.tokens
      · intro k f w
        simp only [Ghost.next, List.mem_append]
        rw [hinv.pairs k f w]
        simp only [List.mem_cons, Prod.mk.injEq, List.mem_singleton, List.not_mem_nil, or_false]
        constructor
        · rintro (h | h | h)
          · exact Or.inl h
          · exact Or.inr (Or.inr ⟨by omega, h.2⟩)
          · omega
        · rintro (h | h | h)
          · exact Or.inl h
          · omega
          · exact Or.inr (Or.inl ⟨by omega, h.2⟩)
      · exact hinv.tupleCam
  | waitUntilInputFrameIsDecoded k =>
    obtain ⟨htup, i0, i1, e0, e1, hne, hpred, he0, he1, hs0, hs1, rfl⟩ := step_take c k c2 h
    have her := hinv.erase
    have hx0 : ∃ x0, g.tagged[i0]? = some x0 ∧ (x0.1, x0.2.1) = e0 := by
      have := he0
      rw [← her, List.getElem?_map] at this
      cases hx : g.tagged[i0]? with
      | none => simp [hx] at this
      | some x0 => exact ⟨x0, rfl, by simpa [hx] using this⟩
    have hx1 : ∃ x1, g.tagged[i1]? = some x1 ∧ (x1.1, x1.2.1) = e1 := by
      have := he1
      rw [← her, List.getElem?_map] at this
      cases hx : g.tagged[i1]? with
      | none => simp [hx] at this
      | some x1 => exact ⟨x1, rfl, by simpa [hx] using this⟩
    obtain ⟨x0, hx0, hxe0⟩ := hx0
    obtain ⟨x1, hx1, hxe1⟩ := hx1
    subst hxe0 hxe1
    constructor
    · intro t
      have := hinv.tasks t
      simpa [Ghost.next, hpred] using this
    · simp only [Ghost.next, hpred]
      rw [map_eraseIdx, map_eraseIdx, her]
    · intro key
      have h0 := hinv.wanted key
      have hc := count_erase_two (g.tagged.map (fun e => (e.1, e.2.2))) i0 i1
        (x0.1, x0.2.2) (x1.1, x1.2.2) key hne (by simp [hx0]) (by simp [hx1])
      simp only [Ghost.next, hpred, tupleKeys, htup] at h0 ⊢
      rw [map_eraseIdx, map_eraseIdx]
      simp only [List.getD_eq_getElem?_getD, hx0, hx1, Option.getD_some, List.count_cons,
        List.count_nil] at h0 hc ⊢
      omega
    · intro s
      have h0 := hinv.tokens s
      have hc := count_erase_two (c.pool.output_queue.map Prod.fst) i0 i1
        x0.1 x1.1 s hne (by simp [he0]) (by simp [he1])
      simp only [inFlight, gateOpen, List.count_append, tupleStreams, htup] at h0 ⊢
      rw [map_eraseIdx, map_eraseIdx]
      simp only [List.count_cons, List.count_nil] at hc ⊢
      omega
    · simpa [Ghost.next, hpred] using hinv.pairs
    · intro t ht
      simp only [Option.some.injEq] at ht
      subst ht
      exact ⟨k, hs0, hs1⟩
  | copyFromGPUToOpenGLTexture =>
    obtain ⟨t, b0, b1, htup, hb0, hb1, rfl⟩ := step_copy c c2 h
    constructor
    · intro t2
      have := hinv.tasks t2
      simpa [Ghost.next, htup] using this
    · simpa [Ghost.next, htup] using hinv.erase
    · intro key
      have h0 := hinv.wanted key
      simp only [Ghost.next, htup, tupleKeys, List.count_append, List.count_cons,
        List.count_nil] at h0 ⊢
      omega
    · intro s
      have h0 := hinv.tokens s
      simp only [inFlight, gateOpen, List.count_append, tupleStreams, htup, List.count_cons,
        List.count_nil] at h0 ⊢
      by_cases h1 : t.2.2.1 = s
      · subst h1
        have hin : ∃ y, vecGet (vecSet c.pool.memcpy_array t.1 true) t.2.2.1 = some y := by
          by_cases h01 : t.1 = t.2.2.1
          · rw [h01]
            exact ⟨true, vecGet_vecSet_eq _ _ _ _ hb1⟩
          · rw [vecGet_vecSet_ne _ _ _ _ h01]
            exact ⟨b1, hb1⟩
        obtain ⟨y, hy⟩ := hin
        rw [vecGet_vecSet_eq _ _ _ _ hy]
        simp at h0 ⊢
        omega
      · rw [vecGet_vecSet_ne _ _ _ _ h1]
        by_cases h2 : t.1 = s
        · subst h2
          rw [vecGet_vecSet_eq _ _ _ _ hb0]
          simp [h1] at h0 ⊢
          omega
        · rw [vecGet_vecSet_ne _ _ _ _ h2]
          simp [h1, h2] at h0 ⊢
          omega
    · simpa [Ghost.next, htup] using hinv.pairs
    · intro t2 ht2
      cases ht2
  | cleanup =>
    simp only [step] at h
    split at h
    · cases h
    · cases h
      constructor
      · exact hinv.tasks
      · exact hinv.erase
      · exact hinv.wanted
      · intro s
        have h0 := hinv.tokens s
        have hm := claimed_mono c.threads c.pool.terminate_pool s
        simp only [inFlight, gateOpen, List.count_append, Pool.cleanup] at h0 ⊢
        omega
      · exact hinv.pairs
      · exact hinv.tupleCam


/-! ### The invariant of the executions that push no task twice -/


theorem count_key [BEq (Int × Int)] [LawfulBEq (Int × Int)] [BEq Task] [LawfulBEq Task]
    (l : List Task) (s f : Int) :
    (l.map Task.key).count (s, f) = l.count (s, f, true) + l.count (s, f, false) := by
  induction l with
  | nil => simp
  | cons t l ih =>
    obtain ⟨a, b, w⟩ := t
    simp only [List.map_cons, List.count_cons, ih, Task.key, beq_iff_eq, Prod.mk.injEq]
    cases w <;> by_cases h1 : a = s <;> by_cases h2 : b = f <;> simp [h1, h2] <;> omega

theorem count_le_one_of_nodup {α : Type} [BEq α] [LawfulBEq α] (l : List α) (h : l.Nodup)
    (a : α) : l.count a ≤ 1 := by
  induction l with
  | nil => simp
  | cons b l ih =>
    rw [List.nodup_cons] at h
    rw [List.count_cons]
    have := ih h.2
    by_cases hb : b = a
    · subst hb
      have : l.count b = 0 := List.count_eq_zero.2 h.1
      simp
      omega
    · simp [hb]
      omega

theorem key_count_le (c : Config) (g : Ghost) (h0 : Inv0 c g)
    (hU : (g.enqueued.map Task.key).Nodup) (s f : Int) :
    (c.pool.input_queue.count (s, f, true) + (c.threads.filterMap Worker.held).count (s, f, true)
      + g.incremented.count (s, f, true) + g.abandoned.count (s, f, true)) +
    (c.pool.input_queue.count (s, f, false) + (c.threads.filterMap Worker.held).count (s, f, false)
      + g.incremented.count (s, f, false) + g.abandoned.count (s, f, false)) ≤ 1 := by
  have h := count_le_one_of_nodup _ hU (s, f)
  rw [count_key] at h
  rw [h0.tasks, h0.tasks]
  exact h

theorem held_of_pastOrderGate (fl : Bool) (w : Worker) (h : w.pastOrderGate fl) :
    w.held = some w.task := by
  unfold Worker.pastOrderGate at h
  unfold Worker.held
  rcases h with h | h | h | h | h | ⟨h, _⟩ <;> simp [h]

theorem count_task_singleton (w : Worker) :
    [w.task].count (w.inputIndex, w.frameNr, true) +
      [w.task].count (w.inputIndex, w.frameNr, false) = 1 := by
  unfold Worker.task
  cases w.useForRendering <;> simp [List.count_singleton]

/-- Two threads never hold tasks of the same stream and frame. -/
theorem held_distinct (c : Config) (g : Ghost) (h0 : Inv0 c g)
    (hU : (g.enqueued.map Task.key).Nodup) (i j : Nat) (wi wj : Worker) (hij : i ≠ j)
    (hi : c.threads[i]? = some wi) (hj : c.threads[j]? = some wj)
    (hhi : wi.held = some wi.task) (hhj : wj.held = some wj.task)
    (hs : wi.inputIndex = wj.inputIndex) (hf : wi.frameNr = wj.frameNr) : False := by
  have hk := key_count_le c g h0 hU wi.inputIndex wi.frameNr
  have ht := count_filterMap_two Worker.held c.threads i j wi wj wi.task wj.task
    (wi.inputIndex, wi.frameNr, true) hij hi hj hhi hhj
  have hf2 := count_filterMap_two Worker.held c.threads i j wi wj wi.task wj.task
    (wi.inputIndex, wi.frameNr, false) hij hi hj hhi hhj
  have e1 := count_task_singleton wi
  have e2 := count_task_singleton wj
  rw [← hs, ← hf] at e2
  omega

/-- A task a thread holds has not run the increment. -/
theorem held_not_incremented (c : Config) (g : Ghost) (h0 : Inv0 c g)
    (hU : (g.enqueued.map Task.key).Nodup) (i : Nat) (wi : Worker)
    (hi : c.threads[i]? = some wi) (hhi : wi.held = some wi.task) (b : Bool)
    (hinc : (wi.inputIndex, wi.frameNr, b) ∈ g.incremented) : False := by
  have hk := key_count_le c g h0 hU wi.inputIndex wi.frameNr
  have h1 := count_filterMap_one Worker.held c.threads i wi wi.task hi hhi
  have h2 := List.count_pos_iff.2 hinc
  have e1 : (c.threads.filterMap Worker.held).count wi.task ≤
      (c.threads.filterMap Worker.held).count (wi.inputIndex, wi.frameNr, true) +
      (c.threads.filterMap Worker.held).count (wi.inputIndex, wi.frameNr, false) := by
    unfold Worker.task
    cases wi.useForRendering <;> omega
  cases b <;> omega

theorem thread_incremented (g : Ghost) (w w2 : Worker) :
    (g.thread w w2).incremented =
      if w.pc = .increment then g.incremented ++ [w.task] else g.incremented := by
  unfold Ghost.thread
  split <;> (try split) <;> simp_all

theorem threadStep_flag (p : Pool) (w : Worker) (x : Extern) (p2 : Pool) (w2 : Worker)
    (hs : ThreadStep p w x p2 w2) : p2.terminate_pool = p.terminate_pool := by
  cases hs <;> rfl

theorem threadStep_demux_array (p : Pool) (w : Worker) (x : Extern) (p2 : Pool) (w2 : Worker)
    (hs : ThreadStep p w x p2 w2) (hpc : w.pc ≠ .increment) :
    p2.demux_array = p.demux_array := by
  cases hs <;> first | rfl | (exfalso; apply hpc; assumption)

theorem threadStep_increment (p : Pool) (w : Worker) (x : Extern) (p2 : Pool) (w2 : Worker)
    (hs : ThreadStep p w x p2 w2) (hpc : w.pc = .increment) :
    ∃ d, vecGet p.demux_array w.inputIndex = some d ∧
      p2 = { p with demux_array := vecSet p.demux_array w.inputIndex (d + 1) } ∧
      w2 = { w with pc := .publish } := by
  cases hs <;> simp_all

theorem inv1_thread_ordered (c : Config) (g : Ghost) (h0 : Inv0 c g) (h1 : Inv1 c g)
    (hU : (g.enqueued.map Task.key).Nodup) (i : Nat) (w : Worker)
    (x : Extern) (p2 : Pool) (w2 : Worker) (hw : c.threads[i]? = some w)
    (hs : ThreadStep c.pool w x p2 w2) (j : Nat) (wj : Worker)
    (hj : (c.threads.set i w2)[j]? = some wj) (hpast : wj.pastOrderGate p2.terminate_pool) :
    vecGet p2.demux_array wj.inputIndex = some wj.frameNr := by
  rw [threadStep_flag _ _ _ _ _ hs] at hpast
  by_cases hij : i = j
  · subst hij
    rw [getElem?_set_self_of_some _ _ _ _ hw] at hj
    cases hj
    have ih := h1.ordered i w hw
    revert ih hpast
    cases hs <;> simp [Worker.pastOrderGate, *]
    rename_i d hpc hd hgo
    intro hf
    rcases hgo with hgo | hgo
    · exact hgo
    · rw [hf] at hgo
      cases hgo
  · rw [List.getElem?_set_ne hij] at hj
    have ih := h1.ordered j wj hj hpast
    by_cases hinc : w.pc = .increment
    · obtain ⟨d, hd, rfl, rfl⟩ := threadStep_increment _ _ _ _ _ hs hinc
      by_cases hsame : w.inputIndex = wj.inputIndex
      · exfalso
        have ihw := h1.ordered i w hw (by simp [Worker.pastOrderGate, hinc])
        rw [hsame, ih] at ihw
        simp only [Option.some.injEq] at ihw
        exact held_distinct c g h0 hU i j w wj hij hw hj
          (held_of_pastOrderGate true _ (by simp [Worker.pastOrderGate, hinc]))
          (held_of_pastOrderGate _ _ hpast) hsame ihw.symm
      · simp only
        rw [vecGet_vecSet_ne _ _ _ _ hsame]
        exact ih
    · rw [threadStep_demux_array _ _ _ _ _ hs hinc]
      exact ih

theorem inv1_thread (c : Config) (g : Ghost) (h0 : Inv0 c g) (h1 : Inv1 c g)
    (hU : (g.enqueued.map Task.key).Nodup) (i : Nat) (w : Worker)
    (x : Extern) (p2 : Pool) (w2 : Worker) (hw : c.threads[i]? = some w)
    (hs : ThreadStep c.pool w x p2 w2) :
    Inv1 { c with pool := p2, threads := c.threads.set i w2 } (g.thread w w2) where
  ordered := inv1_thread_ordered c g h0 h1 hU i w x p2 w2 hw hs
  gateNonneg := by
    intro s d hd
    simp only at hd
    by_cases hinc : w.pc = .increment
    · obtain ⟨d0, hd0, rfl, rfl⟩ := threadStep_increment _ _ _ _ _ hs hinc
      simp only at hd
      by_cases hsame : w.inputIndex = s
      · subst hsame
        rw [vecGet_vecSet_eq _ _ _ _ hd0] at hd
        cases hd
        have := h1.gateNonneg _ _ hd0
        omega
      · rw [vecGet_vecSet_ne _ _ _ _ hsame] at hd
        exact h1.gateNonneg _ _ hd
    · rw [threadStep_demux_array _ _ _ _ _ hs hinc] at hd
      exact h1.gateNonneg _ _ hd
  doneLt := by
    intro s f b hmem
    rw [thread_incremented] at hmem
    simp only
    by_cases hinc : w.pc = .increment
    · obtain ⟨d0, hd0, rfl, rfl⟩ := threadStep_increment _ _ _ _ _ hs hinc
      have ihw := h1.ordered i w hw (by simp [Worker.pastOrderGate, hinc])
      rw [hd0] at ihw
      simp only [Option.some.injEq] at ihw
      simp only [hinc, if_true, List.mem_append, List.mem_singleton] at hmem
      simp only
      by_cases hsame : w.inputIndex = s
      · subst hsame
        rw [vecGet_vecSet_eq _ _ _ _ hd0]
        refine ⟨d0 + 1, rfl, ?_⟩
        rcases hmem with hmem | hmem
        · obtain ⟨d, hd, h1', h2'⟩ := h1.doneLt _ _ _ hmem
          rw [hd0] at hd
          cases hd
          omega
        · simp only [Worker.task, Prod.mk.injEq] at hmem
          have := h1.gateNonneg _ _ hd0
          omega
      · rw [vecGet_vecSet_ne _ _ _ _ hsame]
        rcases hmem with hmem | hmem
        · exact h1.doneLt _ _ _ hmem
        · simp only [Worker.task, Prod.mk.injEq] at hmem
          exact absurd hmem.1.symm hsame
    · rw [threadStep_demux_array _ _ _ _ _ hs hinc]
      simp only [hinc, if_false] at hmem
      exact h1.doneLt _ _ _ hmem
  doneAll := by
    intro s d f hd hf0 hfd
    rw [thread_incremented]
    simp only at hd
    by_cases hinc : w.pc = .increment
    · obtain ⟨d0, hd0, rfl, rfl⟩ := threadStep_increment _ _ _ _ _ hs hinc
      have ihw := h1.ordered i w hw (by simp [Worker.pastOrderGate, hinc])
      rw [hd0] at ihw
      simp only [Option.some.injEq] at ihw
      simp only [hinc, if_true, List.mem_append, List.mem_singleton]
      simp only at hd
      by_cases hsame : w.inputIndex = s
      · subst hsame
        rw [vecGet_vecSet_eq _ _ _ _ hd0] at hd
        cases hd
        by_cases hlast : f = d0
        · exact ⟨w.useForRendering, Or.inr (by simp [Worker.task, hlast, ihw])⟩
        · obtain ⟨b, hb⟩ := h1.doneAll _ _ f hd0 hf0 (by omega)
          exact ⟨b, Or.inl hb⟩
      · rw [vecGet_vecSet_ne _ _ _ _ hsame] at hd
        obtain ⟨b, hb⟩ := h1.doneAll _ _ f hd hf0 hfd
        exact ⟨b, Or.inl hb⟩
    · rw [threadStep_demux_array _ _ _ _ _ hs hinc] at hd
      simp only [hinc, if_false]
      exact h1.doneAll _ _ f hd hf0 hfd
  consumedPairs := by
    intro k f
    rw [thread_consumed]
    exact h1.consumedPairs k f
  tupleFrame := by
    intro t ht
    rw [thread_tupleFrames]
    exact h1.tupleFrame t ht

theorem count_filterMap_wantedKey [BEq (Int × Int)] [LawfulBEq (Int × Int)] [BEq Task]
    [LawfulBEq Task] (l : List Task) (s f : Int) :
    (l.filterMap wantedKey).count (s, f) = l.count (s, f, true) := by
  induction l with
  | nil => simp
  | cons t l ih =>
    obtain ⟨a, b, w⟩ := t
    cases w
    · simp [List.filterMap_cons, wantedKey, List.count_cons, ih]
    · simp only [List.filterMap_cons, wantedKey, List.count_cons, ih, Task.key, if_true,
        beq_iff_eq, Prod.mk.injEq]
      by_cases h1 : a = s <;> by_cases h2 : b = f <;> simp [h1, h2]

theorem incremented_sub (c : Config) (g : Ghost) (h0 : Inv0 c g) (t : Task)
    (h : t ∈ g.incremented) : t ∈ g.enqueued := by
  have h1 := List.count_pos_iff.2 h
  have h2 := h0.tasks t
  exact List.count_pos_iff.1 (by omega)

theorem flag_unique (g : Ghost) (hU : (g.enqueued.map Task.key).Nodup) (s f : Int)
    (w1 w2 : Bool) (h1 : (s, f, w1) ∈ g.enqueued) (h2 : (s, f, w2) ∈ g.enqueued) : w1 = w2 := by
  have h := count_le_one_of_nodup _ hU (s, f)
  rw [count_key] at h
  have c1 := List.count_pos_iff.2 h1
  have c2 := List.count_pos_iff.2 h2
  cases w1 <;> cases w2 <;> first | rfl | omega

theorem filterMap_some_eq_map {α β : Type} (f : α → β) (l : List α) :
    l.filterMap (fun a => some (f a)) = l.map f := by
  induction l with
  | nil => rfl
  | cons a l ih => simp [ih]

theorem count_map_two {α β : Type} [BEq β] [LawfulBEq β] (f : α → β) (l : List α) (x y : α)
    (hx : x ∈ l) (hy : y ∈ l) (hne : x ≠ y) (hf : f x = f y) :
    2 ≤ (l.map f).count (f x) := by
  obtain ⟨i, hi⟩ := List.mem_iff_getElem?.1 hx
  obtain ⟨j, hj⟩ := List.mem_iff_getElem?.1 hy
  have hij : i ≠ j := by
    intro h
    rw [h, hj] at hi
    cases hi
    exact hne rfl
  have h := count_filterMap_two (fun a => some (f a)) l i j x y (f x) (f y) (f x) hij hi hj
    rfl rfl
  rw [filterMap_some_eq_map, ← hf] at h
  simp at h
  exact h

theorem pair_frames_lt (c : Config) (g : Ghost) (h0 : Inv0 c g) (h1 : Inv1 c g)
    (hU : (g.enqueued.map Task.key).Nodup) (htup : c.tuple = none) (sA sB : Int)
    (hpairE : ∀ f w, (sA, f, w) ∈ g.enqueued → (sB, f, w) ∈ g.enqueued)
    (hpairC : ∀ f, (sB, f) ∈ g.consumed → (sA, f) ∈ g.consumed)
    (xA xB : Int × Int × Int) (hxA : xA ∈ g.tagged) (hxB : xB ∈ g.tagged)
    (hsA : xA.1 = sA) (hsB : xB.1 = sB) (hlt : xA.2.2 < xB.2.2) : False := by
  obtain ⟨sA', hA, gA⟩ := xA
  obtain ⟨sB', hB, gB⟩ := xB
  simp only at hsA hsB hlt
  subst hsA hsB
  have tagA : 1 ≤ (g.tagged.map (fun e => (e.1, e.2.2))).count (sA', gA) :=
    List.count_pos_iff.2 (List.mem_map.2 ⟨_, hxA, rfl⟩)
  have tagB : 1 ≤ (g.tagged.map (fun e => (e.1, e.2.2))).count (sB', gB) :=
    List.count_pos_iff.2 (List.mem_map.2 ⟨_, hxB, rfl⟩)
  have wA := h0.wanted (sA', gA)
  have wB := h0.wanted (sB', gB)
  rw [count_filterMap_wantedKey] at wA wB
  have incA : (sA', gA, true) ∈ g.incremented := List.count_pos_iff.1 (by omega)
  have incB : (sB', gB, true) ∈ g.incremented := List.count_pos_iff.1 (by omega)
  obtain ⟨dB, hdB, _, hgB⟩ := h1.doneLt _ _ _ incB
  obtain ⟨dA, hdA, hgA0, _⟩ := h1.doneLt _ _ _ incA
  obtain ⟨w, hw⟩ := h1.doneAll sB' dB gA hdB hgA0 (by omega)
  have enqA := incremented_sub c g h0 _ incA
  have enqB := hpairE _ _ enqA
  have enqB2 := incremented_sub c g h0 _ hw
  have hwt : w = true := flag_unique g hU _ _ _ _ enqB2 enqB
  subst hwt
  have wBA := h0.wanted (sB', gA)
  rw [count_filterMap_wantedKey] at wBA
  have cBA := List.count_pos_iff.2 hw
  have htk : (tupleKeys c.tuple g.tupleFrames) = [] := by simp [tupleKeys, htup]
  rw [htk] at wBA wA
  simp only [List.count_nil] at wBA wA
  have outB : 1 ≤ (c.pool.output_queue.map Prod.fst).count sB' := by
    rw [← h0.erase]
    exact List.count_pos_iff.2 (by simp only [List.map_map, List.mem_map]; exact ⟨_, hxB, rfl⟩)
  have tok := h0.tokens sB'
  simp only [inFlight, List.count_append] at tok
  by_cases hp : 1 ≤ (c.threads.filterMap Worker.publishing).count (sB', gA)
  · obtain ⟨wj, hwj, hpub⟩ := List.mem_filterMap.1 (List.count_pos_iff.1 hp)
    have hcl : Worker.claimed c.pool.terminate_pool wj = some sB' := by
      unfold Worker.publishing at hpub
      unfold Worker.claimed
      split at hpub <;> simp_all
    have : 1 ≤ (c.threads.filterMap (Worker.claimed c.pool.terminate_pool)).count sB' :=
      List.count_pos_iff.2 (List.mem_filterMap.2 ⟨wj, hwj, hcl⟩)
    omega
  · by_cases ht : 1 ≤ (g.tagged.map (fun e => (e.1, e.2.2))).count (sB', gA)
    · obtain ⟨y, hy, hyk⟩ := List.mem_map.1 (List.count_pos_iff.1 ht)
      simp only [Prod.mk.injEq] at hyk
      have hne : y ≠ (sB', hB, gB) := by
        intro h
        rw [h] at hyk
        simp only at hyk
        omega
      have h2 := count_map_two (fun e : Int × Int × Int => e.1) g.tagged y (sB', hB, gB) hy hxB
        hne hyk.1
      have e : g.tagged.map (fun e => e.1) = c.pool.output_queue.map Prod.fst := by
        rw [← h0.erase, List.map_map]
        rfl
      simp only [e, hyk.1] at h2
      omega
    · have hc : (sB', gA) ∈ g.consumed := List.count_pos_iff.1 (by omega)
      have hcA := List.count_pos_iff.2 (hpairC _ hc)
      have hk := key_count_le c g h0 hU sA' gA
      omega

theorem next_enqueued (c : Config) (g : Ghost) (l : Label) :
    ∃ new, (Ghost.next c g l).enqueued = g.enqueued ++ new := by
  cases l with
  | thread i x =>
    refine ⟨[], ?_⟩
    simp only [Ghost.next]
    split
    · simp
    · split
      · simp
      · simp [thread_enqueued]
  | startDemuxingFirstFrames inputsToUse => exact ⟨_, rfl⟩
  | startDemuxingNextFrame inputIndex frameNr useForRendering => exact ⟨_, rfl⟩
  | waitUntilInputFrameIsDecoded k => exact ⟨[], by simp [Ghost.next]⟩
  | copyFromGPUToOpenGLTexture =>
    refine ⟨[], ?_⟩
    simp only [Ghost.next]
    split <;> simp
  | cleanup => exact ⟨[], by simp [Ghost.next]⟩

theorem uniq_of_next (c : Config) (g : Ghost) (l : Label)
    (hU : ((Ghost.next c g l).enqueued.map Task.key).Nodup) :
    (g.enqueued.map Task.key).Nodup := by
  obtain ⟨new, h⟩ := next_enqueued c g l
  rw [h, List.map_append] at hU
  exact hU.of_append_left

theorem pastOrderGate_true (fl : Bool) (w : Worker) (h : w.pastOrderGate true) :
    w.pastOrderGate fl := by
  unfold Worker.pastOrderGate at *
  rcases h with h | h | h | h | h | ⟨_, h⟩ <;> simp_all

theorem inv1_step (c : Config) (g : Ghost) (h0 : Inv0 c g) (h1 : Inv1 c g) (l : Label)
    (c2 : Config) (hU : ((Ghost.next c g l).enqueued.map Task.key).Nodup)
    (h : step c l = some c2) : Inv1 c2 (Ghost.next c g l) := by
  have hU0 := uniq_of_next c g l hU
  cases l with
  | thread i x =>
    obtain ⟨w, p2, w2, hw, hs, rfl, hg⟩ := step_thread c i x c2 h
    rw [hg]
    exact inv1_thread c g h0 h1 hU0 i w x p2 w2 hw hs
  | startDemuxingFirstFrames inputsToUse =>
    simp only [step] at h
    split at h
    · cases h
    · cases h
      exact ⟨h1.ordered, h1.gateNonneg, h1.doneLt, h1.doneAll, h1.consumedPairs, h1.tupleFrame⟩
  | startDemuxingNextFrame inputIndex frameNr useForRendering =>
    simp only [step] at h
    split at h
    · cases h
    · cases h
      exact ⟨h1.ordered, h1.gateNonneg, h1.doneLt, h1.doneAll, h1.consumedPairs, h1.tupleFrame⟩
  | waitUntilInputFrameIsDecoded k =>
    obtain ⟨htup, i0, i1, e0, e1, hne, hpred, he0, he1, hs0, hs1, rfl⟩ := step_take c k c2 h
    have her := h0.erase
    have hx0 : ∃ x0, g.tagged[i0]? = some x0 ∧ (x0.1, x0.2.1) = e0 := by
      have := he0
      rw [← her, List.getElem?_map] at this
      cases hx : g.tagged[i0]? with
      | none => simp [hx] at this
      | some x0 => exact ⟨x0, rfl, by simpa [hx] using this⟩
    have hx1 : ∃ x1, g.tagged[i1]? = some x1 ∧ (x1.1, x1.2.1) = e1 := by
      have := he1
      rw [← her, List.getElem?_map] at this
      cases hx : g.tagged[i1]? with
      | none => simp [hx] at this
      | some x1 => exact ⟨x1, rfl, by simpa [hx] using this⟩
    obtain ⟨x0, hx0, hxe0⟩ := hx0
    obtain ⟨x1, hx1, hxe1⟩ := hx1
    subst hxe0 hxe1
    simp only at hs0 hs1
    refine ⟨h1.ordered, h1.gateNonneg, ?_, ?_, ?_, ?_⟩
    · simpa [Ghost.next, hpred] using h1.doneLt
    · simpa [Ghost.next, hpred] using h1.doneAll
    · simpa [Ghost.next, hpred] using h1.consumedPairs
    · intro t _
      simp only [Ghost.next, hpred, List.getD_eq_getElem?_getD, hx0, hx1, Option.getD_some]
      have m0 := List.getElem?_mem hx0
      have m1 := List.getElem?_mem hx1
      rcases lt_trichotomy x0.2.2 x1.2.2 with hlt | heq | hgt
      · exact absurd (pair_frames_lt c g h0 h1 hU0 htup (2 * k) (2 * k + 1)
          (fun f w hm => (h0.pairs k f w).1 hm) (fun f hm => (h1.consumedPairs k f).2 hm)
          x0 x1 m0 m1 hs0 hs1 hlt) id
      · exact heq
      · exact absurd (pair_frames_lt c g h0 h1 hU0 htup (2 * k + 1) (2 * k)
          (fun f w hm => (h0.pairs k f w).2 hm) (fun f hm => (h1.consumedPairs k f).1 hm)
          x1 x0 m1 m0 hs1 hs0 hgt) id
  | copyFromGPUToOpenGLTexture =>
    obtain ⟨t, b0, b1, htup, hb0, hb1, rfl⟩ := step_copy c c2 h
    obtain ⟨k2, hk0, hk1⟩ := h0.tupleCam t htup
    have hfr := h1.tupleFrame t htup
    refine ⟨h1.ordered, h1.gateNonneg, ?_, ?_, ?_, ?_⟩
    · simpa [Ghost.next, htup] using h1.doneLt
    · simpa [Ghost.next, htup] using h1.doneAll
    · intro k f
      have ih := h1.consumedPairs k f
      simp only [Ghost.next, htup, List.mem_append, List.mem_cons, Prod.mk.injEq,
        List.mem_singleton, List.not_mem_nil, or_false]
      rw [ih, hk0, hk1, hfr]
      constructor
      · rintro (h | h | h)
        · exact Or.inl h
        · exact Or.inr (Or.inr ⟨by omega, h.2⟩)
        · omega
      · rintro (h | h | h)
        · exact Or.inl h
        · omega
        · exact Or.inr (Or.inl ⟨by omega, h.2⟩)
    · intro t2 ht2
      cases ht2
  | cleanup =>
    simp only [step] at h
    split at h
    · cases h
    · cases h
      refine ⟨?_, h1.gateNonneg, h1.doneLt, h1.doneAll, h1.consumedPairs, h1.tupleFrame⟩
      intro j wj hj hpast
      exact h1.ordered j wj hj (pastOrderGate_true _ _ hpast)


/-! ### The log of gate changes, and the invariants along an execution -/


theorem gateAfter_snoc (log : List GateEvent) (e : GateEvent) (s : Int) :
    gateAfter (log ++ [e]) s = e.apply s (gateAfter log s) := by
  simp [gateAfter, List.foldl_append]

theorem thread_gateLog (g : Ghost) (w w2 : Worker) :
    (g.thread w w2).gateLog =
      if w.pc = .renderGate ∧ w.useForRendering = true then
        g.gateLog ++ [.claim w.inputIndex] else g.gateLog := by
  unfold Ghost.thread
  split <;> (try split) <;> simp_all

theorem claimsOpen_snoc_claim (log : List GateEvent) (s : Int) (h : ClaimsOpen log)
    (hs : gateAfter log s = true) : ClaimsOpen (log ++ [.claim s]) := by
  intro pre post s2 heq
  rcases List.eq_nil_or_concat post with hp | ⟨post2, e, hp⟩
  · subst hp
    have := List.append_inj' heq (by simp)
    obtain ⟨h1, h2⟩ := this
    subst h1
    simp only [List.cons.injEq, GateEvent.claim.injEq, and_true] at h2
    subst h2
    exact hs
  · subst hp
    have heq2 : log ++ [GateEvent.claim s] = (pre ++ GateEvent.claim s2 :: post2) ++ [e] := by
      rw [heq]; simp
    have := List.append_inj' heq2 (by simp)
    exact h pre post2 s2 this.1

theorem claimsOpen_snoc_reopen (log : List GateEvent) (s : Int) (h : ClaimsOpen log) :
    ClaimsOpen (log ++ [.reopen s]) := by
  intro pre post s2 heq
  rcases List.eq_nil_or_concat post with hp | ⟨post2, e, hp⟩
  · subst hp
    have := List.append_inj' heq (by simp)
    obtain ⟨_, h2⟩ := this
    simp at h2
  · subst hp
    have heq2 : log ++ [GateEvent.reopen s] = (pre ++ GateEvent.claim s2 :: post2) ++ [e] := by
      rw [heq]; simp
    have := List.append_inj' heq2 (by simp)
    exact h pre post2 s2 this.1

theorem threadStep_memcpy (p : Pool) (w : Worker) (x : Extern) (p2 : Pool) (w2 : Worker)
    (hs : ThreadStep p w x p2 w2) (hpc : ¬ (w.pc = .renderGate ∧ w.useForRendering = true)) :
    p2.memcpy_array = p.memcpy_array := by
  cases hs <;> first | rfl | (exfalso; apply hpc; constructor <;> assumption)

theorem threadStep_claim (p : Pool) (w : Worker) (x : Extern) (p2 : Pool) (w2 : Worker)
    (hs : ThreadStep p w x p2 w2) (hpc : w.pc = .renderGate) (hu : w.useForRendering = true) :
    ∃ free, vecGet p.memcpy_array w.inputIndex = some free ∧
      (free = true ∨ p.terminate_pool = true) ∧
      p2 = { p with memcpy_array := vecSet p.memcpy_array w.inputIndex false } := by
  cases hs <;> simp_all

theorem invG_step (c : Config) (g : Ghost) (hG : InvG c g) (l : Label) (c2 : Config)
    (h : step c l = some c2) : InvG c2 (Ghost.next c g l) := by
  cases l with
  | thread i x =>
    obtain ⟨w, p2, w2, hw, hs, rfl, hg⟩ := step_thread c i x c2 h
    rw [hg]
    by_cases hcl : w.pc = .renderGate ∧ w.useForRendering = true
    · obtain ⟨free, hm, hgo, rfl⟩ := threadStep_claim _ _ _ _ _ hs hcl.1 hcl.2
      constructor
      · intro s b hb
        simp only at hb
        rw [thread_gateLog, if_pos hcl, gateAfter_snoc]
        by_cases hsame : w.inputIndex = s
        · subst hsame
          rw [vecGet_vecSet_eq _ _ _ _ hm] at hb
          cases hb
          simp [GateEvent.apply]
        · rw [vecGet_vecSet_ne _ _ _ _ hsame] at hb
          simp only [GateEvent.apply, hsame, if_false]
          exact hG.gates s b hb
      · intro hf
        simp only at hf
        rw [thread_gateLog, if_pos hcl]
        rw [hf] at hgo
        simp only [Bool.false_eq_true, or_false] at hgo
        subst hgo
        exact claimsOpen_snoc_claim _ _ (hG.claims hf) (hG.gates _ _ hm).symm
    · constructor
      · intro s b hb
        simp only at hb
        rw [threadStep_memcpy _ _ _ _ _ hs hcl] at hb
        rw [thread_gateLog, if_neg hcl]
        exact hG.gates s b hb
      · intro hf
        simp only at hf
        rw [threadStep_flag _ _ _ _ _ hs] at hf
        rw [thread_gateLog, if_neg hcl]
        exact hG.claims hf
  | startDemuxingFirstFrames inputsToUse =>
    simp only [step] at h
    split at h
    · cases h
    · cases h
      exact ⟨hG.gates, hG.claims⟩
  | startDemuxingNextFrame inputIndex frameNr useForRendering =>
    simp only [step] at h
    split at h
    · cases h
    · cases h
      exact ⟨hG.gates, hG.claims⟩
  | waitUntilInputFrameIsDecoded k =>
    obtain ⟨htup, i0, i1, e0, e1, hne, hpred, he0, he1, hs0, hs1, rfl⟩ := step_take c k c2 h
    constructor
    · simpa [Ghost.next, hpred] using hG.gates
    · simpa [Ghost.next, hpred] using hG.claims
  | copyFromGPUToOpenGLTexture =>
    obtain ⟨t, b0, b1, htup, hb0, hb1, rfl⟩ := step_copy c c2 h
    have hlog : (Ghost.next c g .copyFromGPUToOpenGLTexture).gateLog =
        (g.gateLog ++ [.reopen t.1]) ++ [.reopen t.2.2.1] := by
      simp [Ghost.next, htup]
    constructor
    · intro s b hb
      simp only at hb
      rw [hlog, gateAfter_snoc, gateAfter_snoc]
      by_cases h1 : t.2.2.1 = s
      · subst h1
        have hin : ∃ y, vecGet (vecSet c.pool.memcpy_array t.1 true) t.2.2.1 = some y := by
          by_cases h01 : t.1 = t.2.2.1
          · rw [h01]
            exact ⟨true, vecGet_vecSet_eq _ _ _ _ hb1⟩
          · rw [vecGet_vecSet_ne _ _ _ _ h01]
            exact ⟨b1, hb1⟩
        obtain ⟨y, hy⟩ := hin
        rw [vecGet_vecSet_eq _ _ _ _ hy] at hb
        cases hb
        simp [GateEvent.apply]
      · rw [vecGet_vecSet_ne _ _ _ _ h1] at hb
        by_cases h2 : t.1 = s
        · subst h2
          rw [vecGet_vecSet_eq _ _ _ _ hb0] at hb
          cases hb
          simp [GateEvent.apply, h1]
        · rw [vecGet_vecSet_ne _ _ _ _ h2] at hb
          simp only [GateEvent.apply, h1, h2, if_false]
          exact hG.gates s b hb
    · intro hf
      rw [hlog]
      exact claimsOpen_snoc_reopen _ _ (claimsOpen_snoc_reopen _ _ (hG.claims hf))
  | cleanup =>
    simp only [step] at h
    split at h
    · cases h
    · cases h
      constructor
      · exact hG.gates
      · intro hf
        simp [Pool.cleanup] at hf

theorem gateAfter_no_reopen (s : Int) (mid pre : List GateEvent)
    (hpre : gateAfter pre s = false) (hmid : GateEvent.reopen s ∉ mid) :
    gateAfter (pre ++ mid) s = false := by
  induction mid using List.reverseRecOn with
  | nil => simpa using hpre
  | append_singleton mid e ih =>
    rw [← List.append_assoc, gateAfter_snoc]
    have ih2 := ih (fun hm => hmid (by simp [hm]))
    rw [ih2]
    cases e with
    | claim s2 => simp [GateEvent.apply]
    | reopen s2 =>
      have : s2 ≠ s := by
        intro h
        apply hmid
        simp [h]
      simp [GateEvent.apply, this]

/-- Two claims of the Decode Gate entry of a stream are separated by a reopening of
that entry. -/
theorem claims_separated (log : List GateEvent) (h : ClaimsOpen log) (s : Int)
    (pre mid post : List GateEvent)
    (heq : log = pre ++ [.claim s] ++ mid ++ [.claim s] ++ post) :
    GateEvent.reopen s ∈ mid := by
  by_contra hmid
  have h1 := h (pre ++ [.claim s] ++ mid) post s (by rw [heq]; simp)
  have h2 : gateAfter (pre ++ [.claim s]) s = false := by
    rw [gateAfter_snoc]
    simp [GateEvent.apply]
  have h3 := gateAfter_no_reopen s mid _ h2 hmid
  rw [h3] at h1
  cases h1

theorem filterMap_replicate_none {α β : Type} (f : α → Option β) (a : α) (h : f a = none) :
    ∀ n : Nat, (List.replicate n a).filterMap f = []
  | 0 => rfl
  | n + 1 => by
    simp only [List.replicate_succ, List.filterMap_cons, h, filterMap_replicate_none f a h n]

theorem vecGet_replicate {α : Type} (n : Nat) (a b : α) (s : Int)
    (h : vecGet (List.replicate n a) s = some b) : b = a := by
  unfold vecGet at h
  split at h
  · cases h
  · rw [List.getElem?_replicate] at h
    split at h
    · cases h; rfl
    · cases h

theorem inv0_init (nrImages : Int) (demuxers : Nat) (decoders : List Int) (nrThreads : Int) :
    Inv0 (Config.init nrImages demuxers decoders nrThreads) Ghost.empty := by
  have hh := filterMap_replicate_none Worker.held Worker.start rfl nrThreads.toNat
  have hp := filterMap_replicate_none Worker.publishing Worker.start rfl nrThreads.toNat
  have hc := filterMap_replicate_none (Worker.claimed false) Worker.start rfl nrThreads.toNat
  constructor
  · intro t
    simp [Config.init, Pool.init, Pool.startThreadPool, Ghost.empty, hh]
  · rfl
  · intro k
    simp [Config.init, Pool.init, Pool.startThreadPool, Ghost.empty, hp, tupleKeys]
  · intro s
    simp only [inFlight, gateOpen, Config.init, Pool.init, Pool.startThreadPool, hc,
      tupleStreams, List.map_nil, List.append_nil, List.count_nil]
    split <;> omega
  · intro k f w
    simp [Ghost.empty]
  · intro t ht
    cases ht

theorem inv1_init (nrImages : Int) (demuxers : Nat) (decoders : List Int) (nrThreads : Int) :
    Inv1 (Config.init nrImages demuxers decoders nrThreads) Ghost.empty := by
  constructor
  · intro i w hw hpast
    have hmem := List.getElem?_mem hw
    simp only [Config.init, Pool.startThreadPool] at hmem
    have := List.eq_of_mem_replicate hmem
    subst this
    simp [Worker.pastOrderGate, Worker.start] at hpast
  · intro s d hd
    have := vecGet_replicate _ _ _ _ hd
    omega
  · intro s f w hm
    simp [Ghost.empty] at hm
  · intro s d f hd hf0 hfd
    have := vecGet_replicate _ _ _ _ hd
    omega
  · intro k f
    simp [Ghost.empty]
  · intro t ht
    cases ht

theorem invG_init (nrImages : Int) (demuxers : Nat) (decoders : List Int) (nrThreads : Int) :
    InvG (Config.init nrImages demuxers decoders nrThreads) Ghost.empty := by
  constructor
  · intro s b hb
    have := vecGet_replicate _ _ _ _ hb
    subst this
    rfl
  · intro _ pre post s heq
    simp [Ghost.empty] at heq

theorem step_flag_mono (c : Config) (l : Label) (c2 : Config) (h : step c l = some c2)
    (hf : c2.pool.terminate_pool = false) : c.pool.terminate_pool = false := by
  cases l with
  | thread i x =>
    obtain ⟨w, p2, w2, hw, hs, rfl, hg⟩ := step_thread c i x c2 h
    rw [← threadStep_flag _ _ _ _ _ hs]
    exact hf
  | startDemuxingFirstFrames inputsToUse =>
    simp only [step] at h
    split at h
    · cases h
    · cases h
      exact hf
  | startDemuxingNextFrame inputIndex frameNr useForRendering =>
    simp only [step] at h
    split at h
    · cases h
    · cases h
      exact hf
  | waitUntilInputFrameIsDecoded k =>
    obtain ⟨htup, i0, i1, e0, e1, hne, hpred, he0, he1, hs0, hs1, rfl⟩ := step_take c k c2 h
    exact hf
  | copyFromGPUToOpenGLTexture =>
    obtain ⟨t, b0, b1, htup, hb0, hb1, rfl⟩ := step_copy c c2 h
    exact hf
  | cleanup =>
    simp only [step] at h
    split at h
    · cases h
    · cases h
      simp [Pool.cleanup] at hf

/-- The invariants hold after every execution. -/
theorem runFrom_inv : ∀ (tr : List Label) (cg cg2 : Config × Ghost),
    Inv0 cg.1 cg.2 → InvG cg.1 cg.2 →
    ((cg.2.enqueued.map Task.key).Nodup → Inv1 cg.1 cg.2) →
    runFrom cg tr = some cg2 →
    Inv0 cg2.1 cg2.2 ∧ InvG cg2.1 cg2.2 ∧
      ((cg2.2.enqueued.map Task.key).Nodup → Inv1 cg2.1 cg2.2)
  | [], cg, cg2, h0, hG, h1, hrun => by
    simp only [runFrom, Option.some.injEq] at hrun
    subst hrun
    exact ⟨h0, hG, h1⟩
  | l :: tr, cg, cg2, h0, hG, h1, hrun => by
    simp only [runFrom] at hrun
    split at hrun
    · cases hrun
    · rename_i c2 hstep
      exact runFrom_inv tr (c2, Ghost.next cg.1 cg.2 l) cg2
        (inv0_step cg.1 cg.2 h0 l c2 hstep) (invG_step cg.1 cg.2 hG l c2 hstep)
        (fun hU => inv1_step cg.1 cg.2 h0 (h1 (uniq_of_next cg.1 cg.2 l hU)) l c2 hU hstep)
        hrun

theorem run_inv (nrImages : Int) (demuxers : Nat) (decoders : List Int) (nrThreads : Int)
    (tr : List Label) (c : Config) (g : Ghost)
    (hrun : run nrImages demuxers decoders nrThreads tr = some (c, g)) :
    Inv0 c g ∧ InvG c g ∧ ((g.enqueued.map Task.key).Nodup → Inv1 c g) :=
  runFrom_inv tr _ (c, g) (inv0_init _ _ _ _) (invG_init _ _ _ _)
    (fun _ => inv1_init _ _ _ _) hrun


/-! ### Ordering, bounded lookahead and pairing -/


theorem claimed_of_pc (fl : Bool) (w : Worker) (hu : w.useForRendering = true)
    (hpc : w.pc = .decode ∨ w.pc = .increment ∨ w.pc = .publish) :
    w.claimed fl = some w.inputIndex := by
  unfold Worker.claimed
  rcases hpc with h | h | h <;> simp [h, hu]

/-- C2: in every execution in which no `(stream, frame)` is pushed twice, a thread
that is about to fetch (Pool.h 172) or about to decode (Pool.h 188) its task `(s, f)`
is in a state where `demux_array[s] = f`, and every frame `0 ≤ f2 < f` of stream `s`,
frame `f - 1` among them, has already run its increment of `demux_array[s]`, whichever
threads ran them.  The statement holds whether the stop flag is clear or not. -/
theorem C2_per_stream_ordering (nrImages : Int) (demuxers : Nat) (decoders : List Int)
    (nrThreads : Int) (tr : List Label) (c : Config) (g : Ghost)
    (hrun : run nrImages demuxers decoders nrThreads tr = some (c, g))
    (hU : (g.enqueued.map Task.key).Nodup) (i : Nat) (w : Worker)
    (hw : c.threads[i]? = some w) (hpc : w.pc = .demux ∨ w.pc = .decode) :
    vecGet c.pool.demux_array w.inputIndex = some w.frameNr ∧
      ∀ f2, 0 ≤ f2 → f2 < w.frameNr → ∃ b, (w.inputIndex, f2, b) ∈ g.incremented := by
  obtain ⟨_, _, h1⟩ := run_inv nrImages demuxers decoders nrThreads tr c g hrun
  have h1 := h1 hU
  have hpast : w.pastOrderGate c.pool.terminate_pool := by
    unfold Worker.pastOrderGate
    rcases hpc with h | h <;> simp [h]
  have hord := h1.ordered i w hw hpast
  exact ⟨hord, fun f2 h0 hlt => h1.doneAll _ _ f2 hord h0 hlt⟩

set_option maxRecDepth 100000 in
/-- Witness of C2: thread 0 is about to decode the task `(0, 1, true)`; the entry of
stream 0 reads 1, and frame 0 of stream 0 has run its increment. -/
theorem C2_per_stream_ordering_witness :
    ∃ c g, run 1 2 [0, 0] 2 traceWantedNext = some (c, g) ∧
      g.incremented = [(0, 0, true), (1, 0, true)] ∧
      vecGet c.pool.demux_array 0 = some 1 ∧
      ∀ f2 : Int, 0 ≤ f2 → f2 < 1 → ∃ b, ((0 : Int), f2, b) ∈ g.incremented :=
  ⟨_, _, rfl, rfl, C2_per_stream_ordering 1 2 [0, 0] 2 traceWantedNext _ _ rfl (by decide) 0
    { pc := .decode, inputIndex := 0, frameNr := 1, useForRendering := true,
      nVideoBytes := 10, decoded_picture_index := 3 }
    rfl (Or.inr rfl)⟩

/-- C3: in every reachable state with the stop flag clear, every stream `s` has at
most one wanted frame that is claimed or decoded and not yet consumed (a thread past
its claim of `memcpy_array[s]`, an entry of `output_queue`, or a half of the tuple the
driver holds), and none while `memcpy_array[s]` is true.  Every claim in the history
was made on an entry that was true, and two claims of the entry of `s` have a
reopening of that entry by the driver between them. -/
theorem C3_bounded_lookahead (nrImages : Int) (demuxers : Nat) (decoders : List Int)
    (nrThreads : Int) (tr : List Label) (c : Config) (g : Ghost)
    (hrun : run nrImages demuxers decoders nrThreads tr = some (c, g))
    (hflag : c.pool.terminate_pool = false) (s : Int) :
    (inFlight c).count s ≤ 1 ∧
      (vecGet c.pool.memcpy_array s = some true → (inFlight c).count s = 0) ∧
      (∀ pre post, g.gateLog = pre ++ GateEvent.claim s :: post → gateAfter pre s = true) ∧
      (∀ pre mid post,
        g.gateLog = pre ++ [GateEvent.claim s] ++ mid ++ [GateEvent.claim s] ++ post →
        GateEvent.reopen s ∈ mid) := by
  obtain ⟨h0, hG, _⟩ := run_inv nrImages demuxers decoders nrThreads tr c g hrun
  have htok := h0.tokens s
  refine ⟨by omega, ?_, ?_, ?_⟩
  · intro hopen
    simp only [gateOpen, hopen, if_true] at htok
    omega
  · intro pre post heq
    exact hG.claims hflag pre post s heq
  · intro pre mid post heq
    exact claims_separated g.gateLog (hG.claims hflag) s pre mid post heq

set_option maxRecDepth 100000 in
/-- Witness of C3: after `tracePublished` the frame 0 of stream 0 waits in
`output_queue`, and it is the only one of its stream. -/
theorem C3_bounded_lookahead_witness :
    ∃ c g, run 1 2 [0, 0] 2 tracePublished = some (c, g) ∧
      (inFlight c).count 0 = 1 ∧ (inFlight c).count 0 ≤ 1 :=
  ⟨_, _, rfl, by decide,
    (C3_bounded_lookahead 1 2 [0, 0] 2 tracePublished _ _ rfl rfl 0).1⟩

theorem tuple_incremented (c : Config) (g : Ghost) (h0 : Inv0 c g) (t : Int × Int × Int × Int)
    (ht : c.tuple = some t) :
    (t.1, g.tupleFrames.1, true) ∈ g.incremented ∧
      (t.2.2.1, g.tupleFrames.2, true) ∈ g.incremented := by
  have w0 := h0.wanted (t.1, g.tupleFrames.1)
  have w1 := h0.wanted (t.2.2.1, g.tupleFrames.2)
  rw [count_filterMap_wantedKey] at w0 w1
  simp only [tupleKeys, ht, List.count_cons, List.count_nil, beq_self_eq_true, if_true] at w0 w1
  exact ⟨List.count_pos_iff.1 (by omega), List.count_pos_iff.1 (by omega)⟩

/-- C6: in every execution in which no `(stream, frame)` is pushed twice and the
driver consumes each tuple it takes before it calls the pool again, the tuple that
`waitUntilInputFrameIsDecoded(k)` has returned is made of an entry of stream `2k` and
an entry of stream `2k+1` that were published for one and the same frame number `f`,
by the tasks `(2k, f)` and `(2k+1, f)`, both wanted for rendering, whatever the
interleaving of the threads and the driver. -/
theorem C6_completion_pairing (nrImages : Int) (demuxers : Nat) (decoders : List Int)
    (nrThreads : Int) (tr : List Label) (c : Config) (g : Ghost)
    (hrun : run nrImages demuxers decoders nrThreads tr = some (c, g))
    (hU : (g.enqueued.map Task.key).Nodup) (t : Int × Int × Int × Int)
    (ht : c.tuple = some t) :
    ∃ k f, t.1 = 2 * k ∧ t.2.2.1 = 2 * k + 1 ∧ g.tupleFrames = (f, f) ∧
      (2 * k, f, true) ∈ g.incremented ∧ (2 * k + 1, f, true) ∈ g.incremented := by
  obtain ⟨h0, _, h1⟩ := run_inv nrImages demuxers decoders nrThreads tr c g hrun
  have h1 := h1 hU
  obtain ⟨k, hk0, hk1⟩ := h0.tupleCam t ht
  have hf := h1.tupleFrame t ht
  obtain ⟨m0, m1⟩ := tuple_incremented c g h0 t ht
  refine ⟨k, g.tupleFrames.1, hk0, hk1, ?_, ?_, ?_⟩
  · exact Prod.ext rfl hf.symm
  · rw [← hk0]; exact m0
  · rw [← hk1, hf]; exact m1

set_option maxRecDepth 100000 in
/-- Witness of C6: the pair of camera 0 taken after both tasks of frame 0 have been
published, by different threads. -/
theorem C6_completion_pairing_witness :
    ∃ c g, run 1 2 [0, 0] 2 traceTaken = some (c, g) ∧ c.tuple = some (0, 3, 1, 3) ∧
      ∃ k f, (0 : Int) = 2 * k ∧ (1 : Int) = 2 * k + 1 ∧ g.tupleFrames = (f, f) ∧
        (2 * k, f, true) ∈ g.incremented ∧ (2 * k + 1, f, true) ∈ g.incremented :=
  ⟨_, _, rfl, rfl,
    C6_completion_pairing 1 2 [0, 0] 2 traceTaken _ _ rfl (by decide) (0, 3, 1, 3) rfl⟩

set_option maxRecDepth 100000 in
/-- Counterexample to C4 as stated: frame 0 of stream 0 was wanted and has not been
consumed (it waits in `output_queue`), and thread 0 is about to decode the task
`(0, 1)`, which is not wanted for rendering and so has not waited on the Decode
Gate. -/
theorem C4_counterexample :
    ∃ c g, run 1 2 [0, 0] 2 traceUnwantedNext = some (c, g) ∧
      (g.enqueued.map Task.key).Nodup ∧ c.pool.terminate_pool = false ∧
      (∃ w, c.threads[0]? = some w ∧ w.pc = .decode ∧ w.inputIndex = 0 ∧ w.frameNr = 0 + 1) ∧
      ((0 : Int), (0 : Int), true) ∈ g.enqueued ∧ ((0 : Int), (0 : Int)) ∉ g.consumed :=
  ⟨_, _, rfl, by decide, rfl, ⟨_, rfl, rfl, rfl, rfl⟩, by decide, by decide⟩

theorem wanted_decode_after_consume (c : Config) (g : Ghost) (h0 : Inv0 c g) (h1 : Inv1 c g)
    (hU : (g.enqueued.map Task.key).Nodup) (i : Nat) (w : Worker)
    (hw : c.threads[i]? = some w) (hpc : w.pc = .decode) (hu : w.useForRendering = true)
    (N : Int) (hN : 0 ≤ N) (hf : w.frameNr = N + 1)
    (henq : (w.inputIndex, N, true) ∈ g.enqueued) : (w.inputIndex, N) ∈ g.consumed := by
  have hord := h1.ordered i w hw (by simp [Worker.pastOrderGate, hpc])
  obtain ⟨b, hb⟩ := h1.doneAll _ _ N hord hN (by omega)
  have hbt : b = true := flag_unique g hU _ _ _ _ (incremented_sub c g h0 _ hb) henq
  subst hbt
  have hwant := h0.wanted (w.inputIndex, N)
  rw [count_filterMap_wantedKey] at hwant
  have hinc := List.count_pos_iff.2 hb
  have hcl := claimed_of_pc c.pool.terminate_pool w hu (Or.inl hpc)
  have hmine := count_filterMap_one (Worker.claimed c.pool.terminate_pool) c.threads i w
    w.inputIndex hw hcl
  have tok := h0.tokens w.inputIndex
  simp only [inFlight, List.count_append] at tok
  by_cases hp : 1 ≤ (c.threads.filterMap Worker.publishing).count (w.inputIndex, N)
  · exfalso
    obtain ⟨wj, hwj, hpub⟩ := List.mem_filterMap.1 (List.count_pos_iff.1 hp)
    obtain ⟨j, hj⟩ := List.mem_iff_getElem?.1 hwj
    have hjpc : wj.pc = .publish ∧ wj.useForRendering = true ∧ wj.inputIndex = w.inputIndex := by
      unfold Worker.publishing at hpub
      split at hpub <;> simp_all
    have hij : i ≠ j := by
      intro h
      subst h
      rw [hw] at hj
      cases hj
      rw [hpc] at hjpc
      cases hjpc.1
    have hclj := claimed_of_pc c.pool.terminate_pool wj hjpc.2.1 (Or.inr (Or.inr hjpc.1))
    have h2 := count_filterMap_two (Worker.claimed c.pool.terminate_pool) c.threads i j w wj
      w.inputIndex wj.inputIndex w.inputIndex hij hw hj hcl hclj
    rw [hjpc.2.2] at h2
    simp only [List.count_cons, List.count_nil, beq_self_eq_true, if_true] at h2
    omega
  · by_cases ht : 1 ≤ (g.tagged.map (fun e => (e.1, e.2.2))).count (w.inputIndex, N)
    · exfalso
      obtain ⟨y, hy, hyk⟩ := List.mem_map.1 (List.count_pos_iff.1 ht)
      simp only [Prod.mk.injEq] at hyk
      have : 1 ≤ (c.pool.output_queue.map Prod.fst).count w.inputIndex := by
        rw [← h0.erase]
        exact List.count_pos_iff.2
          (by simp only [List.map_map, List.mem_map]; exact ⟨_, hy, hyk.1⟩)
      omega
    · by_cases hk : 1 ≤ (tupleKeys c.tuple g.tupleFrames).count (w.inputIndex, N)
      · exfalso
        have hmem := List.count_pos_iff.1 hk
        unfold tupleKeys at hmem
        split at hmem
        · cases hmem
        · rename_i t htup
          simp only [List.mem_cons, Prod.mk.injEq, List.mem_singleton, List.not_mem_nil,
            or_false] at hmem
          have : 1 ≤ (tupleStreams c.tuple).count w.inputIndex := by
            rw [htup]
            apply List.count_pos_iff.2
            simp only [tupleStreams, List.mem_cons, List.mem_singleton, List.not_mem_nil,
              or_false]
            rcases hmem with h | h
            · exact Or.inl h.1
            · exact Or.inr h.1
          omega
      · exact List.count_pos_iff.1 (by omega)

/-- C4 as amended: in every execution in which no `(stream, frame)` is pushed twice,
when frame `N ≥ 0` of stream `s` was pushed as wanted for rendering and a thread is
about to decode a task `(s, N + 1)` that is itself wanted for rendering, the driver
has consumed frame `N` of `s`. -/
theorem C4_wanted_decode_after_consume (nrImages : Int) (demuxers : Nat)
    (decoders : List Int) (nrThreads : Int) (tr : List Label) (c : Config) (g : Ghost)
    (hrun : run nrImages demuxers decoders nrThreads tr = some (c, g))
    (hU : (g.enqueued.map Task.key).Nodup) (i : Nat) (w : Worker)
    (hw : c.threads[i]? = some w) (hpc : w.pc = .decode) (hu : w.useForRendering = true)
    (N : Int) (hN : 0 ≤ N) (hf : w.frameNr = N + 1)
    (henq : (w.inputIndex, N, true) ∈ g.enqueued) : (w.inputIndex, N) ∈ g.consumed := by
  obtain ⟨h0, _, h1⟩ := run_inv nrImages demuxers decoders nrThreads tr c g hrun
  exact wanted_decode_after_consume c g h0 (h1 hU) hU i w hw hpc hu N hN hf henq

set_option maxRecDepth 100000 in
/-- Witness of C4 as amended: thread 0 about to decode the wanted task `(0, 1)` after
the driver has consumed frame 0 of camera 0. -/
theorem C4_wanted_decode_after_consume_witness :
    ∃ c g, run 1 2 [0, 0] 2 traceWantedNext = some (c, g) ∧
      ((0 : Int), (0 : Int)) ∈ g.consumed :=
  ⟨_, _, rfl, C4_wanted_decode_after_consume 1 2 [0, 0] 2 traceWantedNext _ _ rfl
    (by decide) 0
    { pc := .decode, inputIndex := 0, frameNr := 1, useForRendering := true,
      nVideoBytes := 10, decoded_picture_index := 3 }
    rfl rfl rfl 0 (by decide) rfl (by decide)⟩

/-! ### The application: the steps of the threads -/

theorem vecSet_length {α : Type} (v : List α) (i : Int) (x : α) :
    (vecSet v i x).length = v.length := by
  unfold vecSet
  split <;> simp

theorem threadStep_lengths (p : Pool) (w : Worker) (x : Extern) (p2 : Pool) (w2 : Worker)
    (hs : ThreadStep p w x p2 w2) :
    p2.nrImages = p.nrImages ∧ p2.demux_array.length = p.demux_array.length ∧
      p2.memcpy_array.length = p.memcpy_array.length ∧
      p2.picture_index.length = p.picture_index.length := by
  cases hs <;> simp [vecSet_length]

theorem threadStep_local (p : Pool) (w : Worker) (x : Extern) (p2 : Pool) (w2 : Worker)
    (hs : ThreadStep p w x p2 w2) (hpc : w.pc ≠ .waitForTask) :
    p2.input_queue = p.input_queue ∧ w2.key = w.key := by
  cases hs <;> simp_all [Worker.key]

theorem threadStep_not_stopped (p : Pool) (w : Worker) (x : Extern) (p2 : Pool) (w2 : Worker)
    (hs : ThreadStep p w x p2 w2) (hf : p.terminate_pool = false)
    (hx : Pool.demux x.demuxOk x.nVideoBytes = true) : w2.pc ≠ .stopped := by
  cases hs <;> simp_all

theorem thread_abandoned (g : Ghost) (w w2 : Worker) (h : w2.pc ≠ .stopped) :
    (g.thread w w2).abandoned = g.abandoned := by
  unfold Ghost.thread
  split <;> (try split) <;> first | rfl | (exfalso; apply h; assumption)

theorem inputPredicate_cases (q : List Task) (s f : Int) (index : Nat)
    (h : inputPredicate false q s f 0 = (true, index)) :
    (index = 0 ∧ ∃ front rest, q = front :: rest ∧ ¬ (front.2.1 = f ∧ front.1 = s + 1)) ∨
    (index = 1 ∧ ∃ front t rest, q = front :: t :: rest ∧ front.2.1 = f ∧ front.1 = s + 1) := by
  cases q with
  | nil => simp [inputPredicate] at h
  | cons front rest =>
    simp only [inputPredicate] at h
    split at h
    · rename_i hp
      split at h
      · simp at h
      · rename_i hlen
        simp only [Prod.mk.injEq, true_and] at h
        right
        refine ⟨h.symm, ?_⟩
        cases rest with
        | nil => simp at hlen
        | cons t rest => exact ⟨front, t, rest, rfl, hp.1, hp.2⟩
    · rename_i hp
      simp only [Prod.mk.injEq, true_and] at h
      left
      exact ⟨h.symm, front, rest, rfl, hp⟩

theorem keyLt_irrefl (a : Int × Int) : ¬ keyLt a a := by
  unfold keyLt
  omega

theorem keyLt_asymm (a b : Int × Int) (h : keyLt a b) : ¬ keyLt b a := by
  unfold keyLt at *
  omega

theorem keyLt_trans (a b c : Int × Int) (h : keyLt a b) (h2 : keyLt b c) : keyLt a c := by
  unfold keyLt at *
  omega

theorem keyLt_total (a b : Int × Int) : keyLt a b ∨ a = b ∨ keyLt b a := by
  unfold keyLt
  rcases a with ⟨a1, a2⟩
  rcases b with ⟨b1, b2⟩
  simp only [Prod.mk.injEq]
  omega

theorem tokLow_thread (c : Config) (hf : c.pool.terminate_pool = false) (i : Nat) (w : Worker)
    (x : Extern) (p2 : Pool) (w2 : Worker) (hw : c.threads[i]? = some w)
    (hs : ThreadStep c.pool w x p2 w2) (s : Int)
    (h0 : 1 ≤ gateOpen c s + (inFlight c).count s) :
    1 ≤ gateOpen { c with pool := p2, threads := c.threads.set i w2 } s +
      (inFlight { c with pool := p2, threads := c.threads.set i w2 }).count s := by
  have hset := count_filterMap_set (Worker.claimed c.pool.terminate_pool) c.threads i w w2 s hw
  revert h0 hset
  cases hs <;>
    simp [Worker.claimed, inFlight, gateOpen, List.count_append, List.count_cons, *] <;>
    intros <;> first | omega | (exfalso; simp_all; done) | skip
  case claim free hpc hu hm hgo h0 hset =>
    simp only [hf] at hgo hset h0
    simp at hgo
    subst hgo
    by_cases hs : w.inputIndex = s
    · subst hs
      rw [vecGet_vecSet_eq _ _ _ _ hm]
      simp at hset ⊢
      omega
    · rw [vecGet_vecSet_ne _ _ _ _ hs]
      simp [List.count_singleton, hs] at hset
      omega

theorem mem_set_cases {α : Type} (l : List α) (i : Nat) (w2 v : α) (h : v ∈ l.set i w2) :
    v = w2 ∨ v ∈ l := by
  rcases List.mem_or_eq_of_mem_set h with h | h
  · exact Or.inr h
  · exact Or.inl h

theorem getElem?_set_cases {α : Type} (l : List α) (i j : Nat) (w2 v : α)
    (h : (l.set i w2)[j]? = some v) : (j = i ∧ v = w2) ∨ (j ≠ i ∧ l[j]? = some v) := by
  rw [List.getElem?_set] at h
  split at h
  · rename_i hij
    split at h
    · simp only [Option.some.injEq] at h
      exact Or.inl ⟨hij.symm, h.symm⟩
    · cases h
  · rename_i hij
    exact Or.inr ⟨fun e => hij e.symm, h⟩

theorem locals_set_same (q : List Task) (ths : List Worker) (enq : List Task)
    (h : Locals q ths enq) (i : Nat) (w w2 : Worker) (hw : ths[i]? = some w)
    (hk : w2.key = w.key) : Locals q (ths.set i w2) enq := by
  have hmem : ∀ v ∈ ths.set i w2, ∃ v0 ∈ ths, v0.key = v.key := by
    intro v hv
    rcases mem_set_cases _ _ _ _ hv with rfl | hv
    · exact ⟨w, List.getElem?_mem hw, hk.symm⟩
    · exact ⟨v, hv, rfl⟩
  have hget : ∀ (j : Nat) (v : Worker), (ths.set i w2)[j]? = some v →
      ∃ v0 : Worker, ths[j]? = some v0 ∧ v0.key = v.key := by
    intro j v hv
    rcases getElem?_set_cases _ _ _ _ _ hv with ⟨rfl, rfl⟩ | ⟨_, hv⟩
    · exact ⟨w, hw, hk.symm⟩
    · exact ⟨v, hv, rfl⟩
  constructor
  · intro v hv
    obtain ⟨v0, hv0, hk0⟩ := hmem v hv
    have := h.localEnq v0 hv0
    simp only [Worker.key, Prod.mk.injEq] at hk0 this ⊢
    rw [← hk0.1, ← hk0.2]
    exact this
  · intro v hv t ht
    obtain ⟨v0, hv0, hk0⟩ := hmem v hv
    rw [← hk0]
    exact h.localQueue v0 hv0 t ht
  · intro j1 j2 v1 v2 hne h1 h2 he
    obtain ⟨u1, hu1, hk1⟩ := hget j1 v1 h1
    obtain ⟨u2, hu2, hk2⟩ := hget j2 v2 h2
    rw [← hk1]
    exact h.localDistinct j1 j2 u1 u2 hne hu1 hu2 (by rw [hk1, hk2, he])
  · intro j1 v1 t h1 ht hlt
    obtain ⟨u1, hu1, hk1⟩ := hget j1 v1 h1
    obtain ⟨hhead, hrest⟩ := h.skipped j1 u1 t hu1 ht (by rw [hk1]; exact hlt)
    refine ⟨hhead, ?_⟩
    intro j2 v2 hne h2
    obtain ⟨u2, hu2, hk2⟩ := hget j2 v2 h2
    rw [← hk2]
    exact hrest j2 u2 hne hu2

theorem locals_push (q : List Task) (ths : List Worker) (enq new : List Task)
    (h : Locals q ths enq) (hnew : ∀ t ∈ enq, ∀ u ∈ new, keyLt t.key u.key)
    (hf : ∀ u ∈ new, 0 ≤ u.2.1) : Locals (q ++ new) ths (enq ++ new) := by
  have hold : ∀ w ∈ ths, ∀ u ∈ new, ¬ keyLt u.key w.key ∧ u.key ≠ w.key := by
    intro w hw u hu
    have hu0 := hf u hu
    rcases h.localEnq w hw with hk | ⟨b, hb⟩
    · rw [hk]
      simp only [keyLt, Task.key, ne_eq, Prod.mk.injEq]
      omega
    · have := hnew _ hb u hu
      simp only [Task.key, Worker.key] at this ⊢
      refine ⟨keyLt_asymm _ _ this, ?_⟩
      intro he
      rw [he] at this
      exact keyLt_irrefl _ this
  constructor
  · intro w hw
    rcases h.localEnq w hw with hk | ⟨b, hb⟩
    · exact Or.inl hk
    · exact Or.inr ⟨b, List.mem_append_left _ hb⟩
  · intro w hw t ht
    rcases List.mem_append.1 ht with ht | ht
    · exact h.localQueue w hw t ht
    · exact (hold w hw t ht).2
  · exact h.localDistinct
  · intro i w t hw ht hlt
    rcases List.mem_append.1 ht with ht | ht
    · obtain ⟨hhead, hrest⟩ := h.skipped i w t hw ht hlt
      refine ⟨?_, hrest⟩
      cases q with
      | nil => simp at ht
      | cons a q => simpa using hhead
    · exact absurd hlt (hold w (List.getElem?_mem hw) t ht).1

theorem locals_dequeue (q : List Task) (ths : List Worker) (enq : List Task)
    (h : Locals q ths enq) (hsorted : q.Pairwise fun t u => keyLt t.key u.key)
    (hfr : ∀ t ∈ q, 0 ≤ t.2.1) (hsub : ∀ t ∈ q, t ∈ enq) (i : Nat) (w w2 : Worker)
    (hw : ths[i]? = some w) (index : Nat) (t : Task)
    (hsel : inputPredicate false q w.inputIndex w.frameNr 0 = (true, index))
    (ht : q[index]? = some t) (hk : w2.key = t.key) :
    Locals (q.eraseIdx index) (ths.set i w2) enq := by
  have hmemq : ∀ u ∈ q.eraseIdx index, u ∈ q := fun u hu =>
    (List.eraseIdx_sublist q index).subset hu
  have htq : t ∈ q := List.getElem?_mem ht
  -- the tasks left in the queue differ from the one taken
  have hleft : ∀ u ∈ q.eraseIdx index, u.key ≠ t.key ∧
      (keyLt u.key t.key → index = 1 ∧ q.head? = some u ∧
        u.2.1 = w.frameNr ∧ u.1 = w.inputIndex + 1) := by
    rcases inputPredicate_cases q _ _ _ hsel with ⟨rfl, front, rest, rfl, _⟩ |
      ⟨rfl, front, t2, rest, rfl, hp1, hp2⟩
    · simp only [List.getElem?_cons_zero, Option.some.injEq] at ht
      subst ht
      intro u hu
      simp only [List.eraseIdx_cons_zero] at hu
      have := (List.pairwise_cons.1 hsorted).1 u hu
      refine ⟨?_, fun hlt => absurd hlt (keyLt_asymm _ _ this)⟩
      intro he
      rw [he] at this
      exact keyLt_irrefl _ this
    · simp only [List.getElem?_cons_succ, List.getElem?_cons_zero, Option.some.injEq] at ht
      subst ht
      intro u hu
      simp only [List.eraseIdx_cons_succ, List.eraseIdx_cons_zero, List.mem_cons] at hu
      have hs1 := List.pairwise_cons.1 hsorted
      have hs2 := List.pairwise_cons.1 hs1.2
      rcases hu with rfl | hu
      · have := hs1.1 t2 (List.mem_cons_self _ _)
        refine ⟨?_, fun _ => ⟨rfl, rfl, hp1, hp2⟩⟩
        intro he
        rw [he] at this
        exact keyLt_irrefl _ this
      · have := hs2.1 u hu
        refine ⟨?_, fun hlt => absurd hlt (keyLt_asymm _ _ this)⟩
        intro he
        rw [he] at this
        exact keyLt_irrefl _ this
  have hhead : ∀ u ∈ q.eraseIdx index, q.head? = some u → (q.eraseIdx index).head? = some u := by
    intro u hu hh
    rcases inputPredicate_cases q _ _ _ hsel with ⟨rfl, front, rest, rfl, _⟩ |
      ⟨rfl, front, t2, rest, rfl, hp1, hp2⟩
    · simp only [List.head?_cons, Option.some.injEq] at hh
      subst hh
      simp only [List.getElem?_cons_zero, Option.some.injEq] at ht
      subst ht
      exact absurd rfl (hleft _ hu).1
    · simpa using hh
  constructor
  · intro v hv
    rcases mem_set_cases _ _ _ _ hv with rfl | hv
    · right
      refine ⟨t.2.2, ?_⟩
      simp only [Worker.key, Task.key, Prod.mk.injEq] at hk
      rw [hk.1, hk.2]
      exact hsub t htq
    · exact h.localEnq v hv
  · intro v hv u hu
    rcases mem_set_cases _ _ _ _ hv with rfl | hv
    · rw [hk]
      exact (hleft u hu).1
    · exact h.localQueue v hv u (hmemq u hu)
  · intro j1 j2 v1 v2 hne h1 h2 he
    rcases getElem?_set_cases _ _ _ _ _ h1 with ⟨rfl, rfl⟩ | ⟨hj1, g1⟩ <;>
      rcases getElem?_set_cases _ _ _ _ _ h2 with ⟨rfl, rfl⟩ | ⟨hj2, g2⟩
    · exact absurd rfl hne
    · rw [hk] at he
      exact absurd he (h.localQueue v2 (List.getElem?_mem g2) t htq)
    · rw [hk] at he
      exact absurd he.symm (h.localQueue v1 (List.getElem?_mem g1) t htq)
    · exact h.localDistinct j1 j2 v1 v2 hne g1 g2 he
  · intro j1 v1 u h1 hu hlt
    rcases getElem?_set_cases _ _ _ _ _ h1 with ⟨rfl, rfl⟩ | ⟨hj1, g1⟩
    · rw [hk] at hlt
      obtain ⟨hidx, hh, hp1, hp2⟩ := (hleft u hu).2 hlt
      refine ⟨hhead u hu hh, ?_⟩
      intro j2 v2 hne g2
      rcases getElem?_set_cases _ _ _ _ _ g2 with ⟨rfl, rfl⟩ | ⟨_, h2⟩
      · exact absurd rfl hne
      · have hwk : w.key = (u.1 - 1, u.2.1) := by
          simp only [Worker.key, Prod.mk.injEq]
          omega
        have hne2 : v2.key ≠ (u.1 - 1, u.2.1) := by
          intro he
          have := h.localDistinct j2 j1 v2 w hne h2 hw (by rw [he, hwk])
          rw [he] at this
          have hu0 := hfr u (hmemq u hu)
          simp only [Prod.mk.injEq] at this
          omega
        refine ⟨?_, hne2⟩
        rcases keyLt_total v2.key u.key with hl | hl | hl
        · exact hl
        · exact absurd hl.symm (h.localQueue v2 (List.getElem?_mem h2) u (hmemq u hu))
        · exact absurd hwk ((h.skipped j2 v2 u h2 (hmemq u hu) hl).2 j1 w
            (fun e => hne e.symm) hw).2
    · obtain ⟨hh, hrest⟩ := h.skipped j1 v1 u g1 (hmemq u hu) hlt
      have hwo := hrest i w (fun e => hj1 e.symm) hw
      -- the thread that takes a task did not skip `u`, so `u` was the task taken
      exfalso
      rcases inputPredicate_cases q _ _ _ hsel with ⟨rfl, front, rest, rfl, _⟩ |
        ⟨rfl, front, t2, rest, rfl, hp1, hp2⟩
      · simp only [List.head?_cons, Option.some.injEq] at hh
        subst hh
        simp only [List.getElem?_cons_zero, Option.some.injEq] at ht
        subst ht
        exact absurd rfl (hleft _ hu).1
      · simp only [List.head?_cons, Option.some.injEq] at hh
        subst hh
        apply hwo.2
        simp only [Worker.key, Prod.mk.injEq]
        omega

theorem queue_sorted (a : App) (h2 : Inv2 a) :
    a.config.pool.input_queue.Pairwise fun t u => keyLt t.key u.key :=
  List.Pairwise.sublist h2.sub h2.sorted

theorem threadStep_queue_sublist (p : Pool) (w : Worker) (x : Extern) (p2 : Pool) (w2 : Worker)
    (hs : ThreadStep p w x p2 w2) : p2.input_queue.Sublist p.input_queue := by
  cases hs <;> simp [List.eraseIdx_sublist]

theorem locals_thread (a : App) (h2 : Inv2 a) (i : Nat) (w : Worker) (x : Extern) (p2 : Pool)
    (w2 : Worker) (hw : a.config.threads[i]? = some w)
    (hs : ThreadStep a.config.pool w x p2 w2) :
    Locals p2.input_queue (a.config.threads.set i w2) a.ghost.enqueued := by
  by_cases hpc : w.pc = .waitForTask
  · cases hs with
    | dequeue index t _ _ hsel ht =>
      refine locals_dequeue _ _ _ h2.locals (queue_sorted a h2) ?_ (fun t ht => h2.sub.subset ht)
        i w _ hw index t hsel ht rfl
      intro u hu
      exact (h2.enqRange u.1 u.2.1 u.2.2 (h2.sub.subset hu)).2.2.1
    | waitStop _ hf =>
      rw [h2.flag] at hf
      cases hf
    | _ => simp_all
  · obtain ⟨hq, hk⟩ := threadStep_local _ _ _ _ _ hs hpc
    rw [hq]
    exact locals_set_same _ _ _ h2.locals i w w2 hw hk

theorem inv2_thread (a : App) (h2 : Inv2 a) (i : Nat) (w : Worker) (x : Extern) (p2 : Pool)
    (w2 : Worker) (hw : a.config.threads[i]? = some w)
    (hs : ThreadStep a.config.pool w x p2 w2)
    (hx : Pool.demux x.demuxOk x.nVideoBytes = true) :
    Inv2 { a with
      config := { a.config with pool := p2, threads := a.config.threads.set i w2 }
      ghost := a.ghost.thread w w2 } := by
  obtain ⟨hn, hd, hm, hp⟩ := threadStep_lengths _ _ _ _ _ hs
  have hstop := threadStep_not_stopped _ _ _ _ _ hs h2.flag hx
  constructor <;> simp only [thread_enqueued, thread_consumed, thread_tupleFrames, hn, hd, hm, hp]
  · rw [threadStep_flag _ _ _ _ _ hs]
    exact h2.flag
  · exact h2.demLen
  · exact h2.memLen
  · exact h2.picLen
  · intro v hv
    rcases mem_set_cases _ _ _ _ hv with rfl | hv
    · exact hstop
    · exact h2.noStop v hv
  · rw [thread_abandoned _ _ _ hstop]
    exact h2.noAbandon
  · exact h2.enqRange
  · exact h2.enqAll
  · exact h2.enqCur
  · exact h2.enqNext
  · exact h2.sorted
  · exact (threadStep_queue_sublist _ _ _ _ _ hs).trans h2.sub
  · intro s hs0 hs1
    exact tokLow_thread a.config h2.flag i w x p2 w2 hw hs s (h2.tokLow s hs0 hs1)
  · exact h2.consumedBefore
  · exact h2.consumedAll
  · exact locals_thread a h2 i w x p2 w2 hw hs
  · exact h2.tupleNone
  · exact h2.tupleSome
  · exact h2.loopRange
  · exact h2.awaitRange
  · exact h2.frameNonneg
  · exact h2.setupFrame
  · exact h2.sameSets

/-! ### The application: the steps of the driver -/

theorem firstFrames_sorted (n : Int) (inputsToUse : List Int) :
    (firstFrames n inputsToUse).Pairwise fun t u => keyLt t.key u.key := by
  unfold firstFrames
  generalize n.toNat = m
  induction m with
  | zero => simp
  | succ m ih =>
    rw [List.range_succ, List.flatMap_append, List.pairwise_append]
    refine ⟨ih, ?_, ?_⟩
    · simp [keyLt, Task.key]
    · intro t ht u hu
      simp only [List.mem_flatMap, List.mem_range, List.mem_cons, List.mem_singleton,
        List.not_mem_nil, or_false, List.flatMap_cons, List.flatMap_nil, List.append_nil] at ht hu
      obtain ⟨i, hi, ht⟩ := ht
      rcases ht with rfl | rfl <;> rcases hu with rfl | rfl <;>
        simp [keyLt, Task.key] <;> omega

theorem mem_firstFrames_int (n : Int) (hn : 0 ≤ n) (inputsToUse : List Int) (s f : Int) (b : Bool) :
    (s, f, b) ∈ firstFrames n inputsToUse ↔
      0 ≤ s ∧ s < 2 * n ∧ f = 0 ∧ b = decide (s / 2 ∈ inputsToUse) := by
  rw [mem_firstFrames]
  constructor
  · rintro ⟨i, hi, h | h⟩ <;> simp only [Prod.mk.injEq] at h <;> obtain ⟨rfl, rfl, rfl⟩ := h
    · refine ⟨by omega, by omega, rfl, ?_⟩
      congr 2
      omega
    · refine ⟨by omega, by omega, rfl, ?_⟩
      congr 2
      omega
  · rintro ⟨h0, h1, rfl, rfl⟩
    refine ⟨(s / 2).toNat, by omega, ?_⟩
    have : ((s / 2).toNat : Int) = s / 2 := Int.toNat_of_nonneg (by omega)
    rw [this]
    rcases Int.emod_two_eq_zero_or_one s with h | h
    · left
      simp only [Prod.mk.injEq, and_true]
      omega
    · right
      simp only [Prod.mk.injEq, and_true]
      omega

theorem setup_empty (a : App) (h2 : Inv2 a) (hpc : a.driver.pc = .setup) :
    a.ghost.enqueued = [] ∧ a.config.pool.input_queue = [] := by
  have he : a.ghost.enqueued = [] := by
    rw [List.eq_nil_iff_forall_not_mem]
    rintro ⟨s, f, w⟩ ht
    have := h2.enqRange s f w ht
    simp only [Driver.frame, Driver.pushed, hpc] at this
    omega
  refine ⟨he, ?_⟩
  have := h2.sub
  rw [he] at this
  exact List.eq_nil_of_sublist_nil this

theorem inv2_setup (a : App) (h2 : Inv2 a) (hpc : a.driver.pc = .setup) (answer : List Int)
    (a2 : App) (h : appStep a (.driver answer) = some a2) : Inv2 a2 := by
  have htup := h2.tupleNone (by simp [hpc])
  obtain ⟨he, hq⟩ := setup_empty a h2 hpc
  simp only [appStep, Driver.call, hpc, step, htup, Option.some.injEq] at h
  subst h
  have hloc := h2.locals
  have hN := h2.frameNonneg.2
  have hF := h2.setupFrame hpc
  constructor <;>
    simp only [Ghost.next, Pool.startDemuxingFirstFrames, Driver.advance, hpc, Driver.frame,
      Driver.pushed, Driver.passed, he, hq, List.nil_append]
  · exact h2.flag
  · exact h2.demLen
  · exact h2.memLen
  · exact h2.picLen
  · exact h2.noStop
  · exact h2.noAbandon
  · intro s f w ht
    rw [mem_firstFrames_int _ hN] at ht
    omega
  · intro s f hs0 hs1 hf0 hf
    refine ⟨decide (s / 2 ∈ a.driver.current_inputsToUse), ?_⟩
    rw [mem_firstFrames_int _ hN]
    refine ⟨hs0, hs1, ?_, rfl⟩
    omega
  · intro s f w ht _
    rw [mem_firstFrames_int _ hN] at ht
    simp [ht.2.2.2]
  · intro s f w ht hf
    rw [mem_firstFrames_int _ hN] at ht
    omega
  · exact firstFrames_sorted _ _
  · exact List.Sublist.refl _
  · intro s hs0 hs1
    have := h2.tokLow s hs0 hs1
    simpa [gateOpen, inFlight, htup] using this
  · intro s f hc
    have := h2.consumedBefore s f hc
    simp only [Driver.frame, Driver.passed, hpc] at this
    omega
  · intro s f ht hf
    rw [mem_firstFrames_int _ hN] at ht
    omega
  · rw [he, hq] at hloc
    have := locals_push [] a.config.threads [] (firstFrames a.config.pool.nrImages
      a.driver.current_inputsToUse) hloc (by simp) (by
        rintro ⟨s, f, w⟩ hu
        rw [mem_firstFrames_int _ hN] at hu
        simp only
        omega)
    simpa using this
  · intro _
    trivial
  · intro hc
    cases hc
  · intro hc
    cases hc
  · intro hc
    rcases hc with hc | hc <;> cases hc
  · exact h2.frameNonneg
  · intro hc
    cases hc
  · intro _ hc
    exact absurd rfl hc

theorem inv2_frameStart (a : App) (h2 : Inv2 a) (hpc : a.driver.pc = .frameStart)
    (answer : List Int) (hreg : a.driver.consistent answer = true)
    (a2 : App) (h : appStep a (.driver answer) = some a2) : Inv2 a2 := by
  simp only [appStep, Driver.call, hpc, Option.some.injEq] at h
  subst h
  have hR := h2.enqRange
  have hA := h2.enqAll
  have hC := h2.enqCur
  have hB := h2.consumedBefore
  have hD := h2.consumedAll
  simp only [Driver.frame, Driver.pushed, Driver.passed, hpc] at hR hA hC hB hD
  constructor <;>
    simp only [Driver.advance, hpc, Driver.frame, Driver.pushed, Driver.passed]
  · exact h2.flag
  · exact h2.demLen
  · exact h2.memLen
  · exact h2.picLen
  · exact h2.noStop
  · exact h2.noAbandon
  · exact hR
  · exact hA
  · exact hC
  · intro s f w ht hf
    have := hR s f w ht
    omega
  · exact h2.sorted
  · exact h2.sub
  · exact h2.tokLow
  · exact hB
  · exact hD
  · exact h2.locals
  · intro _
    exact h2.tupleNone (by simp [hpc])
  · intro hc
    cases hc
  · intro _
    exact ⟨le_refl _, h2.frameNonneg.2⟩
  · intro hc
    rcases hc with hc | hc <;> cases hc
  · exact h2.frameNonneg
  · intro hc
    cases hc
  · intro _ _ hsu k
    simp only [Driver.consistent, hsu, Bool.false_or, List.all_eq_true, decide_eq_true_eq] at hreg
    simp only [List.any_eq_false, Bool.not_eq_true', decide_eq_false_iff_not, not_not,
      Bool.not_eq_false', decide_eq_true_eq] at hsu
    exact ⟨fun hk => hsu k hk, fun hk => hreg k hk⟩

theorem inv2_loopExit (a : App) (h2 : Inv2 a) (hpc : a.driver.pc = .loopEnqueue)
    (hi : ¬ a.driver.i < a.config.pool.nrImages)
    (answer : List Int) (a2 : App) (h : appStep a (.driver answer) = some a2) : Inv2 a2 := by
  simp only [appStep, Driver.call, hpc, hi, if_false, Option.some.injEq] at h
  subst h
  have hR := h2.enqRange
  have hA := h2.enqAll
  have hC := h2.enqCur
  have hX := h2.enqNext
  have hB := h2.consumedBefore
  have hD := h2.consumedAll
  have hS := h2.sameSets (by simp [hpc]) (by simp [hpc])
  have hL := h2.loopRange hpc
  have hi2 : a.driver.i = a.config.pool.nrImages := by omega
  simp only [Driver.frame, Driver.pushed, Driver.passed, hpc, hi2] at hR hA hC hX hB hD
  constructor <;>
    simp only [Driver.advance, hpc, hi, if_false, Driver.frame, Driver.pushed, Driver.passed]
  · exact h2.flag
  · exact h2.demLen
  · exact h2.memLen
  · exact h2.picLen
  · exact h2.noStop
  · exact h2.noAbandon
  · exact hR
  · exact hA
  · exact hC
  · exact hX
  · exact h2.sorted
  · exact h2.sub
  · exact h2.tokLow
  · exact hB
  · exact hD
  · exact h2.locals
  · intro _
    exact h2.tupleNone (by simp [hpc])
  · intro hc
    cases hc
  · intro hc
    cases hc
  · intro hc
    rcases hc with hc | hc <;> cases hc
  · exact h2.frameNonneg
  · intro hc
    cases hc
  · intro _ _
    exact hS

theorem inv2_frameEnd (a : App) (h2 : Inv2 a) (hpc : a.driver.pc = .frameEnd)
    (answer : List Int) (a2 : App) (h : appStep a (.driver answer) = some a2) : Inv2 a2 := by
  simp only [appStep, Driver.call, hpc, Option.some.injEq] at h
  subst h
  have hR := h2.enqRange
  have hA := h2.enqAll
  have hC := h2.enqCur
  have hX := h2.enqNext
  have hB := h2.consumedBefore
  have hD := h2.consumedAll
  have hS := h2.sameSets (by simp [hpc]) (by simp [hpc])
  have hF := h2.frameNonneg
  simp only [Driver.frame, Driver.pushed, Driver.passed, hpc] at hR hA hC hX hB hD
  constructor <;>
    simp only [Driver.advance, hpc, Driver.frame, Driver.pushed, Driver.passed]
  · exact h2.flag
  · exact h2.demLen
  · exact h2.memLen
  · exact h2.picLen
  · exact h2.noStop
  · exact h2.noAbandon
  · intro s f w ht
    have := hR s f w ht
    omega
  · intro s f hs0 hs1 hf0 hf
    exact hA s f hs0 hs1 hf0 (by omega)
  · intro s f w ht hf
    rw [hX s f w ht hf]
    cases hsu : a.driver.shouldUpdateUsedInputs
    · simp only [Bool.false_eq_true, if_false]
      exact hS hsu _
    · simp
  · intro s f w ht hf
    have := hR s f w ht
    omega
  · exact h2.sorted
  · exact h2.sub
  · exact h2.tokLow
  · intro s f hc
    have := hB s f hc
    omega
  · intro s f ht hf
    have := hR s f true ht
    exact hD s f ht (by omega)
  · exact h2.locals
  · intro _
    exact h2.tupleNone (by simp [hpc])
  · intro hc
    cases hc
  · intro hc
    cases hc
  · intro hc
    rcases hc with hc | hc <;> cases hc
  · exact ⟨by omega, hF.2⟩
  · intro hc
    cases hc
  · intro _ hc
    exact absurd rfl hc

theorem inv2_push (a : App) (h2 : Inv2 a) (hpc : a.driver.pc = .loopEnqueue)
    (hi : a.driver.i < a.config.pool.nrImages)
    (answer : List Int) (a2 : App) (h : appStep a (.driver answer) = some a2) : Inv2 a2 := by
  have htup := h2.tupleNone (by simp [hpc])
  simp only [appStep, Driver.call, hpc, hi, if_true, step, htup, Option.some.injEq] at h
  subst h
  have hR := h2.enqRange
  have hA := h2.enqAll
  have hC := h2.enqCur
  have hX := h2.enqNext
  have hB := h2.consumedBefore
  have hD := h2.consumedAll
  have hS := h2.sameSets (by simp [hpc]) (by simp [hpc])
  have hL := h2.loopRange hpc
  have hF := h2.frameNonneg
  simp only [Driver.frame, Driver.pushed, Driver.passed, hpc] at hR hA hC hX hB hD
  have hnew : ∀ t ∈ a.ghost.enqueued, ∀ u ∈ ([((2 : Int) * a.driver.i, a.driver.currentVideoFrame + 1,
      decide (a.driver.i ∈ a.driver.next_inputsToUse)), ((2 : Int) * a.driver.i + 1,
      a.driver.currentVideoFrame + 1, decide (a.driver.i ∈ a.driver.next_inputsToUse))] :
      List Task),
      keyLt t.key u.key := by
    rintro ⟨s, f, w⟩ ht u hu
    have := hR s f w ht
    simp only [List.mem_cons, List.mem_singleton, List.not_mem_nil, or_false] at hu
    rcases hu with rfl | rfl <;> simp only [keyLt, Task.key] <;> omega
  by_cases hcur : a.driver.i ∈ a.driver.current_inputsToUse
  · constructor <;>
      simp only [Ghost.next, Pool.startDemuxingNextFrame, Driver.advance, hpc, hi, hcur, if_true,
        Driver.frame, Driver.pushed, Driver.passed, List.mem_append, List.mem_cons,
        List.mem_singleton, List.not_mem_nil, or_false, Prod.mk.injEq]
    · exact h2.flag
    · exact h2.demLen
    · exact h2.memLen
    · exact h2.picLen
    · exact h2.noStop
    · exact h2.noAbandon
    · intro s f w ht
      rcases ht with ht | ht | ht
      · have := hR s f w ht
        omega
      · omega
      · omega
    · intro s f hs0 hs1 hf0 hf
      by_cases hold : f ≤ a.driver.currentVideoFrame ∨
          (f = a.driver.currentVideoFrame + 1 ∧ s < 2 * a.driver.i)
      · obtain ⟨w, hw⟩ := hA s f hs0 hs1 hf0 hold
        exact ⟨w, Or.inl hw⟩
      · refine ⟨decide (a.driver.i ∈ a.driver.next_inputsToUse), Or.inr ?_⟩
        have : s = 2 * a.driver.i ∨ s = 2 * a.driver.i + 1 := by omega
        rcases this with h | h
        · exact Or.inl ⟨h, by omega, rfl⟩
        · exact Or.inr ⟨h, by omega, rfl⟩
    · intro s f w ht hf
      rcases ht with ht | ht | ht
      · exact hC s f w ht hf
      · omega
      · omega
    · intro s f w ht hf
      rcases ht with ht | ht | ht
      · exact hX s f w ht hf
      · obtain ⟨rfl, _, rfl⟩ := ht
        have : 2 * a.driver.i / 2 = a.driver.i := by omega
        simp [this]
      · obtain ⟨rfl, _, rfl⟩ := ht
        have : (2 * a.driver.i + 1) / 2 = a.driver.i := by omega
        simp [this]
    · rw [List.pairwise_append]
      refine ⟨h2.sorted, ?_, hnew⟩
      simp [keyLt, Task.key]
    · exact List.Sublist.append h2.sub (List.Sublist.refl _)
    · intro s hs0 hs1
      have := h2.tokLow s hs0 hs1
      simpa [gateOpen, inFlight, htup] using this
    · exact hB
    · intro s f ht hf
      rcases ht with ht | ht | ht
      · exact hD s f ht hf
      · omega
      · omega
    · refine locals_push _ _ _ _ h2.locals hnew ?_
      intro u hu
      simp only [List.mem_cons, List.mem_singleton, List.not_mem_nil, or_false] at hu
      rcases hu with rfl | rfl <;> simp only <;> omega
    · intro _
      trivial
    · intro hc
      cases hc
    · intro hc
      cases hc
    · intro _
      exact ⟨hL.1, trivial, trivial⟩
    · exact h2.frameNonneg
    · intro hc
      cases hc
    · intro _ _
      exact hS
  · constructor <;>
      simp only [Ghost.next, Pool.startDemuxingNextFrame, Driver.advance, hpc, hi, hcur, if_true,
        if_false, Driver.frame, Driver.pushed, Driver.passed, List.mem_append, List.mem_cons,
        List.mem_singleton, List.not_mem_nil, or_false, Prod.mk.injEq]
    · exact h2.flag
    · exact h2.demLen
    · exact h2.memLen
    · exact h2.picLen
    · exact h2.noStop
    · exact h2.noAbandon
    · intro s f w ht
      rcases ht with ht | ht | ht
      · have := hR s f w ht
        omega
      · omega
      · omega
    · intro s f hs0 hs1 hf0 hf
      by_cases hold : f ≤ a.driver.currentVideoFrame ∨
          (f = a.driver.currentVideoFrame + 1 ∧ s < 2 * a.driver.i)
      · obtain ⟨w, hw⟩ := hA s f hs0 hs1 hf0 hold
        exact ⟨w, Or.inl hw⟩
      · refine ⟨decide (a.driver.i ∈ a.driver.next_inputsToUse), Or.inr ?_⟩
        have : s = 2 * a.driver.i ∨ s = 2 * a.driver.i + 1 := by omega
        rcases this with h | h
        · exact Or.inl ⟨h, by omega, rfl⟩
        · exact Or.inr ⟨h, by omega, rfl⟩
    · intro s f w ht hf
      rcases ht with ht | ht | ht
      · exact hC s f w ht hf
      · omega
      · omega
    · intro s f w ht hf
      rcases ht with ht | ht | ht
      · exact hX s f w ht hf
      · obtain ⟨rfl, _, rfl⟩ := ht
        have : 2 * a.driver.i / 2 = a.driver.i := by omega
        simp [this]
      · obtain ⟨rfl, _, rfl⟩ := ht
        have : (2 * a.driver.i + 1) / 2 = a.driver.i := by omega
        simp [this]
    · rw [List.pairwise_append]
      refine ⟨h2.sorted, ?_, hnew⟩
      simp [keyLt, Task.key]
    · exact List.Sublist.append h2.sub (List.Sublist.refl _)
    · intro s hs0 hs1
      have := h2.tokLow s hs0 hs1
      simpa [gateOpen, inFlight, htup] using this
    · intro s f hc
      have := hB s f hc
      omega
    · intro s f ht hf
      rcases ht with ht | ht | ht
      · by_cases hold : f < a.driver.currentVideoFrame ∨
            (f = a.driver.currentVideoFrame ∧ s < 2 * a.driver.i)
        · exact hD s f ht hold
        · exfalso
          have hc := (hC s f true ht (by omega)).1 rfl
          have : s / 2 = a.driver.i := by omega
          rw [this] at hc
          exact hcur hc
      · omega
      · omega
    · refine locals_push _ _ _ _ h2.locals hnew ?_
      intro u hu
      simp only [List.mem_cons, List.mem_singleton, List.not_mem_nil, or_false] at hu
      rcases hu with rfl | rfl <;> simp only <;> omega
    · intro _
      trivial
    · intro hc
      cases hc
    · intro _
      omega
    · intro hc
      rcases hc with hc | hc <;> cases hc
    · exact h2.frameNonneg
    · intro hc
      cases hc
    · intro _ _
      exact hS

/-! ### Where a wanted frame is -/

theorem uniq_of_sorted (l : List Task) (h : l.Pairwise fun t u => keyLt t.key u.key) :
    (l.map Task.key).Nodup := by
  rw [List.Nodup, List.pairwise_map]
  refine List.Pairwise.imp ?_ h
  intro t u hlt he
  rw [he] at hlt
  exact keyLt_irrefl _ hlt

theorem wanted_where (c : Config) (g : Ghost) (h0 : Inv0 c g) (s f : Int)
    (hinc : (s, f, true) ∈ g.incremented) :
    (∃ w ∈ c.threads, w.pc = .publish ∧ w.useForRendering = true ∧ w.inputIndex = s ∧
        w.frameNr = f) ∨
      (∃ h, (s, h, f) ∈ g.tagged) ∨
      (∃ t, c.tuple = some t ∧
        ((t.1 = s ∧ g.tupleFrames.1 = f) ∨ (t.2.2.1 = s ∧ g.tupleFrames.2 = f))) ∨
      (s, f) ∈ g.consumed := by
  have hwant := h0.wanted (s, f)
  rw [count_filterMap_wantedKey] at hwant
  have hc := List.count_pos_iff.2 hinc
  by_cases hp : 1 ≤ (c.threads.filterMap Worker.publishing).count (s, f)
  · left
    obtain ⟨wj, hwj, hpub⟩ := List.mem_filterMap.1 (List.count_pos_iff.1 hp)
    refine ⟨wj, hwj, ?_⟩
    unfold Worker.publishing at hpub
    split at hpub <;> simp_all
  · by_cases ht : 1 ≤ (g.tagged.map (fun e => (e.1, e.2.2))).count (s, f)
    · right
      left
      obtain ⟨y, hy, hyk⟩ := List.mem_map.1 (List.count_pos_iff.1 ht)
      simp only [Prod.mk.injEq] at hyk
      refine ⟨y.2.1, ?_⟩
      rw [← hyk.1, ← hyk.2]
      exact hy
    · by_cases hk : 1 ≤ (tupleKeys c.tuple g.tupleFrames).count (s, f)
      · right
        right
        left
        have hmem := List.count_pos_iff.1 hk
        unfold tupleKeys at hmem
        split at hmem
        · cases hmem
        · rename_i t htup
          simp only [List.mem_cons, Prod.mk.injEq, List.mem_singleton, List.not_mem_nil,
            or_false] at hmem
          refine ⟨t, htup, ?_⟩
          rcases hmem with h | h
          · exact Or.inl ⟨h.1.symm, h.2.symm⟩
          · exact Or.inr ⟨h.1.symm, h.2.symm⟩
      · right
        right
        right
        exact List.count_pos_iff.1 (by omega)

theorem tagged_wanted (c : Config) (g : Ghost) (h0 : Inv0 c g) (x : Int × Int × Int)
    (hx : x ∈ g.tagged) : (x.1, x.2.2, true) ∈ g.incremented := by
  have tag : 1 ≤ (g.tagged.map (fun e => (e.1, e.2.2))).count (x.1, x.2.2) :=
    List.count_pos_iff.2 (List.mem_map.2 ⟨_, hx, rfl⟩)
  have hwant := h0.wanted (x.1, x.2.2)
  rw [count_filterMap_wantedKey] at hwant
  exact List.count_pos_iff.1 (by omega)

theorem tagged_not_consumed (c : Config) (g : Ghost) (h0 : Inv0 c g)
    (hU : (g.enqueued.map Task.key).Nodup) (x : Int × Int × Int)
    (hx : x ∈ g.tagged) : (x.1, x.2.2) ∉ g.consumed := by
  intro hc
  have tag : 1 ≤ (g.tagged.map (fun e => (e.1, e.2.2))).count (x.1, x.2.2) :=
    List.count_pos_iff.2 (List.mem_map.2 ⟨_, hx, rfl⟩)
  have hcc := List.count_pos_iff.2 hc
  have hwant := h0.wanted (x.1, x.2.2)
  rw [count_filterMap_wantedKey] at hwant
  have hk := key_count_le c g h0 hU x.1 x.2.2
  omega

theorem out_count (c : Config) (g : Ghost) (h0 : Inv0 c g) (x : Int × Int × Int)
    (hx : x ∈ g.tagged) : 1 ≤ (c.pool.output_queue.map Prod.fst).count x.1 := by
  rw [← h0.erase]
  exact List.count_pos_iff.2 (by simp only [List.map_map, List.mem_map]; exact ⟨_, hx, rfl⟩)

theorem tagged_unique (c : Config) (g : Ghost) (h0 : Inv0 c g) (x y : Int × Int × Int)
    (hx : x ∈ g.tagged) (hy : y ∈ g.tagged) (hs : x.1 = y.1) : x = y := by
  by_contra hne
  have h2 := count_map_two (fun e : Int × Int × Int => e.1) g.tagged x y hx hy hne hs
  have e : g.tagged.map (fun e => e.1) = c.pool.output_queue.map Prod.fst := by
    rw [← h0.erase, List.map_map]
    rfl
  simp only [e] at h2
  have tok := h0.tokens x.1
  simp only [inFlight, List.count_append] at tok
  omega

theorem claimed_no_out (c : Config) (g : Ghost) (h0 : Inv0 c g) (w : Worker)
    (hw : w ∈ c.threads) (s : Int) (hcl : w.claimed c.pool.terminate_pool = some s)
    (x : Int × Int × Int) (hx : x ∈ g.tagged) : x.1 ≠ s := by
  intro hs
  have h1 := out_count c g h0 x hx
  have h2 : 1 ≤ (c.threads.filterMap (Worker.claimed c.pool.terminate_pool)).count s :=
    List.count_pos_iff.2 (List.mem_filterMap.2 ⟨w, hw, hcl⟩)
  have tok := h0.tokens s
  simp only [inFlight, List.count_append] at tok
  rw [hs] at h1
  omega

theorem tagged_frame (a : App) (h0 : Inv0 a.config a.ghost) (h1 : Inv1 a.config a.ghost)
    (h2 : Inv2 a) (hpc : a.driver.pc = .loopAwait) (x : Int × Int × Int)
    (hx : x ∈ a.ghost.tagged) (hs : x.1 = 2 * a.driver.i ∨ x.1 = 2 * a.driver.i + 1) :
    x.2.2 = a.driver.currentVideoFrame := by
  have hU := uniq_of_sorted _ h2.sorted
  have hinc := tagged_wanted _ _ h0 x hx
  have henq := incremented_sub _ _ h0 _ hinc
  have hnc := tagged_not_consumed _ _ h0 hU x hx
  have hR := h2.enqRange _ _ _ henq
  have hD := h2.consumedAll _ _ henq
  have hAw := h2.awaitRange (Or.inl hpc)
  have hF := h2.frameNonneg
  simp only [Driver.frame, Driver.pushed, Driver.passed, hpc] at hR hD
  have hge : a.driver.currentVideoFrame ≤ x.2.2 := by
    by_contra hlt
    exact hnc (hD (by omega))
  by_contra hne
  obtain ⟨d, hd, _, hlt⟩ := h1.doneLt _ _ _ hinc
  obtain ⟨w, hw⟩ := h1.doneAll x.1 d a.driver.currentVideoFrame hd hF.1 (by omega)
  have henq2 := incremented_sub _ _ h0 _ hw
  have hcur := h2.enqCur _ _ _ henq2 (by simp [Driver.frame, hpc])
  have hdiv : x.1 / 2 = a.driver.i := by omega
  rw [hdiv] at hcur
  have hwt : w = true := hcur.2 hAw.2.2
  subst hwt
  rcases wanted_where _ _ h0 _ _ hw with ⟨v, hv, hvpc, hvu, hvs, _⟩ | ⟨h, hy⟩ | ⟨t, ht, _⟩ | hc
  · exact claimed_no_out _ _ h0 v hv x.1
      (by rw [← hvs]; exact claimed_of_pc _ v hvu (Or.inr (Or.inr hvpc))) x hx rfl
  · have := tagged_unique _ _ h0 x _ hx hy rfl
    rw [this] at hne
    exact hne rfl
  · rw [h2.tupleNone (by simp [hpc])] at ht
    cases ht
  · have := h2.consumedBefore _ _ hc
    simp only [Driver.frame, Driver.passed, hpc] at this
    omega

theorem inv2_take (a : App) (h0 : Inv0 a.config a.ghost) (h1 : Inv1 a.config a.ghost)
    (h2 : Inv2 a) (hpc : a.driver.pc = .loopAwait)
    (answer : List Int) (a2 : App) (h : appStep a (.driver answer) = some a2) : Inv2 a2 := by
  simp only [appStep, Driver.call, hpc] at h
  split at h
  · cases h
  · rename_i c2 hstep
    simp only [Option.some.injEq] at h
    subst h
    obtain ⟨htup, i0, i1, e0, e1, hne, hpred, he0, he1, hs0, hs1, rfl⟩ :=
      step_take a.config a.driver.i c2 hstep
    have her := h0.erase
    have hx0 : ∃ x0, a.ghost.tagged[i0]? = some x0 ∧ (x0.1, x0.2.1) = e0 := by
      have := he0
      rw [← her, List.getElem?_map] at this
      cases hx : a.ghost.tagged[i0]? with
      | none => simp [hx] at this
      | some x0 => exact ⟨x0, rfl, by simpa [hx] using this⟩
    have hx1 : ∃ x1, a.ghost.tagged[i1]? = some x1 ∧ (x1.1, x1.2.1) = e1 := by
      have := he1
      rw [← her, List.getElem?_map] at this
      cases hx : a.ghost.tagged[i1]? with
      | none => simp [hx] at this
      | some x1 => exact ⟨x1, rfl, by simpa [hx] using this⟩
    obtain ⟨x0, hx0, hxe0⟩ := hx0
    obtain ⟨x1, hx1, hxe1⟩ := hx1
    subst hxe0 hxe1
    simp only at hs0 hs1
    have hf0 := tagged_frame a h0 h1 h2 hpc x0 (List.getElem?_mem hx0) (Or.inl hs0)
    have hf1 := tagged_frame a h0 h1 h2 hpc x1 (List.getElem?_mem hx1) (Or.inr hs1)
    have hR := h2.enqRange
    have hA := h2.enqAll
    have hC := h2.enqCur
    have hX := h2.enqNext
    have hB := h2.consumedBefore
    have hD := h2.consumedAll
    have hS := h2.sameSets (by simp [hpc]) (by simp [hpc])
    have hAw := h2.awaitRange (Or.inl hpc)
    simp only [Driver.frame, Driver.pushed, Driver.passed, hpc] at hR hA hC hX hB hD
    constructor <;>
      simp only [Ghost.next, hpred, Driver.advance, hpc, Driver.frame, Driver.pushed,
        Driver.passed]
    · exact h2.flag
    · exact h2.demLen
    · exact h2.memLen
    · exact h2.picLen
    · exact h2.noStop
    · exact h2.noAbandon
    · exact hR
    · exact hA
    · exact hC
    · exact hX
    · exact h2.sorted
    · exact h2.sub
    · intro s hs0 hs1
      have ht := h2.tokLow s hs0 hs1
      have hc := count_erase_two (a.config.pool.output_queue.map Prod.fst) i0 i1
        x0.1 x1.1 s hne (by simp [he0]) (by simp [he1])
      simp only [inFlight, gateOpen, List.count_append, tupleStreams, htup] at ht ⊢
      rw [map_eraseIdx, map_eraseIdx]
      simp only [List.count_cons, List.count_nil] at hc ht ⊢
      omega
    · exact hB
    · exact hD
    · exact h2.locals
    · intro hc
      exact absurd rfl hc
    · intro _
      refine ⟨⟨x0.2.1, x1.2.1, ?_⟩, ?_⟩
      · rw [hs0, hs1]
      · simp only [List.getD_eq_getElem?_getD, hx0, hx1, Option.getD_some, hf0, hf1]
    · intro hc
      cases hc
    · intro _
      exact hAw
    · exact h2.frameNonneg
    · intro hc
      cases hc
    · intro _ _
      exact hS

theorem inv2_copy (a : App) (h2 : Inv2 a) (hpc : a.driver.pc = .loopConsume)
    (answer : List Int) (a2 : App) (h : appStep a (.driver answer) = some a2) : Inv2 a2 := by
  simp only [appStep, Driver.call, hpc] at h
  split at h
  · cases h
  · rename_i c2 hstep
    simp only [Option.some.injEq] at h
    subst h
    obtain ⟨t, b0, b1, htup, hb0, hb1, rfl⟩ := step_copy a.config c2 hstep
    obtain ⟨⟨p0, p1, htup2⟩, hfr⟩ := h2.tupleSome hpc
    rw [htup2] at htup
    simp only [Option.some.injEq] at htup
    subst htup
    simp only at hb0 hb1
    have hR := h2.enqRange
    have hA := h2.enqAll
    have hC := h2.enqCur
    have hX := h2.enqNext
    have hB := h2.consumedBefore
    have hD := h2.consumedAll
    have hS := h2.sameSets (by simp [hpc]) (by simp [hpc])
    have hAw := h2.awaitRange (Or.inr hpc)
    simp only [Driver.frame, Driver.pushed, Driver.passed, hpc] at hR hA hC hX hB hD
    constructor <;>
      simp only [Ghost.next, htup2, hfr, Driver.advance, hpc, Driver.frame, Driver.pushed,
        Driver.passed, vecSet_length, List.mem_append, List.mem_cons, List.mem_singleton,
        List.not_mem_nil, or_false, Prod.mk.injEq]
    · exact h2.flag
    · exact h2.demLen
    · exact h2.memLen
    · exact h2.picLen
    · exact h2.noStop
    · exact h2.noAbandon
    · exact hR
    · exact hA
    · exact hC
    · exact hX
    · exact h2.sorted
    · exact h2.sub
    · intro s hs0 hs1
      have ht := h2.tokLow s hs0 hs1
      simp only [inFlight, gateOpen, List.count_append, tupleStreams, htup2, List.count_cons,
        List.count_nil] at ht ⊢
      by_cases h1 : 2 * a.driver.i + 1 = s
      · subst h1
        have hin : ∃ y, vecGet (vecSet a.config.pool.memcpy_array (2 * a.driver.i) true)
            (2 * a.driver.i + 1) = some y := by
          rw [vecGet_vecSet_ne _ _ _ _ (by omega)]
          exact ⟨b1, hb1⟩
        obtain ⟨y, hy⟩ := hin
        rw [vecGet_vecSet_eq _ _ _ _ hy]
        simp
      · rw [vecGet_vecSet_ne _ _ _ _ h1]
        by_cases h2 : 2 * a.driver.i = s
        · subst h2
          rw [vecGet_vecSet_eq _ _ _ _ hb0]
          simp
        · rw [vecGet_vecSet_ne _ _ _ _ h2]
          simp [h1, h2] at ht ⊢
          omega
    · intro s f hc
      rcases hc with hc | hc | hc
      · have := hB s f hc
        omega
      · omega
      · omega
    · intro s f ht hf
      by_cases hold : f < a.driver.currentVideoFrame ∨
          (f = a.driver.currentVideoFrame ∧ s < 2 * a.driver.i)
      · exact Or.inl (hD s f ht hold)
      · right
        omega
    · exact h2.locals
    · intro _
      trivial
    · intro hc
      cases hc
    · intro _
      omega
    · intro hc
      rcases hc with hc | hc <;> cases hc
    · exact h2.frameNonneg
    · intro hc
      cases hc
    · intro _ _
      exact hS

/-! ### The invariant along an execution of the application -/

theorem appStep_pool (a : App) (l : AppLabel) (a2 : App) (h : appStep a l = some a2) :
    (a2.config = a.config ∧ a2.ghost = a.ghost) ∨
      ∃ pl, step a.config pl = some a2.config ∧ a2.ghost = Ghost.next a.config a.ghost pl := by
  cases l with
  | thread i x =>
    simp only [appStep] at h
    split at h
    · cases h
    · rename_i c2 hstep
      simp only [Option.some.injEq] at h
      subst h
      exact Or.inr ⟨_, hstep, rfl⟩
  | driver answer =>
    simp only [appStep] at h
    split at h
    · simp only [Option.some.injEq] at h
      subst h
      exact Or.inl ⟨rfl, rfl⟩
    · rename_i pl hcall
      split at h
      · cases h
      · rename_i c2 hstep
        simp only [Option.some.injEq] at h
        subst h
        exact Or.inr ⟨_, hstep, rfl⟩

theorem inv2_step (a : App) (hA : InvA a) (l : AppLabel) (hreg : l.regular a = true) (a2 : App)
    (h : appStep a l = some a2) : Inv2 a2 := by
  cases l with
  | thread i x =>
    simp only [appStep] at h
    split at h
    · cases h
    · rename_i c2 hstep
      simp only [Option.some.injEq] at h
      subst h
      obtain ⟨w, p2, w2, hw, hs, rfl, hg⟩ := step_thread a.config i x c2 hstep
      rw [hg]
      exact inv2_thread a hA.inv2 i w x p2 w2 hw hs hreg
  | driver answer =>
    cases hpc : a.driver.pc with
    | setup => exact inv2_setup a hA.inv2 hpc answer a2 h
    | frameStart =>
      refine inv2_frameStart a hA.inv2 hpc answer ?_ a2 h
      simpa [AppLabel.regular, hpc] using hreg
    | loopEnqueue =>
      by_cases hi : a.driver.i < a.config.pool.nrImages
      · exact inv2_push a hA.inv2 hpc hi answer a2 h
      · exact inv2_loopExit a hA.inv2 hpc hi answer a2 h
    | loopAwait => exact inv2_take a hA.inv0 hA.inv1 hA.inv2 hpc answer a2 h
    | loopConsume => exact inv2_copy a hA.inv2 hpc answer a2 h
    | frameEnd => exact inv2_frameEnd a hA.inv2 hpc answer a2 h

theorem invA_step (a : App) (hA : InvA a) (l : AppLabel) (hreg : l.regular a = true) (a2 : App)
    (h : appStep a l = some a2) : InvA a2 := by
  have h2 := inv2_step a hA l hreg a2 h
  rcases appStep_pool a l a2 h with ⟨hc, hg⟩ | ⟨pl, hstep, hg⟩
  · refine ⟨?_, ?_, h2⟩
    · rw [hc, hg]
      exact hA.inv0
    · rw [hc, hg]
      exact hA.inv1
  · refine ⟨?_, ?_, h2⟩
    · rw [hg]
      exact inv0_step _ _ hA.inv0 pl _ hstep
    · rw [hg]
      refine inv1_step _ _ hA.inv0 hA.inv1 pl _ ?_ hstep
      rw [← hg]
      exact uniq_of_sorted _ h2.sorted

theorem invA_run : ∀ (tr : List AppLabel) (a a2 : App), InvA a → regularRun a tr = true →
    appRun a tr = some a2 → InvA a2
  | [], a, a2, hA, _, hrun => by
    simp only [appRun, Option.some.injEq] at hrun
    subst hrun
    exact hA
  | l :: tr, a, a2, hA, hreg, hrun => by
    simp only [appRun] at hrun
    simp only [regularRun, Bool.and_eq_true] at hreg
    split at hrun
    · cases hrun
    · rename_i a1 hstep
      rw [hstep] at hreg
      exact invA_run tr a1 a2 (invA_step a hA l hreg.1 a1 hstep) hreg.2 hrun

/-! ### Progress -/

theorem vecGet_of_range {α : Type} (v : List α) (s n : Int) (hlen : (v.length : Int) = 2 * n)
    (h0 : 0 ≤ s) (h1 : s < 2 * n) : ∃ d, vecGet v s = some d := by
  unfold vecGet
  rw [if_neg (by omega)]
  have : s.toNat < v.length := by omega
  exact ⟨v[s.toNat], List.getElem?_eq_getElem this⟩

theorem held_enqueued (c : Config) (g : Ghost) (h0 : Inv0 c g) (w : Worker) (hw : w ∈ c.threads)
    (hh : w.held = some w.task) : w.task ∈ g.enqueued := by
  have h1 : 1 ≤ (c.threads.filterMap Worker.held).count w.task :=
    List.count_pos_iff.2 (List.mem_filterMap.2 ⟨w, hw, hh⟩)
  have h2 := h0.tasks w.task
  exact List.count_pos_iff.1 (by omega)

theorem held_range (a : App) (hA : InvA a) (w : Worker) (hw : w ∈ a.config.threads)
    (hh : w.held = some w.task) :
    0 ≤ w.inputIndex ∧ w.inputIndex < 2 * a.config.pool.nrImages ∧ 0 ≤ w.frameNr := by
  have := hA.inv2.enqRange _ _ _ (held_enqueued _ _ hA.inv0 w hw hh)
  exact ⟨this.1, this.2.1, this.2.2.1⟩

theorem thread_can_step (a : App) (hA : InvA a) (j : Nat) (w : Worker)
    (hw : a.config.threads[j]? = some w) (hb : ¬ w.blocked a.config.pool) :
    ∃ a2, appStep a (.thread j ⟨true, 0, 0⟩) = some a2 := by
  have hfl := hA.inv2.flag
  have hns := hA.inv2.noStop w (List.getElem?_mem hw)
  have hrange := held_range a hA w (List.getElem?_mem hw)
  have hdem := fun h => vecGet_of_range _ _ _ hA.inv2.demLen (hrange h).1 (hrange h).2.1
  have hmem := fun h => vecGet_of_range _ _ _ hA.inv2.memLen (hrange h).1 (hrange h).2.1
  have hpic := fun h => vecGet_of_range _ _ _ hA.inv2.picLen (hrange h).1 (hrange h).2.1
  suffices hs : ∃ r, a.config.pool.update_loop w ⟨true, 0, 0⟩ = some r by
    obtain ⟨r, hr⟩ := hs
    simp [appStep, step, hw, hr]
  unfold Worker.blocked at hb
  unfold Pool.update_loop
  cases hpc : w.pc <;> simp only [hpc, hfl] at hb ⊢
  · simp
  · simp only [false_and, or_false, true_and, reduceCtorEq, Bool.not_eq_false] at hb
    cases hp : inputPredicate false a.config.pool.input_queue w.inputIndex w.frameNr 0 with
    | mk b index =>
      rw [hp] at hb
      simp only at hb
      subst hb
      rcases inputPredicate_cases _ _ _ _ hp with ⟨rfl, front, rest, hq, _⟩ |
        ⟨rfl, front, t, rest, hq, _⟩ <;> simp [hq]
  · obtain ⟨d, hd⟩ := hdem (by simp [Worker.held, hpc])
    simp only [reduceCtorEq, false_and, true_and, false_or, or_false, not_not] at hb
    simp [hb]
  · simp
  · obtain ⟨d, hd⟩ := hdem (by simp [Worker.held, hpc])
    simp [hd, Pool.demux]
  · obtain ⟨d, hd⟩ := hmem (by simp [Worker.held, hpc])
    simp only [reduceCtorEq, false_and, true_and, false_or, not_and, not_not] at hb
    by_cases hu : w.useForRendering = true
    · simp [hu, hb hu]
    · simp [hu]
  · simp
  · obtain ⟨d, hd⟩ := hpic (by simp [Worker.held, hpc])
    by_cases hn : w.nVideoBytes = 0
    · simp [hn]
    · simp [hn, hd]
  · obtain ⟨d, hd⟩ := hdem (by simp [Worker.held, hpc])
    simp [hd]
  · by_cases hu : w.useForRendering = true
    · simp [hu]
    · simp [hu]
  · exact absurd hpc hns

theorem regular_current (a : App) :
    (AppLabel.driver a.driver.current_inputsToUse).regular a = true := by
  simp [AppLabel.regular, Driver.consistent]

theorem driver_can_step (a : App) (hA : InvA a)
    (h : a.driver.pc = .loopAwait →
      (∃ e ∈ a.config.pool.output_queue, e.1 = 2 * a.driver.i) ∧
        (∃ e ∈ a.config.pool.output_queue, e.1 = 2 * a.driver.i + 1))
    (answer : List Int) : ∃ a2, appStep a (.driver answer) = some a2 := by
  have h2 := hA.inv2
  cases hpc : a.driver.pc with
  | setup =>
    have htup := h2.tupleNone (by simp [hpc])
    simp [appStep, Driver.call, hpc, step, htup]
  | frameStart => simp [appStep, Driver.call, hpc]
  | loopEnqueue =>
    have htup := h2.tupleNone (by simp [hpc])
    by_cases hi : a.driver.i < a.config.pool.nrImages
    · simp [appStep, Driver.call, hpc, step, htup, hi]
    · simp [appStep, Driver.call, hpc, hi]
  | loopAwait =>
    have htup := h2.tupleNone (by simp [hpc])
    obtain ⟨hc, hd⟩ := h hpc
    obtain ⟨hColor, hDepth, rest, hw, _⟩ :=
      waitUntilInputFrameIsDecoded_spec a.config.pool a.driver.i 0 0 hc hd
    simp [appStep, Driver.call, hpc, step, htup, hw]
  | loopConsume =>
    obtain ⟨⟨p0, p1, htup⟩, _⟩ := h2.tupleSome hpc
    have hAw := h2.awaitRange (Or.inr hpc)
    obtain ⟨d0, hd0⟩ := vecGet_of_range _ (2 * a.driver.i) _ h2.picLen (by omega) (by omega)
    obtain ⟨d1, hd1⟩ := vecGet_of_range _ (2 * a.driver.i + 1) _ h2.picLen (by omega) (by omega)
    obtain ⟨m0, hm0⟩ := vecGet_of_range _ (2 * a.driver.i) _ h2.memLen (by omega) (by omega)
    obtain ⟨m1, hm1⟩ := vecGet_of_range _ (2 * a.driver.i + 1) _ h2.memLen (by omega) (by omega)
    simp [appStep, Driver.call, hpc, step, htup, Pool.copyFromGPUToOpenGLTexture, hd0, hd1,
      hm0, hm1]
  | frameEnd => simp [appStep, Driver.call, hpc]

theorem min_pending (l : List Task) (P : Task → Prop)
    (hs : l.Pairwise fun t u => keyLt t.key u.key) (h : ∃ t ∈ l, P t) :
    ∃ m ∈ l, P m ∧ ∀ t ∈ l, keyLt t.key m.key → ¬ P t := by
  induction l with
  | nil =>
    obtain ⟨t, ht, _⟩ := h
    cases ht
  | cons a l ih =>
    by_cases hP : P a
    · refine ⟨a, List.mem_cons_self _ _, hP, ?_⟩
      intro t ht hlt
      rcases List.mem_cons.1 ht with rfl | ht
      · exact absurd hlt (keyLt_irrefl _)
      · exact absurd hlt (keyLt_asymm _ _ ((List.pairwise_cons.1 hs).1 t ht))
    · obtain ⟨t, ht, hPt⟩ := h
      have ht2 : t ∈ l := by
        rcases List.mem_cons.1 ht with rfl | ht
        · exact absurd hPt hP
        · exact ht
      obtain ⟨m, hm, hPm, hmin⟩ := ih (List.pairwise_cons.1 hs).2 ⟨t, ht2, hPt⟩
      refine ⟨m, List.mem_cons_of_mem _ hm, hPm, ?_⟩
      intro u hu hlt
      rcases List.mem_cons.1 hu with rfl | hu
      · exact hP
      · exact hmin u hu hlt

theorem task_where (c : Config) (g : Ghost) (h0 : Inv0 c g) (hab : g.abandoned = [])
    (t : Task) (ht : t ∈ g.enqueued) :
    t ∈ c.pool.input_queue ∨ (∃ w ∈ c.threads, w.held = some t) ∨ t ∈ g.incremented := by
  have h1 := List.count_pos_iff.2 ht
  have h2 := h0.tasks t
  rw [hab] at h2
  simp only [List.count_nil] at h2
  by_cases hq : 1 ≤ c.pool.input_queue.count t
  · exact Or.inl (List.count_pos_iff.1 hq)
  · by_cases hh : 1 ≤ (c.threads.filterMap Worker.held).count t
    · obtain ⟨w, hw, hwt⟩ := List.mem_filterMap.1 (List.count_pos_iff.1 hh)
      exact Or.inr (Or.inl ⟨w, hw, hwt⟩)
    · exact Or.inr (Or.inr (List.count_pos_iff.1 (by omega)))

theorem inputPredicate_false (q : List Task) (s f : Int)
    (h : (inputPredicate false q s f 0).1 = false) :
    q = [] ∨ ∃ front, q = [front] ∧ front.2.1 = f ∧ front.1 = s + 1 := by
  cases q with
  | nil => exact Or.inl rfl
  | cons front rest =>
    right
    simp only [inputPredicate] at h
    split at h
    · rename_i hp
      split at h
      · rename_i hlen
        cases rest with
        | nil => exact ⟨front, rfl, hp.1, hp.2⟩
        | cons t rest => simp at hlen
      · simp at h
    · simp at h

theorem held_task (w : Worker) (t : Task) (h : w.held = some t) : w.held = some w.task ∧
    w.task = t := by
  unfold Worker.held at h ⊢
  cases hpc : w.pc <;> simp_all

theorem blocked_false (a : App) (hA : InvA a) (hpc : a.driver.pc = .loopAwait)
    (σ : Int) (hσ : σ = 2 * a.driver.i ∨ σ = 2 * a.driver.i + 1)
    (hmiss : ∀ e ∈ a.config.pool.output_queue, e.1 ≠ σ)
    (wA wB : Worker) (hth : a.config.threads = [wA, wB])
    (hbl : ∀ w ∈ a.config.threads, w.blocked a.config.pool) : False := by
  have h0 := hA.inv0
  have h1 := hA.inv1
  have h2 := hA.inv2
  have hU := uniq_of_sorted _ h2.sorted
  have htup := h2.tupleNone (by simp [hpc])
  have hAw := h2.awaitRange (Or.inl hpc)
  have hF := h2.frameNonneg
  have hfr : a.driver.frame = a.driver.currentVideoFrame := by simp [Driver.frame, hpc]
  have hpcs : ∀ w ∈ a.config.threads,
      w.pc = .waitForTask ∨ w.pc = .orderWait ∨ w.pc = .renderGate := by
    intro w hw
    rcases hbl w hw with ⟨h, _⟩ | ⟨h, _⟩ | ⟨h, _⟩
    · exact Or.inl h
    · exact Or.inr (Or.inl h)
    · exact Or.inr (Or.inr h)
  have hnotag : ∀ x ∈ a.ghost.tagged, x.1 ≠ σ := by
    intro x hx
    refine hmiss (x.1, x.2.1) ?_
    rw [← h0.erase]
    exact List.mem_map.2 ⟨x, hx, rfl⟩
  -- the task of the missing stream is pending
  obtain ⟨b, hb⟩ := h2.enqAll σ a.driver.currentVideoFrame (by omega) (by omega) hF.1
    (Or.inl (by omega))
  have hdiv : σ / 2 = a.driver.i := by omega
  have hbt : b = true := by
    have := (h2.enqCur σ _ b hb hfr.symm).2
    rw [hdiv] at this
    exact this hAw.2.2
  subst hbt
  have hTinc : (σ, a.driver.currentVideoFrame, true) ∉ a.ghost.incremented := by
    intro hinc
    rcases wanted_where _ _ h0 _ _ hinc with ⟨v, hv, hvpc, _⟩ | ⟨h, hy⟩ | ⟨t, ht, _⟩ | hc
    · have := hpcs v hv
      rw [hvpc] at this
      simp at this
    · exact hnotag _ hy rfl
    · rw [htup] at ht
      cases ht
    · have := h2.consumedBefore _ _ hc
      simp only [Driver.frame, Driver.passed, hpc] at this
      omega
  -- the oldest pending task
  obtain ⟨m, hm, hmP, hmin⟩ := min_pending a.ghost.enqueued (fun t => t ∉ a.ghost.incremented)
    h2.sorted ⟨_, hb, hTinc⟩
  have hmin2 : ∀ t ∈ a.ghost.enqueued, keyLt t.key m.key → t ∈ a.ghost.incremented :=
    fun t ht hlt => not_not.1 (hmin t ht hlt)
  obtain ⟨ms, mf, mb⟩ := m
  have hmR := h2.enqRange ms mf mb hm
  simp only [Task.key] at hmin2
  -- its stream is at its frame
  obtain ⟨d, hd⟩ := vecGet_of_range _ ms _ h2.demLen hmR.1 hmR.2.1
  have hdf : d = mf := by
    have hd0 := h1.gateNonneg ms d hd
    rcases lt_trichotomy d mf with hlt | heq | hgt
    · exfalso
      obtain ⟨b2, hb2⟩ := h2.enqAll ms d hmR.1 hmR.2.1 hd0 (by have := hmR.2.2.2; omega)
      have hinc := hmin2 _ hb2 (by simp only [keyLt]; omega)
      obtain ⟨d2, hd2, _, hlt2⟩ := h1.doneLt _ _ _ hinc
      rw [hd] at hd2
      simp only [Option.some.injEq] at hd2
      omega
    · exact heq
    · exfalso
      obtain ⟨b2, hb2⟩ := h1.doneAll ms d mf hd hmR.2.2.1 hgt
      have := flag_unique a.ghost hU _ _ _ _ (incremented_sub _ _ h0 _ hb2) hm
      subst this
      exact hmP hb2
  subst hdf
  -- a thread blocked at the Decode Gate works on a later frame
  have hgate : ∀ w ∈ a.config.threads, w.pc = .renderGate →
      a.driver.currentVideoFrame < w.frameNr := by
    intro w hw hwpc
    rcases hbl w hw with ⟨h, _⟩ | ⟨h, _⟩ | ⟨_, hu, hmemb⟩
    · rw [hwpc] at h
      cases h
    · rw [hwpc] at h
      cases h
    · have hr := held_range a hA w hw (by simp [Worker.held, hwpc])
      have tok := h2.tokLow w.inputIndex hr.1 hr.2.1
      have hcl : a.config.threads.filterMap (Worker.claimed a.config.pool.terminate_pool)
          = [] := by
        rw [List.filterMap_eq_nil_iff]
        intro v hv
        rcases hpcs v hv with h | h | h <;> simp [Worker.claimed, h]
      simp only [inFlight, gateOpen, hcl, htup, tupleStreams, List.nil_append,
        List.append_nil, if_neg hmemb, zero_add] at tok
      obtain ⟨e, he, hes⟩ := List.mem_map.1 (List.count_pos_iff.1 tok)
      rw [← h0.erase] at he
      obtain ⟨x, hx, hxe⟩ := List.mem_map.1 he
      subst hxe
      simp only at hes
      have hinc := tagged_wanted _ _ h0 x hx
      obtain ⟨d2, hd2, _, hlt2⟩ := h1.doneLt _ _ _ hinc
      obtain ⟨j, hj⟩ := List.mem_iff_getElem?.1 hw
      have hord := h1.ordered j w hj (by simp [Worker.pastOrderGate, hwpc])
      rw [hes, hord] at hd2
      simp only [Option.some.injEq] at hd2
      have hnc := tagged_not_consumed _ _ h0 hU x hx
      have hD := h2.consumedAll _ _ (incremented_sub _ _ h0 _ hinc)
      simp only [Driver.frame, Driver.passed, hpc] at hD
      by_contra hle
      exact hnc (hD (by omega))
  -- a blocked thread that holds a task holds a younger one
  have hbig : ∀ w ∈ a.config.threads, w.held = some w.task → keyLt (ms, d) w.key := by
    intro w hw hh
    have henq := held_enqueued _ _ h0 w hw hh
    obtain ⟨j, hj⟩ := List.mem_iff_getElem?.1 hw
    rcases keyLt_total (ms, d) w.key with h | h | h
    · exact h
    · exfalso
      simp only [Worker.key, Prod.mk.injEq] at h
      rcases hbl w hw with ⟨hp, _⟩ | ⟨hp, hne⟩ | ⟨hp, _, _⟩
      · simp [Worker.held, hp] at hh
      · apply hne
        rw [← h.1, ← h.2, hd]
      · have hlt := hgate w hw hp
        exact hTinc (hmin2 _ hb (by simp only [keyLt]; omega))
    · exfalso
      exact held_not_incremented _ _ h0 hU j w hj hh _ (hmin2 _ henq h)
  -- so the oldest pending task is in the queue
  have hmq : (ms, d, mb) ∈ a.config.pool.input_queue := by
    rcases task_where _ _ h0 h2.noAbandon _ hm with h | ⟨w, hw, hh⟩ | h
    · exact h
    · exfalso
      obtain ⟨hwt, hk⟩ := held_task w _ hh
      have := hbig w hw hwt
      simp only [Worker.task, Prod.mk.injEq] at hk
      simp only [Worker.key, hk.1, hk.2.1] at this
      exact keyLt_irrefl _ this
    · exact absurd h hmP
  have hcls : ∀ w ∈ a.config.threads, keyLt (ms, d) w.key ∨ w.key = (ms - 1, d) := by
    intro w hw
    rcases hbl w hw with ⟨hp, hpred⟩ | ⟨hp, _⟩ | ⟨hp, _, _⟩
    · right
      rcases inputPredicate_false _ _ _ hpred with hq | ⟨front, hq, hf1, hf2⟩
      · rw [hq] at hmq
        cases hmq
      · rw [hq] at hmq
        simp only [List.mem_singleton] at hmq
        subst hmq
        simp only at hf1 hf2
        simp only [Worker.key, Prod.mk.injEq]
        omega
    · left
      exact hbig w hw (by simp [Worker.held, hp])
    · left
      exact hbig w hw (by simp [Worker.held, hp])
  have hgA : a.config.threads[0]? = some wA := by simp [hth]
  have hgB : a.config.threads[1]? = some wB := by simp [hth]
  have hmA : wA ∈ a.config.threads := by simp [hth]
  have hmB : wB ∈ a.config.threads := by simp [hth]
  have hskip := h2.locals.skipped
  rcases hcls wA hmA with bigA | partA
  · have := (hskip 0 wA (ms, d, mb) hgA hmq bigA).2 1 wB (by omega) hgB
    rcases hcls wB hmB with bigB | partB
    · exact keyLt_asymm _ _ bigB this.1
    · exact this.2 partB
  · rcases hcls wB hmB with bigB | partB
    · have := (hskip 1 wB (ms, d, mb) hgB hmq bigB).2 0 wA (by omega) hgA
      exact this.2 partA
    · have := h2.locals.localDistinct 0 1 wA wB (by omega) hgA hgB (by rw [partA, partB])
      rw [partA] at this
      simp only [Prod.mk.injEq] at this
      omega

theorem inv2_init (nrCameras : Nat) (decoders : List Int)
    (hdec : decoders.length = 2 * nrCameras) (nrThreads : Int) (inputsToUse : List Int) :
    Inv2 (App.init nrCameras decoders nrThreads inputsToUse) := by
  have hst : ∀ w ∈ (App.init nrCameras decoders nrThreads inputsToUse).config.threads,
      w = Worker.start := by
    intro w hw
    simp only [App.init, Config.init, Pool.startThreadPool] at hw
    exact List.eq_of_mem_replicate hw
  constructor
  · rfl
  · simp [App.init, Config.init, Pool.init, hdec]
  · simp [App.init, Config.init, Pool.init, hdec]
  · simp [App.init, Config.init, Pool.init, hdec]
  · intro w hw
    rw [hst w hw]
    simp [Worker.start]
  · rfl
  · intro s f w ht
    simp [App.init, Ghost.empty] at ht
  · intro s f h0 h1 hf0 hf
    simp only [App.init, Driver.init, Driver.frame, Driver.pushed] at hf
    omega
  · intro s f w ht
    simp [App.init, Ghost.empty] at ht
  · intro s f w ht
    simp [App.init, Ghost.empty] at ht
  · simp [App.init, Ghost.empty]
  · simp [App.init, Ghost.empty, Config.init, Pool.init]
  · intro s h0 h1
    simp only [App.init, Config.init, Pool.init] at h1
    have : vecGet (List.replicate decoders.length true) s = some true := by
      obtain ⟨d, hd⟩ := vecGet_of_range (List.replicate decoders.length true) s nrCameras
        (by simp [hdec]) h0 h1
      rw [hd, vecGet_replicate _ _ _ _ hd]
    simp [App.init, Config.init, Pool.init, gateOpen, this]
  · intro s f hc
    simp [App.init, Ghost.empty] at hc
  · intro s f ht
    simp [App.init, Ghost.empty] at ht
  · constructor
    · intro w hw
      rw [hst w hw]
      exact Or.inl rfl
    · intro w _ t ht
      simp [App.init, Config.init, Pool.init] at ht
    · intro i j wi wj _ hi _ _
      rw [hst wi (List.getElem?_mem hi)]
      rfl
    · intro i w t _ ht
      simp [App.init, Config.init, Pool.init] at ht
  · intro _
    rfl
  · intro hc
    cases hc
  · intro hc
    cases hc
  · intro hc
    rcases hc with hc | hc <;> cases hc
  · simp [App.init, Driver.init, Config.init, Pool.init]
  · intro _
    rfl
  · intro hc
    exact absurd rfl hc

theorem invA_init (nrCameras : Nat) (decoders : List Int)
    (hdec : decoders.length = 2 * nrCameras) (nrThreads : Int) (inputsToUse : List Int) :
    InvA (App.init nrCameras decoders nrThreads inputsToUse) :=
  ⟨inv0_init _ _ _ _, inv1_init _ _ _ _, inv2_init nrCameras decoders hdec nrThreads inputsToUse⟩

theorem step_threads_length (c : Config) (l : Label) (c2 : Config) (h : step c l = some c2) :
    c2.threads.length = c.threads.length := by
  cases l with
  | thread i x =>
    obtain ⟨w, p2, w2, _, _, rfl, _⟩ := step_thread c i x c2 h
    simp
  | startDemuxingFirstFrames inputsToUse =>
    simp only [step] at h
    split at h
    · cases h
    · cases h
      rfl
  | startDemuxingNextFrame inputIndex frameNr useForRendering =>
    simp only [step] at h
    split at h
    · cases h
    · cases h
      rfl
  | waitUntilInputFrameIsDecoded k =>
    obtain ⟨_, i0, i1, e0, e1, _, _, _, _, _, _, rfl⟩ := step_take c k c2 h
    rfl
  | copyFromGPUToOpenGLTexture =>
    obtain ⟨t, b0, b1, _, _, _, rfl⟩ := step_copy c c2 h
    rfl
  | cleanup =>
    simp only [step] at h
    split at h
    · cases h
    · cases h
      rfl

theorem appRun_threads_length : ∀ (tr : List AppLabel) (a a2 : App), appRun a tr = some a2 →
    a2.config.threads.length = a.config.threads.length
  | [], a, a2, hrun => by
    simp only [appRun, Option.some.injEq] at hrun
    subst hrun
    rfl
  | l :: tr, a, a2, hrun => by
    simp only [appRun] at hrun
    split at hrun
    · cases hrun
    · rename_i a1 hstep
      rw [appRun_threads_length tr a1 a2 hrun]
      rcases appStep_pool a l a1 hstep with ⟨hc, _⟩ | ⟨pl, hs, _⟩
      · rw [hc]
      · exact step_threads_length _ _ _ hs

theorem progress (a : App) (hA : InvA a) (hlen : a.config.threads.length = 2) :
    ∃ l a2, l.regular a = true ∧ appStep a l = some a2 := by
  by_cases hd : a.driver.pc = .loopAwait →
      (∃ e ∈ a.config.pool.output_queue, e.1 = 2 * a.driver.i) ∧
        (∃ e ∈ a.config.pool.output_queue, e.1 = 2 * a.driver.i + 1)
  · obtain ⟨a2, h⟩ := driver_can_step a hA hd a.driver.current_inputsToUse
    exact ⟨_, a2, regular_current a, h⟩
  · by_cases hb : ∀ w ∈ a.config.threads, w.blocked a.config.pool
    · exfalso
      simp only [Classical.not_imp, not_and_or] at hd
      obtain ⟨hpc, hmiss⟩ := hd
      obtain ⟨wA, wB, hth⟩ : ∃ wA wB, a.config.threads = [wA, wB] := by
        match hths : a.config.threads, hlen with
        | [wA, wB], _ => exact ⟨wA, wB, rfl⟩
      rcases hmiss with hmiss | hmiss
      · exact blocked_false a hA hpc (2 * a.driver.i) (Or.inl rfl)
          (fun e he hs => hmiss ⟨e, he, hs⟩) wA wB hth hb
      · exact blocked_false a hA hpc (2 * a.driver.i + 1) (Or.inr rfl)
          (fun e he hs => hmiss ⟨e, he, hs⟩) wA wB hth hb
    · simp only [not_forall] at hb
      obtain ⟨w, hw, hnb⟩ := hb
      obtain ⟨j, hj⟩ := List.mem_iff_getElem?.1 hw
      obtain ⟨a2, h⟩ := thread_can_step a hA j w hj hnb
      exact ⟨.thread j ⟨true, 0, 0⟩, a2, rfl, h⟩

/-- C5: an application with 2 worker threads never reaches a state in which no step
is possible.  The driver runs `SetupDecodingPool` and then `RenderTarget` with
`nextVideoFrame = true` over and over: it seeds frame 0, and for each frame and each
camera it pushes the next frame and, when the camera is in `current_inputsToUse`,
awaits and consumes its pair.  In every execution in which no call of `Pool::demux`
fails hard and every answer of the visibility helper is consistent (the cameras
awaited for a frame are those pushed as wanted for it), some thread or the driver
can take a regular step from the state reached.  This holds in particular in the
states in which the queue holds only the partner of the task a thread has just
finished, so that this thread cannot move. -/
theorem C5_no_deadlock_two_workers (nrCameras : Nat) (decoders : List Int)
    (hdec : decoders.length = 2 * nrCameras) (inputsToUse : List Int)
    (tr : List AppLabel) (a : App)
    (hreg : regularRun (App.init nrCameras decoders 2 inputsToUse) tr = true)
    (hrun : appRun (App.init nrCameras decoders 2 inputsToUse) tr = some a) :
    ∃ l a2, l.regular a = true ∧ appStep a l = some a2 :=
  progress a
    (invA_run tr _ a (invA_init nrCameras decoders hdec 2 inputsToUse) hreg hrun)
    (by rw [appRun_threads_length tr _ a hrun]; rfl)

set_option maxRecDepth 100000 in
/-- Witness of C5: after `tracePartnerOnly` the queue holds only `(1, 0, true)`, the
partner of the task thread 0 has just finished; thread 0 cannot move, and some step
is possible. -/
theorem C5_no_deadlock_two_workers_witness :
    ∃ a, appRun (App.init 1 [0, 0] 2 [0]) tracePartnerOnly = some a ∧
      a.config.pool.input_queue = [(1, 0, true)] ∧
      appStep a (.thread 0 exampleExtern) = none ∧
      ∃ l a2, l.regular a = true ∧ appStep a l = some a2 :=
  ⟨_, rfl, rfl, rfl,
    C5_no_deadlock_two_workers 1 [0, 0] rfl [0] tracePartnerOnly _ rfl rfl⟩

/-! ### Tasks not wanted for rendering -/

theorem update_loop_gate_irrelevant (p : Pool) (v : Worker) (x : Extern) (m : List Bool)
    (hu : v.useForRendering = false) :
    ({ p with memcpy_array := m }).update_loop v x =
      (p.update_loop v x).map fun r => ({ r.1 with memcpy_array := m }, r.2) := by
  unfold Pool.update_loop
  cases hpc : v.pc <;> simp only [hu, Bool.false_eq_true, if_false]
  · split <;> rfl
  · split
    · rfl
    · split
      · rfl
      · split <;> rfl
  · split
    · rfl
    · split <;> rfl
  · split <;> rfl
  · split
    · rfl
    · split <;> rfl
  · rfl
  · split <;> rfl
  · split
    · split <;> rfl
    · rfl
  · split <;> rfl
  · rfl
  · rfl

/-- C11: a thread that holds a task not wanted for rendering and takes the eight steps
from the Order Gate wait to the end of the loop body, each in the pool state `a_k`
the rest of the system has produced by then.  The thread passes the fetch and the
decode (with a payload that is not empty the decoder's `picture_index` is the one
`Decode` leaves), and of the eight pools it leaves, seven are the pools it found
(apart from that `picture_index`) and the seventh differs by the increment of the
`demux_array` entry of the task's stream: `memcpy_array`, `output_queue`,
`input_queue` and the stop flag are never changed.  The step at the Decode Gate is
possible in every pool and returns it as it is, so the thread does not wait there;
and no step of such a thread reads `memcpy_array`: with any other content of the
array the step is possible in the same cases and has the same result, the array
apart. -/
theorem C11_unwanted_task_effect (w : Worker) (a0 a1 a2 a3 a4 a5 a6 a7 : Pool × Extern)
    (rs : List (Pool × Worker)) (hpc : w.pc = .orderWait) (hw : w.useForRendering = false)
    (h : w.steps [a0, a1, a2, a3, a4, a5, a6, a7] = some rs) :
    (∃ d : Int, vecGet a6.1.demux_array w.inputIndex = some d ∧
      rs.map (fun r => r.1) =
        [a0.1, a1.1, a2.1, a3.1, a4.1,
         if a2.2.nVideoBytes ≠ 0 then
           { a5.1 with
             picture_index := vecSet a5.1.picture_index w.inputIndex a5.2.picture_index }
         else a5.1,
         { a6.1 with demux_array := vecSet a6.1.demux_array w.inputIndex (d + 1) },
         a7.1]) ∧
    rs.map (fun r => r.2.pc) =
      [.orderCheck, .demux, .renderGate, .gateCheck, .decode, .increment, .publish,
       .loopHead] ∧
    (∀ (p : Pool) (x : Extern) (v : Worker), v.pc = .renderGate →
      v.useForRendering = false → p.update_loop v x = some (p, { v with pc := .gateCheck })) ∧
    (∀ (p : Pool) (x : Extern) (v : Worker) (m : List Bool), v.useForRendering = false →
      ({ p with memcpy_array := m }).update_loop v x =
        (p.update_loop v x).map fun r => ({ r.1 with memcpy_array := m }, r.2)) := by
  obtain ⟨d, hd, hok, hpic, rfl⟩ := task_path w a0 a1 a2 a3 a4 a5 a6 a7 rs hpc h
  refine ⟨⟨d, hd, ?_⟩, ?_, ?_, ?_⟩
  · by_cases hn : a2.2.nVideoBytes = 0 <;> simp [hw, hn]
  · simp
  · intro p x v hv hu
    simp [Pool.update_loop, hv, hu]
  · intro p x v m hu
    exact update_loop_gate_irrelevant p v x m hu

/-- Witness of C11: the task `(1, 0, false)` with a payload of 10 bytes, run in a pool
whose Decode Gate is closed for both streams. -/
theorem C11_unwanted_task_effect_witness :
    ({ examplePool with memcpy_array := [false, false] }).update_loop
        { exampleWorker with pc := .renderGate, inputIndex := 1, useForRendering := false }
        exampleExtern =
      some ({ examplePool with memcpy_array := [false, false] },
        { exampleWorker with pc := .gateCheck, inputIndex := 1, useForRendering := false }) :=
  (C11_unwanted_task_effect
    { exampleWorker with inputIndex := 1, useForRendering := false }
    (examplePool, exampleExtern) (examplePool, exampleExtern) (examplePool, exampleExtern)
    (examplePool, exampleExtern) (examplePool, exampleExtern) (examplePool, exampleExtern)
    (examplePool, exampleExtern) (examplePool, exampleExtern) _ rfl rfl
    rfl).2.2.1 _ _ _ rfl rfl

/-! ### The consume of a pair -/

theorem vecGet_vecSet_some {α : Type} (v : List α) (i j : Int) (x y : α)
    (h : vecGet v j = some y) : ∃ z, vecGet (vecSet v i x) j = some z := by
  by_cases hij : i = j
  · subst hij
    exact ⟨x, vecGet_vecSet_eq _ _ _ _ h⟩
  · rw [vecGet_vecSet_ne _ _ _ _ hij]
    exact ⟨y, h⟩

theorem copyStatements_spec (p : Pool) (s0 h0 s1 h1 : Int) (c0 c1 : Bool)
    (r0 r1 : Int × Bool) (pic0 pic1 : Int) (m0 m1 : Bool)
    (hp0 : vecGet p.picture_index s0 = some pic0) (hp1 : vecGet p.picture_index s1 = some pic1)
    (hm0 : vecGet p.memcpy_array s0 = some m0) (hm1 : vecGet p.memcpy_array s1 = some m1)
    (hr0 : NvDecoder.HandlePictureDisplay h0 c0 = some r0)
    (hr1 : NvDecoder.HandlePictureDisplay h1 c1 = some r1) :
    p.copyStatements s0 h0 s1 h1 c0 c1 =
      some ([{ p with displayed := p.displayed ++ [(s0, h0)] },
             { p with displayed := p.displayed ++ [(s0, h0), (s1, h1)] },
             { p with
               displayed := p.displayed ++ [(s0, h0), (s1, h1)]
               memcpy_array := vecSet p.memcpy_array s0 true },
             { p with
               displayed := p.displayed ++ [(s0, h0), (s1, h1)]
               memcpy_array := vecSet (vecSet p.memcpy_array s0 true) s1 true }],
            r0, r1) := by
  obtain ⟨z, hz⟩ := vecGet_vecSet_some p.memcpy_array s0 s1 true m1 hm1
  simp [Pool.copyStatements, Pool.display, Pool.reopen, hp0, hp1, hm0, hr0, hr1, hz]

theorem copyStatements_inv (p : Pool) (s0 h0 s1 h1 : Int) (c0 c1 : Bool)
    (ps : List Pool) (r0 r1 : Int × Bool)
    (h : p.copyStatements s0 h0 s1 h1 c0 c1 = some (ps, r0, r1)) :
    ∃ pic0 pic1 m0 m1, vecGet p.picture_index s0 = some pic0 ∧
      vecGet p.picture_index s1 = some pic1 ∧ vecGet p.memcpy_array s0 = some m0 ∧
      vecGet p.memcpy_array s1 = some m1 ∧ NvDecoder.HandlePictureDisplay h0 c0 = some r0 ∧
      NvDecoder.HandlePictureDisplay h1 c1 = some r1 := by
  unfold Pool.copyStatements Pool.display Pool.reopen at h
  cases hp0 : vecGet p.picture_index s0 with
  | none => simp [hp0] at h
  | some pic0 =>
    cases hr0 : NvDecoder.HandlePictureDisplay h0 c0 with
    | none => simp [hp0, hr0] at h
    | some q0 =>
      cases hp1 : vecGet p.picture_index s1 with
      | none => simp [hp0, hr0, hp1] at h
      | some pic1 =>
        cases hr1 : NvDecoder.HandlePictureDisplay h1 c1 with
        | none => simp [hp0, hr0, hp1, hr1] at h
        | some q1 =>
          cases hm0 : vecGet p.memcpy_array s0 with
          | none => simp [hp0, hr0, hp1, hr1, hm0] at h
          | some m0 =>
            cases hm1 : vecGet p.memcpy_array s1 with
            | none =>
              exfalso
              have hz : vecGet (vecSet p.memcpy_array s0 true) s1 = none := by
                by_cases hij : s0 = s1
                · subst hij
                  rw [hm0] at hm1
                  cases hm1
                · rw [vecGet_vecSet_ne _ _ _ _ hij]
                  exact hm1
              simp [hp0, hr0, hp1, hr1, hm0, hz] at h
            | some m1 =>
              obtain ⟨z, hz⟩ := vecGet_vecSet_some p.memcpy_array s0 s1 true m1 hm1
              simp [hp0, hr0, hp1, hr1, hm0, hz] at h
              exact ⟨pic0, pic1, m0, m1, rfl, rfl, rfl, rfl, by rw [h.2.1], by rw [h.2.2]⟩

/-- C12: `copyFromGPUToOpenGLTexture(s0, h0, s1, h1)` statement by statement.  The
first two statements are the calls of `HandlePictureDisplay`, for `(s0, h0)` and then
for `(s1, h1)`, and leave `memcpy_array` as it is; the third and the fourth set the
entries of `s0` and of `s1` to true.  Afterwards both entries are true and every other
entry of `memcpy_array` is what it was; `demux_array`, `input_queue`, `output_queue`,
the stop flag and the decoders' picture indices are the same after each statement.
The pool after the last statement is the one `Pool.copyFromGPUToOpenGLTexture`
returns. -/
theorem C12_copy_effect (p : Pool) (s0 h0 s1 h1 : Int) (c0 c1 : Bool) (ps : List Pool)
    (r0 r1 : Int × Bool) (h : p.copyStatements s0 h0 s1 h1 c0 c1 = some (ps, r0, r1)) :
    ps.map (fun q => q.displayed) =
      [p.displayed ++ [(s0, h0)], p.displayed ++ [(s0, h0), (s1, h1)],
       p.displayed ++ [(s0, h0), (s1, h1)], p.displayed ++ [(s0, h0), (s1, h1)]] ∧
    ps.map (fun q => q.memcpy_array) =
      [p.memcpy_array, p.memcpy_array, vecSet p.memcpy_array s0 true,
       vecSet (vecSet p.memcpy_array s0 true) s1 true] ∧
    (∀ q ∈ ps, q.demux_array = p.demux_array ∧ q.input_queue = p.input_queue ∧
      q.output_queue = p.output_queue ∧ q.terminate_pool = p.terminate_pool ∧
      q.picture_index = p.picture_index) ∧
    vecGet (vecSet (vecSet p.memcpy_array s0 true) s1 true) s0 = some true ∧
    vecGet (vecSet (vecSet p.memcpy_array s0 true) s1 true) s1 = some true ∧
    (∀ s, s ≠ s0 → s ≠ s1 →
      vecGet (vecSet (vecSet p.memcpy_array s0 true) s1 true) s = vecGet p.memcpy_array s) ∧
    p.copyFromGPUToOpenGLTexture s0 h0 s1 h1 = ps.getLast? := by
  obtain ⟨pic0, pic1, m0, m1, hp0, hp1, hm0, hm1, hr0, hr1⟩ :=
    copyStatements_inv p s0 h0 s1 h1 c0 c1 ps r0 r1 h
  rw [copyStatements_spec p s0 h0 s1 h1 c0 c1 r0 r1 pic0 pic1 m0 m1 hp0 hp1 hm0 hm1 hr0 hr1]
    at h
  simp only [Option.some.injEq, Prod.mk.injEq] at h
  obtain ⟨rfl, _, _⟩ := h
  obtain ⟨z, hz⟩ := vecGet_vecSet_some p.memcpy_array s0 s1 true m1 hm1
  refine ⟨by simp, by simp, ?_, ?_, vecGet_vecSet_eq _ _ _ _ hz, ?_, ?_⟩
  · intro q hq
    simp only [List.mem_cons, List.mem_singleton, List.not_mem_nil, or_false] at hq
    rcases hq with rfl | rfl | rfl | rfl <;> simp
  · by_cases hij : s1 = s0
    · rw [hij] at hz ⊢
      exact vecGet_vecSet_eq _ _ _ _ hz
    · rw [vecGet_vecSet_ne _ _ _ _ hij]
      exact vecGet_vecSet_eq _ _ _ _ hm0
  · intro s hs0 hs1
    rw [vecGet_vecSet_ne _ _ _ _ (Ne.symm hs1), vecGet_vecSet_ne _ _ _ _ (Ne.symm hs0)]
  · simp [Pool.copyFromGPUToOpenGLTexture, hp0, hp1, hm0, hm1]

/-- Witness of C12: the pair of camera 0 consumed in a pool whose Decode Gate is closed
for both streams. -/
theorem C12_copy_effect_witness :
    ({ examplePool with memcpy_array := [false, false] }).copyFromGPUToOpenGLTexture 0 3 1 4 =
      some { examplePool with displayed := [(0, 3), (1, 4)] } :=
  (C12_copy_effect { examplePool with memcpy_array := [false, false] } 0 3 1 4 true true
    [{ examplePool with displayed := [(0, 3)], memcpy_array := [false, false] },
     { examplePool with displayed := [(0, 3), (1, 4)], memcpy_array := [false, false] },
     { examplePool with displayed := [(0, 3), (1, 4)], memcpy_array := [true, false] },
     { examplePool with displayed := [(0, 3), (1, 4)] }] (1, true) (1, true) rfl).2.2.2.2.2.2

theorem firstFrames_get (inputsToUse : List Int) : ∀ n : Nat,
    (firstFrames n inputsToUse).length = 2 * n ∧
      ∀ i : Nat, i < n →
        (firstFrames n inputsToUse)[2 * i]? =
            some (2 * (i : Int), 0, decide ((i : Int) ∈ inputsToUse)) ∧
          (firstFrames n inputsToUse)[2 * i + 1]? =
            some (2 * (i : Int) + 1, 0, decide ((i : Int) ∈ inputsToUse))
  | 0 => by simp [firstFrames]
  | n + 1 => by
    obtain ⟨hlen, hget⟩ := firstFrames_get inputsToUse n
    have hsucc : firstFrames ((n + 1 : Nat) : Int) inputsToUse =
        firstFrames (n : Int) inputsToUse ++
          [(2 * (n : Int), 0, decide ((n : Int) ∈ inputsToUse)),
           (2 * (n : Int) + 1, 0, decide ((n : Int) ∈ inputsToUse))] := by
      simp only [firstFrames, Int.toNat_ofNat, List.range_succ, List.flatMap_append,
        List.flatMap_cons, List.flatMap_nil, List.append_nil]
    rw [hsucc]
    refine ⟨by simp [hlen]; omega, ?_⟩
    intro i hi
    by_cases hin : i < n
    · obtain ⟨h0, h1⟩ := hget i hin
      rw [List.getElem?_append_left (by omega), List.getElem?_append_left (by omega)]
      exact ⟨h0, h1⟩
    · have hi2 : i = n := by omega
      subst hi2
      rw [List.getElem?_append_right (by omega), List.getElem?_append_right (by omega)]
      simp [hlen]

/-- C14: `startDemuxingFirstFrames(visibleSet)` on a pool of `S` cameras leaves the
entries of `input_queue` in front and appends `2 * S` tasks: for every camera
`i < S` the entry at position `2 * i` of the appended part is `(2 * i, 0, w)` and the
entry at position `2 * i + 1` is `(2 * i + 1, 0, w)`, where `w` is true exactly when
`i` is in `visibleSet`.  No other member of the pool changes. -/
theorem C14_seed_first_frames (p : Pool) (S : Nat) (hS : p.nrImages = S)
    (visibleSet : List Int) :
    ∃ appended : List Task,
      p.startDemuxingFirstFrames visibleSet = { p with input_queue := p.input_queue ++ appended } ∧
      appended.length = 2 * S ∧
      (∀ i : Nat, i < S →
        appended[2 * i]? = some (2 * (i : Int), 0, decide ((i : Int) ∈ visibleSet)) ∧
        appended[2 * i + 1]? = some (2 * (i : Int) + 1, 0, decide ((i : Int) ∈ visibleSet))) ∧
      (∀ k : Nat, k < p.input_queue.length →
        (p.startDemuxingFirstFrames visibleSet).input_queue[k]? = p.input_queue[k]?) := by
  refine ⟨firstFrames S visibleSet, ?_, (firstFrames_get visibleSet S).1,
    (firstFrames_get visibleSet S).2, ?_⟩
  · simp [Pool.startDemuxingFirstFrames, hS]
  · intro k hk
    simp only [Pool.startDemuxingFirstFrames]
    rw [List.getElem?_append_left hk]

/-- Witness of C14: two cameras, of which camera 1 is visible; the four tasks appended
are `(0, 0, false)`, `(1, 0, false)`, `(2, 0, true)`, `(3, 0, true)`. -/
theorem C14_seed_first_frames_witness :
    ((Pool.init 2 4 [0, 0, 0, 0] 2).startDemuxingFirstFrames [1]).input_queue =
        [(0, 0, false), (1, 0, false), (2, 0, true), (3, 0, true)] ∧
      ∃ appended : List Task,
        (Pool.init 2 4 [0, 0, 0, 0] 2).startDemuxingFirstFrames [1] =
          { Pool.init 2 4 [0, 0, 0, 0] 2 with
            input_queue := (Pool.init 2 4 [0, 0, 0, 0] 2).input_queue ++ appended } ∧
        appended.length = 2 * 2 :=
  ⟨by decide,
    let ⟨l, h, hlen, _, _⟩ := C14_seed_first_frames (Pool.init 2 4 [0, 0, 0, 0] 2) 2 rfl [1]
    ⟨l, h, hlen⟩⟩

/-- C15: `startDemuxingNextFrame(c, f, w)` for a camera index `c` whose stream indices
`2c` and `2c + 1` are values of an `int` (`-2^30 ≤ c < 2^30`, so that the products of
Pool.h 77-78 do not overflow).  The call appends `(2c, f, w)` and then `(2c + 1, f, w)`
to the back of `input_queue`: the entries queued before keep their positions, the two
new ones follow them, and no other member of the pool changes.  The call is possible
whatever the queue, the gates and the threads are: it has no wait (the driver only
finishes the consume of a tuple it holds first). -/
theorem C15_push_next_frame (p : Pool) (c f : Int) (w : Bool)
    (hc : -2 ^ 30 ≤ c ∧ c < 2 ^ 30) :
    toInt32 (2 * c) = 2 * c ∧ toInt32 (2 * c + 1) = 2 * c + 1 ∧
    p.startDemuxingNextFrame c f w =
      { p with input_queue := p.input_queue ++ [(2 * c, f, w), (2 * c + 1, f, w)] } ∧
    (p.startDemuxingNextFrame c f w).input_queue.length = p.input_queue.length + 2 ∧
    (∀ k : Nat, k < p.input_queue.length →
      (p.startDemuxingNextFrame c f w).input_queue[k]? = p.input_queue[k]?) ∧
    (p.startDemuxingNextFrame c f w).input_queue[p.input_queue.length]? =
      some (2 * c, f, w) ∧
    (p.startDemuxingNextFrame c f w).input_queue[p.input_queue.length + 1]? =
      some (2 * c + 1, f, w) ∧
    (p.startDemuxingNextFrame c f w).memcpy_array = p.memcpy_array ∧
    (p.startDemuxingNextFrame c f w).demux_array = p.demux_array ∧
    (p.startDemuxingNextFrame c f w).output_queue = p.output_queue ∧
    (∀ cfg : Config, cfg.tuple = none →
      step cfg (.startDemuxingNextFrame c f w) =
        some { cfg with pool := cfg.pool.startDemuxingNextFrame c f w }) := by
  refine ⟨?_, ?_, rfl, by simp [Pool.startDemuxingNextFrame], ?_, ?_, ?_, rfl, rfl, rfl, ?_⟩
  · unfold toInt32
    norm_num at hc ⊢
    omega
  · unfold toInt32
    norm_num at hc ⊢
    omega
  · intro k hk
    simp only [Pool.startDemuxingNextFrame]
    rw [List.getElem?_append_left hk]
  · simp only [Pool.startDemuxingNextFrame]
    rw [List.getElem?_append_right (Nat.le_refl _)]
    simp
  · simp only [Pool.startDemuxingNextFrame]
    rw [List.getElem?_append_right (by omega)]
    simp
  · intro cfg h
    simp [step, h]

/-- Witness of C15: frame 1 of camera 0 is pushed as wanted behind the task
`(1, 0, true)`. -/
theorem C15_push_next_frame_witness :
    ({ examplePool with input_queue := [(1, 0, true)] }).startDemuxingNextFrame 0 1 true =
      { examplePool with
        input_queue := [(1, 0, true)] ++ [(2 * 0, 1, true), (2 * 0 + 1, 1, true)] } :=
  (C15_push_next_frame { examplePool with input_queue := [(1, 0, true)] } 0 1 true
    ⟨by decide, by decide⟩).2.2.1

/-! ### Failures and the stop flag -/

/-- Counterexample of C17: `init` with a worker count of 1 followed by
`startThreadPool` gives a pool with one thread, and the thread runs: it enters the
loop. -/
theorem C17_counterexample :
    (Config.init 1 2 [0, 0] 1).threads = [Worker.start] ∧
      step (Config.init 1 2 [0, 0] 1) (.thread 0 exampleExtern) =
        some { Config.init 1 2 [0, 0] 1 with
          threads := [{ Worker.start with pc := .waitForTask }] } :=
  ⟨rfl, rfl⟩

/-- C17 as amended: the worker count is checked where the command line is parsed.
A value of option `-t` below 2 ends the program there, and every count the parser
lets through, the default 2 of a command line without `-t` included, is at least 2, so
that the pool `SetupDecodingPool` constructs with it has at least 2 threads.
`Pool::init` and `startThreadPool` themselves accept every count `n` and start `n`
threads, none when `n` is not positive. -/
theorem C17_worker_count_checked_at_parse (nrImages : Int) (demuxers : Nat)
    (decoders : List Int) :
    (∀ n : Int, n < 2 → Options.nrThreads (some n) = none) ∧
    (∀ (t : Option Int) (n : Int), Options.nrThreads t = some n →
      2 ≤ n ∧ 2 ≤ (Config.init nrImages demuxers decoders n).threads.length) ∧
    (∀ n : Int, (Pool.init nrImages demuxers decoders n).startThreadPool.length = n.toNat ∧
      (Pool.init nrImages demuxers decoders n).nrThreads = n) := by
  refine ⟨?_, ?_, ?_⟩
  · intro n hn
    simp [Options.nrThreads, hn]
  · intro t n h
    have h2 : 2 ≤ n := by
      unfold Options.nrThreads at h
      split at h
      · simp only [Option.some.injEq] at h
        omega
      · split at h
        · cases h
        · simp only [Option.some.injEq] at h
          omega
    refine ⟨h2, ?_⟩
    simp only [Config.init, Pool.startThreadPool, Pool.init, List.length_replicate]
    omega
  · intro n
    simp [Pool.startThreadPool, Pool.init]

/-- Counterexample of C18: with the stop flag set and `output_queue` empty, the
predicate of the wait of `waitUntilInputFrameIsDecoded` is false and the driver stays
blocked in the call. -/
theorem C18_counterexample :
    ({ examplePool with terminate_pool := true }).terminate_pool = true ∧
    (outputPredicate ({ examplePool with terminate_pool := true }).output_queue 0 0 0).1 = false ∧
    ({ examplePool with terminate_pool := true }).waitUntilInputFrameIsDecoded 0 0 0 = none ∧
    step { pool := { examplePool with terminate_pool := true }, threads := [], tuple := none }
      (.waitUntilInputFrameIsDecoded 0) = none :=
  ⟨rfl, rfl, rfl, rfl⟩

/-- C18 as amended: with the stop flag set, the predicate of each of the three waits of
a thread is true whatever `input_queue`, `demux_array` and `memcpy_array` hold, and
the thread leaves the wait: from the wait for a task it leaves the loop, and from the
Order Gate wait and the Decode Gate wait it goes to the test of the flag that follows
the wait (Pool.h 166 and 184), where it leaves the loop. -/
theorem C18_stop_flag_at_worker_waits (p : Pool) (w : Worker) (x : Extern)
    (hf : p.terminate_pool = true) :
    (∀ index, inputPredicate p.terminate_pool p.input_queue w.inputIndex w.frameNr index =
      (true, index)) ∧
    (w.pc = .waitForTask → p.update_loop w x = some (p, { w with pc := .stopped })) ∧
    (w.pc = .orderWait → ∀ d, vecGet p.demux_array w.inputIndex = some d →
      p.update_loop w x = some (p, { w with pc := .orderCheck })) ∧
    (w.pc = .renderGate → w.useForRendering = true →
      ∀ free, vecGet p.memcpy_array w.inputIndex = some free →
        p.update_loop w x =
          some ({ p with memcpy_array := vecSet p.memcpy_array w.inputIndex false },
            { w with pc := .gateCheck })) ∧
    (w.pc = .orderCheck ∨ w.pc = .gateCheck →
      p.update_loop w x = some (p, { w with pc := .stopped })) := by
  refine ⟨?_, ?_, ?_, ?_, ?_⟩
  · intro index
    simp [inputPredicate, hf]
  · intro hpc
    simp [Pool.update_loop, hpc, hf, inputPredicate]
  · intro hpc d hd
    simp [Pool.update_loop, hpc, hf, hd]
  · intro hpc hu free hm
    simp [Pool.update_loop, hpc, hf, hu, hm]
  · intro hpc
    rcases hpc with hpc | hpc <;> simp [Pool.update_loop, hpc, hf]

/-- Witness of C18 as amended: a thread in the Order Gate wait for frame 5 of stream 0,
whose turn has not come. -/
theorem C18_stop_flag_at_worker_waits_witness :
    ({ examplePool with terminate_pool := true }).update_loop
        { exampleWorker with frameNr := 5 } exampleExtern =
      some ({ examplePool with terminate_pool := true },
        { exampleWorker with pc := .orderCheck, frameNr := 5 }) :=
  (C18_stop_flag_at_worker_waits { examplePool with terminate_pool := true }
    { exampleWorker with frameNr := 5 } exampleExtern rfl).2.2.1 rfl 0 rfl

/-! ### Shutdown with a thread asleep in the Order Gate wait -/

set_option maxRecDepth 100000 in
/-- C19 fails on the code: `cleanup` sets the stop flag and calls `notify_all` on
`input_condition`, `memcpy_condition` and `output_condition` (Pool.h 214-218), not
on `demux_condition`.  After `traceOrderSleeper` thread 1 sleeps in the Order Gate
wait for `(0, 1, false)` with its predicate false.  After `cleanup` and the last
steps of thread 0 (`traceShutdown`) the stop flag is set and the predicate of thread 1
is true, yet thread 1 still sleeps at the Order Gate wait: thread 0 has left the loop
without a `notify_all` on `demux_condition`, and no step of any thread is possible.
Thread 1 never reaches the end of `update_loop`, so the `join` of `cleanup` does not
return. -/
theorem C19_order_gate_sleeper_not_woken :
    (∃ s, Sched.run (Sched.init 1 2 [0, 0] 2) traceOrderSleeper = some s ∧
      s.config.pool.terminate_pool = false ∧
      s.config.threads.map (fun w => w.pc) = [.demux, .orderWait] ∧
      s.asleep = [false, true] ∧
      s.config.threads.map (fun w => s.config.pool.waitPredicate w) = [none, some false]) ∧
    ∃ s, Sched.run (Sched.init 1 2 [0, 0] 2) traceShutdown = some s ∧
      s.config.pool.terminate_pool = true ∧
      s.config.threads.map (fun w => w.pc) = [.stopped, .orderWait] ∧
      s.asleep = [false, true] ∧
      s.config.threads.map (fun w => s.config.pool.waitPredicate w) = [none, some true] ∧
      ∀ (i : Nat) (x : Extern), s.step (.thread i x) = none :=
  ⟨⟨_, rfl, rfl, by decide, rfl, by decide⟩,
    ⟨_, rfl, rfl, by decide, rfl, by decide,
      fun i _ => match i with
        | 0 => rfl
        | 1 => rfl
        | _ + 2 => rfl⟩⟩

/-! ### The Order Gate counts the increments -/

theorem increments_append (g : Ghost) (t : Task) (s : Int) :
    ({ g with incremented := g.incremented ++ [t] } : Ghost).increments s =
      g.increments s + if t.1 = s then 1 else 0 := by
  unfold Ghost.increments
  by_cases h : t.1 = s <;> simp [List.filter_append, h]

theorem increments_thread (c : Config) (g : Ghost)
    (hinv : ∀ s d, vecGet c.pool.demux_array s = some d → d = g.increments s)
    (w : Worker) (x : Extern) (p2 : Pool) (w2 : Worker)
    (hs : ThreadStep c.pool w x p2 w2) (s d : Int)
    (hd : vecGet p2.demux_array s = some d) : d = (g.thread w w2).increments s := by
  by_cases hpc : w.pc = .increment
  · obtain ⟨d0, hd0, rfl, rfl⟩ := threadStep_increment _ _ _ _ _ hs hpc
    have hg : g.thread w { w with pc := .publish } =
        { g with incremented := g.incremented ++ [w.task] } := by
      simp [Ghost.thread, hpc]
    rw [hg, increments_append]
    simp only at hd
    by_cases hss : w.inputIndex = s
    · subst hss
      rw [vecGet_vecSet_eq _ _ _ _ hd0] at hd
      simp only [Option.some.injEq] at hd
      have := hinv _ _ hd0
      simp [Worker.task]
      omega
    · rw [vecGet_vecSet_ne _ _ _ _ hss] at hd
      have := hinv _ _ hd
      simp [Worker.task, hss]
      omega
  · rw [threadStep_demux_array _ _ _ _ _ hs hpc] at hd
    have hg : (g.thread w w2).incremented = g.incremented := by
      rw [thread_incremented, if_neg hpc]
    unfold Ghost.increments
    rw [hg]
    exact hinv s d hd

theorem increments_step (c : Config) (g : Ghost)
    (hinv : ∀ s d, vecGet c.pool.demux_array s = some d → d = g.increments s)
    (l : Label) (c2 : Config) (h : step c l = some c2) (s d : Int)
    (hd : vecGet c2.pool.demux_array s = some d) : d = (Ghost.next c g l).increments s := by
  cases l with
  | thread i x =>
    obtain ⟨w, p2, w2, hw, hs, rfl, hg⟩ := step_thread c i x c2 h
    rw [hg]
    exact increments_thread c g hinv w x p2 w2 hs s d hd
  | startDemuxingFirstFrames inputsToUse =>
    simp only [step] at h
    split at h
    · cases h
    · cases h
      exact hinv s d hd
  | startDemuxingNextFrame inputIndex frameNr useForRendering =>
    simp only [step] at h
    split at h
    · cases h
    · cases h
      exact hinv s d hd
  | waitUntilInputFrameIsDecoded k =>
    obtain ⟨_, i0, i1, e0, e1, _, hpred, _, _, _, _, rfl⟩ := step_take c k c2 h
    have := hinv s d hd
    simpa [Ghost.next, hpred, Ghost.increments] using this
  | copyFromGPUToOpenGLTexture =>
    obtain ⟨t, b0, b1, htup, _, _, rfl⟩ := step_copy c c2 h
    have := hinv s d hd
    simpa [Ghost.next, htup, Ghost.increments] using this
  | cleanup =>
    simp only [step] at h
    split at h
    · cases h
    · cases h
      exact hinv s d hd

theorem runFrom_increments : ∀ (tr : List Label) (cg cg2 : Config × Ghost),
    (∀ s d, vecGet cg.1.pool.demux_array s = some d → d = cg.2.increments s) →
    runFrom cg tr = some cg2 →
    ∀ s d, vecGet cg2.1.pool.demux_array s = some d → d = cg2.2.increments s
  | [], cg, cg2, hinv, hrun => by
    simp only [runFrom, Option.some.injEq] at hrun
    subst hrun
    exact hinv
  | l :: tr, cg, cg2, hinv, hrun => by
    simp only [runFrom] at hrun
    split at hrun
    · cases hrun
    · rename_i c2 hstep
      exact runFrom_increments tr (c2, Ghost.next cg.1 cg.2 l) cg2
        (increments_step cg.1 cg.2 hinv l c2 hstep) hrun

theorem run_increments (nrImages : Int) (demuxers : Nat) (decoders : List Int)
    (nrThreads : Int) (tr : List Label) (c : Config) (g : Ghost)
    (hrun : run nrImages demuxers decoders nrThreads tr = some (c, g)) (s d : Int)
    (hd : vecGet c.pool.demux_array s = some d) : d = g.increments s := by
  refine runFrom_increments tr _ (c, g) ?_ hrun s d hd
  intro s d hd
  have := vecGet_replicate _ _ _ _ hd
  subst this
  rfl

/-! ### The scenario with two frames of one camera -/

theorem runFrom_append : ∀ (l1 l2 : List Label) (cg cg2 : Config × Ghost),
    runFrom cg (l1 ++ l2) = some cg2 →
    ∃ cg1, runFrom cg l1 = some cg1 ∧ runFrom cg1 l2 = some cg2
  | [], l2, cg, cg2, h => ⟨cg, rfl, h⟩
  | l :: l1, l2, cg, cg2, h => by
    have h2 : runFrom cg (l :: (l1 ++ l2)) = some cg2 := h
    simp only [runFrom] at h2
    split at h2
    · cases h2
    · rename_i c2 hstep
      obtain ⟨cg1, ha, hb⟩ := runFrom_append l1 l2 _ cg2 h2
      refine ⟨cg1, ?_, hb⟩
      simp only [runFrom, hstep]
      exact ha

theorem good_runFrom (tr : List Label) (cg cg2 : Config × Ghost) (hg : Good cg)
    (h : runFrom cg tr = some cg2) : Good cg2 :=
  runFrom_inv tr cg cg2 hg.1 hg.2.1 hg.2.2 h

theorem threadStep_nrImages (p : Pool) (w : Worker) (x : Extern) (p2 : Pool) (w2 : Worker)
    (hs : ThreadStep p w x p2 w2) : p2.nrImages = p.nrImages := by
  cases hs <;> rfl

theorem runFrom_threadSteps : ∀ (t : List (Nat × Extern)) (cg cg2 : Config × Ghost),
    runFrom cg (threadSteps t) = some cg2 → driverView cg2 = driverView cg
  | [], cg, cg2, h => by
    simp only [threadSteps, List.map_nil, runFrom, Option.some.injEq] at h
    rw [h]
  | ix :: t, cg, cg2, h => by
    simp only [threadSteps, List.map_cons, runFrom] at h
    split at h
    · cases h
    · rename_i c2 hstep
      have ih := runFrom_threadSteps t _ cg2 h
      rw [ih]
      obtain ⟨w, p2, w2, hw, hs, rfl, hgh⟩ := step_thread cg.1 ix.1 ix.2 c2 hstep
      simp only [driverView, hgh, thread_enqueued, thread_consumed, thread_tupleFrames,
        threadStep_nrImages _ _ _ _ _ hs]

/-- A segment of an execution: steps of the threads, then one call of the driver. -/
theorem runFrom_segment (t : List (Nat × Extern)) (l : Label) (rest : List Label)
    (cg cg2 : Config × Ghost) (hg : Good cg)
    (h : runFrom cg (threadSteps t ++ l :: rest) = some cg2) :
    ∃ cgA cB, driverView cgA = driverView cg ∧ Good cgA ∧ step cgA.1 l = some cB ∧
      Good (cB, Ghost.next cgA.1 cgA.2 l) ∧
      runFrom (cB, Ghost.next cgA.1 cgA.2 l) rest = some cg2 := by
  obtain ⟨cgA, hA, hrest⟩ := runFrom_append _ _ _ _ h
  have hgA := good_runFrom _ _ _ hg hA
  simp only [runFrom] at hrest
  split at hrest
  · cases hrest
  · rename_i cB hstep
    refine ⟨cgA, cB, runFrom_threadSteps t _ _ hA, hgA, hstep, ?_, hrest⟩
    refine good_runFrom [l] cgA _ hgA ?_
    simp [runFrom, hstep]

theorem view_push (c : Config) (g : Ghost) (l : Label) (c2 : Config) (new : List Task)
    (hl : l = .startDemuxingFirstFrames [0] ∧ new = firstFrames c.pool.nrImages [0] ∨
      l = .startDemuxingNextFrame 0 1 true ∧ new = [(2 * 0, 1, true), (2 * 0 + 1, 1, true)])
    (h : step c l = some c2) :
    driverView (c2, Ghost.next c g l) =
      (g.enqueued ++ new, g.consumed, c.tuple, g.tupleFrames, c.pool.nrImages) := by
  rcases hl with ⟨rfl, rfl⟩ | ⟨rfl, rfl⟩
  · simp only [step] at h
    split at h
    · cases h
    · cases h
      simp [driverView, Ghost.next, Pool.startDemuxingFirstFrames, *]
  · simp only [step] at h
    split at h
    · cases h
    · cases h
      simp [driverView, Ghost.next, Pool.startDemuxingNextFrame, *]

theorem view_take (c : Config) (g : Ghost) (k : Int) (c2 : Config)
    (h : step c (.waitUntilInputFrameIsDecoded k) = some c2) :
    ∃ t fr, t.1 = 2 * k ∧ t.2.2.1 = 2 * k + 1 ∧
      driverView (c2, Ghost.next c g (.waitUntilInputFrameIsDecoded k)) =
        (g.enqueued, g.consumed, some t, fr, c.pool.nrImages) := by
  obtain ⟨_, i0, i1, e0, e1, _, hpred, _, _, hs0, hs1, rfl⟩ := step_take c k c2 h
  exact ⟨(e0.1, e0.2, e1.1, e1.2),
    ((g.tagged.getD i0 (0, 0, 0)).2.2, (g.tagged.getD i1 (0, 0, 0)).2.2), hs0, hs1,
    by simp [driverView, Ghost.next, hpred]⟩

theorem view_copy (c : Config) (g : Ghost) (c2 : Config)
    (h : step c .copyFromGPUToOpenGLTexture = some c2) :
    ∃ t, c.tuple = some t ∧
      driverView (c2, Ghost.next c g .copyFromGPUToOpenGLTexture) =
        (g.enqueued, g.consumed ++ [(t.1, g.tupleFrames.1), (t.2.2.1, g.tupleFrames.2)],
          none, g.tupleFrames, c.pool.nrImages) := by
  obtain ⟨t, b0, b1, htup, _, _, rfl⟩ := step_copy c c2 h
  exact ⟨t, htup, by simp [driverView, Ghost.next, htup]⟩

theorem tuple_after_consume (c : Config) (g : Ghost) (h0 : Inv0 c g) (h1 : Inv1 c g)
    (hU : (g.enqueued.map Task.key).Nodup) (t : Int × Int × Int × Int)
    (ht : c.tuple = some t) (s N : Int) (hN : 0 ≤ N)
    (hs : (s = t.1 ∧ g.tupleFrames.1 = N + 1) ∨ (s = t.2.2.1 ∧ g.tupleFrames.2 = N + 1))
    (henq : (s, N, true) ∈ g.enqueued) : (s, N) ∈ g.consumed := by
  obtain ⟨hi1, hi2⟩ := tuple_incremented c g h0 t ht
  obtain ⟨k, hk1, hk2⟩ := h0.tupleCam t ht
  have hinc : (s, N + 1, true) ∈ g.incremented := by
    rcases hs with ⟨rfl, hf⟩ | ⟨rfl, hf⟩
    · rw [← hf]
      exact hi1
    · rw [← hf]
      exact hi2
  obtain ⟨d, hd, _, hlt⟩ := h1.doneLt _ _ _ hinc
  obtain ⟨b, hb⟩ := h1.doneAll s d N hd hN (by omega)
  have hbt : b = true := flag_unique g hU _ _ _ _ (incremented_sub c g h0 _ hb) henq
  subst hbt
  have tok := h0.tokens s
  simp only [inFlight, List.count_append] at tok
  have htc : 1 ≤ (tupleStreams c.tuple).count s := by
    rw [ht]
    apply List.count_pos_iff.2
    simp only [tupleStreams, List.mem_cons, List.mem_singleton, List.not_mem_nil, or_false]
    rcases hs with ⟨rfl, _⟩ | ⟨rfl, _⟩
    · exact Or.inl rfl
    · exact Or.inr rfl
  rcases wanted_where c g h0 s N hb with ⟨v, hv, hvpc, hvu, hvs, _⟩ | ⟨h, hy⟩ | ⟨t2, ht2, halt⟩ | hc
  · exfalso
    have hcl : Worker.claimed c.pool.terminate_pool v = some s := by
      rw [← hvs]
      exact claimed_of_pc _ v hvu (Or.inr (Or.inr hvpc))
    have : 1 ≤ (c.threads.filterMap (Worker.claimed c.pool.terminate_pool)).count s :=
      List.count_pos_iff.2 (List.mem_filterMap.2 ⟨v, hv, hcl⟩)
    omega
  · exfalso
    have := out_count c g h0 _ hy
    simp only at this
    omega
  · exfalso
    rw [ht] at ht2
    simp only [Option.some.injEq] at ht2
    subst ht2
    rcases hs with ⟨rfl, hf⟩ | ⟨rfl, hf⟩ <;> rcases halt with ⟨he, hf2⟩ | ⟨he, hf2⟩ <;> omega
  · exact hc

theorem consumed_wanted (c : Config) (g : Ghost) (h0 : Inv0 c g) (k : Int × Int)
    (hk : k ∈ g.consumed) : (k.1, k.2, true) ∈ g.incremented := by
  obtain ⟨k1, k2⟩ := k
  have hc := List.count_pos_iff.2 hk
  have hwant := h0.wanted (k1, k2)
  rw [count_filterMap_wantedKey] at hwant
  have hpos : 0 < g.incremented.count (k1, k2, true) := by omega
  exact List.count_pos_iff.1 hpos

theorem seg_push (t : List (Nat × Extern)) (l : Label) (rest : List Label)
    (cg cg2 : Config × Ghost) (hg : Good cg)
    (E : List Task) (C : List (Int × Int)) (T : Option (Int × Int × Int × Int))
    (F : Int × Int) (N : Int) (new : List Task)
    (hl : l = .startDemuxingFirstFrames [0] ∧ new = firstFrames N [0] ∨
      l = .startDemuxingNextFrame 0 1 true ∧ new = [(2 * 0, 1, true), (2 * 0 + 1, 1, true)])
    (hv : driverView cg = (E, C, T, F, N))
    (h : runFrom cg (threadSteps t ++ l :: rest) = some cg2) :
    ∃ cg1, Good cg1 ∧ driverView cg1 = (E ++ new, C, T, F, N) ∧
      runFrom cg1 rest = some cg2 := by
  obtain ⟨cgA, cB, hvA, _, hstep, hgB, hrest⟩ := runFrom_segment t l rest cg cg2 hg h
  rw [hv] at hvA
  simp only [driverView, Prod.mk.injEq] at hvA
  obtain ⟨hE, hC, hT, hF, hN⟩ := hvA
  refine ⟨_, hgB, ?_, hrest⟩
  rw [view_push cgA.1 cgA.2 l cB new (by rw [hN]; exact hl) hstep, hE, hC, hT, hF, hN]

theorem seg_take (t : List (Nat × Extern)) (k : Int) (rest : List Label)
    (cg cg2 : Config × Ghost) (hg : Good cg)
    (E : List Task) (C : List (Int × Int)) (T : Option (Int × Int × Int × Int))
    (F : Int × Int) (N : Int) (hv : driverView cg = (E, C, T, F, N))
    (h : runFrom cg (threadSteps t ++ .waitUntilInputFrameIsDecoded k :: rest) = some cg2) :
    ∃ cg1 tp fr, Good cg1 ∧ tp.1 = 2 * k ∧ tp.2.2.1 = 2 * k + 1 ∧
      driverView cg1 = (E, C, some tp, fr, N) ∧ runFrom cg1 rest = some cg2 := by
  obtain ⟨cgA, cB, hvA, _, hstep, hgB, hrest⟩ := runFrom_segment t _ rest cg cg2 hg h
  rw [hv] at hvA
  simp only [driverView, Prod.mk.injEq] at hvA
  obtain ⟨hE, hC, hT, hF, hN⟩ := hvA
  obtain ⟨tp, fr, h1, h2, hview⟩ := view_take cgA.1 cgA.2 k cB hstep
  refine ⟨_, tp, fr, hgB, h1, h2, ?_, hrest⟩
  rw [hview, hE, hC, hN]

theorem seg_copy (t : List (Nat × Extern)) (rest : List Label)
    (cg cg2 : Config × Ghost) (hg : Good cg)
    (E : List Task) (C : List (Int × Int)) (tp : Int × Int × Int × Int)
    (F : Int × Int) (N : Int) (hv : driverView cg = (E, C, some tp, F, N))
    (h : runFrom cg (threadSteps t ++ .copyFromGPUToOpenGLTexture :: rest) = some cg2) :
    ∃ cg1, Good cg1 ∧
      driverView cg1 = (E, C ++ [(tp.1, F.1), (tp.2.2.1, F.2)], none, F, N) ∧
      runFrom cg1 rest = some cg2 := by
  obtain ⟨cgA, cB, hvA, _, hstep, hgB, hrest⟩ := runFrom_segment t _ rest cg cg2 hg h
  rw [hv] at hvA
  simp only [driverView, Prod.mk.injEq] at hvA
  obtain ⟨hE, hC, hT, hF, hN⟩ := hvA
  obtain ⟨t2, ht2, hview⟩ := view_copy cgA.1 cgA.2 cB hstep
  rw [hT] at ht2
  simp only [Option.some.injEq] at ht2
  subst ht2
  refine ⟨_, hgB, ?_, hrest⟩
  rw [hview, hE, hC, hF, hN]

theorem driverCalls_nil : ∀ tr : List Label, driverCalls tr = [] → ∃ t, tr = threadSteps t
  | [], _ => ⟨[], rfl⟩
  | l :: tr, h => by
    cases l with
    | thread i x =>
      have h2 : driverCalls tr = [] := by simpa [driverCalls] using h
      obtain ⟨t, rfl⟩ := driverCalls_nil tr h2
      exact ⟨(i, x) :: t, rfl⟩
    | _ => simp [driverCalls] at h

theorem driverCalls_cons : ∀ (tr : List Label) (l : Label) (ls : List Label),
    driverCalls tr = l :: ls →
    ∃ t rest, tr = threadSteps t ++ l :: rest ∧ driverCalls rest = ls
  | [], l, ls, h => by simp [driverCalls] at h
  | a :: tr, l, ls, h => by
    cases a with
    | thread i x =>
      have h2 : driverCalls tr = l :: ls := by simpa [driverCalls] using h
      obtain ⟨t, rest, rfl, hr⟩ := driverCalls_cons tr l ls h2
      exact ⟨(i, x) :: t, rest, rfl, hr⟩
    | _ =>
      simp only [driverCalls, List.filter_cons_of_pos, List.cons.injEq] at h
      obtain ⟨rfl, h2⟩ := h
      exact ⟨[], tr, rfl, h2⟩

theorem call_push (tr : List Label) (l : Label) (ls : List Label)
    (cg cg2 : Config × Ghost) (hg : Good cg)
    (E : List Task) (C : List (Int × Int)) (T : Option (Int × Int × Int × Int))
    (F : Int × Int) (N : Int) (new : List Task)
    (hl : l = .startDemuxingFirstFrames [0] ∧ new = firstFrames N [0] ∨
      l = .startDemuxingNextFrame 0 1 true ∧ new = [(2 * 0, 1, true), (2 * 0 + 1, 1, true)])
    (hv : driverView cg = (E, C, T, F, N)) (hc : driverCalls tr = l :: ls)
    (h : runFrom cg tr = some cg2) :
    ∃ cg1 rest, Good cg1 ∧ driverView cg1 = (E ++ new, C, T, F, N) ∧
      runFrom cg1 rest = some cg2 ∧ driverCalls rest = ls := by
  obtain ⟨t, rest, rfl, hr⟩ := driverCalls_cons tr l ls hc
  obtain ⟨cg1, h1, h2, h3⟩ := seg_push t l rest cg cg2 hg E C T F N new hl hv h
  exact ⟨cg1, rest, h1, h2, h3, hr⟩

theorem call_take (tr : List Label) (k : Int) (ls : List Label)
    (cg cg2 : Config × Ghost) (hg : Good cg)
    (E : List Task) (C : List (Int × Int)) (T : Option (Int × Int × Int × Int))
    (F : Int × Int) (N : Int) (hv : driverView cg = (E, C, T, F, N))
    (hc : driverCalls tr = .waitUntilInputFrameIsDecoded k :: ls)
    (h : runFrom cg tr = some cg2) :
    ∃ cg1 rest tp fr, Good cg1 ∧ tp.1 = 2 * k ∧ tp.2.2.1 = 2 * k + 1 ∧
      driverView cg1 = (E, C, some tp, fr, N) ∧ runFrom cg1 rest = some cg2 ∧
      driverCalls rest = ls := by
  obtain ⟨t, rest, rfl, hr⟩ := driverCalls_cons tr _ ls hc
  obtain ⟨cg1, tp, fr, h1, h2, h3, h4, h5⟩ := seg_take t k rest cg cg2 hg E C T F N hv h
  exact ⟨cg1, rest, tp, fr, h1, h2, h3, h4, h5, hr⟩

theorem call_copy (tr : List Label) (ls : List Label)
    (cg cg2 : Config × Ghost) (hg : Good cg)
    (E : List Task) (C : List (Int × Int)) (tp : Int × Int × Int × Int)
    (F : Int × Int) (N : Int) (hv : driverView cg = (E, C, some tp, F, N))
    (hc : driverCalls tr = .copyFromGPUToOpenGLTexture :: ls)
    (h : runFrom cg tr = some cg2) :
    ∃ cg1 rest, Good cg1 ∧
      driverView cg1 = (E, C ++ [(tp.1, F.1), (tp.2.2.1, F.2)], none, F, N) ∧
      runFrom cg1 rest = some cg2 ∧ driverCalls rest = ls := by
  obtain ⟨t, rest, rfl, hr⟩ := driverCalls_cons tr _ ls hc
  obtain ⟨cg1, h1, h2, h3⟩ := seg_copy t rest cg cg2 hg E C tp F N hv h
  exact ⟨cg1, rest, h1, h2, h3, hr⟩

theorem call_none (tr : List Label) (cg cg2 : Config × Ghost) (hg : Good cg)
    (hc : driverCalls tr = []) (h : runFrom cg tr = some cg2) :
    Good cg2 ∧ driverView cg2 = driverView cg := by
  obtain ⟨t, rfl⟩ := driverCalls_nil tr hc
  exact ⟨good_runFrom _ cg cg2 hg h, runFrom_threadSteps t cg cg2 h⟩

/-- The frames of the pair the driver holds in the scenario: frame 0 while nothing is
consumed, frame 1 once frame 0 is consumed, and then frame 1 has been pushed. -/
theorem take_frames (cg : Config × Ghost) (hg : Good cg)
    (E : List Task) (C : List (Int × Int)) (tp : Int × Int × Int × Int) (fr : Int × Int)
    (N : Int) (hv : driverView cg = (E, C, some tp, fr, N))
    (hE : E = [(0, 0, true), (1, 0, true)] ∨
      E = [(0, 0, true), (1, 0, true), (0, 1, true), (1, 1, true)])
    (h0 : tp.1 = 0) (h1 : tp.2.2.1 = 1) :
    (C = [] → fr = (0, 0)) ∧
      (C = [(0, 0), (1, 0)] →
        E = [(0, 0, true), (1, 0, true), (0, 1, true), (1, 1, true)] ∧ fr = (1, 1)) := by
  obtain ⟨c, g⟩ := cg
  simp only [driverView, Prod.mk.injEq] at hv
  obtain ⟨hen, hco, htu, hfr, _⟩ := hv
  have hU : (g.enqueued.map Task.key).Nodup := by
    rw [hen]
    rcases hE with rfl | rfl <;> decide
  have i0 : Inv0 c g := hg.1
  have i1 : Inv1 c g := hg.2.2 hU
  obtain ⟨hi0, hi1⟩ := tuple_incremented c g i0 tp htu
  have he0 := incremented_sub c g i0 _ hi0
  have he1 := incremented_sub c g i0 _ hi1
  rw [hfr, h0, hen] at he0
  rw [hfr, h1, hen] at he1
  have m00 : (0, 0, true) ∈ g.enqueued := by
    rw [hen]
    rcases hE with rfl | rfl <;> decide
  have m10 : (1, 0, true) ∈ g.enqueued := by
    rw [hen]
    rcases hE with rfl | rfl <;> decide
  have c00 : g.enqueued.count (0, 0, true) = 1 := by
    rw [hen]
    rcases hE with rfl | rfl <;> decide
  have c10 : g.enqueued.count (1, 0, true) = 1 := by
    rw [hen]
    rcases hE with rfl | rfl <;> decide
  obtain ⟨f0, f1⟩ := fr
  have hf0 : f0 = 0 ∨ (E = [(0, 0, true), (1, 0, true), (0, 1, true), (1, 1, true)] ∧ f0 = 1) := by
    rcases hE with rfl | rfl
    · simp at he0
      exact Or.inl he0
    · simp at he0
      rcases he0 with h | h
      · exact Or.inl h
      · exact Or.inr ⟨rfl, h⟩
  have hf1 : f1 = 0 ∨ (E = [(0, 0, true), (1, 0, true), (0, 1, true), (1, 1, true)] ∧ f1 = 1) := by
    rcases hE with rfl | rfl
    · simp at he1
      exact Or.inl he1
    · simp at he1
      rcases he1 with h | h
      · exact Or.inl h
      · exact Or.inr ⟨rfl, h⟩
  constructor
  · intro hC
    have a0 : f0 = 0 := by
      rcases hf0 with h | ⟨_, h⟩
      · exact h
      · exfalso
        have := tuple_after_consume c g i0 i1 hU tp htu 0 0 (le_refl _)
          (Or.inl ⟨h0.symm, by rw [hfr]; simpa using h⟩) m00
        rw [hco, hC] at this
        simp at this
    have a1 : f1 = 0 := by
      rcases hf1 with h | ⟨_, h⟩
      · exact h
      · exfalso
        have := tuple_after_consume c g i0 i1 hU tp htu 1 0 (le_refl _)
          (Or.inr ⟨h1.symm, by rw [hfr]; simpa using h⟩) m10
        rw [hco, hC] at this
        simp at this
    rw [a0, a1]
  · intro hC
    have b0 : E = [(0, 0, true), (1, 0, true), (0, 1, true), (1, 1, true)] ∧ f0 = 1 := by
      rcases hf0 with h | h
      · exfalso
        have hw := i0.wanted (0, 0)
        rw [count_filterMap_wantedKey, htu, hfr, hco, hC] at hw
        have ht := i0.tasks (0, 0, true)
        have hk : 1 ≤ (tupleKeys (some tp) (f0, f1)).count (0, 0) := by
          apply List.count_pos_iff.2
          simp [tupleKeys, h0, h]
        have hcc : ([(0, 0), (1, 0)] : List (Int × Int)).count (0, 0) = 1 := by decide
        omega
      · exact h
    have b1 : f1 = 1 := by
      rcases hf1 with h | ⟨_, h⟩
      · exfalso
        have hw := i0.wanted (1, 0)
        rw [count_filterMap_wantedKey, htu, hfr, hco, hC] at hw
        have ht := i0.tasks (1, 0, true)
        have hk : 1 ≤ (tupleKeys (some tp) (f0, f1)).count (1, 0) := by
          apply List.count_pos_iff.2
          simp [tupleKeys, h1, h]
        have hcc : ([(0, 0), (1, 0)] : List (Int × Int)).count (1, 0) = 1 := by decide
        omega
      · exact h
    exact ⟨b0.1, by rw [b0.2, b1]⟩

/-- The Order Gate entries once both frames of the scenario are consumed. -/
theorem final_gates (cg : Config × Ghost) (hg : Good cg)
    (T : Option (Int × Int × Int × Int)) (F : Int × Int) (N : Int)
    (hv : driverView cg = ([(0, 0, true), (1, 0, true), (0, 1, true), (1, 1, true)],
      [(0, 0), (1, 0), (0, 1), (1, 1)], T, F, N)) :
    vecGet cg.1.pool.demux_array 0 = some 2 ∧ vecGet cg.1.pool.demux_array 1 = some 2 := by
  obtain ⟨c, g⟩ := cg
  simp only [driverView, Prod.mk.injEq] at hv
  obtain ⟨hen, hco, _, _, _⟩ := hv
  have hU : (g.enqueued.map Task.key).Nodup := by
    rw [hen]
    decide
  have i0 : Inv0 c g := hg.1
  have i1 : Inv1 c g := hg.2.2 hU
  have gate : ∀ s : Int, (s, (1 : Int)) ∈ g.consumed → vecGet c.pool.demux_array s = some 2 := by
    intro s hs
    have hinc := consumed_wanted c g i0 _ hs
    obtain ⟨d, hd, _, hlt⟩ := i1.doneLt _ _ _ hinc
    by_cases h2 : d = 2
    · rw [hd, h2]
    · exfalso
      obtain ⟨w, hw⟩ := i1.doneAll s d 2 hd (by decide) (by omega)
      have := incremented_sub c g i0 _ hw
      rw [hen] at this
      simp at this
  constructor
  · exact gate 0 (by rw [hco]; decide)
  · exact gate 1 (by rw [hco]; decide)

theorem take_first (tr : List Label) (ls : List Label) (cg cg2 : Config × Ghost)
    (hg : Good cg) (E : List Task) (T : Option (Int × Int × Int × Int)) (F : Int × Int)
    (N : Int) (hv : driverView cg = (E, [], T, F, N))
    (hE : E = [(0, 0, true), (1, 0, true)] ∨
      E = [(0, 0, true), (1, 0, true), (0, 1, true), (1, 1, true)])
    (hc : driverCalls tr = .waitUntilInputFrameIsDecoded 0 :: .copyFromGPUToOpenGLTexture :: ls)
    (h : runFrom cg tr = some cg2) :
    ∃ cg1 rest, Good cg1 ∧ driverView cg1 = (E, [(0, 0), (1, 0)], none, (0, 0), N) ∧
      runFrom cg1 rest = some cg2 ∧ driverCalls rest = ls := by
  obtain ⟨cg1, r1, tp, fr, hg1, ht0, ht1, hv1, hr1, hc1⟩ :=
    call_take tr 0 _ cg cg2 hg E [] T F N hv hc h
  have hfr := (take_frames cg1 hg1 E [] tp fr N hv1 hE (by simpa using ht0)
    (by simpa using ht1)).1 rfl
  subst hfr
  obtain ⟨cg3, r2, hg3, hv3, hr3, hc3⟩ := call_copy r1 ls cg1 cg2 hg1 E [] tp _ N hv1 hc1 hr1
  refine ⟨cg3, r2, hg3, ?_, hr3, hc3⟩
  rw [hv3, ht0, ht1]
  rfl

theorem take_second (tr : List Label) (ls : List Label) (cg cg2 : Config × Ghost)
    (hg : Good cg) (E : List Task) (T : Option (Int × Int × Int × Int)) (F : Int × Int)
    (N : Int) (hv : driverView cg = (E, [(0, 0), (1, 0)], T, F, N))
    (hE : E = [(0, 0, true), (1, 0, true)] ∨
      E = [(0, 0, true), (1, 0, true), (0, 1, true), (1, 1, true)])
    (hc : driverCalls tr = .waitUntilInputFrameIsDecoded 0 :: .copyFromGPUToOpenGLTexture :: ls)
    (h : runFrom cg tr = some cg2) :
    E = [(0, 0, true), (1, 0, true), (0, 1, true), (1, 1, true)] ∧
    ∃ cg1 rest, Good cg1 ∧
      driverView cg1 = (E, [(0, 0), (1, 0), (0, 1), (1, 1)], none, (1, 1), N) ∧
      runFrom cg1 rest = some cg2 ∧ driverCalls rest = ls := by
  obtain ⟨cg1, r1, tp, fr, hg1, ht0, ht1, hv1, hr1, hc1⟩ :=
    call_take tr 0 _ cg cg2 hg E _ T F N hv hc h
  obtain ⟨hE4, hfr⟩ := (take_frames cg1 hg1 E _ tp fr N hv1 hE (by simpa using ht0)
    (by simpa using ht1)).2 rfl
  subst hfr
  obtain ⟨cg3, r2, hg3, hv3, hr3, hc3⟩ := call_copy r1 ls cg1 cg2 hg1 E _ tp _ N hv1 hc1 hr1
  refine ⟨hE4, cg3, r2, hg3, ?_, hr3, hc3⟩
  rw [hv3, ht0, ht1]
  rfl

/-- Every execution of the scenario ends with both pairs consumed in the order of
their frames and with both Order Gate entries at 2. -/
theorem scenario_gates (decoders : List Int) (tr : List Label) (c : Config) (g : Ghost)
    (hrun : run 1 2 decoders 2 tr = some (c, g)) (hcalls : driverCalls tr ∈ scenarioCalls) :
    g.consumed = [(0, 0), (1, 0), (0, 1), (1, 1)] ∧
      vecGet c.pool.demux_array 0 = some 2 ∧ vecGet c.pool.demux_array 1 = some 2 := by
  have hg0 : Good (Config.init 1 2 decoders 2, Ghost.empty) :=
    ⟨inv0_init _ _ _ _, invG_init _ _ _ _, fun _ => inv1_init _ _ _ _⟩
  have hv0 : driverView (Config.init 1 2 decoders 2, Ghost.empty) =
      ([], [], none, (0, 0), 1) := rfl
  have fin : ∀ (cg : Config × Ghost) (rest : List Label) (F : Int × Int), Good cg →
      driverView cg = ([(0, 0, true), (1, 0, true), (0, 1, true), (1, 1, true)],
        [(0, 0), (1, 0), (0, 1), (1, 1)], none, F, 1) →
      runFrom cg rest = some (c, g) → driverCalls rest = [] →
      g.consumed = [(0, 0), (1, 0), (0, 1), (1, 1)] ∧
        vecGet c.pool.demux_array 0 = some 2 ∧ vecGet c.pool.demux_array 1 = some 2 := by
    intro cg rest F hg hv hr hc
    obtain ⟨hgf, hvf⟩ := call_none rest cg (c, g) hg hc hr
    rw [hv] at hvf
    refine ⟨?_, final_gates (c, g) hgf _ _ _ hvf⟩
    simp only [driverView, Prod.mk.injEq] at hvf
    exact hvf.2.1
  unfold run at hrun
  simp only [scenarioCalls, List.mem_cons, List.mem_singleton, List.not_mem_nil,
    or_false] at hcalls
  rcases hcalls with hc | hc | hc
  · obtain ⟨cg1, r1, hg1, hv1, hr1, hc1⟩ := call_push tr _ _ _ _ hg0 _ _ _ _ _ _
      (Or.inl ⟨rfl, rfl⟩) hv0 hc hrun
    obtain ⟨cg2, r2, hg2, hv2, hr2, hc2⟩ := call_push r1 _ _ _ _ hg1 _ _ _ _ _ _
      (Or.inr ⟨rfl, rfl⟩) hv1 hc1 hr1
    obtain ⟨cg3, r3, hg3, hv3, hr3, hc3⟩ := take_first r2 _ cg2 _ hg2 _ _ _ _ hv2
      (Or.inr rfl) hc2 hr2
    obtain ⟨_, cg4, r4, hg4, hv4, hr4, hc4⟩ := take_second r3 _ cg3 _ hg3 _ _ _ _ hv3
      (Or.inr rfl) hc3 hr3
    exact fin cg4 r4 _ hg4 hv4 hr4 hc4
  · obtain ⟨cg1, r1, hg1, hv1, hr1, hc1⟩ := call_push tr _ _ _ _ hg0 _ _ _ _ _ _
      (Or.inl ⟨rfl, rfl⟩) hv0 hc hrun
    obtain ⟨cg2, r2, hg2, hv2, hr2, hc2⟩ := take_first r1 _ cg1 _ hg1 _ _ _ _ hv1
      (Or.inl rfl) hc1 hr1
    obtain ⟨cg3, r3, hg3, hv3, hr3, hc3⟩ := call_push r2 _ _ _ _ hg2 _ _ _ _ _ _
      (Or.inr ⟨rfl, rfl⟩) hv2 hc2 hr2
    obtain ⟨_, cg4, r4, hg4, hv4, hr4, hc4⟩ := take_second r3 _ cg3 _ hg3 _ _ _ _ hv3
      (Or.inr rfl) hc3 hr3
    exact fin cg4 r4 _ hg4 hv4 hr4 hc4
  · exfalso
    obtain ⟨cg1, r1, hg1, hv1, hr1, hc1⟩ := call_push tr _ _ _ _ hg0 _ _ _ _ _ _
      (Or.inl ⟨rfl, rfl⟩) hv0 hc hrun
    obtain ⟨cg2, r2, hg2, hv2, hr2, hc2⟩ := take_first r1 _ cg1 _ hg1 _ _ _ _ hv1
      (Or.inl rfl) hc1 hr1
    obtain ⟨hE, _⟩ := take_second r2 _ cg2 _ hg2 _ _ _ _ hv2 (Or.inl rfl) hc2 hr2
    exact absurd hE (by decide)

/-- C20: in every reachable state (the state `c` an execution `tr` of a pool ends in,
with the history `g`), every entry `demux_array[s]` equals the number of tasks of
stream `s` that a thread has run through `demux_array[inputIndex]++` (Pool.h 194-199),
the statement by which a task is completed for its stream: wanted or not, every task
that is not abandoned executes it once, after its decode.  In the scenario with one
camera, two demuxers and two threads in which the driver seeds frame 0 as wanted,
pushes frame 1 as wanted and twice takes and consumes the pair of the camera, with
the steps of the threads interleaved in any way, every execution that completes has
consumed the pair of frame 0 and then the pair of frame 1, each once, and ends with
`demux_array[0] = demux_array[1] = 2`. -/
theorem C20_order_gate_counts_tasks (nrImages : Int) (demuxers : Nat) (decoders : List Int)
    (nrThreads : Int) (tr : List Label) (c : Config) (g : Ghost)
    (hrun : run nrImages demuxers decoders nrThreads tr = some (c, g)) :
    (∀ s d, vecGet c.pool.demux_array s = some d → d = g.increments s) ∧
      (nrImages = 1 → demuxers = 2 → nrThreads = 2 → driverCalls tr ∈ scenarioCalls →
        g.consumed = [(0, 0), (1, 0), (0, 1), (1, 1)] ∧
          vecGet c.pool.demux_array 0 = some 2 ∧ vecGet c.pool.demux_array 1 = some 2 ∧
          g.increments 0 = 2 ∧ g.increments 1 = 2) := by
  have hcount := run_increments nrImages demuxers decoders nrThreads tr c g hrun
  refine ⟨hcount, ?_⟩
  rintro rfl rfl rfl hcalls
  obtain ⟨hc, h0, h1⟩ := scenario_gates decoders tr c g hrun hcalls
  exact ⟨hc, h0, h1, (hcount 0 2 h0).symm, (hcount 1 2 h1).symm⟩

set_option maxRecDepth 100000 in
/-- Witness of C20: the execution `traceTwoFrames` of the scenario. -/
theorem C20_order_gate_counts_tasks_witness :
    ∃ c g, run 1 2 [0, 0] 2 traceTwoFrames = some (c, g) ∧
      c.pool.demux_array = [2, 2] ∧
      (∀ s d, vecGet c.pool.demux_array s = some d → d = g.increments s) ∧
      g.consumed = [(0, 0), (1, 0), (0, 1), (1, 1)] ∧
      vecGet c.pool.demux_array 0 = some 2 ∧ vecGet c.pool.demux_array 1 = some 2 ∧
      g.increments 0 = 2 ∧ g.increments 1 = 2 :=
  ⟨_, _, rfl, rfl,
    (C20_order_gate_counts_tasks 1 2 [0, 0] 2 traceTwoFrames _ _ rfl).1,
    (C20_order_gate_counts_tasks 1 2 [0, 0] 2 traceTwoFrames _ _ rfl).2 rfl rfl rfl
      (by decide)⟩

/-! ### The gates after `init` -/

/-- C21: `Pool::init` with `d` decoders and `m` demuxers leaves a Decode Gate
`memcpy_array` of `d` entries, all true, and an Order Gate `demux_array` of `m`
entries, all 0, for every `d` and `m` (also 0, and also when they differ): every index
in range reads `true`, respectively `0`, and every other index is out of range.  The
pool `SetupDecodingPool` constructs has these two vectors, with one entry for each of
the two streams of each camera. -/
theorem C21_init_gates (nrImages : Int) (demuxers : Nat) (decoders : List Int)
    (nrThreads : Int) :
    (Pool.init nrImages demuxers decoders nrThreads).memcpy_array.length = decoders.length ∧
    (∀ b ∈ (Pool.init nrImages demuxers decoders nrThreads).memcpy_array, b = true) ∧
    (∀ s : Int, vecGet (Pool.init nrImages demuxers decoders nrThreads).memcpy_array s =
      if 0 ≤ s ∧ s < decoders.length then some true else none) ∧
    (Pool.init nrImages demuxers decoders nrThreads).demux_array.length = demuxers ∧
    (∀ d ∈ (Pool.init nrImages demuxers decoders nrThreads).demux_array, d = 0) ∧
    (∀ s : Int, vecGet (Pool.init nrImages demuxers decoders nrThreads).demux_array s =
      if 0 ≤ s ∧ s < demuxers then some 0 else none) ∧
    (Config.init nrImages demuxers decoders nrThreads).pool =
      Pool.init nrImages demuxers decoders nrThreads ∧
    (∀ (nrCameras : Nat) (inputsToUse : List Int),
      (App.init nrCameras decoders nrThreads inputsToUse).config.pool.memcpy_array =
        List.replicate decoders.length true ∧
      (App.init nrCameras decoders nrThreads inputsToUse).config.pool.demux_array =
        List.replicate decoders.length 0) := by
  have get : ∀ {α : Type} (a : α) (n : Nat) (s : Int),
      vecGet (List.replicate n a) s = if 0 ≤ s ∧ s < n then some a else none := by
    intro α a n s
    unfold vecGet
    by_cases h0 : s < 0
    · have : ¬ (0 ≤ s ∧ s < (n : Int)) := by omega
      simp [h0, this]
    · by_cases h1 : s < (n : Int)
      · have h2 : s.toNat < n := by omega
        have : 0 ≤ s ∧ s < (n : Int) := ⟨by omega, h1⟩
        simp [h0, this, List.getElem?_replicate, h2]
      · have h2 : ¬ s.toNat < n := by omega
        have : ¬ (0 ≤ s ∧ s < (n : Int)) := by omega
        simp [h0, this, List.getElem?_replicate, h2]
  refine ⟨by simp [Pool.init], ?_, ?_, by simp [Pool.init], ?_, ?_, rfl, ?_⟩
  · intro b hb
    exact List.eq_of_mem_replicate hb
  · intro s
    exact get true decoders.length s
  · intro d hd
    exact List.eq_of_mem_replicate hd
  · intro s
    exact get 0 demuxers s
  · intro nrCameras inputsToUse
    exact ⟨rfl, rfl⟩

/-! ### The fetch -/

/-- C24: `Pool::demux` returns false exactly when `Demux` returned false and left a
byte count that is not zero.  When `Demux` returned true, and when it returned false
with a byte count of 0, `Pool::demux` returns true and the thread goes on to the
Decode Gate with the byte count `Demux` left; with the byte count 0 its payload is
empty: the decode step calls no decoder, leaves the pool as it is and hands on the
picture index `-1`.  The thread leaves the loop at the fetch only when `Pool::demux`
returned false. -/
theorem C24_demux_hard_failure (demuxOk : Bool) (nVideoBytes : Int) :
    (Pool.demux demuxOk nVideoBytes = false ↔ (demuxOk = false ∧ nVideoBytes ≠ 0)) ∧
    (demuxOk = true → Pool.demux demuxOk nVideoBytes = true) ∧
    (demuxOk = false → nVideoBytes = 0 → Pool.demux demuxOk nVideoBytes = true) ∧
    (∀ (p : Pool) (w : Worker) (picture : Int) (d : Int), w.pc = .demux →
      vecGet p.demux_array w.inputIndex = some d →
      p.update_loop w ⟨demuxOk, nVideoBytes, picture⟩ =
        if demuxOk = false ∧ nVideoBytes ≠ 0 then
          some (p, { w with pc := .stopped, nVideoBytes := nVideoBytes })
        else some (p, { w with pc := .renderGate, nVideoBytes := nVideoBytes })) ∧
    (∀ (p : Pool) (w : Worker) (x : Extern), w.pc = .decode → w.nVideoBytes = 0 →
      p.update_loop w x =
        some (p, { w with pc := .increment, decoded_picture_index := -1 })) := by
  refine ⟨?_, ?_, ?_, ?_, ?_⟩
  · cases demuxOk <;> simp [Pool.demux]
  · intro h
    simp [Pool.demux, h]
  · intro h hn
    simp [Pool.demux, h, hn]
  · intro p w picture d hpc hd
    cases demuxOk <;> by_cases hn : nVideoBytes = 0 <;>
      simp [Pool.update_loop, hpc, hd, Pool.demux, hn]
  · intro p w x hpc hn
    simp [Pool.update_loop, hpc, hn]

/-- C25: a thread that evaluates its wait for a task with the stop flag set leaves the
loop in that step, whatever `input_queue` holds: the predicate of the wait is true
without a look at the queue and leaves `index` as it is, the test of Pool.h 149 sends
the thread out of the loop, and the pool after the step is the pool before it, with
`input_queue`, `demux_array`, `memcpy_array` and `output_queue` unchanged.  The
thread keeps its local variables, and the history of the execution records nothing. -/
theorem C25_stop_at_queue_wait (c : Config) (g : Ghost) (i : Nat) (w : Worker) (x : Extern)
    (hf : c.pool.terminate_pool = true) (hw : c.threads[i]? = some w)
    (hpc : w.pc = .waitForTask) :
    (∀ index, inputPredicate c.pool.terminate_pool c.pool.input_queue w.inputIndex w.frameNr
      index = (true, index)) ∧
    c.pool.update_loop w x = some (c.pool, { w with pc := .stopped }) ∧
    step c (.thread i x) =
      some { c with threads := c.threads.set i { w with pc := .stopped } } ∧
    Ghost.next c g (.thread i x) = g ∧
    ∀ c2, step c (.thread i x) = some c2 →
      c2.pool.input_queue = c.pool.input_queue ∧ c2.pool.demux_array = c.pool.demux_array ∧
      c2.pool.memcpy_array = c.pool.memcpy_array ∧
      c2.pool.output_queue = c.pool.output_queue := by
  have hu : c.pool.update_loop w x = some (c.pool, { w with pc := .stopped }) := by
    simp [Pool.update_loop, hpc, hf, inputPredicate]
  have hs : step c (.thread i x) =
      some { c with threads := c.threads.set i { w with pc := .stopped } } := by
    simp [step, hw, hu]
  refine ⟨?_, hu, hs, ?_, ?_⟩
  · intro index
    simp [inputPredicate, hf]
  · simp [Ghost.next, hw, hu, Ghost.thread, hpc]
  · intro c2 h2
    rw [hs] at h2
    cases h2
    exact ⟨rfl, rfl, rfl, rfl⟩

/-- Witness of C25: the stop flag is set while `input_queue` holds two tasks. -/
theorem C25_stop_at_queue_wait_witness :
    step { pool := { examplePool with
              terminate_pool := true, input_queue := [(0, 0, true), (1, 0, true)] },
           threads := [{ Worker.start with pc := .waitForTask }], tuple := none }
        (.thread 0 exampleExtern) =
      some { pool := { examplePool with
              terminate_pool := true, input_queue := [(0, 0, true), (1, 0, true)] },
             threads := [{ Worker.start with pc := .stopped }], tuple := none } :=
  (C25_stop_at_queue_wait
    { pool := { examplePool with
        terminate_pool := true, input_queue := [(0, 0, true), (1, 0, true)] },
      threads := [{ Worker.start with pc := .waitForTask }], tuple := none }
    Ghost.empty 0 { Worker.start with pc := .waitForTask } exampleExtern rfl rfl rfl).2.2.1

/-! ### The task a thread takes, and the threads of one stream -/

theorem dequeue_not_partner (q : List Task) (s f : Int) (index : Nat) (t : Task)
    (hU : (q.map Task.key).Nodup)
    (hsel : inputPredicate false q s f 0 = (true, index)) (ht : q[index]? = some t) :
    t.key ≠ (s + 1, f) := by
  cases q with
  | nil => simp at ht
  | cons front rest =>
    simp only [inputPredicate] at hsel
    split at hsel
    · rename_i hfront
      split at hsel
      · simp at hsel
      · simp only [Prod.mk.injEq, true_and] at hsel
        subst hsel
        simp only [List.getElem?_cons_succ] at ht
        have hmem : t ∈ rest := List.getElem?_mem ht
        simp only [List.map_cons, List.nodup_cons, List.mem_map, not_exists, not_and] at hU
        intro hk
        apply hU.1 t hmem
        rw [hk]
        exact Prod.ext hfront.2.symm hfront.1.symm
    · rename_i hfront
      simp only [Prod.mk.injEq, true_and] at hsel
      subst hsel
      simp only [List.getElem?_cons_zero, Option.some.injEq] at ht
      subst ht
      intro hk
      apply hfront
      simp only [Task.key, Prod.mk.injEq] at hk
      exact ⟨hk.2, hk.1⟩

/-- C28: a thread in the wait for a task whose last task was `(s, f)` (the values of
its locals `inputIndex` and `frameNr`), in a pool with the stop flag clear whose
`input_queue` holds no two tasks of the same stream and frame.  The task the thread
takes is not `(s + 1, f)`.  A thread that has not taken a task yet (`inputIndex = -2`,
`frameNr = -1`) takes the front of every queue that is not empty and holds no negative
stream index: the step is possible, and it removes the front. -/
theorem C28_never_takes_partner (p : Pool) (w : Worker) (x : Extern) (p2 : Pool) (w2 : Worker)
    (hpc : w.pc = .waitForTask) (hf : p.terminate_pool = false)
    (hU : (p.input_queue.map Task.key).Nodup)
    (h : p.update_loop w x = some (p2, w2)) :
    (w2.inputIndex, w2.frameNr) ≠ (w.inputIndex + 1, w.frameNr) ∧
    (∃ index, p.input_queue[index]? = some w2.task ∧
      p2.input_queue = p.input_queue.eraseIdx index) ∧
    (w.inputIndex = -2 → w.frameNr = -1 → (∀ t ∈ p.input_queue, 0 ≤ t.1) →
      p.input_queue = w2.task :: p2.input_queue) ∧
    (∀ (v : Worker) (front : Task) (rest : List Task), v.pc = .waitForTask →
      v.inputIndex = -2 → v.frameNr = -1 → p.input_queue = front :: rest → 0 ≤ front.1 →
      p.update_loop v x = some ({ p with input_queue := rest },
        { v with pc := .orderWait, inputIndex := front.1, frameNr := front.2.1,
                 useForRendering := front.2.2 })) := by
  have hs := threadStep_of_update_loop p w x p2 w2 h
  have hfirst : ∀ (v : Worker) (front : Task) (rest : List Task), v.pc = .waitForTask →
      v.inputIndex = -2 → v.frameNr = -1 → p.input_queue = front :: rest → 0 ≤ front.1 →
      p.update_loop v x = some ({ p with input_queue := rest },
        { v with pc := .orderWait, inputIndex := front.1, frameNr := front.2.1,
                 useForRendering := front.2.2 }) := by
    intro v front rest hv hi hfr hq h0
    have hne : ¬ (front.2.1 = -1 ∧ front.1 = -1) := by omega
    simp [Pool.update_loop, hv, hf, hq, inputPredicate, hi, hfr, hne]
  cases hs with
  | dequeue index t _ _ hsel ht =>
    have hk := dequeue_not_partner p.input_queue w.inputIndex w.frameNr index t hU hsel ht
    refine ⟨?_, ⟨index, ht, rfl⟩, ?_, hfirst⟩
    · simpa [Task.key] using hk
    · intro hi hfr hnn
      cases hq : p.input_queue with
      | nil => simp [hq] at ht
      | cons front rest =>
        have h0 : 0 ≤ front.1 := hnn front (by simp [hq])
        have := hfirst w front rest hpc hi hfr hq h0
        rw [h] at this
        simp only [Option.some.injEq, Prod.mk.injEq] at this
        obtain ⟨hp, hw2⟩ := this
        have e1 : p.input_queue.eraseIdx index = rest := by
          have := congrArg Pool.input_queue hp
          simpa using this
        have e2 : (t.1, t.2.1, t.2.2) = front := by
          have a := congrArg Worker.inputIndex hw2
          have b := congrArg Worker.frameNr hw2
          have c := congrArg Worker.useForRendering hw2
          simp only at a b c
          rw [a, b, c]
        simp only [Worker.task]
        rw [← hq, e1]
        rw [hq]
        simp only [List.cons.injEq, and_true]
        exact e2.symm
  | loopStop h1 _ => simp [hpc] at h1
  | loopEnter h1 _ => simp [hpc] at h1
  | waitStop _ h2 => simp [hf] at h2
  | orderPass _ h1 _ _ => simp [hpc] at h1
  | orderStop h1 _ => simp [hpc] at h1
  | orderGo h1 _ => simp [hpc] at h1
  | demuxOk _ h1 _ _ => simp [hpc] at h1
  | demuxFail _ h1 _ _ => simp [hpc] at h1
  | claim _ h1 _ _ _ => simp [hpc] at h1
  | noClaim h1 _ => simp [hpc] at h1
  | gateStop h1 _ => simp [hpc] at h1
  | gateGo h1 _ => simp [hpc] at h1
  | decode _ h1 _ _ => simp [hpc] at h1
  | noDecode h1 _ => simp [hpc] at h1
  | increment _ h1 _ => simp [hpc] at h1
  | publish h1 _ => simp [hpc] at h1
  | noPublish h1 _ => simp [hpc] at h1

/-- Witness of C28: the last task of the thread was `(0, 0)` and the front of the queue
is its partner `(1, 0, true)`; the thread takes `(0, 1, false)` behind it. -/
theorem C28_never_takes_partner_witness :
    ({ examplePool with input_queue := [(1, 0, true), (0, 1, false)] }).update_loop
        { exampleWorker with pc := .waitForTask } exampleExtern =
      some ({ examplePool with input_queue := [(1, 0, true)] },
        { exampleWorker with pc := .orderWait, frameNr := 1, useForRendering := false }) ∧
    (({ exampleWorker with pc := .orderWait, frameNr := 1, useForRendering := false } :
        Worker).inputIndex,
      ({ exampleWorker with pc := .orderWait, frameNr := 1, useForRendering := false } :
        Worker).frameNr) ≠
      (({ exampleWorker with pc := .waitForTask } : Worker).inputIndex + 1,
        ({ exampleWorker with pc := .waitForTask } : Worker).frameNr) :=
  ⟨rfl, (C28_never_takes_partner
    { examplePool with input_queue := [(1, 0, true), (0, 1, false)] }
    { exampleWorker with pc := .waitForTask } exampleExtern
    { examplePool with input_queue := [(1, 0, true)] }
    { exampleWorker with pc := .orderWait, frameNr := 1, useForRendering := false }
    rfl rfl (by decide) rfl).1⟩

/-- C29: in every reachable state with the stop flag clear of an execution in which no
`(stream, frame)` is pushed twice, two different threads that are both between the
Order Gate wait they have passed and their increment of `demux_array` (about to test
the flag at Pool.h 166, to fetch, to claim the Decode Gate entry, to test the flag at
Pool.h 184, to decode or to increment) work on different streams.  So at most one
thread is in that section for a stream `s`, and the calls `demuxers[s]->Demux` and
`decoders[s]->Decode`, which are made inside it, are never made by two threads at the
same time. -/
theorem C29_stream_mutual_exclusion (nrImages : Int) (demuxers : Nat) (decoders : List Int)
    (nrThreads : Int) (tr : List Label) (c : Config) (g : Ghost)
    (hrun : run nrImages demuxers decoders nrThreads tr = some (c, g))
    (hU : (g.enqueued.map Task.key).Nodup) (hflag : c.pool.terminate_pool = false)
    (i j : Nat) (wi wj : Worker) (hij : i ≠ j)
    (hi : c.threads[i]? = some wi) (hj : c.threads[j]? = some wj)
    (hpi : wi.pastOrderGate false) (hpj : wj.pastOrderGate false) :
    wi.inputIndex ≠ wj.inputIndex ∧
    ∀ s : Int, (c.threads.filter fun w =>
      decide (w.held = some w.task ∧ w.pc ≠ .orderWait ∧ w.inputIndex = s)).length ≤ 1 := by
  obtain ⟨h0, _, h1⟩ := run_inv nrImages demuxers decoders nrThreads tr c g hrun
  have h1 := h1 hU
  have key : ∀ (a b : Nat) (wa wb : Worker), a ≠ b → c.threads[a]? = some wa →
      c.threads[b]? = some wb → wa.pastOrderGate false → wb.pastOrderGate false →
      wa.inputIndex ≠ wb.inputIndex := by
    intro a b wa wb hab ha hb hpa hpb hs
    have oa := h1.ordered a wa ha (by rw [hflag]; exact hpa)
    have ob := h1.ordered b wb hb (by rw [hflag]; exact hpb)
    rw [hs] at oa
    rw [oa] at ob
    simp only [Option.some.injEq] at ob
    exact held_distinct c g h0 hU a b wa wb hab ha hb (held_of_pastOrderGate _ wa hpa)
      (held_of_pastOrderGate _ wb hpb) hs ob
  refine ⟨key i j wi wj hij hi hj hpi hpj, ?_⟩
  intro s
  by_contra hlen
  push_neg at hlen
  have hpast : ∀ w : Worker, (w.held = some w.task ∧ w.pc ≠ .orderWait ∧ w.inputIndex = s) →
      w.pastOrderGate false := by
    intro w hw
    obtain ⟨hh, hne, _⟩ := hw
    unfold Worker.held at hh
    unfold Worker.pastOrderGate
    cases hpc : w.pc <;> simp_all
  obtain ⟨a, b, hab, ha, hb⟩ : ∃ a b : Nat, a < b ∧
      (∃ wa, c.threads[a]? = some wa ∧ wa.held = some wa.task ∧ wa.pc ≠ .orderWait ∧
        wa.inputIndex = s) ∧
      (∃ wb, c.threads[b]? = some wb ∧ wb.held = some wb.task ∧ wb.pc ≠ .orderWait ∧
        wb.inputIndex = s) := by
    generalize c.threads = l at hlen
    induction l with
    | nil => simp at hlen
    | cons v l ih =>
      by_cases hv : v.held = some v.task ∧ v.pc ≠ .orderWait ∧ v.inputIndex = s
      · have hl : 1 ≤ (l.filter fun w =>
            decide (w.held = some w.task ∧ w.pc ≠ .orderWait ∧ w.inputIndex = s)).length := by
          rw [List.filter_cons_of_pos (by simpa using hv)] at hlen
          simp only [List.length_cons] at hlen
          omega
        have hpos : 0 < (l.filter fun w =>
            decide (w.held = some w.task ∧ w.pc ≠ .orderWait ∧ w.inputIndex = s)).length := by
          omega
        obtain ⟨u, hu⟩ := List.exists_mem_of_length_pos hpos
        rw [List.mem_filter] at hu
        obtain ⟨k, hk⟩ := List.getElem?_of_mem hu.1
        exact ⟨0, k + 1, by omega, ⟨v, by simp, hv⟩, ⟨u, by simpa using hk, by simpa using hu.2⟩⟩
      · rw [List.filter_cons_of_neg (by simpa using hv)] at hlen
        obtain ⟨a, b, hab, ⟨wa, ha, ha2⟩, ⟨wb, hb, hb2⟩⟩ := ih hlen
        exact ⟨a + 1, b + 1, by omega, ⟨wa, by simpa using ha, ha2⟩,
          ⟨wb, by simpa using hb, hb2⟩⟩
  obtain ⟨wa, ha, ha2⟩ := ha
  obtain ⟨wb, hb, hb2⟩ := hb
  exact key a b wa wb (by omega) ha hb (hpast wa ha2) (hpast wb hb2)
    (ha2.2.2.trans hb2.2.2.symm)

set_option maxRecDepth 100000 in
/-- Witness of C29: thread 0 is about to fetch for the task `(0, 0, true)` and thread 1
for the task `(1, 0, true)`. -/
theorem C29_stream_mutual_exclusion_witness :
    ∃ c g, run 1 2 [0, 0] 2 traceBothFetch =
        some (c, g) ∧
      c.threads.map (fun w => (w.pc, w.inputIndex)) = [(.demux, 0), (.demux, 1)] ∧
      (0 : Int) ≠ 1 :=
  ⟨_, _, rfl, by decide,
    (C29_stream_mutual_exclusion 1 2 [0, 0] 2
      traceBothFetch _ _ rfl (by decide) rfl
      0 1 { exampleWorker with pc := .demux }
      { exampleWorker with pc := .demux, inputIndex := 1 } (by decide) rfl rfl
      (Or.inl rfl) (Or.inl rfl)).1⟩

/-! ### Every task pushed is taken once -/

theorem threadStep_queue (p : Pool) (w : Worker) (x : Extern) (p2 : Pool) (w2 : Worker)
    (hs : ThreadStep p w x p2 w2) :
    (p2.input_queue = p.input_queue ∧ w.took w2 = []) ∨
      ∃ index t, w.pc = .waitForTask ∧ p.terminate_pool = false ∧
        inputPredicate false p.input_queue w.inputIndex w.frameNr 0 = (true, index) ∧
        p.input_queue[index]? = some t ∧ w2.task = t ∧ w.took w2 = [t] ∧
        p2.input_queue = p.input_queue.eraseIdx index := by
  cases hs with
  | dequeue index t hpc hf hsel ht =>
    exact Or.inr ⟨index, t, hpc, hf, hsel, ht, rfl, by simp [Worker.took, hpc, Worker.task], rfl⟩
  | _ => exact Or.inl ⟨rfl, by simp_all [Worker.took]⟩

theorem taken_step [BEq Task] [LawfulBEq Task] (c : Config) (g : Ghost) (l : Label)
    (c2 : Config) (h : step c l = some c2) (t : Task) :
    c2.pool.input_queue.count t + (taken c l).count t + g.enqueued.count t =
      c.pool.input_queue.count t + (Ghost.next c g l).enqueued.count t := by
  cases l with
  | thread i x =>
    obtain ⟨w, p2, w2, hw, hs, rfl, hg⟩ := step_thread c i x c2 h
    have hu := update_loop_of_threadStep c.pool w x p2 w2 hs
    rw [hg, thread_enqueued]
    simp only [taken, hw, hu]
    rcases threadStep_queue c.pool w x p2 w2 hs with ⟨hq, ht⟩ | ⟨index, u, _, _, _, hu2, _, ht, hq⟩
    · simp [hq, ht]
    · have := count_eraseIdx c.pool.input_queue index u t hu2
      simp only [hq, ht]
      omega
  | startDemuxingFirstFrames inputsToUse =>
    simp only [step] at h
    split at h
    · cases h
    · cases h
      simp [taken, Ghost.next, Pool.startDemuxingFirstFrames, List.count_append]
      omega
  | startDemuxingNextFrame inputIndex frameNr useForRendering =>
    simp only [step] at h
    split at h
    · cases h
    · cases h
      simp only [taken, Ghost.next, Pool.startDemuxingNextFrame, List.count_append,
        List.count_nil]
      omega
  | waitUntilInputFrameIsDecoded inputIndex =>
    obtain ⟨_, i0, i1, e0, e1, _, _, _, _, _, _, rfl⟩ := step_take c inputIndex c2 h
    simp [taken, Ghost.next]
  | copyFromGPUToOpenGLTexture =>
    obtain ⟨t, b0, b1, htup, _, _, rfl⟩ := step_copy c c2 h
    simp [taken, Ghost.next, htup]
  | cleanup =>
    simp only [step] at h
    split at h
    · cases h
    · cases h
      simp [taken, Ghost.next, Pool.cleanup]

theorem queue_step (c : Config) (g : Ghost) (l : Label) (c2 : Config)
    (h : step c l = some c2) (hsub : c.pool.input_queue.Sublist g.enqueued) :
    c2.pool.input_queue.Sublist (Ghost.next c g l).enqueued := by
  cases l with
  | thread i x =>
    obtain ⟨w, p2, w2, hw, hs, rfl, hg⟩ := step_thread c i x c2 h
    rw [hg, thread_enqueued]
    exact (threadStep_queue_sublist c.pool w x p2 w2 hs).trans hsub
  | startDemuxingFirstFrames inputsToUse =>
    simp only [step] at h
    split at h
    · cases h
    · cases h
      exact hsub.append (List.Sublist.refl _)
  | startDemuxingNextFrame inputIndex frameNr useForRendering =>
    simp only [step] at h
    split at h
    · cases h
    · cases h
      exact hsub.append (List.Sublist.refl _)
  | waitUntilInputFrameIsDecoded inputIndex =>
    obtain ⟨_, i0, i1, e0, e1, _, _, _, _, _, _, rfl⟩ := step_take c inputIndex c2 h
    simpa [Ghost.next] using hsub
  | copyFromGPUToOpenGLTexture =>
    obtain ⟨t, b0, b1, htup, _, _, rfl⟩ := step_copy c c2 h
    simpa [Ghost.next, htup] using hsub
  | cleanup =>
    simp only [step] at h
    split at h
    · cases h
    · cases h
      simpa [Ghost.next, Pool.cleanup] using hsub

theorem runFrom_taken [BEq Task] [LawfulBEq Task] : ∀ (tr : List Label)
    (cg cg2 : Config × Ghost),
    runFrom cg tr = some cg2 → cg.1.pool.input_queue.Sublist cg.2.enqueued →
    cg2.1.pool.input_queue.Sublist cg2.2.enqueued ∧
      ∀ t : Task, cg2.1.pool.input_queue.count t + (takenFrom cg.1 tr).count t +
        cg.2.enqueued.count t = cg.1.pool.input_queue.count t + cg2.2.enqueued.count t
  | [], cg, cg2, hrun, hsub => by
    simp only [runFrom, Option.some.injEq] at hrun
    subst hrun
    exact ⟨hsub, fun t => by simp [takenFrom]⟩
  | l :: tr, cg, cg2, hrun, hsub => by
    simp only [runFrom] at hrun
    split at hrun
    · cases hrun
    · rename_i c2 hstep
      obtain ⟨hs2, hc2⟩ := runFrom_taken tr (c2, Ghost.next cg.1 cg.2 l) cg2 hrun
        (queue_step cg.1 cg.2 l c2 hstep hsub)
      refine ⟨hs2, fun t => ?_⟩
      have h1 := taken_step cg.1 cg.2 l c2 hstep t
      have h2 := hc2 t
      simp only [takenFrom, hstep, List.count_append] at h2 ⊢
      omega

theorem count_inst (i1 i2 : BEq Task) (h1 : @LawfulBEq Task i1) (h2 : @LawfulBEq Task i2)
    (l : List Task) (a : Task) : @List.count Task i1 a l = @List.count Task i2 a l := by
  induction l with
  | nil => rfl
  | cons b l ih =>
    rw [@List.count_cons Task i1, @List.count_cons Task i2, ih]
    have : @BEq.beq Task i1 b a = @BEq.beq Task i2 b a := by
      rw [Bool.eq_iff_iff, @beq_iff_eq Task i1 h1, @beq_iff_eq Task i2 h2]
    rw [this]

theorem perm_of_count (l1 l2 : List Task) (h : ∀ t : Task, l1.count t = l2.count t) :
    List.Perm l1 l2 := by
  rw [List.perm_iff_count]
  intro t
  exact ((count_inst _ _ instLawfulBEq inferInstance l1 t).trans (h t)).trans
    (count_inst _ _ inferInstance instLawfulBEq l2 t)

/-- C22: the tasks of `input_queue` are taken once and never pushed back.  A step of a
thread either leaves `input_queue` as it is, or it is the dequeue, which removes the
one entry at the index the wait predicate has selected and keeps the entries before
and behind it in their order; no step of a thread makes the queue longer.  In every
reachable state the tasks the threads have taken together with the tasks still queued
are, as a multiset, the tasks the driver has pushed, and the queue holds its tasks in
the order they were pushed; when no task was pushed twice, no task is both taken and
queued or taken twice. -/
theorem C22_tasks_taken_once (nrImages : Int) (demuxers : Nat) (decoders : List Int)
    (nrThreads : Int) (tr : List Label) (c : Config) (g : Ghost)
    (hrun : run nrImages demuxers decoders nrThreads tr = some (c, g)) :
    List.Perm
      (takenFrom (Config.init nrImages demuxers decoders nrThreads) tr ++ c.pool.input_queue)
      g.enqueued ∧
    c.pool.input_queue.Sublist g.enqueued ∧
    (g.enqueued.Nodup →
      (takenFrom (Config.init nrImages demuxers decoders nrThreads) tr ++
        c.pool.input_queue).Nodup) ∧
    (∀ (p : Pool) (w : Worker) (x : Extern) (p2 : Pool) (w2 : Worker),
      p.update_loop w x = some (p2, w2) →
      p2.input_queue.length ≤ p.input_queue.length ∧
      ((p2.input_queue = p.input_queue ∧ w.took w2 = []) ∨
        ∃ index t, w.pc = .waitForTask ∧
          inputPredicate false p.input_queue w.inputIndex w.frameNr 0 = (true, index) ∧
          p.input_queue[index]? = some t ∧ w2.task = t ∧ w.took w2 = [t] ∧
          p2.input_queue = p.input_queue.take index ++ p.input_queue.drop (index + 1))) := by
  unfold run at hrun
  obtain ⟨hsub, hcount⟩ := runFrom_taken tr _ (c, g) hrun (List.Sublist.refl _)
  have hperm : List.Perm
      (takenFrom (Config.init nrImages demuxers decoders nrThreads) tr ++ c.pool.input_queue)
      g.enqueued := by
    apply perm_of_count
    intro t
    have := hcount t
    simp only [Config.init, Pool.init, Ghost.empty, List.count_nil, List.count_append] at this ⊢
    omega
  refine ⟨hperm, hsub, fun hn => hperm.nodup_iff.2 hn, ?_⟩
  intro p w x p2 w2 hu
  have hs := threadStep_of_update_loop p w x p2 w2 hu
  refine ⟨(threadStep_queue_sublist p w x p2 w2 hs).length_le, ?_⟩
  rcases threadStep_queue p w x p2 w2 hs with h | ⟨index, t, hpc, _, hsel, ht, hw2, htk, hq⟩
  · exact Or.inl h
  · exact Or.inr ⟨index, t, hpc, hsel, ht, hw2, htk, by
      rw [hq, List.eraseIdx_eq_take_drop_succ]⟩

set_option maxRecDepth 100000 in
/-- Witness of C22: both tasks of frame 0 have been taken, and the queue is empty. -/
theorem C22_tasks_taken_once_witness :
    ∃ c g, run 1 2 [0, 0] 2 traceBothFetch = some (c, g) ∧
      takenFrom (Config.init 1 2 [0, 0] 2) traceBothFetch = [(0, 0, true), (1, 0, true)] ∧
      c.pool.input_queue = [] ∧
      List.Perm (takenFrom (Config.init 1 2 [0, 0] 2) traceBothFetch ++ c.pool.input_queue)
        g.enqueued :=
  ⟨_, _, rfl, rfl, rfl, (C22_tasks_taken_once 1 2 [0, 0] 2 traceBothFetch _ _ rfl).1⟩

/-! ### The skip rule of the wait for a task -/

theorem lastDone_thread (c : Config) (g : Ghost) (h : LastDone c g) (i : Nat) (w : Worker)
    (x : Extern) (p2 : Pool) (w2 : Worker) (hw : c.threads[i]? = some w)
    (hs : ThreadStep c.pool w x p2 w2) :
    LastDone { c with pool := p2, threads := c.threads.set i w2 } (g.thread w w2) := by
  intro j v hv hpc
  have hmono : ∀ t, t ∈ g.incremented → t ∈ (g.thread w w2).incremented := by
    intro t ht
    rw [thread_incremented]
    split
    · exact List.mem_append_left _ ht
    · exact ht
  simp only at hv
  rcases getElem?_set_cases c.threads i j w2 v hv with ⟨rfl, rfl⟩ | ⟨_, hv2⟩
  · have hinc : w.pc = .increment → w.task ∈ (g.thread w v).incremented := by
      intro hi
      rw [thread_incremented, if_pos hi]
      exact List.mem_append_right _ (List.mem_singleton.2 rfl)
    have hold := h j w hw
    cases hs with
    | loopEnter h1 _ =>
      rcases hold (Or.inl h1) with hk | hk
      · exact Or.inl hk
      · exact Or.inr (hmono _ hk)
    | increment d h1 _ => exact Or.inr (hinc h1)
    | publish h1 _ =>
      rcases hold (Or.inr (Or.inr h1)) with hk | hk
      · exact Or.inl hk
      · exact Or.inr (hmono _ hk)
    | noPublish h1 _ =>
      rcases hold (Or.inr (Or.inr h1)) with hk | hk
      · exact Or.inl hk
      · exact Or.inr (hmono _ hk)
    | _ => simp at hpc
  · rcases h j v hv2 hpc with hk | hk
    · exact Or.inl hk
    · exact Or.inr (hmono _ hk)

theorem lastDone_step (c : Config) (g : Ghost) (h : LastDone c g) (l : Label) (c2 : Config)
    (hstep : step c l = some c2) : LastDone c2 (Ghost.next c g l) := by
  cases l with
  | thread i x =>
    obtain ⟨w, p2, w2, hw, hs, rfl, hg⟩ := step_thread c i x c2 hstep
    rw [hg]
    exact lastDone_thread c g h i w x p2 w2 hw hs
  | startDemuxingFirstFrames inputsToUse =>
    simp only [step] at hstep
    split at hstep
    · cases hstep
    · cases hstep
      exact h
  | startDemuxingNextFrame inputIndex frameNr useForRendering =>
    simp only [step] at hstep
    split at hstep
    · cases hstep
    · cases hstep
      exact h
  | waitUntilInputFrameIsDecoded inputIndex =>
    obtain ⟨_, i0, i1, e0, e1, _, _, _, _, _, _, rfl⟩ := step_take c inputIndex c2 hstep
    exact h
  | copyFromGPUToOpenGLTexture =>
    obtain ⟨t, b0, b1, htup, _, _, rfl⟩ := step_copy c c2 hstep
    intro j v hv hpc
    simpa [Ghost.next, htup] using h j v hv hpc
  | cleanup =>
    simp only [step] at hstep
    split at hstep
    · cases hstep
    · cases hstep
      exact h

theorem runFrom_lastDone : ∀ (tr : List Label) (cg cg2 : Config × Ghost),
    LastDone cg.1 cg.2 → runFrom cg tr = some cg2 → LastDone cg2.1 cg2.2
  | [], cg, cg2, h, hrun => by
    simp only [runFrom, Option.some.injEq] at hrun
    subst hrun
    exact h
  | l :: tr, cg, cg2, h, hrun => by
    simp only [runFrom] at hrun
    split at hrun
    · cases hrun
    · rename_i c2 hstep
      exact runFrom_lastDone tr (c2, Ghost.next cg.1 cg.2 l) cg2
        (lastDone_step cg.1 cg.2 h l c2 hstep) hrun

theorem run_lastDone (nrImages : Int) (demuxers : Nat) (decoders : List Int)
    (nrThreads : Int) (tr : List Label) (c : Config) (g : Ghost)
    (hrun : run nrImages demuxers decoders nrThreads tr = some (c, g)) : LastDone c g := by
  refine runFrom_lastDone tr _ (c, g) ?_ hrun
  intro i w hw _
  have hmem := List.getElem?_mem hw
  simp only [Config.init, Pool.startThreadPool] at hmem
  have := List.eq_of_mem_replicate hmem
  subst this
  exact Or.inl rfl

set_option maxRecDepth 100000 in
/-- Counterexample of C23: two cameras.  Thread 1 has completed `(1, 0, true)`, the
depth half of camera 0, and waits for a task; the front of the queue is `(2, 0, true)`.
The rule applies, since the front has the frame 0 of the thread's last task and the
stream `1 + 1`: the predicate selects index 1 and the thread takes `(3, 0, true)`.  The
front is the color half of camera 1, an even stream, and the thread has completed no
color half. -/
theorem C23_counterexample :
    ∃ c g, run 2 4 [0, 0, 0, 0] 2 traceSkipColor = some (c, g) ∧
      c.threads[1]? = some { exampleWorker with
        pc := .waitForTask, inputIndex := 1, nVideoBytes := 10, decoded_picture_index := 3 } ∧
      c.pool.input_queue = [(2, 0, true), (3, 0, true)] ∧
      inputPredicate c.pool.terminate_pool c.pool.input_queue 1 0 0 = (true, 1) ∧
      g.incremented = [(1, 0, true)] ∧
      (step c (.thread 1 exampleExtern)).map (fun c2 => (c2.pool.input_queue,
        c2.threads.map fun w => (w.inputIndex, w.frameNr))) =
        some ([(2, 0, true)], [(0, 0), (3, 0)]) :=
  ⟨_, _, rfl, rfl, rfl, rfl, rfl, rfl⟩

/-- C23 as amended: in a reachable state, a thread in the wait for a task to which the
rule of Pool.h 139 applies: the front of `input_queue` has the frame number of the
thread's last task and the stream index after that task's stream.  Then the predicate
makes the thread wait when the front is the only entry, and skip the front
otherwise.  When the stream `2k` of the last task is even, the front is the depth half
`2k + 1` of the same camera `k`, and for `k ≥ 0` the thread has completed the color
half: it has run the increment for it.  When the stream `2k + 1` of the last task is
odd, the front is the color half `2(k + 1)` of the next camera. -/
theorem C23_skip_rule_front (nrImages : Int) (demuxers : Nat) (decoders : List Int)
    (nrThreads : Int) (tr : List Label) (c : Config) (g : Ghost)
    (hrun : run nrImages demuxers decoders nrThreads tr = some (c, g))
    (i : Nat) (w : Worker) (hw : c.threads[i]? = some w) (hpc : w.pc = .waitForTask)
    (front : Task) (rest : List Task) (hq : c.pool.input_queue = front :: rest)
    (happ : front.2.1 = w.frameNr ∧ front.1 = w.inputIndex + 1) :
    inputPredicate false c.pool.input_queue w.inputIndex w.frameNr 0 =
      (if rest = [] then (false, 0) else (true, 1)) ∧
    (∀ k : Int, w.inputIndex = 2 * k →
      front.1 = 2 * k + 1 ∧ front.2.1 = w.frameNr ∧
        (0 ≤ k → (2 * k, w.frameNr, w.useForRendering) ∈ g.incremented)) ∧
    (∀ k : Int, w.inputIndex = 2 * k + 1 →
      front.1 = 2 * (k + 1) ∧ front.2.1 = w.frameNr) := by
  refine ⟨?_, ?_, ?_⟩
  · rw [hq]
    cases rest <;> simp [inputPredicate, happ]
  · intro k hk
    refine ⟨by omega, happ.1, fun h0 => ?_⟩
    rcases run_lastDone nrImages demuxers decoders nrThreads tr c g hrun i w hw
      (Or.inr (Or.inl hpc)) with h | h
    · simp only [Worker.key, Prod.mk.injEq] at h
      omega
    · rw [← hk]
      exact h
  · intro k hk
    exact ⟨by omega, happ.1⟩

set_option maxRecDepth 100000 in
/-- Witness of C23 as amended: thread 0 has completed `(0, 0, true)` and the queue
holds only its partner `(1, 0, true)`. -/
theorem C23_skip_rule_front_witness :
    ∃ c g, run 1 2 [0, 0] 2 (.startDemuxingFirstFrames [0] ::
        List.replicate 11 (.thread 0 exampleExtern)) = some (c, g) ∧
      c.pool.input_queue = [(1, 0, true)] ∧
      inputPredicate false c.pool.input_queue 0 0 0 = (false, 0) ∧
      ((0 : Int), (0 : Int), true) ∈ g.incremented :=
  ⟨_, _, rfl, rfl, rfl,
    ((C23_skip_rule_front 1 2 [0, 0] 2 (.startDemuxingFirstFrames [0] ::
        List.replicate 11 (.thread 0 exampleExtern)) _ _ rfl 0
      { exampleWorker with pc := .waitForTask, nVideoBytes := 10, decoded_picture_index := 3 }
      rfl rfl (1, 0, true) [] rfl ⟨rfl, rfl⟩).2.1 0 rfl).2.2 (le_refl _)⟩

/-! ### The choice of the cameras -/

theorem setInsert_mem (s : List Int) (k a : Int) : a ∈ setInsert s k ↔ a ∈ s ∨ a = k := by
  unfold setInsert
  split
  · constructor
    · exact Or.inl
    · rintro (h | rfl)
      · exact h
      · assumption
  · simp

theorem setInsert_nodup (s : List Int) (k : Int) (h : s.Nodup) : (setInsert s k).Nodup := by
  unfold setInsert
  split
  · exact h
  · rename_i hk
    rw [List.nodup_append]
    exact ⟨h, List.nodup_singleton k, by
      intro a ha hb
      simp only [List.mem_singleton] at hb
      subst hb
      exact hk ha⟩

theorem setInsert_length (s : List Int) (k : Int) :
    s.length ≤ (setInsert s k).length ∧ (setInsert s k).length ≤ s.length + 1 := by
  unfold setInsert
  split <;> simp

theorem setInsert_new (s : List Int) (k : Int) (h : k ∉ s) : setInsert s k = s ++ [k] := by
  simp [setInsert, h]

theorem cameraIndices_mem (n : Nat) (k : Int) : k ∈ cameraIndices n ↔ 0 ≤ k ∧ k < n := by
  simp only [cameraIndices, List.mem_map, List.mem_range]
  constructor
  · rintro ⟨a, ha, rfl⟩
    simp only [Int.ofNat_eq_coe]
    omega
  · intro h
    exact ⟨k.toNat, by omega, by simp only [Int.ofNat_eq_coe]; omega⟩

theorem cameraIndices_nodup (n : Nat) : (cameraIndices n).Nodup := by
  unfold cameraIndices
  exact (List.nodup_range n).map (fun a b h => by simpa using h)

theorem cameraIndices_length (n : Nat) : (cameraIndices n).length = n := by
  simp [cameraIndices]

theorem foldl_setInsert : ∀ (l s : List Int), (s ++ l).Nodup →
    l.foldl setInsert s = s ++ l
  | [], s, _ => by simp
  | k :: l, s, h => by
    have hk : k ∉ s := by
      intro hk
      rw [List.nodup_append] at h
      exact h.2.2 hk (List.mem_cons_self _ _) 
    rw [List.foldl_cons, setInsert_new s k hk, foldl_setInsert l (s ++ [k]) (by simpa using h)]
    simp

theorem scanCorner_mem {H : Type} (isOne : H → Bool) (exceeds : H → H → Bool)
    (heuristic : Int → H) : ∀ (l : List Int) (best : H) (bi : Int),
    (∀ k, (scanCorner isOne exceeds heuristic l best bi).1 = some k → k ∈ l) ∧
      ((scanCorner isOne exceeds heuristic l best bi).2 = bi ∨
        (scanCorner isOne exceeds heuristic l best bi).2 ∈ l)
  | [], best, bi => by simp [scanCorner]
  | a :: l, best, bi => by
    unfold scanCorner
    split
    · simp
    · split
      · obtain ⟨h1, h2⟩ := scanCorner_mem isOne exceeds heuristic l (heuristic a) a
        refine ⟨fun k hk => List.mem_cons_of_mem _ (h1 k hk), ?_⟩
        rcases h2 with h | h
        · exact Or.inr (by rw [h]; exact List.mem_cons_self _ _)
        · exact Or.inr (List.mem_cons_of_mem _ h)
      · obtain ⟨h1, h2⟩ := scanCorner_mem isOne exceeds heuristic l best bi
        refine ⟨fun k hk => List.mem_cons_of_mem _ (h1 k hk), ?_⟩
        rcases h2 with h | h
        · exact Or.inl h
        · exact Or.inr (List.mem_cons_of_mem _ h)

/-- A set of camera indices below `n`, without repetition. -/
theorem cornerStep_spec {H : Type} (isOne : H → Bool) (exceeds : H → H → Bool) (zero : H)
    (heuristic : Int → H) (sorted s : List Int) (n : Nat)
    (hsorted : ∀ k ∈ sorted, 0 ≤ k ∧ k < n) (hs : s.Nodup) (hb : ∀ k ∈ s, 0 ≤ k ∧ k < n) :
    (cornerStep isOne exceeds zero heuristic sorted s).Nodup ∧
      (∀ k ∈ cornerStep isOne exceeds zero heuristic sorted s, 0 ≤ k ∧ k < n) ∧
      (cornerStep isOne exceeds zero heuristic sorted s).length ≤ s.length + 1 := by
  obtain ⟨h1, h2⟩ := scanCorner_mem isOne exceeds heuristic sorted zero (-1)
  have ins : ∀ k, k ∈ sorted → (setInsert s k).Nodup ∧
      (∀ a ∈ setInsert s k, 0 ≤ a ∧ a < n) ∧ (setInsert s k).length ≤ s.length + 1 := by
    intro k hk
    refine ⟨setInsert_nodup s k hs, ?_, (setInsert_length s k).2⟩
    intro a ha
    rcases (setInsert_mem s k a).1 ha with h | rfl
    · exact hb a h
    · exact hsorted a hk
  unfold cornerStep
  split
  · rename_i k bi heq
    exact ins k (h1 k (by rw [heq]))
  · rename_i bi heq
    split
    · rename_i hne
      rw [heq] at h2
      rcases h2 with h | h
      · exact absurd h hne
      · exact ins bi h
    · exact ⟨hs, hb, by omega⟩

theorem cornerLoop_spec {H : Type} (isOne : H → Bool) (exceeds : H → H → Bool) (zero : H)
    (heuristic : Nat → Int → H) (sorted : List Int) (m : Int) (n : Nat)
    (hsorted : ∀ k ∈ sorted, 0 ≤ k ∧ k < n) : ∀ (corners : List Nat) (s : List Int),
    s.Nodup → (∀ k ∈ s, 0 ≤ k ∧ k < n) → s.length < toSize m →
    (cornerLoop isOne exceeds zero heuristic sorted m corners s).Nodup ∧
      (∀ k ∈ cornerLoop isOne exceeds zero heuristic sorted m corners s, 0 ≤ k ∧ k < n) ∧
      (cornerLoop isOne exceeds zero heuristic sorted m corners s).length ≤ toSize m
  | [], s, hs, hb, hlen => ⟨hs, hb, by simp only [cornerLoop]; omega⟩
  | i :: corners, s, hs, hb, hlen => by
    obtain ⟨c1, c2, c3⟩ := cornerStep_spec isOne exceeds zero (heuristic i) sorted s n hsorted
      hs hb
    unfold cornerLoop
    split
    · rename_i heq
      exact ⟨c1, c2, by omega⟩
    · rename_i hne
      exact cornerLoop_spec isOne exceeds zero heuristic sorted m n hsorted corners _ c1 c2
        (by omega)

theorem fillUp_spec (m : Int) (n : Nat) (hm : toSize m ≤ n) : ∀ (rest s : List Int),
    s.Nodup → (∀ k ∈ s, 0 ≤ k ∧ k < n) → (∀ k ∈ rest, 0 ≤ k ∧ k < n) →
    (∀ k ∈ cameraIndices n, k ∈ rest ∨ k ∈ s) → s.length ≤ toSize m →
    ∃ r, fillUp m rest s = some r ∧ r.Nodup ∧ (∀ k ∈ r, 0 ≤ k ∧ k < n) ∧
      r.length = toSize m
  | [], s, hs, hb, _, hcover, hlen => by
    have hsub : cameraIndices n ⊆ s := by
      intro k hk
      rcases hcover k hk with h | h
      · simp at h
      · exact h
    have hle := ((cameraIndices_nodup n).subperm hsub).length_le
    rw [cameraIndices_length] at hle
    have : ¬ s.length < toSize m := by omega
    exact ⟨s, by simp [fillUp, this], hs, hb, by omega⟩
  | k :: rest, s, hs, hb, hrest, hcover, hlen => by
    unfold fillUp
    split
    · rename_i hlt
      refine fillUp_spec m n hm rest (setInsert s k) (setInsert_nodup s k hs) ?_ ?_ ?_ ?_
      · intro a ha
        rcases (setInsert_mem s k a).1 ha with h | rfl
        · exact hb a h
        · exact hrest a (List.mem_cons_self _ _)
      · intro a ha
        exact hrest a (List.mem_cons_of_mem _ ha)
      · intro a ha
        rcases hcover a ha with h | h
        · rcases List.mem_cons.1 h with rfl | h
          · exact Or.inr ((setInsert_mem s a a).2 (Or.inr rfl))
          · exact Or.inl h
        · exact Or.inr ((setInsert_mem s k a).2 (Or.inl h))
      · have := (setInsert_length s k).2
        omega
    · rename_i hge
      exact ⟨s, rfl, hs, hb, by omega⟩

theorem insertFirst_spec : ∀ (n : Nat) (rest s : List Int), (s ++ rest).Nodup →
    n ≤ rest.length → insertFirst n rest s = some (s ++ rest.take n)
  | 0, rest, s, _, _ => by simp [insertFirst]
  | n + 1, [], s, _, hlen => by simp at hlen
  | n + 1, k :: rest, s, hnd, hlen => by
    have hk : k ∉ s := by
      intro hk
      rw [List.nodup_append] at hnd
      exact hnd.2.2 hk (List.mem_cons_self _ _)
    simp only [insertFirst, setInsert_new s k hk]
    rw [insertFirst_spec n rest (s ++ [k]) (by simpa using hnd)
      (by simp only [List.length_cons] at hlen; omega)]
    simp

theorem toSize_all (n : Nat) (m : Int) (hn : n < 2 ^ 31) (hm : -2 ^ 31 ≤ m ∧ m < 2 ^ 31)
    (h : m < 0 ∨ (n : Int) ≤ m) : n ≤ toSize m := by
  unfold toSize
  norm_num at hn hm ⊢
  omega

theorem toSize_some (m : Int) (hm : 0 ≤ m ∧ m < 2 ^ 31) : toSize m = m.toNat := by
  unfold toSize
  norm_num at hm ⊢
  omega

/-- C26: `updateInputsToUse` for `N` cameras and `maxNrInputsUsed = m`, an `int`
compared with the sizes as a `size_t` (a call that goes past the first test has
`N ≥ 1`, so that `inputCameras[0]` exists).  When `m` is negative or `m ≥ N`, `init` has
inserted the indices `0`, ..., `N - 1` and every call returns that set, whatever the
cameras are.  When `1 ≤ m < N`, every call, on the path by distance and on the path
by viewing angles, for every outcome of the tests on the heuristics and every order
the sort leaves the `N` indices in, returns a set of exactly `m` distinct indices, all
in `[0, N)`; the call returns, so neither loop reads the sorted vector past its
end. -/
theorem C26_update_inputs_to_use (N : Nat) (m : Int) (hN2 : N < 2 ^ 31)
    (hm : -2 ^ 31 ≤ m ∧ m < 2 ^ 31) :
    (m < 0 ∨ (N : Int) ≤ m →
      (CameraVisibilityHelper.init N m).inputsToUse = cameraIndices N ∧
      (∀ k : Int, k ∈ (CameraVisibilityHelper.init N m).inputsToUse ↔ 0 ≤ k ∧ k < N) ∧
      ∀ (H : Type) (byDistance : Bool) (sorted : List Int) (isOne : H → Bool)
        (exceeds : H → H → Bool) (zero : H) (heuristic : Nat → Int → H),
        (CameraVisibilityHelper.init N m).updateInputsToUse byDistance sorted isOne exceeds
          zero heuristic = some (CameraVisibilityHelper.init N m)) ∧
    (1 ≤ m → m < N →
      ∀ (h : CameraVisibilityHelper), h.nrCameras = N → h.maxNrInputsUsed = m →
      ∀ (H : Type) (byDistance : Bool) (sorted : List Int) (isOne : H → Bool)
        (exceeds : H → H → Bool) (zero : H) (heuristic : Nat → Int → H),
        sorted.Perm (cameraIndices N) →
        ∃ s, h.updateInputsToUse byDistance sorted isOne exceeds zero heuristic =
            some { h with inputsToUse := s } ∧
          s.Nodup ∧ (s.length : Int) = m ∧ ∀ k ∈ s, 0 ≤ k ∧ k < N) := by
  constructor
  · intro hall
    have hsz := toSize_all N m hN2 hm hall
    have hinit : (CameraVisibilityHelper.init N m).inputsToUse = cameraIndices N := by
      simp only [CameraVisibilityHelper.init, if_pos hsz]
      rw [foldl_setInsert _ _ (by simpa using cameraIndices_nodup N)]
      simp
    refine ⟨hinit, ?_, ?_⟩
    · intro k
      rw [hinit]
      exact cameraIndices_mem N k
    · intro H byDistance sorted isOne exceeds zero heuristic
      unfold CameraVisibilityHelper.updateInputsToUse
      rw [if_pos (by simpa [CameraVisibilityHelper.init] using hsz)]
  · intro hm1 hmN h hn hmax H byDistance sorted isOne exceeds zero heuristic hperm
    have hsz : toSize m = m.toNat := toSize_some m ⟨by omega, hm.2⟩
    have hnot : ¬ h.nrCameras ≤ toSize h.maxNrInputsUsed := by
      rw [hn, hmax, hsz]
      omega
    have hbound : ∀ k ∈ sorted, 0 ≤ k ∧ k < (N : Int) := by
      intro k hk
      exact (cameraIndices_mem N k).1 (hperm.subset hk)
    have hnd : sorted.Nodup := hperm.nodup_iff.2 (cameraIndices_nodup N)
    have hlen : sorted.length = N := by
      rw [hperm.length_eq, cameraIndices_length]
    unfold CameraVisibilityHelper.updateInputsToUse
    rw [if_neg hnot, hmax]
    cases byDistance with
    | true =>
      simp only [if_true, updateInputsToUseByDistance]
      rw [insertFirst_spec m.toNat sorted [] (by simpa using hnd) (by omega)]
      refine ⟨sorted.take m.toNat, by simp, ?_, ?_, ?_⟩
      · exact hnd.sublist (List.take_sublist _ _)
      · rw [List.length_take]
        omega
      · intro k hk
        exact hbound k (List.mem_of_mem_take hk)
    | false =>
      simp only [Bool.false_eq_true, if_false, updateInputsToUseByViewingAngles]
      obtain ⟨c1, c2, c3⟩ := cornerLoop_spec isOne exceeds zero heuristic sorted m N hbound
        [1, 2, 3, 4] [] List.nodup_nil (by simp) (by rw [hsz]; simp only [List.length_nil]; omega)
      obtain ⟨r, hr, r1, r2, r3⟩ := fillUp_spec m N (by rw [hsz]; omega) sorted _ c1 c2 hbound
        (fun k hk => Or.inl (hperm.symm.subset hk)) c3
      refine ⟨r, by rw [hr]; rfl, r1, ?_, r2⟩
      rw [r3, hsz]
      omega

/-- Witness of C26: three cameras of which at most two are used, on the path by
viewing angles: no camera sees a corner, and the loop that fills the set up inserts
the first two entries `2` and `0` of the sorted vector. -/
theorem C26_update_inputs_to_use_witness :
    (CameraVisibilityHelper.init 3 2).updateInputsToUse false [2, 0, 1]
        (fun h : Int => decide (h = 1)) (fun h best => decide (best < h)) 0 (fun _ _ => 0) =
      some { CameraVisibilityHelper.init 3 2 with inputsToUse := [2, 0] } ∧
    ∃ s, (CameraVisibilityHelper.init 3 2).updateInputsToUse false [2, 0, 1]
        (fun h : Int => decide (h = 1)) (fun h best => decide (best < h)) 0 (fun _ _ => 0) =
        some { CameraVisibilityHelper.init 3 2 with inputsToUse := s } ∧
      s.Nodup ∧ (s.length : Int) = 2 ∧ ∀ k ∈ s, 0 ≤ k ∧ k < ((3 : Nat) : Int) :=
  ⟨by decide,
    (C26_update_inputs_to_use 3 2 (by decide) ⟨by decide, by decide⟩).2 (by decide)
      (by decide) (CameraVisibilityHelper.init 3 2) rfl rfl Int false [2, 0, 1]
      (fun h : Int => decide (h = 1)) (fun h best => decide (best < h)) 0 (fun _ _ => 0)
      (by decide)⟩

/-! ### The fetch from an `FFmpegDemuxer` -/

theorem demux_false_zero (d : DemuxCall) :
    (FFmpegDemuxer.Demux d 0).1 = false → (FFmpegDemuxer.Demux d 0).2 = 0 := by
  unfold FFmpegDemuxer.Demux
  split_ifs <;> simp

/-- C27: with an `FFmpegDemuxer` as the stream source, `Pool::demux` never returns
false.  Every path on which `FFmpegDemuxer::Demux` returns false leaves the byte count
at 0: the path of a null `fmtc` leaves it as the caller passed it, which is 0
(Pool.h 170), and the other two come after `*pnVideoBytes = 0`.  So `Pool::demux`
returns true, and a thread at the fetch goes on to the Decode Gate and never leaves
the loop there. -/
theorem C27_ffmpeg_never_hard_failure (d : DemuxCall) :
    ((FFmpegDemuxer.Demux d 0).1 = false → (FFmpegDemuxer.Demux d 0).2 = 0) ∧
    (∀ n : Int, d.fmtc = false → FFmpegDemuxer.Demux d n = (false, n)) ∧
    (∀ n : Int, d.fmtc = true → (FFmpegDemuxer.Demux d n).1 = false →
      (FFmpegDemuxer.Demux d n).2 = 0) ∧
    Pool.demux (FFmpegDemuxer.Demux d 0).1 (FFmpegDemuxer.Demux d 0).2 = true ∧
    (∀ (p : Pool) (w : Worker) (picture_index dd : Int), w.pc = .demux →
      vecGet p.demux_array w.inputIndex = some dd →
      p.update_loop w (Extern.ofDemux d picture_index) =
        some (p, { w with pc := .renderGate, nVideoBytes := (FFmpegDemuxer.Demux d 0).2 })) ∧
    (∀ (p : Pool) (w : Worker) (picture_index : Int) (p2 : Pool) (w2 : Worker),
      w.pc = .demux → p.update_loop w (Extern.ofDemux d picture_index) = some (p2, w2) →
      w2.pc = .renderGate) := by
  have hz := demux_false_zero d
  have hd : Pool.demux (FFmpegDemuxer.Demux d 0).1 (FFmpegDemuxer.Demux d 0).2 = true := by
    unfold Pool.demux
    cases h : (FFmpegDemuxer.Demux d 0).1
    · simp [hz h]
    · simp
  refine ⟨hz, ?_, ?_, hd, ?_, ?_⟩
  · intro n h
    simp [FFmpegDemuxer.Demux, h]
  · intro n hf h
    have e1 : (FFmpegDemuxer.Demux d n) = (FFmpegDemuxer.Demux d 0) := by
      simp [FFmpegDemuxer.Demux, hf]
    rw [e1] at h ⊢
    exact hz h
  · intro p w picture_index dd hpc hdd
    simp [Pool.update_loop, hpc, hdd, Extern.ofDemux, hd]
  · intro p w picture_index p2 w2 hpc h
    simp only [Pool.update_loop, hpc] at h
    split at h
    · cases h
    · simp only [Extern.ofDemux, hd, if_true, Option.some.injEq, Prod.mk.injEq] at h
      rw [← h.2]

/-! ### A fetch that fails -/

theorem demux_ofDemux (d : DemuxCall) (picture_index : Int) :
    Pool.demux (Extern.ofDemux d picture_index).demuxOk
      (Extern.ofDemux d picture_index).nVideoBytes = true := by
  have hz := demux_false_zero d
  unfold Pool.demux Extern.ofDemux
  cases h : (FFmpegDemuxer.Demux d 0).1
  · simp [hz h]
  · simp

theorem runFrom_flag : ∀ (tr : List Label) (cg cg2 : Config × Ghost),
    runFrom cg tr = some cg2 → cg2.1.pool.terminate_pool = false →
    cg.1.pool.terminate_pool = false
  | [], cg, cg2, hrun, hf => by
    simp only [runFrom, Option.some.injEq] at hrun
    subst hrun
    exact hf
  | l :: tr, cg, cg2, hrun, hf => by
    simp only [runFrom] at hrun
    split at hrun
    · cases hrun
    · rename_i c2 hstep
      exact step_flag_mono cg.1 l c2 hstep
        (runFrom_flag tr (c2, Ghost.next cg.1 cg.2 l) cg2 hrun hf)

theorem no_stop_step (c : Config) (g : Ghost) (l : Label) (c2 : Config)
    (hstep : step c l = some c2) (hf : c.pool.terminate_pool = false)
    (hl : ∀ i x, l = .thread i x → Pool.demux x.demuxOk x.nVideoBytes = true)
    (hn : ∀ w ∈ c.threads, w.pc ≠ .stopped) (ha : g.abandoned = []) :
    (∀ w ∈ c2.threads, w.pc ≠ .stopped) ∧ (Ghost.next c g l).abandoned = [] := by
  cases l with
  | thread i x =>
    obtain ⟨w, p2, w2, hw, hs, rfl, hg⟩ := step_thread c i x c2 hstep
    have hw2 := threadStep_not_stopped c.pool w x p2 w2 hs hf (hl i x rfl)
    refine ⟨?_, ?_⟩
    · intro v hv
      rcases mem_set_cases c.threads i w2 v hv with rfl | h
      · exact hw2
      · exact hn v h
    · rw [hg, thread_abandoned g w w2 hw2]
      exact ha
  | startDemuxingFirstFrames inputsToUse =>
    simp only [step] at hstep
    split at hstep
    · cases hstep
    · cases hstep
      exact ⟨hn, ha⟩
  | startDemuxingNextFrame inputIndex frameNr useForRendering =>
    simp only [step] at hstep
    split at hstep
    · cases hstep
    · cases hstep
      exact ⟨hn, ha⟩
  | waitUntilInputFrameIsDecoded inputIndex =>
    obtain ⟨_, i0, i1, e0, e1, _, _, _, _, _, _, rfl⟩ := step_take c inputIndex c2 hstep
    exact ⟨hn, by simpa [Ghost.next] using ha⟩
  | copyFromGPUToOpenGLTexture =>
    obtain ⟨t, b0, b1, htup, _, _, rfl⟩ := step_copy c c2 hstep
    exact ⟨hn, by simpa [Ghost.next, htup] using ha⟩
  | cleanup =>
    simp only [step] at hstep
    split at hstep
    · cases hstep
    · cases hstep
      exact ⟨hn, ha⟩

theorem runFrom_no_stop : ∀ (tr : List Label) (cg cg2 : Config × Ghost),
    fromDemuxer tr → runFrom cg tr = some cg2 → cg2.1.pool.terminate_pool = false →
    (∀ w ∈ cg.1.threads, w.pc ≠ .stopped) → cg.2.abandoned = [] →
    (∀ w ∈ cg2.1.threads, w.pc ≠ .stopped) ∧ cg2.2.abandoned = []
  | [], cg, cg2, _, hrun, _, hn, ha => by
    simp only [runFrom, Option.some.injEq] at hrun
    subst hrun
    exact ⟨hn, ha⟩
  | l :: tr, cg, cg2, hd, hrun, hf, hn, ha => by
    simp only [runFrom] at hrun
    split at hrun
    · cases hrun
    · rename_i c2 hstep
      have hf2 := runFrom_flag tr (c2, Ghost.next cg.1 cg.2 l) cg2 hrun hf
      have hf1 := step_flag_mono cg.1 l c2 hstep hf2
      have hl : ∀ i x, l = .thread i x → Pool.demux x.demuxOk x.nVideoBytes = true := by
        intro i x hlx
        obtain ⟨d, pic, rfl⟩ := hd i x (by rw [hlx]; exact List.mem_cons_self _ _)
        exact demux_ofDemux d pic
      obtain ⟨hn2, ha2⟩ := no_stop_step cg.1 cg.2 l c2 hstep hf1 hl hn ha
      exact runFrom_no_stop tr (c2, Ghost.next cg.1 cg.2 l) cg2
        (fun i x hx => hd i x (List.mem_cons_of_mem _ hx)) hrun hf hn2 ha2

theorem traceReadFails_fromDemuxer : fromDemuxer traceReadFails := by
  intro i x hx
  simp only [traceReadFails, traceToDemux, List.mem_append, List.mem_cons, List.mem_singleton,
    List.mem_replicate, Label.thread.injEq, reduceCtorEq, List.not_mem_nil, or_false,
    false_or] at hx
  rcases hx with ((h | h) | h) | h
  · rcases h with h | h | h | h <;> exact ⟨goodRead, 3, by rw [h.2]; rfl⟩
  · exact ⟨failedRead, 3, h.2⟩
  · exact ⟨goodRead, 3, by rw [h.2.2]; rfl⟩
  · exact ⟨goodRead, 3, by rw [h.2.2]; rfl⟩

set_option maxRecDepth 100000 in
/-- Counterexample of C16: the fetch of thread 0 for the task `(0, 0, true)` fails:
`av_read_frame` returns the I/O error `-5` and `Demux` returns false, with the byte
count 0.  The stop flag stays clear and thread 0 does not leave the loop: it goes on
with an empty payload, counts the task in `demux_array` and publishes `(0, -1)`.
Thread 1 then publishes `(1, 3)`.  After the failure no thread has stopped and
`output_queue` has two new entries.  Every answer of a demuxer in the execution is one
`FFmpegDemuxer::Demux` gives. -/
theorem C16_counterexample :
    FFmpegDemuxer.Demux failedRead 0 = (false, 0) ∧
    fromDemuxer traceReadFails ∧
    (∃ c g, run 1 2 [0, 0] 2 (traceToDemux ++ [.thread 0 (Extern.ofDemux failedRead 3)]) =
        some (c, g) ∧
      c.threads.map (fun w => (w.pc, w.nVideoBytes)) = [(.renderGate, 0), (.loopHead, 0)] ∧
      c.pool.terminate_pool = false ∧ c.pool.output_queue = []) ∧
    ∃ c g, run 1 2 [0, 0] 2 traceReadFails = some (c, g) ∧
      c.threads.map (fun w => w.pc) = [.loopHead, .loopHead] ∧
      c.pool.terminate_pool = false ∧ c.pool.output_queue = [(0, -1), (1, 3)] ∧
      c.pool.demux_array = [1, 1] :=
  ⟨rfl, traceReadFails_fromDemuxer, ⟨_, _, rfl, by decide, rfl, rfl⟩,
    ⟨_, _, rfl, by decide, rfl, rfl, rfl⟩⟩

/-- C16 as amended: a failure of the fetch is not fatal for the pool.  In every
execution whose demuxers answer as `FFmpegDemuxer::Demux` does, as long as the stop
flag is clear no thread has left the loop and no task was abandoned.  When `Demux`
fails, it returns false and leaves the byte count 0: `Pool::demux` returns true and
the thread goes on from the fetch with an empty payload, so that its decode step calls
no decoder and hands on the picture index `-1`, which a wanted task publishes.  No step
of a thread changes the stop flag.  `Pool::demux` returns false only for an answer
`FFmpegDemuxer::Demux` never gives; the branch for it makes the one thread leave the
loop and leaves the pool, the stop flag included, as it is. -/
theorem C16_fetch_failure_not_fatal (nrImages : Int) (demuxers : Nat) (decoders : List Int)
    (nrThreads : Int) (tr : List Label) (c : Config) (g : Ghost)
    (hrun : run nrImages demuxers decoders nrThreads tr = some (c, g))
    (hdem : fromDemuxer tr) (hflag : c.pool.terminate_pool = false) :
    (∀ w ∈ c.threads, w.pc ≠ .stopped) ∧ g.abandoned = [] ∧
    (∀ (d : DemuxCall) (picture_index : Int) (p : Pool) (w : Worker) (dd : Int),
      (FFmpegDemuxer.Demux d 0).1 = false → w.pc = .demux →
      vecGet p.demux_array w.inputIndex = some dd →
      (FFmpegDemuxer.Demux d 0).2 = 0 ∧
      p.update_loop w (Extern.ofDemux d picture_index) =
        some (p, { w with pc := .renderGate, nVideoBytes := 0 })) ∧
    (∀ (p : Pool) (v : Worker) (x : Extern), v.pc = .decode → v.nVideoBytes = 0 →
      p.update_loop v x =
        some (p, { v with pc := .increment, decoded_picture_index := -1 })) ∧
    (∀ (p : Pool) (v : Worker) (x : Extern), v.pc = .publish → v.useForRendering = true →
      p.update_loop v x =
        some ({ p with output_queue :=
                  p.output_queue ++ [(v.inputIndex, v.decoded_picture_index)] },
          { v with pc := .loopHead })) ∧
    (∀ (q : Pool) (v : Worker) (y : Extern) (q2 : Pool) (v2 : Worker),
      q.update_loop v y = some (q2, v2) → q2.terminate_pool = q.terminate_pool) ∧
    (∀ (d : DemuxCall) (picture_index : Int),
      Pool.demux (Extern.ofDemux d picture_index).demuxOk
        (Extern.ofDemux d picture_index).nVideoBytes = true) ∧
    (∀ (p : Pool) (w : Worker) (x : Extern) (dd : Int), w.pc = .demux →
      vecGet p.demux_array w.inputIndex = some dd →
      Pool.demux x.demuxOk x.nVideoBytes = false →
      p.update_loop w x =
        some (p, { w with pc := .stopped, nVideoBytes := x.nVideoBytes })) := by
  unfold run at hrun
  obtain ⟨hn, ha⟩ := runFrom_no_stop tr _ (c, g) hdem hrun hflag
    (by
      intro w hw
      simp only [Config.init, Pool.startThreadPool] at hw
      rw [List.eq_of_mem_replicate hw]
      simp [Worker.start])
    rfl
  refine ⟨hn, ha, ?_, ?_, ?_, ?_, demux_ofDemux, ?_⟩
  · intro d picture_index p w dd hfail hpc hd
    have hz := demux_false_zero d hfail
    refine ⟨hz, ?_⟩
    have hok := demux_ofDemux d picture_index
    simp only [Extern.ofDemux] at hok
    rw [hz] at hok
    simp [Pool.update_loop, hpc, hd, Extern.ofDemux, hok, hz]
  · intro p v x hpc hn0
    simp [Pool.update_loop, hpc, hn0]
  · intro p v x hpc hw
    simp [Pool.update_loop, hpc, hw]
  · intro q v y q2 v2 h
    exact threadStep_flag q v y q2 v2 (threadStep_of_update_loop q v y q2 v2 h)
  · intro p w x dd hpc hd hfail
    simp [Pool.update_loop, hpc, hd, hfail]

set_option maxRecDepth 100000 in
/-- Witness of C16 as amended: the execution `traceReadFails`, in which a fetch has
failed: both threads are at the head of the loop. -/
theorem C16_fetch_failure_not_fatal_witness :
    ∃ c g, run 1 2 [0, 0] 2 traceReadFails = some (c, g) ∧
      c.pool.terminate_pool = false ∧
      (∀ w ∈ c.threads, w.pc ≠ .stopped) ∧ g.abandoned = [] :=
  ⟨_, _, rfl, rfl,
    (C16_fetch_failure_not_fatal 1 2 [0, 0] 2 traceReadFails _ _ rfl
      traceReadFails_fromDemuxer rfl).1,
    (C16_fetch_failure_not_fatal 1 2 [0, 0] 2 traceReadFails _ _ rfl
      traceReadFails_fromDemuxer rfl).2.1⟩

/-! ### The calls of one `RenderTarget` -/

theorem runCall_loop (N : Int) (answer : List Int) : ∀ (k fuel : Nat) (d : Driver),
    d.pc = .loopEnqueue → d.i + k = N → 3 * k + 2 ≤ fuel →
    d.runCall N answer fuel =
      (((List.range k).map fun j : Nat => d.i + j).flatMap
          (cameraCalls d.currentVideoFrame d.next_inputsToUse d.current_inputsToUse),
        { d with
          pc := .frameStart
          i := N
          currentVideoFrame := d.currentVideoFrame + 1
          current_inputsToUse :=
            if d.shouldUpdateUsedInputs then d.next_inputsToUse else d.current_inputsToUse })
  | 0, fuel, d, hpc, hi, hfuel => by
    obtain ⟨f1, rfl⟩ : ∃ f1, fuel = f1 + 2 := ⟨fuel - 2, by omega⟩
    have hN : ¬ d.i < N := by omega
    have hi2 : d.i = N := by omega
    simp [Driver.runCall, Driver.advance, Driver.call, hpc, hN, hi2]
  | k + 1, fuel, d, hpc, hi, hfuel => by
    obtain ⟨f1, rfl⟩ : ∃ f1, fuel = f1 + 3 := ⟨fuel - 3, by omega⟩
    have hN : d.i < N := by omega
    have hr : (List.range (k + 1)).map (fun j : Nat => d.i + (j : Int)) =
        d.i :: (List.range k).map (fun j : Nat => d.i + 1 + (j : Int)) := by
      rw [List.range_succ_eq_map]
      simp only [List.map_cons, List.map_map, Nat.cast_zero, add_zero, List.cons.injEq,
        true_and]
      apply List.map_congr_left
      intro j _
      simp only [Function.comp, Nat.cast_succ]
      omega
    rw [hr, List.flatMap_cons]
    by_cases hc : d.i ∈ d.current_inputsToUse
    · have ih := runCall_loop N answer k f1
        { d with pc := .loopEnqueue, i := d.i + 1 } rfl (by simp only; omega) (by omega)
      simp only [Driver.runCall, Driver.advance, Driver.call, hpc, hN, hc, if_true] at ih ⊢
      simp only [cameraCalls, hc, if_true]
      simp [ih]
    · have ih := runCall_loop N answer k (f1 + 2)
        { d with i := d.i + 1 } hpc (by simp only; omega) (by omega)
      rw [Driver.runCall]
      simp only [Driver.advance, Driver.call, hpc, hN, hc, if_true, if_false] at ih ⊢
      simp only [cameraCalls, hc, if_false]
      simp [ih, hpc]

theorem runCall_frameStart (N : Nat) (answer : List Int) (fuel : Nat) (d : Driver)
    (hpc : d.pc = .frameStart) (hfuel : 3 * N + 3 ≤ fuel) :
    d.runCall N answer fuel =
      ((cameraIndices N).flatMap
          (cameraCalls d.currentVideoFrame answer d.current_inputsToUse),
        { d with
          pc := .frameStart
          i := N
          currentVideoFrame := d.currentVideoFrame + 1
          next_inputsToUse := answer
          shouldUpdateUsedInputs := answer.any fun a => !decide (a ∈ d.current_inputsToUse)
          current_inputsToUse :=
            if (answer.any fun a => !decide (a ∈ d.current_inputsToUse)) then answer
            else d.current_inputsToUse }) := by
  obtain ⟨f1, rfl⟩ : ∃ f1, fuel = f1 + 1 := ⟨fuel - 1, by omega⟩
  have ih := runCall_loop N answer N f1
    { d with
      pc := .loopEnqueue
      i := 0
      next_inputsToUse := answer
      shouldUpdateUsedInputs := answer.any fun a => !decide (a ∈ d.current_inputsToUse) }
    rfl (by simp) (by omega)
  simp only [Driver.runCall, Driver.advance, Driver.call, hpc] at ih ⊢
  simp only [zero_add] at ih
  have hc : cameraIndices N = (List.range N).map fun j : Nat => (j : Int) := rfl
  rw [hc]
  simp [ih]

theorem same_size_sets (answer current : List Int)
    (hsize : answer.toFinset.card = current.toFinset.card)
    (hsub : (answer.any fun a => !decide (a ∈ current)) = false) :
    ∀ k, k ∈ current ↔ k ∈ answer := by
  have h1 : answer.toFinset ⊆ current.toFinset := by
    intro k hk
    rw [List.mem_toFinset] at hk ⊢
    by_contra hn
    have : (answer.any fun a => !decide (a ∈ current)) = true := by
      rw [List.any_eq_true]
      exact ⟨k, hk, by simpa using hn⟩
    rw [hsub] at this
    cases this
  have h2 := Finset.eq_of_subset_of_card_le h1 (by omega)
  intro k
  rw [← List.mem_toFinset, ← h2, List.mem_toFinset]

theorem count_push (f : Int) (next cur : List Int) (i : Int) (w : Bool) : ∀ l : List Int,
    (l.flatMap (cameraCalls f next cur)).count (.startDemuxingNextFrame i (f + 1) w) =
      if decide (i ∈ next) = w then l.count i else 0
  | [] => by simp
  | j :: l => by
    rw [List.flatMap_cons, List.count_append, count_push f next cur i w l]
    have hj : (cameraCalls f next cur j).count (.startDemuxingNextFrame i (f + 1) w) =
        if j = i ∧ decide (j ∈ next) = w then 1 else 0 := by
      unfold cameraCalls
      have h0 : (if j ∈ cur then
          [Label.waitUntilInputFrameIsDecoded j, Label.copyFromGPUToOpenGLTexture]
          else []).count (.startDemuxingNextFrame i (f + 1) w) = 0 := by
        rw [List.count_eq_zero]
        split <;> simp
      rw [List.count_cons, h0]
      by_cases hji : j = i <;> by_cases hw : decide (j ∈ next) = w <;> simp [hji, hw]
    rw [hj, List.count_cons]
    by_cases hji : j = i
    · subst hji
      by_cases hw : decide (j ∈ next) = w <;> simp [hw]
      omega
    · have : ¬ (j == i) = true := by simpa using hji
      by_cases hw : decide (i ∈ next) = w <;> simp [hji, hw, this]

theorem mem_await (f : Int) (next cur : List Int) (i : Int) (l : List Int) :
    Label.waitUntilInputFrameIsDecoded i ∈ l.flatMap (cameraCalls f next cur) ↔
      i ∈ l ∧ i ∈ cur := by
  rw [List.mem_flatMap]
  constructor
  · rintro ⟨j, hj, hm⟩
    unfold cameraCalls at hm
    by_cases hc : j ∈ cur
    · simp [hc] at hm
      subst hm
      exact ⟨hj, hc⟩
    · simp [hc] at hm
  · rintro ⟨hi, hc⟩
    exact ⟨i, hi, by simp [cameraCalls, hc]⟩

theorem mem_push (f : Int) (next cur : List Int) (i : Int) (w : Bool) (l : List Int) :
    Label.startDemuxingNextFrame i (f + 1) w ∈ l.flatMap (cameraCalls f next cur) ↔
      i ∈ l ∧ decide (i ∈ next) = w := by
  rw [List.mem_flatMap]
  constructor
  · rintro ⟨j, hj, hm⟩
    unfold cameraCalls at hm
    by_cases hc : j ∈ cur
    · simp [hc] at hm
      obtain ⟨rfl, hw⟩ := hm
      exact ⟨hj, by simpa using hw.symm⟩
    · simp [hc] at hm
      obtain ⟨rfl, hw⟩ := hm
      exact ⟨hj, by simpa using hw.symm⟩
  · rintro ⟨hi, hw⟩
    refine ⟨i, hi, ?_⟩
    unfold cameraCalls
    rw [hw]
    exact List.mem_cons_self _ _

/-- C30: a call of `RenderTarget` with `nextVideoFrame = true` for `N` cameras that
starts with `currentVideoFrame = f` and in which the set `answer` the visibility helper
returns has as many elements as `current_inputsToUse`.  The call returns with
`currentVideoFrame = f + 1` and with `current_inputsToUse` equal to `next_inputsToUse
= answer` as a set.  Its calls into the pool are, for the cameras `0`, ..., `N - 1` in
turn, the push of frame `f + 1` with the flag `i ∈ answer`, followed for a camera in
use by the wait for its pair and the consume: the tasks of frame `f + 1` of a camera
are pushed once, before the pair of frame `f` of that camera is awaited.  The
next call awaits the pair of camera `i` exactly when this call has pushed frame
`f + 1` of camera `i` as wanted. -/
theorem C30_wanted_flag_consistency (d : Driver) (N : Nat) (answer answer2 : List Int)
    (fuel fuel2 : Nat) (hpc : d.pc = .frameStart) (hfuel : 3 * N + 3 ≤ fuel)
    (hfuel2 : 3 * N + 3 ≤ fuel2)
    (hsize : answer.toFinset.card = d.current_inputsToUse.toFinset.card) :
    (d.runCall N answer fuel).2.pc = .frameStart ∧
    (d.runCall N answer fuel).2.currentVideoFrame = d.currentVideoFrame + 1 ∧
    (d.runCall N answer fuel).2.next_inputsToUse = answer ∧
    (∀ k, k ∈ (d.runCall N answer fuel).2.current_inputsToUse ↔ k ∈ answer) ∧
    (d.runCall N answer fuel).1 =
      (cameraIndices N).flatMap
        (cameraCalls d.currentVideoFrame answer d.current_inputsToUse) ∧
    (∀ (i : Int) (w : Bool), 0 ≤ i → i < N →
      (d.runCall N answer fuel).1.count (.startDemuxingNextFrame i (d.currentVideoFrame + 1) w) =
        if decide (i ∈ answer) = w then 1 else 0) ∧
    ((d.runCall N answer fuel).2.runCall N answer2 fuel2).1 =
      (cameraIndices N).flatMap
        (cameraCalls (d.currentVideoFrame + 1) answer2
          (d.runCall N answer fuel).2.current_inputsToUse) ∧
    (∀ i : Int,
      .waitUntilInputFrameIsDecoded i ∈
          ((d.runCall N answer fuel).2.runCall N answer2 fuel2).1 ↔
        .startDemuxingNextFrame i (d.currentVideoFrame + 1) true ∈
          (d.runCall N answer fuel).1) ∧
    d.consistent answer = true := by
  have h1 := runCall_frameStart N answer fuel d hpc hfuel
  have hcur : ∀ k, k ∈ (d.runCall N answer fuel).2.current_inputsToUse ↔ k ∈ answer := by
    intro k
    rw [h1]
    simp only
    split
    · exact Iff.rfl
    · rename_i hs
      exact same_size_sets answer d.current_inputsToUse hsize (by simpa using hs) k
  have h2 := runCall_frameStart N answer2 fuel2 (d.runCall N answer fuel).2 (by rw [h1]) hfuel2
  have hf : (d.runCall N answer fuel).2.currentVideoFrame = d.currentVideoFrame + 1 := by
    rw [h1]
  refine ⟨by rw [h1], hf, by rw [h1], hcur, by rw [h1], ?_, ?_, ?_, ?_⟩
  · intro i w h0 hN
    rw [h1]
    simp only
    rw [count_push]
    have hmem : i ∈ cameraIndices N := (cameraIndices_mem N i).2 ⟨h0, hN⟩
    rw [List.count_eq_one_of_mem (cameraIndices_nodup N) hmem]
  · rw [h2, hf]
  · intro i
    rw [h2]
    simp only
    rw [h1]
    rw [mem_await, mem_push]
    constructor
    · rintro ⟨hi, hc⟩
      have := (hcur i).1 (by rw [h1]; exact hc)
      exact ⟨hi, by simpa using this⟩
    · rintro ⟨hi, hw⟩
      have := (hcur i).2 (by simpa using hw)
      rw [h1] at this
      exact ⟨hi, this⟩
  · unfold Driver.consistent
    cases hs : (answer.any fun a => !decide (a ∈ d.current_inputsToUse))
    · have := same_size_sets answer d.current_inputsToUse hsize hs
      simp only [Bool.false_or, List.all_eq_true, decide_eq_true_eq]
      intro a ha
      exact (this a).1 ha
    · rfl

/-- Witness of C30: three cameras of which 0 and 1 are in use, and the helper answers
with the cameras 1 and 2.  The call pushes frame 1 of camera 0 as not wanted and of the
cameras 1 and 2 as wanted, and it awaits the pairs of frame 0 of the cameras 0 and 1;
on return the cameras in use are 1 and 2. -/
theorem C30_wanted_flag_consistency_witness :
    ({ Driver.init [0, 1] with pc := .frameStart }.runCall 3 [1, 2] 12).1 =
      [.startDemuxingNextFrame 0 1 false, .waitUntilInputFrameIsDecoded 0,
        .copyFromGPUToOpenGLTexture,
        .startDemuxingNextFrame 1 1 true, .waitUntilInputFrameIsDecoded 1,
        .copyFromGPUToOpenGLTexture,
        .startDemuxingNextFrame 2 1 true] ∧
    ({ Driver.init [0, 1] with pc := .frameStart }.runCall 3 [1, 2] 12).2.current_inputsToUse =
      [1, 2] ∧
    ∀ k, k ∈ ({ Driver.init [0, 1] with
        pc := .frameStart }.runCall 3 [1, 2] 12).2.current_inputsToUse ↔ k ∈ [1, 2] :=
  ⟨rfl, rfl,
    (C30_wanted_flag_consistency { Driver.init [0, 1] with pc := .frameStart } 3 [1, 2] [1, 2]
      12 12 rfl (by decide) (by decide) (by decide)).2.2.2.1⟩

end OpenDibr
